import Mathlib

/-!
# tfplus tensor bundle: a shallow embedding of `tensor_bundle.cc`

The development embeds `src/tfplus/kv_variable/kernels/tensor_bundle.cc` in Lean.

Conventions of the embedding.

* A byte string (`StringPiece`, `string`, `char*` plus a length) is a `List UInt8`.
* A function of the source that can abort the process (a failed `CHECK`, a null
  pointer dereference, a division by zero, a copy past the end of a buffer) returns
  `Option`; `none` is the abort.  A `Status` result is returned as a value.
* The `Env` of the source is an explicit file-system state that every mutating call
  threads through.  A call that mutates consumes one entry of a fault script, so a
  theorem quantified over the script covers every pattern of I/O failures.
* `std::map<string, T>` is a key-sorted association list, a pointer into such a map
  is the key it points at.
* Library routines of TensorFlow and protobuf that the source calls (CRC32C, varint
  coding, the sorted table, `InputBuffer`, `TensorSlice`) are written out from their
  documented behaviour next to the first function that uses them.
-/

namespace tfplus

abbrev Bytes := List UInt8

/-! ## crc32c (tensorflow/core/lib/hash/crc32c.h)

CRC-32C (Castagnoli), reflected polynomial `0x82F63B78`, initial value and final
xor `0xffffffff`, processed bit by bit. -/

def kCrcPoly : Nat := 0x82F63B78

/-- One shift of the reflected CRC register. -/
def crcBit (s : Nat) : Nat :=
  if s % 2 = 1 then (s / 2) ^^^ kCrcPoly else s / 2

/-- The register after one input byte. -/
def crcByte (s : Nat) (b : UInt8) : Nat :=
  crcBit (crcBit (crcBit (crcBit (crcBit (crcBit (crcBit (crcBit (s ^^^ b.toNat))))))))

/-- The register after a byte string. -/
def crcRaw (s : Nat) (data : Bytes) : Nat := data.foldl crcByte s

namespace crc32c

/-- `crc32c::Extend(init_crc, data, n)`. -/
def Extend (crc : Nat) (data : Bytes) : Nat :=
  crcRaw (crc ^^^ 0xffffffff) data ^^^ 0xffffffff

/-- `crc32c::Value(data, n)`. -/
def Value (data : Bytes) : Nat := Extend 0 data

def kMaskDelta : Nat := 0xa282ead8

/-- `crc32c::Mask`: rotate right by 15 bits and add a constant, on 32 bits. -/
def Mask (crc : Nat) : Nat :=
  (((crc >>> 15) ||| ((crc <<< 17) % 2 ^ 32)) + kMaskDelta) % 2 ^ 32

/-- `crc32c::Unmask`. -/
def Unmask (masked_crc : Nat) : Nat :=
  let rot := (masked_crc + 2 ^ 32 - kMaskDelta) % 2 ^ 32
  (rot >>> 17) ||| ((rot <<< 15) % 2 ^ 32)

end crc32c

/-! ## Status (tensorflow/core/lib/core/status.h, errors.h) -/

inductive Code
  | OK | CANCELLED | UNKNOWN | INVALID_ARGUMENT | DEADLINE_EXCEEDED | NOT_FOUND
  | ALREADY_EXISTS | PERMISSION_DENIED | RESOURCE_EXHAUSTED | FAILED_PRECONDITION
  | ABORTED | OUT_OF_RANGE | UNIMPLEMENTED | INTERNAL | UNAVAILABLE | DATA_LOSS
  | UNAUTHENTICATED
  deriving DecidableEq, Repr

structure Status where
  code : Code
  msg : String
  deriving DecidableEq, Repr

namespace Status

def OK : Status := ⟨Code.OK, ""⟩

def ok (s : Status) : Bool := decide (s.code = Code.OK)

/-- `Status::Update`: keeps the first failure. -/
def Update (s new_status : Status) : Status := if s.ok then new_status else s

end Status

namespace errors

def InvalidArgument (m : String) : Status := ⟨Code.INVALID_ARGUMENT, m⟩
def NotFound (m : String) : Status := ⟨Code.NOT_FOUND, m⟩
def AlreadyExists (m : String) : Status := ⟨Code.ALREADY_EXISTS, m⟩
def FailedPrecondition (m : String) : Status := ⟨Code.FAILED_PRECONDITION, m⟩
def OutOfRange (m : String) : Status := ⟨Code.OUT_OF_RANGE, m⟩
def Unimplemented (m : String) : Status := ⟨Code.UNIMPLEMENTED, m⟩
def Internal (m : String) : Status := ⟨Code.INTERNAL, m⟩
def DataLoss (m : String) : Status := ⟨Code.DATA_LOSS, m⟩
def IsAlreadyExists (s : Status) : Bool := decide (s.code = Code.ALREADY_EXISTS)
def IsOutOfRange (s : Status) : Bool := decide (s.code = Code.OUT_OF_RANGE)

end errors

/-! ## Element types (tensorflow/core/framework/types.proto, types.cc) -/

inductive DataType
  | DT_INVALID | DT_FLOAT | DT_DOUBLE | DT_INT32 | DT_UINT8 | DT_INT16 | DT_INT8
  | DT_STRING | DT_COMPLEX64 | DT_INT64 | DT_BOOL | DT_QINT8 | DT_QUINT8 | DT_QINT32
  | DT_BFLOAT16 | DT_QINT16 | DT_QUINT16 | DT_UINT16 | DT_COMPLEX128 | DT_HALF
  | DT_RESOURCE | DT_VARIANT | DT_UINT32 | DT_UINT64
  deriving DecidableEq, Repr

open DataType

/-- `DataTypeSize`: bytes per element, 0 for the types without a fixed width. -/
def DataTypeSize : DataType → Nat
  | DT_FLOAT => 4 | DT_DOUBLE => 8 | DT_INT32 => 4 | DT_UINT8 => 1 | DT_INT16 => 2
  | DT_INT8 => 1 | DT_COMPLEX64 => 8 | DT_INT64 => 8 | DT_BOOL => 1 | DT_QINT8 => 1
  | DT_QUINT8 => 1 | DT_QINT32 => 4 | DT_BFLOAT16 => 2 | DT_QINT16 => 2
  | DT_QUINT16 => 2 | DT_UINT16 => 2 | DT_COMPLEX128 => 16 | DT_HALF => 2
  | DT_UINT32 => 4 | DT_UINT64 => 8
  | DT_INVALID => 0 | DT_STRING => 0 | DT_RESOURCE => 0 | DT_VARIANT => 0

/-- `DataTypeString`: the name of the type in messages. -/
def DataTypeString : DataType → String
  | DT_INVALID => "INVALID" | DT_FLOAT => "float" | DT_DOUBLE => "double"
  | DT_INT32 => "int32" | DT_UINT8 => "uint8" | DT_INT16 => "int16" | DT_INT8 => "int8"
  | DT_STRING => "string" | DT_COMPLEX64 => "complex64" | DT_INT64 => "int64"
  | DT_BOOL => "bool" | DT_QINT8 => "qint8" | DT_QUINT8 => "quint8" | DT_QINT32 => "qint32"
  | DT_BFLOAT16 => "bfloat16" | DT_QINT16 => "qint16" | DT_QUINT16 => "quint16"
  | DT_UINT16 => "uint16" | DT_COMPLEX128 => "complex128" | DT_HALF => "half"
  | DT_RESOURCE => "resource" | DT_VARIANT => "variant" | DT_UINT32 => "uint32"
  | DT_UINT64 => "uint64"

/-- `DataTypeCanUseMemcpy`. -/
def DataTypeCanUseMemcpy : DataType → Bool
  | DT_INVALID => false | DT_STRING => false | DT_RESOURCE => false | DT_VARIANT => false
  | _ => true

/-! ## Tensors (tensorflow/core/framework/tensor.h)

A tensor is its element type, its shape and its elements: the backing buffer of a
memcpy-able type, or the list of elements of `DT_STRING`.  An element of
`DT_VARIANT` is represented by the byte string `Encode`/`ToProto`/`SerializeToString`
produce for it; an element that `ParseFromString` and `DecodeUnaryVariant` accept on
read is represented by the byte string it was read from. -/

structure Tensor where
  dtype : DataType
  shape : List Nat
  data : Bytes
  strings : List Bytes
  deriving DecidableEq, Repr

/-- `sizeof(tstring)`. -/
def kSizeofTString : Nat := 24

/-- `sizeof(Variant)`. -/
def kSizeofVariant : Nat := 64

namespace Tensor

def NumElements (t : Tensor) : Nat := t.shape.prod

/-- `dim_size(0)`; a scalar has no dimension 0 and the call aborts. -/
def dim_size0 (t : Tensor) : Option Nat := t.shape.head?

def stringBytes (t : Tensor) : Nat := (t.strings.map List.length).sum

/-- `Tensor::TotalBytes`. -/
def TotalBytes (t : Tensor) : Nat :=
  match t.dtype with
  | DT_STRING => kSizeofTString * t.NumElements + t.stringBytes
  | DT_VARIANT => kSizeofVariant * t.NumElements
  | d => t.NumElements * DataTypeSize d

/-- `Tensor(dtype, shape)`: a fresh tensor.  The buffer of a memcpy-able type is
allocated without being written; its bytes read as zero here. -/
def alloc (dtype : DataType) (shape : List Nat) : Tensor :=
  if DataTypeCanUseMemcpy dtype then
    ⟨dtype, shape, List.replicate (shape.prod * DataTypeSize dtype) 0, []⟩
  else
    ⟨dtype, shape, [], List.replicate shape.prod []⟩

/-- `Tensor()`: the default tensor, one dimension of size 0. -/
def empty : Tensor := alloc DT_FLOAT [0]

/-- `TensorShape::IsValid` for a list of non-negative sizes: fewer than 255
dimensions and fewer than 2^63 elements. -/
def shapeIsValid (shape : List Nat) : Bool :=
  decide (shape.length < 255) && decide (shape.prod < 2 ^ 63)

/-- The class invariant of a tensor the source can be handed. -/
def WF (t : Tensor) : Prop :=
  shapeIsValid t.shape = true ∧
  (if DataTypeCanUseMemcpy t.dtype then
    t.data.length = t.NumElements * DataTypeSize t.dtype ∧ t.strings = []
   else
    t.data = [] ∧ t.strings.length = t.NumElements ∧ ∀ s ∈ t.strings, s.length < 2 ^ 64)

instance (t : Tensor) : Decidable t.WF := by unfold WF; infer_instance

end Tensor

/-! ## Protocol buffers (tensor_bundle.proto, tensor_slice.proto, versions.proto)

A message is the record of its fields; serialising and parsing are not modelled, a
table value is the message itself (see `TableValue`). -/

structure Extent where
  start : Int := 0
  has_length : Bool := false
  length : Int := 0
  deriving DecidableEq, Repr

structure TensorSliceProto where
  extent : List Extent := []
  hash_slice_begin : Int := 0
  hash_slice_length : Int := 0
  deriving DecidableEq, Repr

structure BundleEntryProto where
  dtype : DataType := DT_INVALID
  shape : Option (List Nat) := none
  shard_id : Nat := 0
  offset : Nat := 0
  size : Nat := 0
  crc32c : Nat := 0
  slices : List TensorSliceProto := []
  is_hash_table : Bool := false
  deriving DecidableEq, Repr

/-- `TensorShape(entry.shape())`; an absent shape field reads as a scalar. -/
def BundleEntryProto.tensorShape (e : BundleEntryProto) : List Nat := e.shape.getD []

structure VersionDef where
  producer : Int := 0
  min_consumer : Int := 0
  bad_consumers : List Int := []
  deriving DecidableEq, Repr

inductive Endianness
  | LITTLE | BIG
  deriving DecidableEq, Repr

structure BundleHeaderProto where
  num_shards : Nat := 0
  endianness : Endianness := Endianness.LITTLE
  version : VersionDef := {}
  deriving DecidableEq, Repr

/-- A value of the metadata table: the serialisation of a header, of an entry, or
bytes that parse as neither. -/
inductive TableValue
  | header (h : BundleHeaderProto)
  | entry (e : BundleEntryProto)
  | garbage
  deriving DecidableEq, Repr

/-! ## Ordered maps (`std::map<string, T>`) -/

/-- `m.find(k)`. -/
def mapFind {α : Type} : List (String × α) → String → Option α
  | [], _ => none
  | (k', v) :: rest, k => if k' = k then some v else mapFind rest k

/-- `m[k] = v`: replaces the value of `k` or inserts `k` at its place in key order. -/
def mapInsert {α : Type} : List (String × α) → String → α → List (String × α)
  | [], k, v => [(k, v)]
  | (k', v') :: rest, k, v =>
    if k < k' then (k, v) :: (k', v') :: rest
    else if k = k' then (k, v) :: rest
    else (k', v') :: mapInsert rest k v

def mapContains {α : Type} (m : List (String × α)) (k : String) : Bool :=
  (mapFind m k).isSome

/-- The keys of the map are strictly ascending. -/
def mapSorted {α : Type} (m : List (String × α)) : Prop :=
  (m.map Prod.fst).Pairwise (fun a b => a < b)

instance {α : Type} (m : List (String × α)) : Decidable (mapSorted m) := by
  unfold mapSorted; infer_instance

/-! ## File names (tensorflow/core/util/tensor_bundle/naming.cc) -/

/-- The decimal digits of `n`, zero-padded on the left to five characters
(`%05d` of a non-negative value). -/
def pad5 (n : Nat) : String :=
  let d := Nat.repr n
  String.mk (List.replicate (5 - d.length) '0') ++ d

/-- The decimal digits of `n`, zero-padded on the left to eight characters (`%08u`). -/
def pad8 (n : Nat) : String :=
  let d := Nat.repr n
  String.mk (List.replicate (8 - d.length) '0') ++ d

/-- `MetaFilename(prefix)`. -/
def MetaFilename (pfx : String) : String := pfx ++ ".index"

/-- `DataFilename(prefix, shard_id, num_shards)`. -/
def DataFilename (pfx : String) (shard_id num_shards : Nat) : String :=
  pfx ++ ".data-" ++ pad5 shard_id ++ "-of-" ++ pad5 num_shards

/-- `io::Dirname`: the part of the path before its last slash (the root for a path
whose only slash is the first character, nothing for a path without a slash). -/
def Dirname (path : String) : String :=
  let cs := path.data
  match cs.reverse.dropWhile (fun c => c != '/') with
  | [] => ""
  | [_] => "/"
  | _ :: rest => String.mk rest.reverse

/-! ## The environment (`Env`, `WritableFile`, `RandomAccessFile`, `table::Table`)

The file system is an association list from path to content.  A data file holds
bytes; a metadata table holds its rows in the order the builder received them (the
block format of the table is outside the bundle code).

`variants` is what the libraries of the process make of a serialised variant.

`faults` is the script of the outcomes of the mutating calls still to come: each
such call takes the head of the script, fails with it and changes nothing when it is
a failure, and goes through when it is `OK` or the script is empty.  `trace` lists
the content of the file system after every mutation that went through, oldest
first. -/

inductive FileData
  | bytes (b : Bytes)
  | table (rows : List (String × TableValue))
  deriving DecidableEq, Repr

abbrev Files := List (String × FileData)

def fsFind (fs : Files) (path : String) : Option FileData := mapFind fs path

def fsErase (fs : Files) (path : String) : Files := fs.filter (fun p => p.1 != path)

def fsSet (fs : Files) (path : String) (d : FileData) : Files := (path, d) :: fsErase fs path

/-- What the libraries of the process make of the serialised bytes of a variant
element: `VariantTensorDataProto::ParseFromString` fails; or it succeeds and
`DecodeUnaryVariant` fails, `type_name` being what `TypeName()` of the variant then
gives; or both succeed. -/
inductive VariantDecoding
  | unparseable
  | undecodable (type_name : String)
  | decoded
  deriving DecidableEq, Repr

/-- The protobuf library and the registry of variant decoders are not code of the
bundle, and what they do depends on the decoders the process has registered.  The model
takes their outcome from the environment: the outcome of a byte string listed in `table`
is the one of its first pair there, the outcome of every other byte string is
`otherwise`. -/
structure VariantLibrary where
  table : List (Bytes × VariantDecoding) := []
  otherwise : VariantDecoding := VariantDecoding.decoded
  deriving DecidableEq, Repr

/-- The outcome of `ParseFromString` and `DecodeUnaryVariant` on `buffer`. -/
def VariantLibrary.decoding (lib : VariantLibrary) (buffer : Bytes) : VariantDecoding :=
  match lib.table.find? (fun p => decide (p.1 = buffer)) with
  | some p => p.2
  | none => lib.otherwise

structure Env where
  files : Files := []
  dirs : List String := []
  faults : List Status := []
  trace : List Files := []
  variants : VariantLibrary := {}
  deriving DecidableEq, Repr

namespace Env

/-- The outcome the script gives the next mutating call. -/
def nextFault (env : Env) : Status × Env :=
  match env.faults with
  | [] => (Status.OK, env)
  | s :: rest => (s, { env with faults := rest })

/-- The file system after a mutation that went through. -/
def commit (env : Env) (fs : Files) : Env :=
  { env with files := fs, trace := env.trace ++ [fs] }

/-- `Env::CreateDir`. -/
def CreateDir (env : Env) (dir : String) : Status × Env :=
  let (f, env1) := env.nextFault
  if !f.ok then (f, env1)
  else if dir ∈ env1.dirs then (errors.AlreadyExists dir, env1)
  else (Status.OK, { env1 with dirs := dir :: env1.dirs })

/-- `Env::NewWritableFile` and `Env::NewTransactionFile`: creates the file empty, or
truncates it.  The handle is the path. -/
def NewWritableFile (env : Env) (path : String) : Status × Env :=
  let (f, env1) := env.nextFault
  if !f.ok then (f, env1)
  else (Status.OK, env1.commit (fsSet env1.files path (FileData.bytes [])))

/-- `WritableFile::Append`. -/
def Append (env : Env) (path : String) (data : Bytes) : Status × Env :=
  let (f, env1) := env.nextFault
  if !f.ok then (f, env1)
  else match fsFind env1.files path with
    | some (FileData.bytes b) =>
      (Status.OK, env1.commit (fsSet env1.files path (FileData.bytes (b ++ data))))
    | _ => (errors.NotFound path, env1)

/-- `WritableFile::Close`. -/
def Close (env : Env) (_path : String) : Status × Env :=
  let (f, env1) := env.nextFault
  (f, env1)

/-- `Env::RenameFile` and `Env::TransactionRenameFile`: atomic, replaces the target. -/
def RenameFile (env : Env) (src target : String) : Status × Env :=
  let (f, env1) := env.nextFault
  if !f.ok then (f, env1)
  else match fsFind env1.files src with
    | some d => (Status.OK, env1.commit (fsSet (fsErase env1.files src) target d))
    | none => (errors.NotFound src, env1)

/-- `Env::DeleteFile`. -/
def DeleteFile (env : Env) (path : String) : Status × Env :=
  let (f, env1) := env.nextFault
  if !f.ok then (f, env1)
  else match fsFind env1.files path with
    | some _ => (Status.OK, env1.commit (fsErase env1.files path))
    | none => (errors.NotFound path, env1)

/-- `table::TableBuilder::Finish` after the `Add` calls that handed it `rows`: the
table is written to the open file `path`. -/
def BuildTable (env : Env) (path : String) (rows : List (String × TableValue)) :
    Status × Env :=
  let (f, env1) := env.nextFault
  if !f.ok then (f, env1)
  else match fsFind env1.files path with
    | some _ => (Status.OK, env1.commit (fsSet env1.files path (FileData.table rows)))
    | none => (errors.NotFound path, env1)

/-- `Env::GetFileSize`; the size of a table is not used by the model. -/
def GetFileSize (env : Env) (path : String) : Status × Nat :=
  match fsFind env.files path with
  | some (FileData.bytes b) => (Status.OK, b.length)
  | some (FileData.table rows) => (Status.OK, rows.length)
  | none => (errors.NotFound path, 0)

/-- `Env::NewRandomAccessFile`: the bytes of a data file. -/
def NewRandomAccessFile (env : Env) (path : String) : Status × Bytes :=
  match fsFind env.files path with
  | some (FileData.bytes b) => (Status.OK, b)
  | some (FileData.table _) => (Status.OK, [])
  | none => (errors.NotFound path, [])

/-- `table::Table::Open` on the file at `path`. -/
def OpenTable (env : Env) (path : String) : Status × List (String × TableValue) :=
  match fsFind env.files path with
  | some (FileData.table rows) => (Status.OK, rows)
  | some (FileData.bytes _) => (errors.DataLoss "not an sstable (bad magic number)", [])
  | none => (errors.NotFound path, [])

end Env

/-- `RandomAccessFile::Read(offset, n, &result, scratch)`: the `n` bytes at `offset`,
or `OutOfRange` with the bytes there are when the file ends before. -/
def RandomAccessFile.Read (file : Bytes) (offset n : Nat) : Status × Bytes :=
  let got := (file.drop offset).take n
  if got.length = n then (Status.OK, got)
  else (errors.OutOfRange "Read less bytes than requested", got)

/-! ## FileOutputBuffer

`buffer_` holds the bytes of `buffer_[0 .. position_)`; the rest of the array is
never read by the source, so `position_` is the length of `buffer_` here.  A copy
that would run past `buffer_size_` aborts. -/

structure FileOutputBuffer where
  file_ : String
  buffer_size_ : Nat
  buffer_ : Bytes := []
  crc32c_ : Nat := 0
  deriving DecidableEq, Repr

namespace FileOutputBuffer

def position_ (b : FileOutputBuffer) : Nat := b.buffer_.length

/-- Modelled from the spec: `clear_crc32c` of `tensor_bundle.h`, which is not among the
sources: it zeroes the running checksum. -/
def clear_crc32c (b : FileOutputBuffer) : FileOutputBuffer := { b with crc32c_ := 0 }

/-- `FileOutputBuffer::FlushBuffer`. -/
def FlushBuffer (b : FileOutputBuffer) (env : Env) : Status × FileOutputBuffer × Env :=
  if b.position_ > 0 then
    let (st, env1) := env.Append b.file_ b.buffer_
    if !st.ok then (st, b, env1)
    else (Status.OK, { b with buffer_ := [] }, env1)
  else (Status.OK, b, env)

/-- The loop of the third branch of `Append`: `fuel` bounds the iterations, `rest`
is `data` from index `i` on. -/
def appendLoop : Nat → FileOutputBuffer → Env → Bytes → Option (Status × FileOutputBuffer × Env)
  | 0, _, _, _ => none
  | fuel + 1, b, env, rest =>
    if rest.length = 0 then some (Status.OK, b, env)
    else
      let nbytes := min rest.length b.buffer_size_
      let chunk := rest.take nbytes
      let b1 := { b with buffer_ := chunk, crc32c_ := crc32c.Extend b.crc32c_ chunk }
      let (st, b2, env2) := b1.FlushBuffer env
      if !st.ok then some (st, b2, env2)
      else appendLoop fuel b2 env2 (rest.drop b.buffer_size_)

/-- `FileOutputBuffer::Append`.  With `buffer_size_ = 0` the loop of the third branch
never advances; the model gives `none`. -/
def Append (b : FileOutputBuffer) (env : Env) (data : Bytes) :
    Option (Status × FileOutputBuffer × Env) :=
  if data.length + b.position_ ≤ b.buffer_size_ then
    some (Status.OK,
      { b with buffer_ := b.buffer_ ++ data, crc32c_ := crc32c.Extend b.crc32c_ data }, env)
  else if data.length ≤ b.buffer_size_ then
    let (st, b1, env1) := b.FlushBuffer env
    if !st.ok then some (st, b1, env1)
    else some (Status.OK,
      { b1 with buffer_ := b1.buffer_ ++ data, crc32c_ := crc32c.Extend b1.crc32c_ data }, env1)
  else
    let (st, b1, env1) := b.FlushBuffer env
    if !st.ok then some (st, b1, env1)
    else appendLoop (data.length + 1) b1 env1 data

/-- `FileOutputBuffer::AppendSegment`. -/
def AppendSegment (b : FileOutputBuffer) (env : Env) (data : Bytes) :
    Option (Status × FileOutputBuffer × Env) :=
  let (st, b1, env1) := b.FlushBuffer env
  if !st.ok then some (st, b1, env1)
  else if data.length > b1.buffer_size_ then none
  else
    let b2 := { b1 with buffer_ := data, crc32c_ := crc32c.Extend b1.crc32c_ data }
    let (st2, b3, env3) := b2.FlushBuffer env1
    if !st2.ok then some (st2, b3, env3)
    else some (Status.OK, b3, env3)

/-- `FileOutputBuffer::AppendChunk`. -/
def AppendChunk (b : FileOutputBuffer) (env : Env) (data : Bytes) :
    Option (Status × FileOutputBuffer × Env) :=
  let (st, b1, env1) := b.FlushBuffer env
  if !st.ok then some (st, b1, env1)
  else if data.length > b1.buffer_size_ then none
  else
    let b2 := { b1 with buffer_ := data, crc32c_ := crc32c.Extend b1.crc32c_ data }
    let (st2, b3, env3) := b2.FlushBuffer env1
    if !st2.ok then some (st2, b3, env3)
    else some (Status.OK, b3, env3)

/-- `FileOutputBuffer::Close`. -/
def Close (b : FileOutputBuffer) (env : Env) : Status × FileOutputBuffer × Env :=
  let (st, b1, env1) := b.FlushBuffer env
  if !st.ok then (st, b1, env1)
  else
    let (st2, env2) := env1.Close b1.file_
    (st2, b1, env2)

end FileOutputBuffer

/-! ## Integers in memory and on the wire (core/lib/core/coding.h, byte_swap.h) -/

/-- The `width` bytes of `n`, least significant first. -/
def bytesLE : Nat → Nat → Bytes
  | 0, _ => []
  | width + 1, n => UInt8.ofNat (n % 256) :: bytesLE width (n / 256)

/-- The number whose bytes, least significant first, are `bs`. -/
def natLE : Bytes → Nat
  | [] => 0
  | b :: rest => b.toNat + 256 * natLE rest

/-- The bytes `reinterpret_cast<const char*>(&x)` points at for an unsigned `x` of
`width` bytes, on a host that is little-endian or not. -/
def memInt (kLittleEndian : Bool) (width n : Nat) : Bytes :=
  if kLittleEndian then bytesLE width n else (bytesLE width n).reverse

/-- The unsigned integer a host reads from the bytes `bs`. -/
def loadInt (kLittleEndian : Bool) (bs : Bytes) : Nat :=
  if kLittleEndian then natLE bs else natLE bs.reverse

/-- `BYTE_SWAP_32`. -/
def BYTE_SWAP_32 (x : Nat) : Nat := natLE (bytesLE 4 x).reverse

/-- `BYTE_SWAP_64`. -/
def BYTE_SWAP_64 (x : Nat) : Nat := natLE (bytesLE 8 x).reverse

def UINT32_MAX : Nat := 2 ^ 32 - 1

def putVarintAux : Nat → Nat → Bytes
  | 0, v => [UInt8.ofNat (v % 128)]
  | fuel + 1, v =>
    if v < 128 then [UInt8.ofNat v]
    else UInt8.ofNat (v % 128 + 128) :: putVarintAux fuel (v / 128)

/-- `core::PutVarint64`: seven bits per byte, least significant group first, the top
bit of a byte set when another byte follows; at most ten bytes. -/
def PutVarint64 (v : Nat) : Bytes := putVarintAux 9 (v % 2 ^ 64)

/-! ## TensorSlice (tensorflow/core/framework/tensor_slice.h) -/

def kFullExtent : Int := -1

/-- A slice: per dimension a start and a length, the length `kFullExtent` for the
whole dimension. -/
structure TensorSlice where
  extents : List (Int × Int)
  deriving DecidableEq, Repr

namespace TensorSlice

/-- `TensorSlice(int dim)`: the full slice of `dim` dimensions. -/
def full (dim : Nat) : TensorSlice := ⟨List.replicate dim (0, kFullExtent)⟩

/-- `TensorSlice(const TensorSliceProto&)`. -/
def ofProto (p : TensorSliceProto) : TensorSlice :=
  ⟨p.extent.map (fun e => (e.start, if e.has_length then e.length else kFullExtent))⟩

def dims (s : TensorSlice) : Nat := s.extents.length

/-- `IsFullAt(d)` of one extent. -/
def isFullExtent (e : Int × Int) : Bool := decide (e.2 = kFullExtent) && decide (e.1 = 0)

/-- `TensorSlice::IsFull`. -/
def IsFull (s : TensorSlice) : Bool := s.extents.all isFullExtent

/-- `TensorSlice::AsProto`: a full dimension gives an extent with no field set. -/
def AsProto (s : TensorSlice) : TensorSliceProto :=
  { extent := s.extents.map (fun e =>
      if isFullExtent e then ({} : Extent)
      else { start := e.1, has_length := true, length := e.2 }) }

/-- The outcome of `SliceTensorShape`: the shape, the `Internal` error (rank
mismatch, or an extent that ends past the dimension), or the abort of
`AddDim` on a negative length. -/
inductive ShapeResult
  | ok (shape : List Nat)
  | error
  | abort
  deriving DecidableEq, Repr

def sliceShapeAux : List (Int × Int) → List Nat → List Nat → ShapeResult
  | [], [], acc => ShapeResult.ok acc.reverse
  | e :: es, d :: ds, acc =>
    if isFullExtent e then sliceShapeAux es ds (d :: acc)
    else if e.1 + e.2 ≤ (d : Int) then
      if e.2 < 0 then ShapeResult.abort else sliceShapeAux es ds (e.2.toNat :: acc)
    else ShapeResult.error
  | _, _, _ => ShapeResult.error

/-- `TensorSlice::SliceTensorShape`: the shape of the slice of a tensor of shape
`shape`. -/
def SliceTensorShape (s : TensorSlice) (shape : List Nat) : ShapeResult :=
  if shape.length ≠ s.dims then ShapeResult.error else sliceShapeAux s.extents shape []

end TensorSlice

/-- `IsFullSlice(slice_spec, full_tensor_shape)`.  `SliceTensorShape` leaves the
result shape empty (a scalar) when it fails. -/
def IsFullSlice (slice_spec : TensorSlice) (full_tensor_shape : List Nat) : Option Bool :=
  if slice_spec.IsFull then some true
  else match slice_spec.SliceTensorShape full_tensor_shape with
    | TensorSlice.ShapeResult.ok sliced_shape => some (decide (sliced_shape = full_tensor_shape))
    | TensorSlice.ShapeResult.error => some (decide (([] : List Nat) = full_tensor_shape))
    | TensorSlice.ShapeResult.abort => none

def intRepr (i : Int) : String :=
  if i < 0 then "-" ++ Nat.repr i.natAbs else Nat.repr i.natAbs

/-- `TensorSlice::DebugString`: per dimension `-` when it is full and `start,length`
otherwise, joined by colons. -/
def TensorSlice.DebugString (s : TensorSlice) : String :=
  String.intercalate ":" (s.extents.map (fun e =>
    if TensorSlice.isFullExtent e then "-" else intRepr e.1 ++ "," ++ intRepr e.2))

/-- `checkpoint::EncodeTensorNameSlice(name, slice)`.  The library writes an ordered
code: the number 0, the name, the number of dimensions, then start and length of
every dimension.  The model writes the same items as text, the name preceded by its
length, so that the encoding begins with a NUL character and is injective, the two
properties of the ordered code that the bundle relies on. -/
def EncodeTensorNameSlice (name : String) (slice : TensorSlice) : String :=
  String.mk [Char.ofNat 0] ++ Nat.repr name.length ++ ":" ++ name ++ ":" ++
    Nat.repr slice.dims ++
    String.join (slice.extents.map (fun e => ":" ++ intRepr e.1 ++ "," ++ intRepr e.2))

/-! ## Writing the payload of one tensor -/

/-- `WriteTensor`: the status, the buffer, the environment and `bytes_written`.
`GetBackingBuffer` aborts for a type without memcpy. -/
def WriteTensor (val : Tensor) (out : FileOutputBuffer) (env : Env) :
    Option (Status × FileOutputBuffer × Env × Nat) :=
  if !DataTypeCanUseMemcpy val.dtype then none
  else match out.Append env val.data with
    | none => none
    | some (st, out1, env1) => some (st, out1, env1, val.TotalBytes)

/-- The varint lengths of the elements, concatenated. -/
def stringLengthsVarint (strings : List Bytes) : Bytes :=
  (strings.map (fun s => PutVarint64 s.length)).flatten

/-- The checksum of the element lengths: a length up to `UINT32_MAX` enters as a
`uint32` in memory, a larger one as a `uint64`. -/
def stringLengthsCrc (kLittleEndian : Bool) : Nat → List Bytes → Nat
  | crc, [] => crc
  | crc, s :: rest =>
    let elem_size := s.length
    if elem_size ≤ UINT32_MAX then
      stringLengthsCrc kLittleEndian (crc32c.Extend crc (memInt kLittleEndian 4 elem_size)) rest
    else
      stringLengthsCrc kLittleEndian (crc32c.Extend crc (memInt kLittleEndian 8 elem_size)) rest

/-- The last loop of `WriteStringTensor`: appends the bytes of every element. -/
def appendStrings : List Bytes → FileOutputBuffer → Env → Nat → Nat →
    Option (Status × FileOutputBuffer × Env × Nat × Nat)
  | [], out, env, bytes_written, crc => some (Status.OK, out, env, bytes_written, crc)
  | s :: rest, out, env, bytes_written, crc =>
    match out.Append env s with
    | none => none
    | some (st, out1, env1) =>
      if !st.ok then some (st, out1, env1, bytes_written, crc)
      else appendStrings rest out1 env1 (bytes_written + s.length) (crc32c.Extend crc s)

/-- `WriteStringTensor(const std::vector<string*>&, ...)`: the status, the buffer, the
environment, `bytes_written` and `crc32c`. -/
def WriteStringVector (kLittleEndian : Bool) (strings : List Bytes) (out : FileOutputBuffer)
    (env : Env) : Option (Status × FileOutputBuffer × Env × Nat × Nat) :=
  let lengths := stringLengthsVarint strings
  let crc0 := stringLengthsCrc kLittleEndian 0 strings
  match out.Append env lengths with
  | none => none
  | some (st, out1, env1) =>
    if !st.ok then some (st, out1, env1, 0, crc0)
    else
      let bytes_written := lengths.length
      let length_checksum := crc32c.Mask crc0
      match out1.Append env1 (memInt kLittleEndian 4 length_checksum) with
      | none => none
      | some (st2, out2, env2) =>
        if !st2.ok then some (st2, out2, env2, bytes_written, crc0)
        else
          let crc1 := crc32c.Extend crc0 (memInt kLittleEndian 4 length_checksum)
          appendStrings strings out2 env2 (bytes_written + 4) crc1

/-- `WriteStringTensor(const Tensor&, ...)`.  `GetStringBackingBuffer` aborts for a
tensor that is not `DT_STRING`. -/
def WriteStringTensor (kLittleEndian : Bool) (val : Tensor) (out : FileOutputBuffer)
    (env : Env) : Option (Status × FileOutputBuffer × Env × Nat × Nat) :=
  if val.dtype ≠ DT_STRING then none
  else WriteStringVector kLittleEndian val.strings out env

/-- The loop of `WriteVariantTensor` over the serialised elements. -/
def writeVariants (kLittleEndian : Bool) : List Bytes → FileOutputBuffer → Env → Nat → Nat →
    Option (Status × FileOutputBuffer × Env × Nat × Nat)
  | [], out, env, bytes_written, crc => some (Status.OK, out, env, bytes_written, crc)
  | elem :: rest, out, env, bytes_written, crc =>
    let len := PutVarint64 elem.length
    match out.Append env len with
    | none => none
    | some (st, out1, env1) =>
      if !st.ok then some (st, out1, env1, bytes_written, crc)
      else
        let crc1 := crc32c.Extend crc (memInt kLittleEndian 8 elem.length)
        match out1.Append env1 elem with
        | none => none
        | some (st2, out2, env2) =>
          if !st2.ok then some (st2, out2, env2, bytes_written + len.length, crc1)
          else
            let crc2 := crc32c.Extend crc1 elem
            let length_checksum := crc32c.Mask crc2
            match out2.Append env2 (memInt kLittleEndian 4 length_checksum) with
            | none => none
            | some (st3, out3, env3) =>
              if !st3.ok then
                some (st3, out3, env3, bytes_written + len.length + elem.length, crc2)
              else
                writeVariants kLittleEndian rest out3 env3
                  (bytes_written + len.length + elem.length + 4)
                  (crc32c.Extend crc2 (memInt kLittleEndian 4 length_checksum))

/-- `WriteVariantTensor`. -/
def WriteVariantTensor (kLittleEndian : Bool) (val : Tensor) (out : FileOutputBuffer)
    (env : Env) : Option (Status × FileOutputBuffer × Env × Nat × Nat) :=
  writeVariants kLittleEndian val.strings out env 0 0

/-- `PadAlignment`: the status, the buffer, the environment and the new `size`.  An
alignment of 0 divides by zero. -/
def PadAlignment (out : FileOutputBuffer) (env : Env) (alignment size : Nat) :
    Option (Status × FileOutputBuffer × Env × Nat) :=
  if alignment = 0 then none
  else
    let bytes_over := size % alignment
    if bytes_over = 0 then some (Status.OK, out, env, size)
    else
      let bytes_to_write := alignment - bytes_over
      match out.Append env (List.replicate bytes_to_write 0) with
      | none => none
      | some (st, out1, env1) =>
        some (st, out1, env1, if st.ok then size + bytes_to_write else size)

/-! ## BundleWriter -/

/-- The key of the header entry, `kHeaderEntryKey`. -/
def kHeaderEntryKey : String := ""

def kTensorBundleMinProducer : Int := 0
def kTensorBundleMinConsumer : Int := 0
def kTensorBundleVersion : Int := 1

structure BundleWriter where
  prefix_ : String
  data_alignment : Nat
  tmp_metadata_path_ : String
  tmp_data_path_ : String
  out_ : Option FileOutputBuffer
  size_ : Nat
  entries_ : List (String × BundleEntryProto)
  status_ : Status
  entry_seg_ : Option String
  curr_entry_ : Option String
  deriving DecidableEq, Repr

/-- `entries_[key]` after `update` was applied to it; an absent key starts from the
default entry. -/
def updateEntry (entries : List (String × BundleEntryProto)) (key : String)
    (update : BundleEntryProto → BundleEntryProto) : List (String × BundleEntryProto) :=
  mapInsert entries key (update ((mapFind entries key).getD {}))

namespace BundleWriter

/-- `BundleWriter::BundleWriter(env, prefix, options)`; `rand_meta` and `rand_data`
are the two results of `random::New64()`. -/
def create (env : Env) (pfx : String) (data_alignment rand_meta rand_data : Nat) :
    BundleWriter × Env :=
  let w : BundleWriter :=
    { prefix_ := pfx, data_alignment := data_alignment,
      tmp_metadata_path_ := MetaFilename pfx ++ ".tempstate" ++ Nat.repr rand_meta,
      tmp_data_path_ := DataFilename pfx 0 1 ++ ".tempstate" ++ Nat.repr rand_data,
      out_ := none, size_ := 0, entries_ := [], status_ := Status.OK,
      entry_seg_ := none, curr_entry_ := none }
  let (st, env1) := env.CreateDir (Dirname pfx)
  if !st.ok && !errors.IsAlreadyExists st then ({ w with status_ := st }, env1)
  else
    let (st2, env2) := env1.NewWritableFile w.tmp_data_path_
    if !st2.ok then ({ w with status_ := st2 }, env2)
    else
      ({ w with status_ := st2,
                out_ := some { file_ := w.tmp_data_path_, buffer_size_ := 8 * 2 ^ 20 } }, env2)

/-- `BundleWriter::Add`. -/
def Add (w : BundleWriter) (env : Env) (kLittleEndian : Bool) (key : String) (val : Tensor) :
    Option (Status × BundleWriter × Env) :=
  if !w.status_.ok then some (w.status_, w, env)
  else if key = kHeaderEntryKey then none
  else if mapContains w.entries_ key then
    let st := errors.InvalidArgument ("Adding duplicate key: " ++ key)
    some (st, { w with status_ := st }, env)
  else
    let entries1 := updateEntry w.entries_ key (fun e =>
      { e with dtype := val.dtype, shape := some val.shape, shard_id := 0, offset := w.size_ })
    match w.out_ with
    | none => none
    | some out =>
      let out0 := out.clear_crc32c
      let written :=
        if val.dtype = DT_STRING then WriteStringTensor kLittleEndian val out0 env
        else if val.dtype = DT_VARIANT then WriteVariantTensor kLittleEndian val out0 env
        else match WriteTensor val out0 env with
          | none => none
          | some (st, out1, env1, n) => some (st, out1, env1, n, out1.crc32c_)
      match written with
      | none => none
      | some (st, out1, env1, data_bytes_written, crc) =>
        if st.ok then
          let entries2 := updateEntry entries1 key (fun e =>
            { e with size := data_bytes_written, crc32c := crc32c.Mask crc })
          match PadAlignment out1 env1 w.data_alignment (w.size_ + data_bytes_written) with
          | none => none
          | some (pst, out2, env2, size2) =>
            some (pst, { w with entries_ := entries2, out_ := some out2, size_ := size2,
                                status_ := pst }, env2)
        else
          some (st, { w with entries_ := entries1, out_ := some out1, status_ := st }, env1)

/-- `BundleWriter::AddStringTensor`. -/
def AddStringTensor (w : BundleWriter) (env : Env) (kLittleEndian : Bool) (key : String)
    (strings : List Bytes) (shape : List Nat) : Option (Status × BundleWriter × Env) :=
  if !w.status_.ok then some (w.status_, w, env)
  else if key = kHeaderEntryKey then none
  else if mapContains w.entries_ key then
    let st := errors.InvalidArgument ("Adding duplicate key: " ++ key)
    some (st, { w with status_ := st }, env)
  else
    let entries1 := updateEntry w.entries_ key (fun e =>
      { e with dtype := DT_STRING, shape := some shape, shard_id := 0, offset := w.size_ })
    match w.out_ with
    | none => none
    | some out =>
      match WriteStringVector kLittleEndian strings out.clear_crc32c env with
      | none => none
      | some (st, out1, env1, data_bytes_written, crc) =>
        if st.ok then
          let entries2 := updateEntry entries1 key (fun e =>
            { e with size := data_bytes_written, crc32c := crc32c.Mask crc })
          match PadAlignment out1 env1 w.data_alignment (w.size_ + data_bytes_written) with
          | none => none
          | some (pst, out2, env2, size2) =>
            some (pst, { w with entries_ := entries2, out_ := some out2, size_ := size2,
                                status_ := pst }, env2)
        else
          some (st, { w with entries_ := entries1, out_ := some out1, status_ := st }, env1)

/-- `BundleWriter::AddSlice`. -/
def AddSlice (w : BundleWriter) (env : Env) (kLittleEndian : Bool) (full_tensor_key : String)
    (full_tensor_shape : List Nat) (slice_spec : TensorSlice) (slice_tensor : Tensor) :
    Option (Status × BundleWriter × Env) :=
  if !w.status_.ok then some (w.status_, w, env)
  else if full_tensor_key = kHeaderEntryKey then none
  else match IsFullSlice slice_spec full_tensor_shape with
    | none => none
    | some true => w.Add env kLittleEndian full_tensor_key slice_tensor
    | some false =>
      let full_entry := (mapFind w.entries_ full_tensor_key).getD {}
      if full_entry.dtype ≠ DT_INVALID ∧ full_entry.dtype ≠ slice_tensor.dtype then none
      else if full_entry.shape.isSome ∧ full_entry.tensorShape ≠ full_tensor_shape then none
      else
        let entries1 := updateEntry w.entries_ full_tensor_key (fun e =>
          { e with dtype := slice_tensor.dtype, shape := some full_tensor_shape,
                   slices := e.slices ++ [slice_spec.AsProto] })
        let slice_name := EncodeTensorNameSlice full_tensor_key slice_spec
        match Add { w with entries_ := entries1 } env kLittleEndian slice_name slice_tensor with
        | none => none
        | some (st, w2, env2) => some (st, { w2 with status_ := st }, env2)

/-- `BundleWriter::AddTensorHeader(key, dtype)`. -/
def AddTensorHeader (w : BundleWriter) (env : Env) (key : String) (dtype : DataType) :
    Option (Status × BundleWriter × Env) :=
  if !w.status_.ok then some (w.status_, w, env)
  else if key = kHeaderEntryKey then none
  else if mapContains w.entries_ key then
    let st := errors.InvalidArgument ("Adding duplicate key: " ++ key)
    some (st, { w with status_ := st }, env)
  else match w.out_ with
    | none => none
    | some out =>
      some (w.status_,
        { w with entry_seg_ := some key,
                 entries_ := updateEntry w.entries_ key (fun e =>
                   { e with dtype := dtype, shard_id := 0, offset := w.size_ }),
                 out_ := some out.clear_crc32c }, env)

/-- `BundleWriter::AddTensorHeader(key, dtype, shape)`. -/
def AddTensorHeaderShape (w : BundleWriter) (env : Env) (key : String) (dtype : DataType)
    (shape : List Nat) : Option (Status × BundleWriter × Env) :=
  if !w.status_.ok then some (w.status_, w, env)
  else if key = kHeaderEntryKey then none
  else if mapContains w.entries_ key then
    let st := errors.InvalidArgument ("Adding duplicate key: " ++ key)
    some (st, { w with status_ := st }, env)
  else match w.out_ with
    | none => none
    | some out =>
      some (w.status_,
        { w with entry_seg_ := some key,
                 entries_ := updateEntry w.entries_ key (fun e =>
                   { e with dtype := dtype, shape := some shape, shard_id := 0,
                            offset := w.size_ }),
                 out_ := some out.clear_crc32c }, env)

/-- `BundleWriter::AddSliceHeader`.  The source hands the caller a pointer to the new,
empty slice message; `slice` is what the caller writes through it. -/
def AddSliceHeader (w : BundleWriter) (env : Env) (tensor_name : String) (shape : List Nat)
    (type : DataType) (is_hash : Bool) (slice : TensorSliceProto) :
    Option (Status × BundleWriter × Env) :=
  if !w.status_.ok then some (w.status_, w, env)
  else
    let full_entry := (mapFind w.entries_ tensor_name).getD {}
    if full_entry.dtype ≠ DT_INVALID ∧ full_entry.dtype ≠ type then none
    else if full_entry.shape.isSome ∧ full_entry.tensorShape ≠ shape then none
    else
      some (Status.OK,
        { w with entries_ := updateEntry w.entries_ tensor_name (fun e =>
            { e with is_hash_table := is_hash, dtype := type, shape := some shape,
                     slices := e.slices ++ [slice] }) }, env)

/-- `BundleWriter::AddCompeleteData`. -/
def AddCompeleteData (w : BundleWriter) (env : Env) (content : Bytes) :
    Option (Status × BundleWriter × Env) :=
  match w.out_ with
  | none => none
  | some out =>
    match out.Append env content with
    | none => none
    | some (st, out1, env1) =>
      if !st.ok then some (st, { w with status_ := st, out_ := some out1 }, env1)
      else match w.entry_seg_ with
        | none => none
        | some k =>
          some (st, { w with status_ := st, out_ := some out1,
                             entries_ := updateEntry w.entries_ k (fun e =>
                               { e with size := content.length,
                                        crc32c := crc32c.Mask out1.crc32c_ }),
                             size_ := w.size_ + content.length }, env1)

/-- `BundleWriter::FillTensorShape`. -/
def FillTensorShape (w : BundleWriter) (shape : List Nat) : Option BundleWriter :=
  match w.entry_seg_ with
  | none => none
  | some k =>
    some { w with entries_ := updateEntry w.entries_ k (fun e => { e with shape := some shape }) }

/-- `BundleWriter::AppendSegmentData`. -/
def AppendSegmentData (w : BundleWriter) (env : Env) (content : Bytes) :
    Option (Status × BundleWriter × Env) :=
  match w.out_ with
  | none => none
  | some out =>
    match out.AppendSegment env content with
    | none => none
    | some (st, out1, env1) => some (st, { w with out_ := some out1 }, env1)

/-- `BundleWriter::EndSegmentData`. -/
def EndSegmentData (w : BundleWriter) (total_bytes_written _end_bytes_written : Nat) :
    Option BundleWriter :=
  match w.out_, w.entry_seg_ with
  | some out, some k =>
    some { w with entries_ := updateEntry w.entries_ k (fun e =>
                    { e with size := total_bytes_written, crc32c := crc32c.Mask out.crc32c_ }),
                  size_ := w.size_ + total_bytes_written }
  | _, _ => none

/-- The header `Finish` writes: one shard, the byte order of the host, the format
version. -/
def finishHeader (kLittleEndian : Bool) : BundleHeaderProto :=
  { num_shards := 1,
    endianness := if kLittleEndian then Endianness.LITTLE else Endianness.BIG,
    version := { producer := kTensorBundleVersion, min_consumer := kTensorBundleMinConsumer } }

/-- The `Add` calls `Finish` makes on the table builder: the header, then every entry
of `entries_` in map order. -/
def finishRows (kLittleEndian : Bool) (w : BundleWriter) : List (String × TableValue) :=
  (kHeaderEntryKey, TableValue.header (finishHeader kLittleEndian)) ::
    w.entries_.map (fun p => (p.1, TableValue.entry p.2))

/-- The first block of `Finish`: closes the data buffer and renames the data file, or
deletes it when the writer has failed. -/
def finishData (w : BundleWriter) (env : Env) : BundleWriter × Env :=
  match w.out_ with
  | none => (w, env)
  | some out =>
    let (cst, _, env1) := out.Close env
    let st := w.status_.Update cst
    if st.ok then
      let (rst, env2) := env1.RenameFile w.tmp_data_path_ (DataFilename w.prefix_ 0 1)
      ({ w with out_ := none, status_ := rst }, env2)
    else
      let (_, env2) := env1.DeleteFile w.tmp_data_path_
      ({ w with out_ := none, status_ := st }, env2)

/-- `BundleWriter::Finish`. -/
def Finish (w : BundleWriter) (env : Env) (kLittleEndian : Bool) :
    Status × BundleWriter × Env :=
  let (w1, env1) := w.finishData env
  if !w1.status_.ok then (w1.status_, w1, env1)
  else
    let (nst, env2) := env1.NewWritableFile w1.tmp_metadata_path_
    if !nst.ok then (nst, { w1 with status_ := nst }, env2)
    else
      let (bst, env3) := env2.BuildTable w1.tmp_metadata_path_ (finishRows kLittleEndian w1)
      let (cst, env4) := env3.Close w1.tmp_metadata_path_
      let st := bst.Update cst
      if !st.ok then
        let (_, env5) := env4.DeleteFile w1.tmp_metadata_path_
        (st, { w1 with status_ := st }, env5)
      else
        let (rst, env5) := env4.RenameFile w1.tmp_metadata_path_ (MetaFilename w1.prefix_)
        if !rst.ok then (rst, { w1 with status_ := rst }, env5)
        else (Status.OK, { w1 with status_ := errors.Internal "BundleWriter is closed" }, env5)

/-- `BundleWriter::BeginWriteChunkData`. -/
def BeginWriteChunkData (w : BundleWriter) (env : Env) (key : String) (dtype : DataType)
    (shape : List Nat) : Option (Status × BundleWriter × Env) :=
  if !w.status_.ok then some (w.status_, w, env)
  else if key = kHeaderEntryKey then none
  else if mapContains w.entries_ key then
    let st := errors.InvalidArgument ("Adding duplicate key: " ++ key)
    some (st, { w with status_ := st }, env)
  else if w.curr_entry_.isSome then
    let st := errors.Internal "Call `BundleWriter::EndWriteChunkData` method after write."
    some (st, { w with status_ := st }, env)
  else match w.out_ with
    | none => none
    | some out =>
      some (w.status_,
        { w with curr_entry_ := some key,
                 entries_ := updateEntry w.entries_ key (fun e =>
                   { e with dtype := dtype, shape := some shape, shard_id := 0,
                            offset := w.size_ }),
                 out_ := some out.clear_crc32c }, env)

/-- `BundleWriter::WriteOneBufferData`. -/
def WriteOneBufferData (w : BundleWriter) (env : Env) (content : Bytes) :
    Option (Status × BundleWriter × Env) :=
  match w.out_ with
  | none => none
  | some out =>
    match out.Append env content with
    | none => none
    | some (st, out1, env1) =>
      if !st.ok then some (st, { w with status_ := st, out_ := some out1 }, env1)
      else match w.curr_entry_ with
        | none => none
        | some k =>
          some (st, { w with status_ := st, out_ := some out1,
                             entries_ := updateEntry w.entries_ k (fun e =>
                               { e with size := content.length,
                                        crc32c := crc32c.Mask out1.crc32c_ }),
                             size_ := w.size_ + content.length,
                             curr_entry_ := none }, env1)

/-- `BundleWriter::WriteChunkData`. -/
def WriteChunkData (w : BundleWriter) (env : Env) (content : Bytes) :
    Option (Status × BundleWriter × Env) :=
  match w.out_ with
  | none => none
  | some out =>
    match out.AppendChunk env content with
    | none => none
    | some (st, out1, env1) => some (st, { w with out_ := some out1 }, env1)

/-- `BundleWriter::EndWriteChunkData`. -/
def EndWriteChunkData (w : BundleWriter) (total_bytes_written _end_bytes_written : Nat) :
    Option BundleWriter :=
  match w.out_, w.curr_entry_ with
  | some out, some k =>
    some { w with entries_ := updateEntry w.entries_ k (fun e =>
                    { e with size := total_bytes_written, crc32c := crc32c.Mask out.crc32c_ }),
                  size_ := w.size_ + total_bytes_written,
                  curr_entry_ := none }
  | _, _ => none

end BundleWriter

/-! ## InputBuffer (tensorflow/core/lib/io/inputbuffer.h)

A buffered reader is the bytes of its file and a position. -/

namespace InputBuffer

/-- `InputBuffer::ReadNBytes`: the status, the bytes read and the new position. -/
def ReadNBytes (file : Bytes) (pos n : Nat) : Status × Bytes × Nat :=
  let got := (file.drop pos).take n
  if got.length = n then (Status.OK, got, pos + n)
  else (errors.OutOfRange "End of file reached", got, pos + got.length)

def readVarintAux (file : Bytes) : Nat → Nat → Nat → Nat → Status × Nat × Nat
  | 0, _, pos, acc => (errors.DataLoss "Stored data longer than 10 bytes.", acc, pos)
  | max_bytes + 1, shift, pos, acc =>
    match file.get? pos with
    | none => (errors.OutOfRange "End of file reached", acc, pos)
    | some b =>
      let acc1 := (acc ||| ((b.toNat % 128) <<< shift)) % 2 ^ 64
      if b.toNat < 128 then (Status.OK, acc1, pos + 1)
      else readVarintAux file max_bytes (shift + 7) (pos + 1) acc1

/-- `InputBuffer::ReadVarint64`: the status, the value and the new position.  The
library reports a varint of more than ten bytes as `OutOfRange` or as `DataLoss`
depending on how much of the file is buffered; the model reports `DataLoss`. -/
def ReadVarint64 (file : Bytes) (pos : Nat) : Status × Nat × Nat :=
  readVarintAux file 10 0 pos 0

end InputBuffer

/-! ## Reading the payload of one tensor -/

/-- The first loop of `ReadStringTensor`: reads `n` varint lengths from `pos` on and
checksums them; gives the status, the lengths, the position and the checksum. -/
def readStringLengths (kLittleEndian need_to_swap_bytes : Bool) (file : Bytes) :
    Nat → Nat → Nat → Status × List Nat × Nat × Nat
  | 0, pos, crc => (Status.OK, [], pos, crc)
  | n + 1, pos, crc =>
    let (st, len, pos1) := InputBuffer.ReadVarint64 file pos
    if !st.ok then (st, [], pos1, crc)
    else
      let crc1 :=
        if len ≤ UINT32_MAX then
          let elem_size_uint32 := if need_to_swap_bytes then BYTE_SWAP_32 len else len
          crc32c.Extend crc (memInt kLittleEndian 4 elem_size_uint32)
        else
          let length := if need_to_swap_bytes then BYTE_SWAP_64 len else len
          crc32c.Extend crc (memInt kLittleEndian 8 length)
      let (st2, lens, pos2, crc2) :=
        readStringLengths kLittleEndian need_to_swap_bytes file n pos1 crc1
      (st2, len :: lens, pos2, crc2)

/-- The last loop of `ReadStringTensor`: reads the bytes of every element; gives the
status, the elements read and the checksum. -/
def readStringBytes (file : Bytes) : List Nat → Nat → Nat → Status × List Bytes × Nat
  | [], _, crc => (Status.OK, [], crc)
  | string_length :: rest, pos, crc =>
    let (st, buffer, pos1) := InputBuffer.ReadNBytes file pos string_length
    if !st.ok then (st, [buffer], crc)
    else
      let (st2, strs, crc2) := readStringBytes file rest pos1 (crc32c.Extend crc buffer)
      (st2, buffer :: strs, crc2)

/-- `ReadStringTensor`: the status, the `destination` array and `actual_crc32c`. -/
def ReadStringTensor (kLittleEndian : Bool) (file : Bytes) (num_elements offset size : Nat)
    (destination : List Bytes) (actual_crc32c : Nat) (need_to_swap_bytes : Bool) :
    Status × List Bytes × Nat :=
  if size = 0 then (Status.OK, destination, actual_crc32c)
  else
    let (st, string_lengths, pos, crc) :=
      readStringLengths kLittleEndian need_to_swap_bytes file num_elements offset actual_crc32c
    if !st.ok then (st, destination, crc)
    else if offset + size < pos then
      (errors.DataLoss ("String lengths longer than expected offset " ++ Nat.repr (offset + size)),
        destination, crc)
    else
      let (st2, raw, pos2) := InputBuffer.ReadNBytes file pos 4
      if !st2.ok then (st2, destination, crc)
      else
        let raw_length_checksum := loadInt kLittleEndian raw
        let length_checksum :=
          if need_to_swap_bytes then BYTE_SWAP_32 raw_length_checksum else raw_length_checksum
        if crc32c.Unmask length_checksum ≠ crc then
          (errors.DataLoss ("The length checksum does not match: expected " ++
            pad8 (crc32c.Unmask length_checksum) ++ " but actual is " ++ pad8 crc),
            destination, crc)
        else
          let crc1 := crc32c.Extend crc raw
          let (st3, strs, crc2) := readStringBytes file string_lengths pos2 crc1
          (st3, strs ++ destination.drop strs.length, crc2)

/-- The `DataLoss` of `ReadVariantTensor` for an element that does not parse. -/
def variantParseError (string_length offset size : Nat) : Status :=
  errors.DataLoss ("Unable to parse VariantTensorDataProto from buffer of size " ++
    Nat.repr string_length ++ ". Bundle entry offset: " ++ Nat.repr offset ++ " size: " ++
    Nat.repr size)

/-- The `Internal` error of `ReadVariantTensor` for an element that `DecodeUnaryVariant`
rejects. -/
def variantDecodeError (type_name : String) : Status :=
  errors.Internal ("Could not decode variant with type_name: " ++
    String.singleton (Char.ofNat 34) ++ type_name ++ String.singleton (Char.ofNat 34) ++
    ".  Perhaps you forgot to register a decoder via " ++
    "REGISTER_UNARY_VARIANT_DECODE_FUNCTION?")

/-- The `DataLoss` of `ReadVariantTensor` for the checksum after element `i`. -/
def variantChecksumError (i expected actual : Nat) : Status :=
  errors.DataLoss ("The checksum after Variant " ++ Nat.repr i ++ " does not match." ++
    " Expected: " ++ pad8 expected ++ " Actual: " ++ pad8 actual)

/-- The loop of `ReadVariantTensor` with `n` elements to go, the next one element `i`:
gives the status, the elements decoded and the checksum.  `lib` is what the libraries
make of a serialised element; `offset` and `size` are those of the entry. -/
def readVariants (lib : VariantLibrary) (kLittleEndian : Bool) (file : Bytes)
    (offset size : Nat) : Nat → Nat → Nat → Nat → Status × List Bytes × Nat
  | 0, _, _, crc => (Status.OK, [], crc)
  | n + 1, i, pos, crc =>
    let (st, string_length, pos1) := InputBuffer.ReadVarint64 file pos
    if !st.ok then (st, [], crc)
    else
      let crc1 := crc32c.Extend crc (memInt kLittleEndian 8 string_length)
      let (st2, buffer, pos2) := InputBuffer.ReadNBytes file pos1 string_length
      if !st2.ok then (st2, [], crc1)
      else
        let crc2 := crc32c.Extend crc1 buffer
        match lib.decoding buffer with
        | VariantDecoding.unparseable => (variantParseError string_length offset size, [], crc2)
        | VariantDecoding.undecodable type_name => (variantDecodeError type_name, [], crc2)
        | VariantDecoding.decoded =>
          let (st3, raw, pos3) := InputBuffer.ReadNBytes file pos2 4
          if !st3.ok then (st3, [], crc2)
          else
            let checksum := loadInt kLittleEndian raw
            if crc32c.Unmask checksum ≠ crc2 then
              (variantChecksumError i (crc32c.Unmask checksum) crc2, [], crc2)
            else
              let (st4, elems, crc4) :=
                readVariants lib kLittleEndian file offset size n (i + 1) pos3
                  (crc32c.Extend crc2 raw)
              (st4, buffer :: elems, crc4)

/-- `ReadVariantTensor`: the status, the elements of `ret` and `actual_crc32c`.  Storing
a decoded element through `ret->flat<Variant>()` aborts when `ret` is not a variant
tensor. -/
def ReadVariantTensor (lib : VariantLibrary) (kLittleEndian : Bool) (file : Bytes)
    (ret : Tensor) (offset size : Nat) (actual_crc32c : Nat) :
    Option (Status × List Bytes × Nat) :=
  if size = 0 then some (Status.OK, ret.strings, actual_crc32c)
  else
    let (st, elems, crc) :=
      readVariants lib kLittleEndian file offset size ret.NumElements 0 offset actual_crc32c
    if elems ≠ [] ∧ ret.dtype ≠ DT_VARIANT then none
    else some (st, elems ++ ret.strings.drop elems.length, crc)

/-- The elements of `data`, each of `width` bytes, with the bytes of every element
reversed (`ByteSwapArray`). -/
def byteSwapArray (width : Nat) : Nat → Bytes → Bytes
  | 0, data => data
  | n + 1, data => (data.take width).reverse ++ byteSwapArray width n (data.drop width)

/-- Modelled from the spec: `ByteSwapTensor` of `byte_swap.h`, which is not among the
sources.  The spec has a bundle that is read on a host of the other byte order yield the
same logical values as on a host of the same byte order, and has the swap of an opaque
value fail with `Unimplemented`.  So one-byte types are left alone, the bytes of every
two-, four- and eight-byte number are reversed, and a complex element, which is two
floating-point numbers one after the other, has the bytes of each of the two reversed. -/
def ByteSwapTensor (t : Tensor) : Status × Tensor :=
  match t.dtype with
  | DT_STRING | DT_QINT8 | DT_QUINT8 | DT_BOOL | DT_UINT8 | DT_INT8 => (Status.OK, t)
  | DT_BFLOAT16 | DT_HALF | DT_QINT16 | DT_QUINT16 | DT_UINT16 | DT_INT16 =>
    (Status.OK, { t with data := byteSwapArray 2 t.NumElements t.data })
  | DT_FLOAT | DT_INT32 | DT_QINT32 | DT_UINT32 =>
    (Status.OK, { t with data := byteSwapArray 4 t.NumElements t.data })
  | DT_INT64 | DT_DOUBLE | DT_UINT64 =>
    (Status.OK, { t with data := byteSwapArray 8 t.NumElements t.data })
  | DT_COMPLEX64 =>
    (Status.OK, { t with data := byteSwapArray 4 (t.NumElements * 2) t.data })
  | DT_COMPLEX128 =>
    (Status.OK, { t with data := byteSwapArray 8 (t.NumElements * 2) t.data })
  | DT_RESOURCE | DT_VARIANT | DT_INVALID =>
    (errors.Unimplemented "Byte-swapping not yet implemented for tensors with dtype", t)

/-! ## BundleReader -/

/-- `kBufferSize`: the size of the input buffer for streaming reads. -/
def kBufferSize : Nat := 1024 * 1024

structure LookupSegItem where
  entry : BundleEntryProto := {}
  total_size : Nat := 0
  bytes_read : Nat := 0
  deriving DecidableEq, Repr

/-- `checkpoint::TensorSliceSet`: the shape and type of the full tensor and the slices
registered so far, in the order of registration. -/
structure TensorSliceSet where
  shape_ : List Nat
  type_ : DataType
  slices_ : List TensorSlice
  deriving DecidableEq, Repr

/-- The reader.  `table_` is the metadata table when it could be opened (`metadata_`,
`table_` and `iter_` are then non-null), `iter_` is the index of the row the
iterator stands at (past the last row: not valid). -/
structure BundleReader where
  prefix_ : String
  status_ : Status
  table_ : Option (List (String × TableValue))
  iter_ : Nat
  num_shards_ : Nat
  need_to_swap_bytes_ : Bool
  tensor_slices_ : List (String × TensorSliceSet)
  tmp_lookupseg_items_ : List (String × LookupSegItem)
  deriving DecidableEq, Repr

/-- `table::Iterator::Seek(target)`: the index of the first row whose key is not
below `target`. -/
def seekRows (rows : List (String × TableValue)) (target : String) : Nat :=
  match rows with
  | [] => 0
  | (k, _) :: rest => if k < target then seekRows rest target + 1 else 0

/-- `CheckVersions(versions, consumer, min_producer, ...)`. -/
def CheckVersions (versions : VersionDef) (consumer min_producer : Int) : Status :=
  if consumer < min_producer then
    errors.Internal "Checkpoint version check makes no sense"
  else if versions.producer < min_producer then
    errors.InvalidArgument "Checkpoint producer version is below the minimum"
  else if versions.min_consumer > consumer then
    errors.InvalidArgument "Checkpoint min consumer version is above the version supported"
  else if consumer ∈ versions.bad_consumers then
    errors.InvalidArgument "Checkpoint disallows this consumer version"
  else Status.OK

/-- `CorruptFileError`. -/
def CorruptFileError (in_status : Status) (filename detail : String) : Status :=
  if in_status.ok then
    errors.Internal ("Unable to read file (" ++ filename ++
      "). Perhaps the file is corrupt or was produced by " ++
      "a newer version of TensorFlow with format changes (" ++ detail ++ ")")
  else
    ⟨in_status.code, "Unable to read file (" ++ filename ++
      "). Perhaps the file is corrupt or was produced by a " ++
      "newer version of TensorFlow with format changes (" ++ detail ++ "): " ++ in_status.msg⟩

/-- `ParseEntryProto` into a `BundleHeaderProto`. -/
def ParseHeaderProto (key : String) (value : TableValue) : Status × BundleHeaderProto :=
  match value with
  | TableValue.header h => (Status.OK, h)
  | _ => (errors.DataLoss ("Entry for key " ++ key ++ " not parseable."), {})

/-- `ParseEntryProto` into a `BundleEntryProto`. -/
def ParseEntryProto (key : String) (value : TableValue) : Status × BundleEntryProto :=
  match value with
  | TableValue.entry e => (Status.OK, e)
  | _ => (errors.DataLoss ("Entry for key " ++ key ++ " not parseable."), {})

namespace BundleReader

/-- `BundleReader::BundleReader(env, prefix)` on a host that is little-endian or
not. -/
def create (env : Env) (pfx : String) (kLittleEndian : Bool) : BundleReader :=
  let r : BundleReader :=
    { prefix_ := pfx, status_ := Status.OK, table_ := none, iter_ := 0, num_shards_ := 0,
      need_to_swap_bytes_ := false, tensor_slices_ := [], tmp_lookupseg_items_ := [] }
  let filename := MetaFilename pfx
  let (st, _) := env.GetFileSize filename
  if !st.ok then { r with status_ := st }
  else
    let (st1, _) := env.NewRandomAccessFile filename
    if !st1.ok then { r with status_ := st1 }
    else
      let (st2, rows) := env.OpenTable filename
      if !st2.ok then { r with status_ := st2 }
      else
        let r1 := { r with table_ := some rows, iter_ := seekRows rows kHeaderEntryKey }
        match rows.get? r1.iter_ with
        | none =>
          { r1 with status_ := CorruptFileError Status.OK filename "failed to seek to header entry" }
        | some (key, value) =>
          let (st3, header) := ParseHeaderProto key value
          if !st3.ok then
            { r1 with status_ := CorruptFileError st3 filename "unable to parse header" }
          else
            { r1 with
              num_shards_ := header.num_shards,
              need_to_swap_bytes_ :=
                (decide (header.endianness = Endianness.BIG) && kLittleEndian) ||
                (decide (header.endianness = Endianness.LITTLE) && !kLittleEndian),
              status_ := CheckVersions header.version kTensorBundleVersion
                kTensorBundleMinProducer }

/-- Modelled from the spec: `Seek` of `tensor_bundle.h`, which is not among the
sources.  The spec has the reader seek its table to the key; a reader that could
not open its table has nothing to seek in and is left as it is. -/
def Seek (r : BundleReader) (key : String) : BundleReader :=
  match r.table_ with
  | none => r
  | some rows => { r with iter_ := seekRows rows key }

/-- Modelled from the spec: `Valid` of `tensor_bundle.h`, which is not among the
sources: whether the iterator stands at a row of the table. -/
def Valid (r : BundleReader) : Bool :=
  match r.table_ with
  | none => false
  | some rows => decide (r.iter_ < rows.length)

/-- Modelled from the spec: `key` and `value` of `tensor_bundle.h`, which are not among
the sources: the row the iterator stands at. -/
def current (r : BundleReader) : Option (String × TableValue) :=
  match r.table_ with
  | none => none
  | some rows => rows.get? r.iter_

/-- `BundleReader::Contains`: `Seek(key); return Valid() && (this->key() == key);`. -/
def Contains (r : BundleReader) (key : String) : Bool × BundleReader :=
  let r1 := r.Seek key
  (r1.Valid && (match r1.current with
    | some (k, _) => decide (k = key)
    | none => false), r1)

/-- `BundleReader::GetBundleEntryProto`; `TF_CHECK_OK(status_)` aborts on a reader
that has failed. -/
def GetBundleEntryProto (r : BundleReader) (key : String) :
    Option (Status × BundleEntryProto × BundleReader) :=
  if !r.status_.ok then none
  else
    let r1 := r.Seek key
    match r1.current with
    | none => some (errors.NotFound ("Key " ++ key ++ " not found in checkpoint"), {}, r1)
    | some (k, value) =>
      if k ≠ key then
        some (errors.NotFound ("Key " ++ key ++ " not found in checkpoint"), {}, r1)
      else
        let (st, entry_copy) := ParseEntryProto k value
        if !st.ok then some (st, {}, r1)
        else if !Tensor.shapeIsValid entry_copy.tensorShape then
          some (errors.DataLoss ("Invalid tensor shape: " ++ key), {}, r1)
        else some (Status.OK, entry_copy, r1)

/-- The `lower_bound` of `GetValue` for a string entry, computed in `size_t`:
`NumElements + TotalBytes - sizeof(tstring) * NumElements`. -/
def stringLowerBound (ret : Tensor) : Nat :=
  (ret.NumElements + ret.TotalBytes + 2 ^ 64 - (kSizeofTString * ret.NumElements) % 2 ^ 64) % 2 ^ 64

/-- `BundleReader::GetValue`: the status and `*val` when the call returns.  The handle
cache `data_` is left out: a data file is read at its path in `env`.  What the
libraries make of a serialised variant is taken from `env`. -/
def GetValue (r : BundleReader) (env : Env) (kLittleEndian : Bool) (entry : BundleEntryProto)
    (val : Tensor) : Option (Status × Tensor) :=
  let stored_shape := entry.tensorShape
  let fresh := decide (val.NumElements = 0)
  let ret := if fresh then Tensor.alloc entry.dtype stored_shape else val
  let key := match r.current with
    | some (k, _) => k
    | none => ""
  if entry.dtype ≠ DT_STRING ∧ entry.dtype ≠ DT_VARIANT ∧ entry.size ≠ ret.TotalBytes then
    some (errors.DataLoss ("Invalid size in bundle entry: key " ++ key ++ "; stored size " ++
      Nat.repr entry.size ++ "; expected size " ++ Nat.repr ret.TotalBytes), val)
  else if entry.dtype = DT_STRING ∧ entry.size < stringLowerBound ret then
    some (errors.DataLoss ("Invalid size in bundle entry: key " ++ key ++ "; stored size " ++
      Nat.repr entry.size ++ "; expected size is at least " ++
      Nat.repr (stringLowerBound ret)), val)
  else
    let (fst, file) := env.NewRandomAccessFile (DataFilename r.prefix_ entry.shard_id r.num_shards_)
    if !fst.ok then some (fst, val)
    else
      let done (st : Status) (filled : Tensor) (actual_crc32c : Nat) : Option (Status × Tensor) :=
        if !st.ok then some (st, if fresh then val else filled)
        else if crc32c.Unmask entry.crc32c ≠ actual_crc32c then
          some (errors.DataLoss ("Checksum does not match: stored " ++
            pad8 (crc32c.Unmask entry.crc32c) ++ " vs. calculated on the restored bytes " ++
            Nat.repr actual_crc32c), if fresh then val else filled)
        else some (Status.OK, filled)
      if DataTypeCanUseMemcpy entry.dtype then
        if !DataTypeCanUseMemcpy ret.dtype then none
        else
          let (rst, got) :=
            if entry.size > kBufferSize then RandomAccessFile.Read file entry.offset entry.size
            else
              let (st, b, _) := InputBuffer.ReadNBytes file entry.offset entry.size
              (st, b)
          let filled := { ret with data := got ++ ret.data.drop got.length }
          if !rst.ok then some (rst, if fresh then val else filled)
          else
            let actual_crc32c := crc32c.Value got
            if r.need_to_swap_bytes_ then
              let (sst, swapped) := ByteSwapTensor filled
              if !sst.ok then some (sst, if fresh then val else swapped)
              else done Status.OK swapped actual_crc32c
            else done Status.OK filled actual_crc32c
      else if entry.dtype = DT_VARIANT then
        if r.need_to_swap_bytes_ then
          some (errors.Unimplemented ("TensorBundle at " ++ r.prefix_ ++
            "is of a different endianness than this machine's hardware, and " ++
            "the bundle contains a variant (arbitrary C++ type) tensor. " ++
            "Byte-swapping of variant tensors is not currently implemented."), val)
        else
          match ReadVariantTensor env.variants kLittleEndian file ret entry.offset entry.size
              0 with
          | none => none
          | some (st, elems, crc) => done st { ret with strings := elems } crc
      else
        if ret.dtype ≠ DT_STRING then none
        else
          let (st, strs, crc) := ReadStringTensor kLittleEndian file ret.NumElements entry.offset
            entry.size ret.strings 0 r.need_to_swap_bytes_
          done st { ret with strings := strs } crc

end BundleReader

/-- The loop of `GetValueWithIndices` over `indices[i ..]`.  `read_buffer` is the part
of the malloc'ed buffer that has been written so far; a `memmove` that reads past
it, or writes past the backing buffer of the result, aborts.  All offsets are
`size_t`. -/
def indicesLoop (file : Bytes) (entry_offset total_read_size embedding_value_size buffer_size : Nat) :
    List Int → Nat → Bytes → Nat → Nat → Bytes → Option (Status × Bytes)
  | [], _, _, _, _, backing => some (Status.OK, backing)
  | index :: rest, i, read_buffer, read_buffer_head, read_buffer_tail, backing =>
    let idx_head := ((index * (embedding_value_size : Int)) % (2 ^ 64 : Int)).toNat
    let idx_tail := (idx_head + embedding_value_size) % 2 ^ 64
    let window : Option (Status × Bytes × Nat × Nat) :=
      if !(decide (idx_head ≥ read_buffer_head) && decide (idx_tail ≤ read_buffer_tail)) then
        let next_offset := idx_head
        let next_size :=
          if (total_read_size + 2 ^ 64 - next_offset) % 2 ^ 64 > buffer_size then buffer_size
          else (total_read_size + 2 ^ 64 - next_offset) % 2 ^ 64
        let (st, sp) := RandomAccessFile.Read file (entry_offset + next_offset) next_size
        if !st.ok then some (st, read_buffer, read_buffer_head, read_buffer_tail)
        else some (Status.OK, sp ++ read_buffer.drop sp.length, next_offset,
          (next_offset + next_size) % 2 ^ 64)
      else some (Status.OK, read_buffer, read_buffer_head, read_buffer_tail)
    match window with
    | none => none
    | some (st, read_buffer1, head1, tail1) =>
      if !st.ok then some (st, backing)
      else
        let src := (idx_head + 2 ^ 64 - head1) % 2 ^ 64
        if src + embedding_value_size > read_buffer1.length then none
        else if i * embedding_value_size + embedding_value_size > backing.length then none
        else
          let row := (read_buffer1.drop src).take embedding_value_size
          let backing1 := backing.take (i * embedding_value_size) ++ row ++
            backing.drop (i * embedding_value_size + embedding_value_size)
          indicesLoop file entry_offset total_read_size embedding_value_size buffer_size
            rest (i + 1) read_buffer1 head1 tail1 backing1

namespace BundleReader

/-- `BundleReader::GetValueWithIndices`: the status and `*val` when the call returns.
`val->dim_size(0)` aborts for a scalar, and dividing by it aborts when it is 0. -/
def GetValueWithIndices (r : BundleReader) (env : Env) (entry : BundleEntryProto) (val : Tensor)
    (indices : List Int) : Option (Status × Tensor) :=
  let stored_shape := entry.tensorShape
  let fresh := decide (val.NumElements = 0)
  let ret := if fresh then Tensor.alloc entry.dtype stored_shape else val
  let (fst, file) := env.NewRandomAccessFile (DataFilename r.prefix_ entry.shard_id r.num_shards_)
  if !fst.ok then some (fst, val)
  else
    let buffer_size := 16 * 2 ^ 20
    let total_read_size := entry.size
    match val.dim_size0 with
    | none => none
    | some dim0 =>
      if dim0 = 0 then none
      else
        let embedding_dim := val.NumElements / dim0
        let embedding_value_size := embedding_dim * DataTypeSize entry.dtype
        match indicesLoop file entry.offset total_read_size embedding_value_size buffer_size
            indices 0 [] 0 0 ret.data with
        | none => none
        | some (st, backing) =>
          if !st.ok then some (st, if fresh then val else { ret with data := backing })
          else some (Status.OK, { ret with data := backing })

/-- `BundleReader::LookupWithIndices`. -/
def LookupWithIndices (r : BundleReader) (env : Env) (key : String) (val : Tensor)
    (indices : List Int) : Option (Status × Tensor × BundleReader) :=
  match r.GetBundleEntryProto key with
  | none => none
  | some (st, entry, r1) =>
    if !st.ok then some (st, val, r1)
    else if entry.slices.isEmpty then
      match r1.GetValueWithIndices env entry val indices with
      | none => none
      | some (st1, val1) => some (st1, val1, r1)
    else some (errors.Unimplemented "Can not get slice value with indeces", val, r1)

end BundleReader

/-! ## Slice sets and slice copies (tensor_slice_set.h, tensor_slice_util.h) -/

def intersectAux : List (Int × Int) → List (Int × Int) → Option (List (Int × Int))
  | [], [] => some []
  | x :: xs, y :: ys =>
    if TensorSlice.isFullExtent x then (intersectAux xs ys).map (fun r => y :: r)
    else if TensorSlice.isFullExtent y then (intersectAux xs ys).map (fun r => x :: r)
    else
      let s := max x.1 y.1
      let l := min (x.1 + x.2) (y.1 + y.2) - s
      if l > 0 then (intersectAux xs ys).map (fun r => (s, l) :: r) else none
  | _, _ => none

/-- `TensorSlice::Intersect`: the common part of two slices, `none` when they have
different ranks or miss each other in some dimension. -/
def TensorSlice.Intersect (a b : TensorSlice) : Option TensorSlice :=
  (intersectAux a.extents b.extents).map TensorSlice.mk

/-- `TensorSlice::Overlaps`. -/
def TensorSlice.Overlaps (a b : TensorSlice) : Bool := (a.Intersect b).isSome

/-- `TensorSlice::ComputeRelative`: `sub` in the coordinates of the slice `base`. -/
def TensorSlice.ComputeRelative (base sub : TensorSlice) : TensorSlice :=
  ⟨List.zipWith (fun b s => if TensorSlice.isFullExtent b then s else (s.1 - b.1, s.2))
    base.extents sub.extents⟩

/-- `TensorSlice::FillIndicesAndSizes`: per dimension the first index and the number
of indices of the slice within a tensor of shape `shape`. -/
def TensorSlice.FillIndicesAndSizes (s : TensorSlice) (shape : List Nat) : List (Int × Int) :=
  List.zipWith (fun e d => if TensorSlice.isFullExtent e then (0, (d : Int)) else e)
    s.extents shape

namespace TensorSliceSet

/-- `TensorSliceSet::Register`.  The library first tests the hull of the registered
slices, which changes no outcome.  `none` is the abort of `SliceTensorShape`. -/
def Register (tss : TensorSliceSet) (slice : TensorSlice) : Option (Status × TensorSliceSet) :=
  match slice.SliceTensorShape tss.shape_ with
  | TensorSlice.ShapeResult.abort => none
  | TensorSlice.ShapeResult.error => some (errors.Internal "Mismatching ranks or extent out of bounds", tss)
  | TensorSlice.ShapeResult.ok _ =>
    if tss.slices_.any (fun x => slice.Overlaps x) then
      some (errors.Internal "Overlapping slices", tss)
    else if slice ∈ tss.slices_ then some (Status.OK, tss)
    else some (Status.OK, { tss with slices_ := tss.slices_ ++ [slice] })

/-- The loop of `QueryMeta` over the registered slices: `overlap_size` and the
slices that meet the query, `none` for a failed `SliceTensorShape`. -/
def queryLoop (shape : List Nat) (slice : TensorSlice) :
    List TensorSlice → Nat → List TensorSlice → Option (Option (Nat × List TensorSlice))
  | [], overlap_size, results => some (some (overlap_size, results))
  | x :: rest, overlap_size, results =>
    match slice.Intersect x with
    | none => queryLoop shape slice rest overlap_size results
    | some intersection =>
      match intersection.SliceTensorShape shape with
      | TensorSlice.ShapeResult.abort => none
      | TensorSlice.ShapeResult.error => some none
      | TensorSlice.ShapeResult.ok inter_shape =>
        queryLoop shape slice rest (overlap_size + inter_shape.prod) (results ++ [x])

/-- `TensorSliceSet::QueryMeta`: the stored slices that together give `slice`
(`some (some results)`), `false` (`some none`), or an abort (`none`). -/
def QueryMeta (tss : TensorSliceSet) (slice : TensorSlice) : Option (Option (List TensorSlice)) :=
  if slice ∈ tss.slices_ then some (some [slice])
  else match slice.SliceTensorShape tss.shape_ with
    | TensorSlice.ShapeResult.abort => none
    | TensorSlice.ShapeResult.error => some none
    | TensorSlice.ShapeResult.ok target_shape =>
      match queryLoop tss.shape_ slice tss.slices_ 0 [] with
      | none => none
      | some none => some none
      | some (some (overlap_size, results)) =>
        if target_shape.prod = overlap_size then some (some results) else some none

end TensorSliceSet

/-- `checkpoint::RegisterTensorSlice` with the empty tag. -/
def RegisterTensorSlice (name : String) (shape : List Nat) (type : DataType)
    (slice : TensorSlice) (tensor_slices : List (String × TensorSliceSet)) :
    Option (Status × List (String × TensorSliceSet)) :=
  match mapFind tensor_slices name with
  | none =>
    match TensorSliceSet.Register ⟨shape, type, []⟩ slice with
    | none => none
    | some (st, tss) => some (st, mapInsert tensor_slices name tss)
  | some tss =>
    if shape ≠ tss.shape_ then
      some (errors.Internal ("Incompatible tensor shapes detected for tensor " ++ name),
        tensor_slices)
    else if type ≠ tss.type_ then
      some (errors.Internal ("Incompatible tensor types detected for tensor " ++ name),
        tensor_slices)
    else match tss.Register slice with
      | none => none
      | some (st, tss1) => some (st, mapInsert tensor_slices name tss1)

/-- The offset of the element at `index` in a row-major tensor of shape `shape`. -/
def flatIndex : List Nat → List Nat → Nat
  | _ :: ds, i :: is => i * ds.prod + flatIndex ds is
  | _, _ => 0

/-- All indices of a box of the given sizes, in row-major order. -/
def boxIndices : List Nat → List (List Nat)
  | [] => [[]]
  | n :: rest => (List.range n).flatMap (fun i => (boxIndices rest).map (fun r => i :: r))

/-- The element number `k` of a buffer of elements of `width` bytes. -/
def getElem (width : Nat) (data : Bytes) (k : Nat) : Bytes :=
  (data.drop (k * width)).take width

/-- The buffer with element number `k` replaced. -/
def setElem (width : Nat) (data : Bytes) (k : Nat) (e : Bytes) : Bytes :=
  data.take (k * width) ++ e ++ data.drop (k * width + width)

/-- The slice assignment of `CopyThatWorksWithStringPointer::Copy`: the box of the
given `sizes` is copied element by element from `starts_s` in the source to
`starts_d` in the destination. -/
def copyBox (width : Nat) (shp_s shp_d starts_s starts_d sizes : List Nat) (src dst : Bytes) :
    Bytes :=
  (boxIndices sizes).foldl (fun acc j =>
    setElem width acc (flatIndex shp_d (List.zipWith (fun a b => a + b) starts_d j))
      (getElem width src (flatIndex shp_s (List.zipWith (fun a b => a + b) starts_s j)))) dst

/-- Whether the box at `starts` of the given `sizes` lies within `shape`. -/
def boxInside (shape : List Nat) (box : List (Int × Int)) : Bool :=
  decide (box.length = shape.length) &&
  (List.zipWith (fun (e : Int × Int) (d : Nat) =>
    decide (0 ≤ e.1) && decide (0 ≤ e.2) && decide (e.1 + e.2 ≤ (d : Int))) box shape).all id

/-- `kTensorSliceMaxRank`. -/
def kTensorSliceMaxRank : Nat := 8

/-- `CopyDataFromTensorSliceToTensorSlice` for elements of `width` bytes: whether the
slices intersect, and the destination buffer after the copy.  `none` is an abort:
the rank check, a failed `AddDim`, or a box that leaves one of the two buffers. -/
def CopyDataFromTensorSliceToTensorSlice (width : Nat) (shape : List Nat)
    (slice_s slice_d : TensorSlice) (src dst : Bytes) : Option (Bool × Bytes) :=
  if shape.length > kTensorSliceMaxRank then none
  else match slice_s.Intersect slice_d with
    | none => some (false, dst)
    | some inter =>
      match slice_s.SliceTensorShape shape with
      | TensorSlice.ShapeResult.abort => none
      | TensorSlice.ShapeResult.error => some (false, dst)
      | TensorSlice.ShapeResult.ok shp_s =>
        match slice_d.SliceTensorShape shape with
        | TensorSlice.ShapeResult.abort => none
        | TensorSlice.ShapeResult.error => some (false, dst)
        | TensorSlice.ShapeResult.ok shp_d =>
          let box_s := (slice_s.ComputeRelative inter).FillIndicesAndSizes shp_s
          let box_d := (slice_d.ComputeRelative inter).FillIndicesAndSizes shp_d
          if !boxInside shp_s box_s || !boxInside shp_d box_d then none
          else if src.length ≠ shp_s.prod * width ∨ dst.length ≠ shp_d.prod * width then none
          else
            some (true, copyBox width shp_s shp_d (box_s.map (fun e => e.1.toNat))
              (box_d.map (fun e => e.1.toNat)) (box_s.map (fun e => e.2.toNat)) src dst)

/-- The element types `GetSliceValue` has a `HANDLE_COPY` case for. -/
def sliceCopySupported : DataType → Bool
  | DT_FLOAT | DT_DOUBLE | DT_INT32 | DT_UINT8 | DT_INT16 | DT_INT8 | DT_COMPLEX64
  | DT_COMPLEX128 | DT_INT64 | DT_BOOL | DT_QINT32 | DT_QUINT8 | DT_QINT8 | DT_BFLOAT16 => true
  | _ => false

/-- The loop by which `GetSliceValue` registers the slices of an entry. -/
def registerSlices (name : String) (shape : List Nat) (type : DataType) :
    List TensorSliceProto → List (String × TensorSliceSet) →
    Option (Status × List (String × TensorSliceSet))
  | [], tensor_slices => some (Status.OK, tensor_slices)
  | slice :: rest, tensor_slices =>
    match RegisterTensorSlice name shape type (TensorSlice.ofProto slice) tensor_slices with
    | none => none
    | some (st, ts1) =>
      if !st.ok then some (st, ts1) else registerSlices name shape type rest ts1

namespace BundleReader

/-- The loop of `GetSliceValue` over `details`: the status returned, `*val` and the
reader. -/
def sliceLoop (env : Env) (kLittleEndian : Bool) (full_tensor_key : String)
    (full_tensor_entry : BundleEntryProto) (slice_spec : TensorSlice) :
    List TensorSlice → BundleEntryProto → Tensor → BundleReader →
    Option (Status × Tensor × BundleReader)
  | [], _, val, r => some (Status.OK, val, r)
  | stored_slice :: rest, stored_slice_entry, val, r =>
    let looked : Option (Status × BundleEntryProto × BundleReader) :=
      if !stored_slice.IsFull then
        match r.GetBundleEntryProto (EncodeTensorNameSlice full_tensor_key stored_slice) with
        | none => none
        | some (st, e, r1) => some (st, e, { r1 with status_ := st })
      else some (Status.OK, stored_slice_entry, r)
    match looked with
    | none => none
    | some (st, entry1, r1) =>
      if !st.ok then some (st, val, r1)
      else
        let stored_slice_shape := entry1.tensorShape
        let direct : Option Bool :=
          if stored_slice = slice_spec then some true
          else if stored_slice_shape ≠ val.shape then some false
          else match IsFullSlice stored_slice stored_slice_shape with
            | none => none
            | some false => some false
            | some true => IsFullSlice slice_spec stored_slice_shape
        match direct with
        | none => none
        | some true =>
          match r1.GetValue env kLittleEndian entry1 val with
          | none => none
          | some (st1, val1) => some (st1, val1, { r1 with status_ := st1 })
        | some false =>
          match r1.GetValue env kLittleEndian entry1 (Tensor.alloc entry1.dtype stored_slice_shape) with
          | none => none
          | some (st1, stored_slice_tensor) =>
            let r2 := { r1 with status_ := st1 }
            if !st1.ok then some (st1, val, r2)
            else
              let common_dtype := full_tensor_entry.dtype
              if !sliceCopySupported common_dtype then
                some (errors.InvalidArgument
                  ("Dtype " ++ DataTypeString common_dtype ++ " not supported."), val, r2)
              else if stored_slice_tensor.dtype ≠ common_dtype ∨ val.dtype ≠ common_dtype then none
              else
                match CopyDataFromTensorSliceToTensorSlice (DataTypeSize common_dtype)
                    full_tensor_entry.tensorShape stored_slice slice_spec
                    stored_slice_tensor.data val.data with
                | none => none
                | some (false, _) => none
                | some (true, data1) =>
                  sliceLoop env kLittleEndian full_tensor_key full_tensor_entry slice_spec
                    rest entry1 { val with data := data1 } r2

/-- `BundleReader::GetSliceValue`. -/
def GetSliceValue (r : BundleReader) (env : Env) (kLittleEndian : Bool) (full_tensor_key : String)
    (full_tensor_entry : BundleEntryProto) (slice_spec : TensorSlice) (val : Tensor) :
    Option (Status × Tensor × BundleReader) :=
  let full_shape := full_tensor_entry.tensorShape
  let populated : Option (Status × List (String × TensorSliceSet)) :=
    match mapFind r.tensor_slices_ full_tensor_key with
    | some _ => some (Status.OK, r.tensor_slices_)
    | none =>
      let first : Option (Status × List (String × TensorSliceSet)) :=
        if full_tensor_entry.slices.isEmpty then
          RegisterTensorSlice full_tensor_key full_shape full_tensor_entry.dtype
            (TensorSlice.full full_shape.length) r.tensor_slices_
        else some (Status.OK, r.tensor_slices_)
      match first with
      | none => none
      | some (st, ts1) =>
        if !st.ok then some (st, ts1)
        else registerSlices full_tensor_key full_shape full_tensor_entry.dtype
          full_tensor_entry.slices ts1
  match populated with
  | none => none
  | some (st, ts1) =>
    let r1 := { r with tensor_slices_ := ts1 }
    if !st.ok then some (st, val, r1)
    else match mapFind ts1 full_tensor_key with
      | none => none
      | some tss =>
        match tss.QueryMeta slice_spec with
        | none => none
        | some none =>
          some (errors.InvalidArgument
            ("Does not have sufficient slices for partitioned tensor " ++ full_tensor_key ++
             " to restore in slice_spec: " ++ slice_spec.DebugString), val, r1)
        | some (some details) =>
          sliceLoop env kLittleEndian full_tensor_key full_tensor_entry slice_spec details
            full_tensor_entry val r1

/-- `BundleReader::Lookup`. -/
def Lookup (r : BundleReader) (env : Env) (kLittleEndian : Bool) (key : String) (val : Tensor) :
    Option (Status × Tensor × BundleReader) :=
  match r.GetBundleEntryProto key with
  | none => none
  | some (st, entry, r1) =>
    if !st.ok then some (st, val, r1)
    else if entry.slices.isEmpty then
      match r1.GetValue env kLittleEndian entry val with
      | none => none
      | some (st1, val1) => some (st1, val1, r1)
    else
      r1.GetSliceValue env kLittleEndian key entry (TensorSlice.full entry.tensorShape.length) val

/-- `BundleReader::LookupSlice`. -/
def LookupSlice (r : BundleReader) (env : Env) (kLittleEndian : Bool) (full_tensor_key : String)
    (slice_spec : TensorSlice) (val : Tensor) : Option (Status × Tensor × BundleReader) :=
  match r.GetBundleEntryProto full_tensor_key with
  | none => none
  | some (st, entry, r1) =>
    if !st.ok then some (st, val, r1)
    else r1.GetSliceValue env kLittleEndian full_tensor_key entry slice_spec val

end BundleReader

/-! ## Merging bundles -/

/-- `MergeState`: the accumulator of a merge.  `shard_ids` lists the data file paths
in the order they were first seen, each with its new shard id. -/
structure MergeState where
  num_shards : Nat := 0
  seen_first_bundle : Bool := false
  endianness : Endianness := Endianness.LITTLE
  version : VersionDef := {}
  entries : List (String × BundleEntryProto) := []
  shard_ids : List (String × Nat) := []
  deriving DecidableEq, Repr

/-- The loop of `MergeOneBundle` over the rows after the header. -/
def mergeEntries (pfx : String) (num_shards : Nat) :
    List (String × TableValue) → MergeState → Option (Status × MergeState)
  | [], merge_state => some (Status.OK, merge_state)
  | (key, value) :: rest, merge_state =>
    match mapFind merge_state.entries key with
    | some existing_entry =>
      if existing_entry.slices.isEmpty then
        some (errors.InvalidArgument ("Duplicate tensor keyed by " ++ key ++
          " encountered, when merging prefix: " ++ pfx), merge_state)
      else
        let (st, to_merge_entry) := ParseEntryProto key value
        if !st.ok then some (st, merge_state)
        else if to_merge_entry.slices.isEmpty then
          some (errors.Internal ("Duplicate tensor keyed by " ++ key ++
            "; attempting to merge in a non-slice bundle entry"), merge_state)
        else if existing_entry.dtype ≠ to_merge_entry.dtype then none
        else if existing_entry.tensorShape ≠ to_merge_entry.tensorShape then none
        else
          let merged := { existing_entry with
            slices := existing_entry.slices ++ to_merge_entry.slices }
          mergeEntries pfx num_shards rest
            { merge_state with entries := mapInsert merge_state.entries key merged }
    | none =>
      let (st, to_merge_entry) := ParseEntryProto key value
      if !st.ok then some (st, merge_state)
      else
        let path := DataFilename pfx to_merge_entry.shard_id num_shards
        let shard_ids1 :=
          match mapFind merge_state.shard_ids path with
          | some _ => merge_state.shard_ids
          | none => merge_state.shard_ids ++ [(path, merge_state.shard_ids.length)]
        let new_id := (mapFind shard_ids1 path).getD 0
        let renumbered := { to_merge_entry with shard_id := new_id }
        mergeEntries pfx num_shards rest
          { merge_state with
            shard_ids := shard_ids1,
            entries := mapInsert merge_state.entries key renumbered }

/-- The header block of `MergeOneBundle`: adds the shard count and takes, or checks,
the byte order and the version. -/
def mergeHeader (header : BundleHeaderProto) (merge_state : MergeState) : Status × MergeState :=
  let ms1 := { merge_state with num_shards := merge_state.num_shards + header.num_shards }
  if !ms1.seen_first_bundle then
    (Status.OK, { ms1 with seen_first_bundle := true, endianness := header.endianness,
                           version := header.version })
  else if ms1.endianness ≠ header.endianness then
    (errors.InvalidArgument "Merging bundles with conflicting endianness; inputs corrupted?", ms1)
  else if header.version ≠ ms1.version then
    (errors.InvalidArgument "Merging bundles with different format versions", ms1)
  else (Status.OK, ms1)

/-- `MergeOneBundle`. -/
def MergeOneBundle (env : Env) (pfx : String) (merge_state : MergeState) :
    Option (Status × MergeState) :=
  let filename := MetaFilename pfx
  let (st, _) := env.GetFileSize filename
  if !st.ok then some (st, merge_state)
  else
    let (st1, _) := env.NewRandomAccessFile filename
    if !st1.ok then some (st1, merge_state)
    else
      let (st2, rows) := env.OpenTable filename
      if !st2.ok then some (st2, merge_state)
      else
        let pos := seekRows rows kHeaderEntryKey
        match rows.get? pos with
        | none =>
          some (CorruptFileError Status.OK filename "failed to seek to header entry", merge_state)
        | some (key, value) =>
          let (st3, header) := ParseHeaderProto key value
          if !st3.ok then
            some (CorruptFileError st3 filename "unable to parse header", merge_state)
          else
            let checked := mergeHeader header merge_state
            if !checked.1.ok then some checked
            else mergeEntries pfx header.num_shards (rows.drop (pos + 1)) checked.2

/-- The loop of `MergeBundles` over the input prefixes. -/
def mergeAll (env : Env) : List String → MergeState → Option (Status × MergeState)
  | [], merge => some (Status.OK, merge)
  | pfx :: rest, merge =>
    match MergeOneBundle env pfx merge with
    | none => none
    | some (st, merge1) => if !st.ok then some (st, merge1) else mergeAll env rest merge1

/-! ## Concrete bundles

Small inputs on which the theorems below are evaluated. -/

/-- A 2x2 tensor of `int16`. -/
def exTensorA : Tensor := ⟨DT_INT16, [2, 2], [1, 2, 3, 4, 5, 6, 7, 8], []⟩

/-- A fresh writer on the prefix `dir/ckpt` in an empty file system without faults. -/
def exFresh : BundleWriter × Env := BundleWriter.create {} "dir/ckpt" 1 11 22

/-- The writer and the environment of a result, `exFresh` for an abort. -/
def exState (res : Option (Status × BundleWriter × Env)) : BundleWriter × Env :=
  match res with
  | some (_, w, env) => (w, env)
  | none => exFresh

/-- The writer after `Add("a", exTensorA)`. -/
def exAdded : BundleWriter × Env := exState (exFresh.1.Add exFresh.2 true "a" exTensorA)

/-- The writer after a second `Add("a", exTensorA)`, which fails. -/
def exFailed : BundleWriter × Env := exState (exAdded.1.Add exAdded.2 true "a" exTensorA)

/-- The writer after `Add("a", exTensorA)` and `Finish()`. -/
def exFinished : BundleWriter × Env :=
  ((exAdded.1.Finish exAdded.2 true).2.1, (exAdded.1.Finish exAdded.2 true).2.2)

/-- The environment after a writer on `pfx` has added row `row` of the 2x2 tensor "t"
as a slice, and plain tensor `key`, and has finished. -/
def exWriteBundle (env : Env) (pfx : String) (row : Int) (key : String) : Env :=
  let (w, env1) := BundleWriter.create env pfx 1 11 22
  let (w2, env2) := exState (w.AddSlice env1 true "t" [2, 2] ⟨[(row, 1), (0, kFullExtent)]⟩
    ⟨DT_INT16, [1, 2], [1, 2, 3, 4], []⟩)
  let (w3, env3) := exState (w2.Add env2 true key exTensorA)
  (w3.Finish env3 true).2.2

/-- Two bundles: `dir/a` holds row 0 of "t" and the tensor "x", `dir/b` holds row 1 of
"t" and the tensor "y". -/
def exTwoBundles : Env := exWriteBundle (exWriteBundle {} "dir/a" 0 "x") "dir/b" 1 "y"

/-- Two bundles that both hold a tensor "x". -/
def exClashingBundles : Env := exWriteBundle (exWriteBundle {} "dir/a" 0 "x") "dir/b" 1 "x"

/-- The state of a merge result, the empty state for an abort. -/
def exMergeState (res : Option (Status × MergeState)) : MergeState :=
  match res with
  | some (_, ms) => ms
  | none => {}

/-- The merge state after `dir/a` of `exTwoBundles` has been merged. -/
def exMergedA : MergeState := exMergeState (MergeOneBundle exTwoBundles "dir/a" {})

/-- The rows of the metadata table of `dir/b` in `exTwoBundles`. -/
def exRowsB : List (String × TableValue) := (exTwoBundles.OpenTable (MetaFilename "dir/b")).2

/-- The entry of "t" in the table of `dir/b`: one slice, row 1. -/
def exEntryTB : BundleEntryProto :=
  match mapFind exRowsB "t" with
  | some (TableValue.entry e) => e
  | _ => {}

/-- The entry of "t" accumulated from `dir/a`: one slice, row 0. -/
def exEntryTA : BundleEntryProto := (mapFind exMergedA.entries "t").getD {}

/-- The merge state after `dir/a` and `dir/b` of `exTwoBundles`. -/
def exMergedAB : MergeState := exMergeState (MergeOneBundle exTwoBundles "dir/b" exMergedA)

/-! ## Predicates used in the theorems -/

/-- The entry of `key` in the merge state carries slices only if `e1` does: the trace
a row `(key, e1)` leaves in the states that follow it. -/
def slicesTraceBack (key : String) (e1 : BundleEntryProto) (ms : MergeState) : Prop :=
  ∃ x, mapFind ms.entries key = some x ∧ (x.slices ≠ [] → e1.slices ≠ [])

/-- The prefix of a data file name, read back from the reversed name: the digits of
the shard count, "-of-", the digits of the shard id and ".data-" are dropped. -/
def stripDataSuffix (t : List Char) : List Char :=
  (((t.dropWhile Char.isDigit).drop 4).dropWhile Char.isDigit).drop 6

/-- The renumbering map gives its paths the ids 0, 1, ... in the order of the list,
and no path twice. -/
def shardIdsWF (ids : List (String × Nat)) : Prop :=
  ids.map Prod.snd = List.range ids.length ∧ (ids.map Prod.fst).Nodup

/-- The entry `e` of `key` was read from a bundle of `prefixes` and carries the new id
of the data file it names there: some bundle `p` has a row `(key, e0)` after its
header `h0`, and the renumbering map sends
`DataFilename(p, e0.shard_id, h0.num_shards)` to `e.shard_id`. -/
def entrySource (env : Env) (prefixes : List String) (ids : List (String × Nat))
    (key : String) (e : BundleEntryProto) : Prop :=
  ∃ p ∈ prefixes, ∃ k0 h0 rows e0,
    env.OpenTable (MetaFilename p) = (Status.OK, (k0, TableValue.header h0) :: rows) ∧
    (key, TableValue.entry e0) ∈ rows ∧
    mapFind ids (DataFilename p e0.shard_id h0.num_shards) = some e.shard_id

/-- The invariant of the merge loop over the bundles `prefixes`. -/
def mergeInv (env : Env) (prefixes : List String) (ms : MergeState) : Prop :=
  shardIdsWF ms.shard_ids ∧
  (∀ key e, mapFind ms.entries key = some e → entrySource env prefixes ms.shard_ids key e) ∧
  (∀ path id, (path, id) ∈ ms.shard_ids →
    ∃ key e, mapFind ms.entries key = some e ∧ e.shard_id = id)

/-- The temporary paths of a writer are the final names followed by ".tempstate" and a
random number, as the constructor builds them, and the output buffer writes to the
temporary data file. -/
def BundleWriter.pathsWF (w : BundleWriter) : Prop :=
  (∃ rand_meta rand_data,
    w.tmp_metadata_path_ = MetaFilename w.prefix_ ++ ".tempstate" ++ Nat.repr rand_meta ∧
    w.tmp_data_path_ = DataFilename w.prefix_ 0 1 ++ ".tempstate" ++ Nat.repr rand_data) ∧
  ∀ out, w.out_ = some out → out.file_ = w.tmp_data_path_

/-- From `env` to `env1` the trace grew by file systems that have no file at `path`,
and `env1` has none if `env` had none. -/
def quietAt (path : String) (env env1 : Env) : Prop :=
  ∃ states, env1.trace = env.trace ++ states ∧
    (fsFind env.files path = none →
      (∀ fs ∈ states, fsFind fs path = none) ∧ fsFind env1.files path = none)

/-! ## The data file of a writer -/

/-- The bytes of the file the buffer writes to, followed by the bytes the buffer still
holds: what the file holds once the buffer is flushed. -/
def FileOutputBuffer.content (b : FileOutputBuffer) (env : Env) : Option Bytes :=
  match fsFind env.files b.file_ with
  | some (FileData.bytes fb) => some (fb ++ b.buffer_)
  | _ => none

/-- The bytes `WriteStringTensor` appends for the elements `strings`: the varint
lengths, the masked checksum of the lengths, the bytes of the elements. -/
def stringPayload (kLittleEndian : Bool) (strings : List Bytes) : Bytes :=
  stringLengthsVarint strings ++
    memInt kLittleEndian 4 (crc32c.Mask (stringLengthsCrc kLittleEndian 0 strings)) ++
    strings.flatten

/-- The checksum `WriteStringTensor` leaves in `*crc32c`. -/
def stringCrc (kLittleEndian : Bool) (strings : List Bytes) : Nat :=
  crc32c.Extend
    (crc32c.Extend (stringLengthsCrc kLittleEndian 0 strings)
      (memInt kLittleEndian 4 (crc32c.Mask (stringLengthsCrc kLittleEndian 0 strings))))
    strings.flatten

/-- The bytes `WriteVariantTensor` appends for the serialised elements, from a running
checksum on: per element its varint length, its bytes and the masked running
checksum. -/
def variantPayload (kLittleEndian : Bool) : Nat → List Bytes → Bytes
  | _, [] => []
  | crc, elem :: rest =>
    let crc2 := crc32c.Extend (crc32c.Extend crc (memInt kLittleEndian 8 elem.length)) elem
    let sum := memInt kLittleEndian 4 (crc32c.Mask crc2)
    PutVarint64 elem.length ++ elem ++ sum ++
      variantPayload kLittleEndian (crc32c.Extend crc2 sum) rest

/-- The checksum `WriteVariantTensor` leaves in `*crc32c`. -/
def variantCrc (kLittleEndian : Bool) : Nat → List Bytes → Nat
  | crc, [] => crc
  | crc, elem :: rest =>
    let crc2 := crc32c.Extend (crc32c.Extend crc (memInt kLittleEndian 8 elem.length)) elem
    let sum := memInt kLittleEndian 4 (crc32c.Mask crc2)
    variantCrc kLittleEndian (crc32c.Extend crc2 sum) rest

/-- The bytes `Add` appends for a tensor, before the padding. -/
def tensorPayload (kLittleEndian : Bool) (val : Tensor) : Bytes :=
  if val.dtype = DT_STRING then stringPayload kLittleEndian val.strings
  else if val.dtype = DT_VARIANT then variantPayload kLittleEndian 0 val.strings
  else val.data

/-- The checksum `Add` stores, masked, in the entry of a tensor. -/
def tensorCrc (kLittleEndian : Bool) (val : Tensor) : Nat :=
  if val.dtype = DT_STRING then stringCrc kLittleEndian val.strings
  else if val.dtype = DT_VARIANT then variantCrc kLittleEndian 0 val.strings
  else crc32c.Value val.data

/-- The entry `Add` records for a tensor written at `offset`. -/
def tensorEntry (kLittleEndian : Bool) (val : Tensor) (offset : Nat) : BundleEntryProto :=
  { dtype := val.dtype, shape := some val.shape, shard_id := 0, offset := offset,
    size := (tensorPayload kLittleEndian val).length,
    crc32c := crc32c.Mask (tensorCrc kLittleEndian val) }

/-- The invariant of a writer between calls of `Add`: the temporary paths are the ones
of the constructor, the catalog is in key order without the header key, the output
buffer is open on an existing data file, and `size_` is the number of bytes written
to it so far. -/
def BundleWriter.Inv (w : BundleWriter) (env : Env) : Prop :=
  w.pathsWF ∧ mapSorted w.entries_ ∧ mapFind w.entries_ kHeaderEntryKey = none ∧
  ∃ out c, w.out_ = some out ∧ out.content env = some c ∧ w.size_ = c.length


/-- A destination that `Lookup` can fill with `val`: one without elements, which
`GetValue` replaces by a fresh tensor, or one of the dtype and shape of `val` whose
elements, for strings, are together no longer than those of `val`. -/
def Tensor.destinationFor (dest val : Tensor) : Prop :=
  dest.NumElements = 0 ∨
  (dest.WF ∧ dest.dtype = val.dtype ∧ dest.shape = val.shape ∧
    (val.dtype = DT_STRING → dest.stringBytes ≤ val.stringBytes))

instance (dest val : Tensor) : Decidable (dest.destinationFor val) := by
  unfold Tensor.destinationFor; infer_instance


/-! ## Altering one byte of a file -/

/-- The byte at `pos` of the file `path`. -/
def Env.byteAt (env : Env) (path : String) (pos : Nat) : Option UInt8 :=
  match fsFind env.files path with
  | some (FileData.bytes fb) => fb.get? pos
  | _ => none

/-- The environment in which the byte at `pos` of the file `path` has been changed to
`b`. -/
def Env.withByte (env : Env) (path : String) (pos : Nat) (b : UInt8) : Env :=
  match fsFind env.files path with
  | some (FileData.bytes fb) =>
    { env with files := fsSet env.files path (FileData.bytes (fb.set pos b)) }
  | _ => env

/-- One of the three append calls of `FileOutputBuffer`, with its argument. -/
inductive BufferCall
  | Append (data : Bytes)
  | AppendSegment (data : Bytes)
  | AppendChunk (data : Bytes)
  deriving DecidableEq, Repr

/-- The bytes handed to the call. -/
def BufferCall.data : BufferCall → Bytes
  | BufferCall.Append d => d
  | BufferCall.AppendSegment d => d
  | BufferCall.AppendChunk d => d

/-- The call made on the buffer. -/
def FileOutputBuffer.call (b : FileOutputBuffer) (env : Env) :
    BufferCall → Option (Status × FileOutputBuffer × Env)
  | BufferCall.Append d => b.Append env d
  | BufferCall.AppendSegment d => b.AppendSegment env d
  | BufferCall.AppendChunk d => b.AppendChunk env d

/-- A caller that makes the calls one after the other and stops at the first that does
not return OK. -/
def FileOutputBuffer.calls (b : FileOutputBuffer) (env : Env) :
    List BufferCall → Option (Status × FileOutputBuffer × Env)
  | [] => some (Status.OK, b, env)
  | c :: rest =>
    match b.call env c with
    | none => none
    | some (st, b1, env1) => if !st.ok then some (st, b1, env1) else calls b1 env1 rest

/-- A buffer of capacity 4 on the empty file "f", and the environment holding the
file. -/
def exBuffer : FileOutputBuffer × Env :=
  ({ file_ := "f", buffer_size_ := 4 }, { files := [("f", FileData.bytes [])] })


/-- Calls of the three kinds, with data below, equal to and above the capacity of
`exBuffer`. -/
def exCalls : List BufferCall :=
  [BufferCall.Append [1, 2, 3], BufferCall.Append [4, 5, 6, 7, 8, 9],
    BufferCall.AppendSegment [1], BufferCall.AppendChunk [2, 3], BufferCall.Append [1, 2, 3, 4]]

/-- The outcome of a sequence of calls on `exBuffer` after `clear_crc32c`, the buffer
itself for an abort. -/
def exCallsOn (cs : List BufferCall) : Status × FileOutputBuffer × Env :=
  (exBuffer.1.clear_crc32c.calls exBuffer.2 cs).getD (Status.OK, exBuffer.1, exBuffer.2)


/-- A string tensor with the two elements "A" and "BC". -/
def exTensorS2 : Tensor := ⟨DT_STRING, [2], [], [[65], [66, 67]]⟩

/-- The outcome of `WriteStringTensor` for `exTensorS2` on `exBuffer`. -/
def exWriteS2 : Status × FileOutputBuffer × Env × Nat × Nat :=
  (WriteStringTensor true exTensorS2 exBuffer.1 exBuffer.2).getD
    (Status.OK, exBuffer.1, exBuffer.2, 0, 0)


/-- The writer after `BeginWriteChunkData("k1", DT_INT16, [2, 2])` on a fresh
writer. -/
def exChunkOpen : BundleWriter × Env :=
  exState (exFresh.1.BeginWriteChunkData exFresh.2 "k1" DT_INT16 [2, 2])


/-! ## Variant tensors and the libraries of the process -/

/-- A variant tensor with one element, whose serialised bytes 10 1 97 are the message
with the type name "a" and no other field. -/
def exTensorV : Tensor := ⟨DT_VARIANT, [1], [], [[10, 1, 97]]⟩

/-- An environment in which the libraries parse those bytes and have no decoder for the
type name "a". -/
def exNoDecoder : Env :=
  { variants := { table := [([10, 1, 97], VariantDecoding.undecodable "a")] } }

/-- A fresh writer on `dir/ckpt` in `exNoDecoder`. -/
def exFreshV : BundleWriter × Env := BundleWriter.create exNoDecoder "dir/ckpt" 1 11 22

/-- The writer after `Add("v", exTensorV)` on `exFreshV`. -/
def exAddedV : BundleWriter × Env := exState (exFreshV.1.Add exFreshV.2 true "v" exTensorV)

/-- The environment after `Add("v", exTensorV)` and `Finish()` in `exNoDecoder`. -/
def exVariantBundle : Env := (exAddedV.1.Finish exAddedV.2 true).2.2

/-- An environment in which the libraries accept every serialised variant but the bytes
10 1 98, the message with the type name "b": they parse it and have no decoder for
"b". -/
def exDecoderA : Env :=
  { variants := { table := [([10, 1, 98], VariantDecoding.undecodable "b")] } }

/-- A fresh writer on `dir/ckpt` in `exDecoderA`. -/
def exFreshVA : BundleWriter × Env := BundleWriter.create exDecoderA "dir/ckpt" 1 11 22

/-- The writer after `Add("v", exTensorV)` on `exFreshVA`. -/
def exAddedVA : BundleWriter × Env :=
  exState (exFreshVA.1.Add exFreshVA.2 true "v" exTensorV)

end tfplus

namespace tfplus

open DataType

/-! ## Callers of the chunked write -/

/-- A caller that hands the chunks to `WriteChunkData` one after the other and stops at
the first call that does not return OK. -/
def BundleWriter.writeChunks (w : BundleWriter) (env : Env) :
    List Bytes → Option (Status × BundleWriter × Env)
  | [] => some (Status.OK, w, env)
  | c :: rest =>
    match w.WriteChunkData env c with
    | none => none
    | some (st, w1, env1) => if !st.ok then some (st, w1, env1) else writeChunks w1 env1 rest

/-- A caller that writes a value in chunks: `BeginWriteChunkData(key, dtype, shape)`,
`WriteChunkData` for each chunk, then `EndWriteChunkData` with the sum of the chunk
lengths and the length of the last chunk.  It stops at the first call that does not
return OK. -/
def BundleWriter.chunkedWrite (w : BundleWriter) (env : Env) (key : String) (dtype : DataType)
    (shape : List Nat) (chunks : List Bytes) : Option (Status × BundleWriter × Env) :=
  match w.BeginWriteChunkData env key dtype shape with
  | none => none
  | some (st, w1, env1) =>
    if !st.ok then some (st, w1, env1)
    else match w1.writeChunks env1 chunks with
      | none => none
      | some (st2, w2, env2) =>
        if !st2.ok then some (st2, w2, env2)
        else match w2.EndWriteChunkData chunks.flatten.length
            ((chunks.getLast?.map List.length).getD 0) with
          | none => none
          | some w3 => some (Status.OK, w3, env2)

/-- The bytes of `exTensorA` in three chunks. -/
def exChunksA : List Bytes := [[1, 2, 3], [4, 5, 6], [7, 8]]

/-! ## File systems in which a step of `Finish` fails -/

/-- The file system of `exAdded` with a script in which the flush of the data buffer
goes through and the close of the data file fails. -/
def exCloseFails : Env :=
  { exAdded.2 with faults := [Status.OK, errors.Internal "close failed"] }

/-- The file system of `exAdded` with a script in which the flush and the close of the
data file go through and the rename of the data file fails. -/
def exRenameFails : Env :=
  { exAdded.2 with faults := [Status.OK, Status.OK, errors.Internal "rename failed"] }

/-! ## A slice header under the header key -/

/-- The writer after `AddSliceHeader("", [4], DT_FLOAT, false, &proto)` on a fresh
writer, the caller leaving the slice message empty. -/
def exSliceHeaderEmptyKey : BundleWriter × Env :=
  exState (exFresh.1.AddSliceHeader exFresh.2 "" [4] DT_FLOAT false {})

/-! ## Sequences of complete writes -/

/-- A caller that hands the segments to `AppendSegmentData` one after the other and
stops at the first call that does not return OK. -/
def BundleWriter.writeSegments (w : BundleWriter) (env : Env) :
    List Bytes → Option (Status × BundleWriter × Env)
  | [] => some (Status.OK, w, env)
  | c :: rest =>
    match w.AppendSegmentData env c with
    | none => none
    | some (st, w1, env1) => if !st.ok then some (st, w1, env1) else writeSegments w1 env1 rest

/-- A caller that writes a value in one piece through the segment interface:
`AddTensorHeader(key, dtype, shape)`, then `AddCompeleteData(content)`. -/
def BundleWriter.completeWrite (w : BundleWriter) (env : Env) (key : String) (dtype : DataType)
    (shape : List Nat) (content : Bytes) : Option (Status × BundleWriter × Env) :=
  match w.AddTensorHeaderShape env key dtype shape with
  | none => none
  | some (st, w1, env1) =>
    if !st.ok then some (st, w1, env1) else w1.AddCompeleteData env1 content

/-- A caller that writes a value in segments: `AddTensorHeader(key, dtype, shape)`,
`AppendSegmentData` for each segment, then `EndSegmentData` with the sum of the segment
lengths and the length of the last segment.  It stops at the first call that does not
return OK. -/
def BundleWriter.segmentWrite (w : BundleWriter) (env : Env) (key : String) (dtype : DataType)
    (shape : List Nat) (segs : List Bytes) : Option (Status × BundleWriter × Env) :=
  match w.AddTensorHeaderShape env key dtype shape with
  | none => none
  | some (st, w1, env1) =>
    if !st.ok then some (st, w1, env1)
    else match w1.writeSegments env1 segs with
      | none => none
      | some (st2, w2, env2) =>
        if !st2.ok then some (st2, w2, env2)
        else match w2.EndSegmentData segs.flatten.length
            ((segs.getLast?.map List.length).getD 0) with
          | none => none
          | some w3 => some (Status.OK, w3, env2)

/-- A complete write of one value: `Add`, `AddSlice`, or one of the callers
`completeWrite`, `segmentWrite` and `chunkedWrite`. -/
inductive WriteOp
  | Add (key : String) (val : Tensor)
  | AddSlice (full_tensor_key : String) (full_tensor_shape : List Nat)
      (slice_spec : TensorSlice) (slice_tensor : Tensor)
  | complete (key : String) (dtype : DataType) (shape : List Nat) (content : Bytes)
  | segments (key : String) (dtype : DataType) (shape : List Nat) (segs : List Bytes)
  | chunks (key : String) (dtype : DataType) (shape : List Nat) (chunks : List Bytes)

/-- The key of the entry under which the write stores its payload: the key given, or
for a slice that is not the full tensor the encoded slice name. -/
def WriteOp.payloadKey : WriteOp → String
  | WriteOp.Add key _ => key
  | WriteOp.AddSlice key shape slice _ =>
    if IsFullSlice slice shape = some true then key else EncodeTensorNameSlice key slice
  | WriteOp.complete key _ _ _ => key
  | WriteOp.segments key _ _ _ => key
  | WriteOp.chunks key _ _ _ => key

/-- The tensor of the write, if it has one, is well-formed. -/
def WriteOp.WF : WriteOp → Prop
  | WriteOp.Add _ val => val.WF
  | WriteOp.AddSlice _ _ _ val => val.WF
  | _ => True

instance (op : WriteOp) : Decidable op.WF := by
  cases op <;> unfold WriteOp.WF <;> infer_instance

/-- The write made on the writer. -/
def BundleWriter.write (w : BundleWriter) (env : Env) (kLittleEndian : Bool) :
    WriteOp → Option (Status × BundleWriter × Env)
  | WriteOp.Add key val => w.Add env kLittleEndian key val
  | WriteOp.AddSlice key shape slice val => w.AddSlice env kLittleEndian key shape slice val
  | WriteOp.complete key dtype shape content => w.completeWrite env key dtype shape content
  | WriteOp.segments key dtype shape segs => w.segmentWrite env key dtype shape segs
  | WriteOp.chunks key dtype shape chunks => w.chunkedWrite env key dtype shape chunks

/-- A caller that makes the writes one after the other and stops at the first that does
not return OK. -/
def BundleWriter.writes (w : BundleWriter) (env : Env) (kLittleEndian : Bool) :
    List WriteOp → Option (Status × BundleWriter × Env)
  | [] => some (Status.OK, w, env)
  | op :: rest =>
    match w.write env kLittleEndian op with
    | none => none
    | some (st, w1, env1) =>
      if !st.ok then some (st, w1, env1) else writes w1 env1 kLittleEndian rest

/-- The payload entries of the keys `log`, in the order they were written: every one
is in the catalog and ends at or before `size_`, and every one ends at or before the
offset of each later one. -/
def BundleWriter.payloadInv (w : BundleWriter) (log : List String) : Prop :=
  (∀ k ∈ log, ∃ e, mapFind w.entries_ k = some e ∧ e.offset + e.size ≤ w.size_) ∧
  log.Pairwise (fun a b => ∃ ea eb, mapFind w.entries_ a = some ea ∧
    mapFind w.entries_ b = some eb ∧ ea.offset + ea.size ≤ eb.offset)

/-- Five complete writes, one of each kind; the slice is the first two of four
elements. -/
def exWrites : List WriteOp :=
  [WriteOp.Add "a" exTensorA,
    WriteOp.AddSlice "b" [4] (TensorSlice.mk [(0, 2)]) (Tensor.mk DT_INT16 [2] [1, 2, 3, 4] []),
    WriteOp.complete "c" DT_INT16 [1] [9, 9],
    WriteOp.segments "d" DT_INT16 [2] [[1], [2, 3, 4]],
    WriteOp.chunks "e" DT_INT16 [2] [[5, 6, 7], [8]]]

/-- The writer after `exWrites` on a fresh writer. -/
def exWritten : BundleWriter × Env := exState (exFresh.1.writes exFresh.2 true exWrites)

/-- The writer after `Add("a", exTensorA)` and `Add("c", exTensorA)` on a fresh
writer. -/
def exAddedAC : BundleWriter × Env := exState (exAdded.1.Add exAdded.2 true "c" exTensorA)

/-- The writer after `AddSlice("b", [4], slice, tensor)` on `exAddedAC`, the slice the
first two of four elements. -/
def exSlicedB : BundleWriter × Env :=
  exState (exAddedAC.1.AddSlice exAddedAC.2 true "b" [4] (TensorSlice.mk [(0, 2)])
    (Tensor.mk DT_INT16 [2] [1, 2, 3, 4] []))

/-! ## A bundle read on a host of the other byte order -/

/-- A reader, on a big-endian host, of the bundle of `exFinished`, which was written on
a little-endian host. -/
def exReaderBig : BundleReader := BundleReader.create exFinished.2 "dir/ckpt" false

/-- A reader of that bundle on a little-endian host. -/
def exReaderLittle : BundleReader := BundleReader.create exFinished.2 "dir/ckpt" true

/-- An output of one row of two `int16`, zeroed. -/
def exRowOut : Tensor := ⟨DT_INT16, [1, 2], [0, 0, 0, 0], []⟩

end tfplus

namespace tfplus

open DataType

/-! ## The indices of a slice -/

/-- The first index of an extent: 0 for a full dimension. -/
def extentStart (e : Int × Int) : Nat := if TensorSlice.isFullExtent e then 0 else e.1.toNat

/-- The number of indices of an extent in a dimension of size `d`: `d` for a full
dimension. -/
def extentLength (e : Int × Int) (d : Nat) : Nat :=
  if TensorSlice.isFullExtent e then d else e.2.toNat

/-- Whether the index vector `p` lies in the extents, dimension by dimension. -/
def inExtents : List (Int × Int) → List Nat → List Nat → Bool
  | [], [], [] => true
  | e :: es, d :: ds, i :: is =>
    decide (extentStart e ≤ i) && decide (i < extentStart e + extentLength e d) &&
      inExtents es ds is
  | _, _, _ => false

/-- Whether the extents are those of a slice of a tensor of shape `shape`: every
dimension is full, or has a start that is not negative, a positive length and ends
within the dimension. -/
def validExtents : List (Int × Int) → List Nat → Bool
  | [], [] => true
  | e :: es, d :: ds =>
    (TensorSlice.isFullExtent e ||
      (decide (0 ≤ e.1) && decide (0 < e.2) && decide (e.1 + e.2 ≤ (d : Int)))) &&
      validExtents es ds
  | _, _ => false

/-- Whether the element at index `p` of a tensor of shape `shape` belongs to the
slice. -/
def TensorSlice.contains (s : TensorSlice) (shape p : List Nat) : Bool :=
  inExtents s.extents shape p

/-- Whether `s` is a slice of a tensor of shape `shape`. -/
def TensorSlice.validFor (s : TensorSlice) (shape : List Nat) : Bool :=
  validExtents s.extents shape

/-- The shape of the slice of a tensor of shape `shape`. -/
def TensorSlice.shapeIn (s : TensorSlice) (shape : List Nat) : List Nat :=
  List.zipWith extentLength s.extents shape

/-- The index, within the tensor that holds the slice, of the element that has the
index `p` in the full tensor. -/
def TensorSlice.relative (s : TensorSlice) (p : List Nat) : List Nat :=
  List.zipWith (fun i e => i - extentStart e) p s.extents

/-- The element at index `p` of the full tensor, read from the row-major buffer `data`
of the slice `s`; elements are `width` bytes. -/
def sliceElem (width : Nat) (s : TensorSlice) (shape : List Nat) (data : Bytes)
    (p : List Nat) : Bytes :=
  getElem width data (flatIndex (s.shapeIn shape) (s.relative p))

/-- The indices of the extents, in row-major order. -/
def extentsPoints : List (Int × Int) → List Nat → List (List Nat)
  | [], [] => [[]]
  | e :: es, d :: ds =>
    (List.range (extentLength e d)).flatMap (fun j =>
      (extentsPoints es ds).map (fun t => (extentStart e + j) :: t))
  | _, _ => []

/-- Dimension by dimension, the indices of the extents `t` are indices of the extents
`b`, which lie within the dimension. -/
def subExtents : List (Int × Int) → List (Int × Int) → List Nat → Prop
  | [], [], [] => True
  | t :: ts, b :: bs, d :: ds =>
    extentStart b ≤ extentStart t ∧
    extentStart t + extentLength t d ≤ extentStart b + extentLength b d ∧
    extentStart b + extentLength b d ≤ d ∧ subExtents ts bs ds
  | _, _, _ => False

/-- The reader `r`, whose table has the rows `rows`, can read the stored slice `x` of
the tensor under `key` back: the entry `e` of the slice is the entry of the full tensor
when the slice is full and the row of the table under the encoded slice name
otherwise; it has the shape of the slice and the dtype of the full tensor; `GetValue`
for it returns OK with the tensor `V`; and the elements of `V` are those of the
logical tensor `T`, which gives the element at every index of the full tensor. -/
def holdsSlice (r : BundleReader) (env : Env) (kLittleEndian : Bool)
    (rows : List (String × TableValue)) (key : String) (full_entry : BundleEntryProto)
    (T : List Nat → Bytes) (x : TensorSlice) (e : BundleEntryProto) (V : Tensor) : Prop :=
  (x.IsFull = true → e = full_entry) ∧
  (x.IsFull = false →
    mapFind rows (EncodeTensorNameSlice key x) = some (TableValue.entry e)) ∧
  Tensor.shapeIsValid e.tensorShape = true ∧
  e.tensorShape = x.shapeIn full_entry.tensorShape ∧ e.dtype = full_entry.dtype ∧
  V.dtype = full_entry.dtype ∧ V.shape = x.shapeIn full_entry.tensorShape ∧ V.WF ∧
  (∀ (r2 : BundleReader) (dest : Tensor), r2.prefix_ = r.prefix_ →
    r2.num_shards_ = r.num_shards_ → r2.need_to_swap_bytes_ = r.need_to_swap_bytes_ →
    dest.destinationFor V → r2.GetValue env kLittleEndian e dest = some (Status.OK, V)) ∧
  ∀ p, x.contains full_entry.tensorShape p = true →
    sliceElem (DataTypeSize full_entry.dtype) x full_entry.tensorShape V.data p = T p

/-- The slices `GetSliceValue` registers for the entry of a tensor: those the entry
lists, and the full slice when it lists none. -/
def storedSlices (e : BundleEntryProto) : List TensorSlice :=
  if e.slices.isEmpty then [TensorSlice.full e.tensorShape.length]
  else e.slices.map TensorSlice.ofProto

/-- The slices `GetSliceValue` finds registered for `key`: those the cache of the reader
holds for `key`, and those of the entry when the cache holds none, which it then
registers. -/
def registeredSlices (r : BundleReader) (key : String) (e : BundleEntryProto) :
    List TensorSlice :=
  match mapFind r.tensor_slices_ key with
  | some tss => tss.slices_
  | none => storedSlices e

/-- Whether the union of the slices `S` covers the slice `q` of a tensor of shape
`shape`: every index of `q` is an index of one of them. -/
def coversSlice (S : List TensorSlice) (shape : List Nat) (q : TensorSlice) : Bool :=
  (extentsPoints q.extents shape).all (fun p => S.any (fun x => x.contains shape p))

/-- The text of the error of `GetSliceValue` when the registered slices do not give
the requested one. -/
def insufficientSlices (key : String) (q : TensorSlice) : Status :=
  errors.InvalidArgument ("Does not have sufficient slices for partitioned tensor " ++ key ++
    " to restore in slice_spec: " ++ q.DebugString)

/-! ## A tensor of four elements stored as two slices -/

/-- The environment after a writer on the prefix `dir/s` has added the first two of the
four elements of the tensor "t" as a slice, the last two as a second slice when `both`
is set, and has finished.  The elements are of type `dtype` and two bytes each. -/
def exSliceBundle (dtype : DataType) (both : Bool) : Env :=
  let (w, env1) := BundleWriter.create {} "dir/s" 1 11 22
  let (w2, env2) := exState (w.AddSlice env1 true "t" [4] (TensorSlice.mk [(0, 2)])
    (Tensor.mk dtype [2] [1, 2, 3, 4] []))
  let (w3, env3) :=
    if both then exState (w2.AddSlice env2 true "t" [4] (TensorSlice.mk [(2, 2)])
      (Tensor.mk dtype [2] [5, 6, 7, 8] []))
    else (w2, env2)
  (w3.Finish env3 true).2.2

/-- A reader of that bundle. -/
def exSliceReader (dtype : DataType) (both : Bool) : BundleReader :=
  BundleReader.create (exSliceBundle dtype both) "dir/s" true

/-- The rows of the table of that reader. -/
def exSliceRows (dtype : DataType) (both : Bool) : List (String × TableValue) :=
  (exSliceReader dtype both).table_.getD []

/-- The entry of the tensor "t" in that bundle. -/
def exSliceEntry (dtype : DataType) (both : Bool) : BundleEntryProto :=
  match mapFind (exSliceRows dtype both) "t" with
  | some (TableValue.entry e) => e
  | _ => {}

/-- A zeroed destination for the four elements. -/
def exSliceOut (dtype : DataType) : Tensor := ⟨dtype, [4], [0, 0, 0, 0, 0, 0, 0, 0], []⟩

/-- The elements of the tensor "t": element `i` is the bytes `2 i + 1` and `2 i + 2`. -/
def exSliceElems (p : List Nat) : Bytes :=
  getElem 2 [1, 2, 3, 4, 5, 6, 7, 8] (flatIndex [4] p)

/-- The two stored tensors, by the slice they were added under. -/
def exSliceValue (dtype : DataType) (x : TensorSlice) : Tensor :=
  if x = TensorSlice.mk [(0, 2)] then Tensor.mk dtype [2] [1, 2, 3, 4] []
  else Tensor.mk dtype [2] [5, 6, 7, 8] []

end tfplus

namespace tfplus

open DataType

/-! ## A bundle with one altered payload byte -/

/-- The bundle of `exFinished` after the byte at position 5 of its data file, the second
byte of row 1 of the tensor "a", has been changed from 6 to 99. -/
def exAltered : Env := exFinished.2.withByte "dir/ckpt.data-00000-of-00001" 5 99

/-- An output of two rows of two `int16`, zeroed. -/
def exRowsOut : Tensor := ⟨DT_INT16, [2, 2], [0, 0, 0, 0, 0, 0, 0, 0], []⟩

/-! ## The number of parts of a partitioned variable -/

namespace BundleReader

/-- `BundleReader::PartExists`. -/
def PartExists (r : BundleReader) (part_id : Nat) (prefix_name suffix_name : String) :
    Bool × BundleReader :=
  r.Contains (prefix_name ++ ("/part_" ++ Nat.repr part_id) ++ suffix_name)

/-- The loop of `CalcNumShardsByTensorName`: `left` when the loop ends, the reader, and
the number of `PartExists` calls made so far, which the model counts.  `fuel` bounds
the iterations; `none` when it runs out. -/
def calcLoop (prefix_name suffix_name : String) :
    Nat → Nat → Nat → BundleReader → Nat → Option (Nat × BundleReader × Nat)
  | 0, left, right, r, probes => if left < right then none else some (left, r, probes)
  | fuel + 1, left, right, r, probes =>
    if left < right then
      let mid := (left + right + 1) / 2
      let (found, r1) := r.PartExists mid prefix_name suffix_name
      if found then calcLoop prefix_name suffix_name fuel mid right r1 (probes + 1)
      else calcLoop prefix_name suffix_name fuel left (mid - 1) r1 (probes + 1)
    else some (left, r, probes)

/-- `BundleReader::CalcNumShardsByTensorName`: the result, the reader, and the number of
`PartExists` calls made.  The loop gets more fuel than the 1023 steps the interval
allows. -/
def CalcNumShardsByTensorName (r : BundleReader) (prefix_name suffix_name : String) :
    Option (Nat × BundleReader × Nat) :=
  match calcLoop prefix_name suffix_name 1024 0 1023 r 0 with
  | none => none
  | some (left, r1, probes) =>
    let (found, r2) := r1.PartExists left prefix_name suffix_name
    some (if found then left + 1 else 0, r2, probes + 1)

end BundleReader

/-- The environment after a writer on the prefix `dir/p` has added the tensors
"v/part_0/w", "v/part_1/w" and "v/part_2/w" and has finished. -/
def exPartsBundle : Env :=
  let (w, env1) := BundleWriter.create {} "dir/p" 1 11 22
  let (w2, env2) := exState (w.Add env1 true "v/part_0/w" exTensorA)
  let (w3, env3) := exState (w2.Add env2 true "v/part_1/w" exTensorA)
  let (w4, env4) := exState (w3.Add env3 true "v/part_2/w" exTensorA)
  (w4.Finish env4 true).2.2

/-- A reader of that bundle. -/
def exPartsReader : BundleReader := BundleReader.create exPartsBundle "dir/p" true

/-! ## Byte swap on read -/

/-- The number of bytes `ByteSwapTensor` reverses as one unit: the element, and for the
two complex types the component, which is half the element. -/
def swapUnit : DataType → Nat
  | DT_COMPLEX64 => 4
  | DT_COMPLEX128 => 8
  | d => DataTypeSize d

/-- The status of `GetValue` for a checksum that does not match. -/
def checksumMismatch (stored actual : Nat) : Status :=
  errors.DataLoss ("Checksum does not match: stored " ++ pad8 stored ++
    " vs. calculated on the restored bytes " ++ Nat.repr actual)

/-- The environment after a writer on the prefix `dir/c` has added the `complex64`
tensor "z" of one element, with the bytes 1..8, and has finished. -/
def exComplexBundle : Env :=
  let (w, env1) := BundleWriter.create {} "dir/c" 1 11 22
  let (w2, env2) := exState (w.Add env1 true "z" (Tensor.mk DT_COMPLEX64 [1]
    [1, 2, 3, 4, 5, 6, 7, 8] []))
  (w2.Finish env2 true).2.2

/-- A reader of that bundle on a host that is little-endian or not. -/
def exComplexReader (kLittleEndian : Bool) : BundleReader :=
  BundleReader.create exComplexBundle "dir/c" kLittleEndian

/-- The entry of the tensor "z" in that bundle. -/
def exComplexEntry : BundleEntryProto :=
  tensorEntry true (Tensor.mk DT_COMPLEX64 [1] [1, 2, 3, 4, 5, 6, 7, 8] []) 0

/-! ## Reading a value in windows -/

/-- `Status::ToString`: "OK", or the name of the code, a colon and the message. -/
def Status.ToString (s : Status) : String :=
  match s.code with
  | Code.OK => "OK"
  | Code.CANCELLED => "Cancelled: " ++ s.msg
  | Code.UNKNOWN => "Unknown: " ++ s.msg
  | Code.INVALID_ARGUMENT => "Invalid argument: " ++ s.msg
  | Code.DEADLINE_EXCEEDED => "Deadline exceeded: " ++ s.msg
  | Code.NOT_FOUND => "Not found: " ++ s.msg
  | Code.ALREADY_EXISTS => "Already exists: " ++ s.msg
  | Code.PERMISSION_DENIED => "Permission denied: " ++ s.msg
  | Code.RESOURCE_EXHAUSTED => "Resource exhausted: " ++ s.msg
  | Code.FAILED_PRECONDITION => "Failed precondition: " ++ s.msg
  | Code.ABORTED => "Aborted: " ++ s.msg
  | Code.OUT_OF_RANGE => "Out of range: " ++ s.msg
  | Code.UNIMPLEMENTED => "Unimplemented: " ++ s.msg
  | Code.INTERNAL => "Internal: " ++ s.msg
  | Code.UNAVAILABLE => "Unavailable: " ++ s.msg
  | Code.DATA_LOSS => "Data loss: " ++ s.msg
  | Code.UNAUTHENTICATED => "Unauthenticated: " ++ s.msg

namespace BundleReader

/-- `BundleReader::LookupHeader`.  The handle cache `data_` is left out, as in
`GetValue`: the data file is opened at its path.  `Seek` moves the position of the
input buffer, which `LookupSegment` does not read from, and fails only for a negative
offset, which an offset in `Nat` is not.  `key()` in the message is the key the iterator
stands at. -/
def LookupHeader (r : BundleReader) (env : Env) (tensor_key : String) (total_bytes : Int) :
    Option (Status × BundleReader) :=
  match r.GetBundleEntryProto tensor_key with
  | none => none
  | some (st, entry, r1) =>
    if !st.ok then some (st, r1)
    else if (entry.size : Int) ≠ total_bytes then
      let key := match r1.current with
        | some (k, _) => k
        | none => ""
      some (errors.DataLoss ("Invalid size in bundle entry: key " ++ key ++ "; stored size " ++
        Nat.repr entry.size ++ "; expected size " ++ intRepr total_bytes), r1)
    else
      let (fst, _) :=
        env.NewRandomAccessFile (DataFilename r1.prefix_ entry.shard_id r1.num_shards_)
      if !fst.ok then some (fst, r1)
      else if !DataTypeCanUseMemcpy entry.dtype then
        some (errors.DataLoss "segment lookup not support string", r1)
      else
        let seg_item : LookupSegItem :=
          { entry := entry, total_size := entry.size, bytes_read := 0 }
        let items := mapInsert r1.tmp_lookupseg_items_ tensor_key seg_item
        some (Status.OK, { r1 with tmp_lookupseg_items_ := items })

/-- `BundleReader::LookupSegment`: the status, the bytes written to `destination`
(`real_bytes_read` is their number when the status is OK) and the reader.  The item
`operator[]` creates for a key that has none is taken to be zeroed.  The handle in
`data_` is the data file at its path, as in `GetValue`; without the file there is no
handle, and the call aborts on the null pointer. -/
def LookupSegment (r : BundleReader) (env : Env) (key : String) (buffer_size : Nat) :
    Option (Status × Bytes × BundleReader) :=
  let seg_item := (mapFind r.tmp_lookupseg_items_ key).getD {}
  let r0 :=
    match mapFind r.tmp_lookupseg_items_ key with
    | some _ => r
    | none => { r with tmp_lookupseg_items_ := mapInsert r.tmp_lookupseg_items_ key {} }
  let desired_bytes := min buffer_size seg_item.total_size
  if desired_bytes = 0 then some (Status.OK, [], r0)
  else
    let (fst, file) :=
      env.NewRandomAccessFile (DataFilename r.prefix_ seg_item.entry.shard_id r.num_shards_)
    if !fst.ok then none
    else
      let (st, result) :=
        RandomAccessFile.Read file (seg_item.entry.offset + seg_item.bytes_read) desired_bytes
      if !st.ok then
        some (errors.InvalidArgument ("Read Error! " ++ Nat.repr buffer_size ++ " " ++
          Nat.repr seg_item.total_size ++ " " ++
          Nat.repr (seg_item.entry.offset + seg_item.bytes_read) ++ " " ++
          Nat.repr desired_bytes ++ " " ++ st.ToString), result, r0)
      else if result.length ≠ desired_bytes then
        some (errors.DataLoss ("Requested " ++ Nat.repr desired_bytes ++ " bytes but read " ++
          Nat.repr result.length ++ " bytes."), result, r0)
      else
        let seg_item1 : LookupSegItem :=
          { seg_item with bytes_read := seg_item.bytes_read + result.length,
                          total_size := seg_item.total_size - result.length }
        let items := mapInsert r0.tmp_lookupseg_items_ key seg_item1
        some (Status.OK, result, { r0 with tmp_lookupseg_items_ := items })

end BundleReader

/-- A caller that calls `LookupSegment` for `key` with each of the buffer sizes in turn
and stops at the first call that does not return OK: the last status, the windows the
calls returned, in order, and the reader. -/
def lookupSegments (env : Env) (key : String) :
    List Nat → BundleReader → Option (Status × List Bytes × BundleReader)
  | [], r => some (Status.OK, [], r)
  | n :: rest, r =>
    match r.LookupSegment env key n with
    | none => none
    | some (st, window, r1) =>
      if !st.ok then some (st, [], r1)
      else match lookupSegments env key rest r1 with
        | none => none
        | some (st2, windows, r2) => some (st2, window :: windows, r2)

/-- The reader `exReaderLittle` after `LookupHeader("a", 8)`. -/
def exHeaderRead : BundleReader :=
  match exReaderLittle.LookupHeader exFinished.2 "a" 8 with
  | some (_, r) => r
  | none => exReaderLittle

/-! ## The fix-up of hash tables after a merge, and `MergeBundles` -/

/-- `Extent::length()`: 0 when the field is not set. -/
def Extent.getLength (e : Extent) : Int := if e.has_length then e.length else 0

/-- `std::multimap::emplace`: the item goes after the items whose key is not greater. -/
def multimapInsert {α : Type} : List (Int × α) → Int → α → List (Int × α)
  | [], k, v => [(k, v)]
  | (k', v') :: rest, k, v =>
    if k < k' then (k, v) :: (k', v') :: rest else (k', v') :: multimapInsert rest k v

/-- The error of `FixMergeHashTableBundles` for a name that is mapped twice. -/
def fixupConflict (suffix : String) : Status :=
  errors.FailedPrecondition
    ("FixMergeHashTableBundles has some error when create bundle mapping." ++ suffix)

/-- The loop of `FixMergeHashTableBundles` over the sorted slices of the hash table
`key`: the status, `slices`, `idx` and `bundle_mapping`.  `bundle_mapping` is an
unordered map, here the list of its pairs in the order they were added.  `none` is an
abort: `extent(0)` of a slice without extents, or the overflow of `idx`. -/
def fixSlices (key : String) :
    List TensorSliceProto → Int → List TensorSliceProto → List (String × String) →
    Option (Status × List TensorSliceProto × Int × List (String × String))
  | [], idx, slices, mapping => some (Status.OK, slices, idx, mapping)
  | itemx :: rest, idx, slices, mapping =>
    match itemx.extent with
    | [] => none
    | e0 :: es =>
      let from_name := EncodeTensorNameSlice key
        (TensorSlice.mk [(itemx.hash_slice_begin, itemx.hash_slice_length)])
      if e0.getLength > 0 then
        let slice : TensorSliceProto := { itemx with extent := { e0 with start := idx } :: es }
        let idx1 := idx + e0.getLength
        if idx1 ≥ 2 ^ 63 then none
        else
          let to_name := EncodeTensorNameSlice key (TensorSlice.ofProto slice)
          if mapContains mapping from_name then
            some (fixupConflict "", slices ++ [slice], idx1, mapping)
          else fixSlices key rest idx1 (slices ++ [slice]) (mapping ++ [(from_name, to_name)])
      else
        if mapContains mapping from_name then some (fixupConflict " 2", slices, idx, mapping)
        else fixSlices key rest idx slices (mapping ++ [(from_name, "")])

/-- The body of the first loop of `FixMergeHashTableBundles` for one hash table: the
status, the entry and `bundle_mapping`.  `none` is an abort, of `fixSlices` or of
`mutable_dim(0)` on a shape without dimensions. -/
def fixEntry (key : String) (e : BundleEntryProto) (mapping : List (String × String)) :
    Option (Status × BundleEntryProto × List (String × String)) :=
  let sorter := e.slices.foldl (fun m s => multimapInsert m s.hash_slice_begin s) []
  match fixSlices key (sorter.map Prod.snd) 0 [] mapping with
  | none => none
  | some (st, slices, idx, mapping1) =>
    if !st.ok then some (st, e, mapping1)
    else
      match e.tensorShape with
      | [] => none
      | _ :: dims => some (Status.OK, { e with slices := slices, shape := some (idx.toNat :: dims) },
          mapping1)

/-- The first loop of `FixMergeHashTableBundles` over the entries in key order: the
status, the entries as the loop leaves them, and `bundle_mapping`. -/
def fixEntries :
    List (String × BundleEntryProto) → List (String × BundleEntryProto) →
    List (String × String) →
    Option (Status × List (String × BundleEntryProto) × List (String × String))
  | [], done, mapping => some (Status.OK, done, mapping)
  | (key, e) :: rest, done, mapping =>
    if !e.is_hash_table then fixEntries rest (done ++ [(key, e)]) mapping
    else
      match fixEntry key e mapping with
      | none => none
      | some (st, e1, mapping1) =>
        if !st.ok then some (st, done ++ (key, e1) :: rest, mapping1)
        else fixEntries rest (done ++ [(key, e1)]) mapping1

/-- `std::map::emplace`: nothing is inserted when the key is there already. -/
def mapEmplace {α : Type} (m : List (String × α)) (k : String) (v : α) : List (String × α) :=
  if mapContains m k then m else mapInsert m k v

/-- The second loop of `FixMergeHashTableBundles`: every entry of `entries_tmp` is put
under its name in `bundle_mapping`, or under its own name when it has none there; an
entry whose name is mapped to the empty string is left out. -/
def rekeyEntries (mapping : List (String × String)) :
    List (String × BundleEntryProto) → List (String × BundleEntryProto) →
    List (String × BundleEntryProto)
  | [], entries => entries
  | (key, e) :: rest, entries =>
    let real_name := (mapFind mapping key).getD key
    if real_name = "" then rekeyEntries mapping rest entries
    else rekeyEntries mapping rest (mapEmplace entries real_name e)

/-- `FixMergeHashTableBundles`.  On an error the entries are left as the first loop
has rewritten them so far. -/
def FixMergeHashTableBundles (state : MergeState) : Option (Status × MergeState) :=
  match fixEntries state.entries [] [] with
  | none => none
  | some (st, entries1, mapping) =>
    if !st.ok then some (st, { state with entries := entries1 })
    else some (Status.OK, { state with entries := rekeyEntries mapping entries1 [] })

/-- The loop of `MergeBundles` that renames the data files, for `pool == nullptr`.
`shard_ids` is an unordered map; the files are taken in the order they were added. -/
def renameShards ( merged_prefix : String) (count : Nat) :
    List (String × Nat) → Env → Status × Env
  | [], env => (Status.OK, env)
  | (path, id) :: rest, env =>
    let (st, env1) := env.RenameFile path (DataFilename merged_prefix id count)
    if !st.ok then (st, env1) else renameShards merged_prefix count rest env1

/-- The rows `MergeBundles` hands the table builder: the header, then the entries in
key order. -/
def mergedRows (merge : MergeState) : List (String × TableValue) :=
  (kHeaderEntryKey, TableValue.header
      { num_shards := merge.num_shards, endianness := merge.endianness,
        version := merge.version }) ::
    merge.entries.map (fun p => (p.1, TableValue.entry p.2))

/-- `MergeBundles` with `pool == nullptr`. -/
def MergeBundles (env : Env) (prefixes : List String) ( merged_prefix : String) :
    Option (Status × Env) :=
  let (st, env1) := env.CreateDir (Dirname merged_prefix)
  if !st.ok && !errors.IsAlreadyExists st then some (st, env1)
  else
    match mergeAll env1 prefixes {} with
    | none => none
    | some (mst, merge0) =>
      if !mst.ok then some (mst, env1)
      else
        match FixMergeHashTableBundles merge0 with
        | none => none
        | some (fst, merge) =>
          if !fst.ok then some (fst, env1)
          else
            let (rst, env2) :=
              renameShards merged_prefix merge.shard_ids.length merge.shard_ids env1
            if !rst.ok then some (rst, env2)
            else
              let (nst, env3) := env2.NewWritableFile (MetaFilename merged_prefix)
              if !nst.ok then some (nst, env3)
              else
                let (bst, env4) := env3.BuildTable (MetaFilename merged_prefix) (mergedRows merge)
                let (cst, env5) := env4.Close (MetaFilename merged_prefix)
                let status := bst.Update cst
                if !status.ok then some (status, env5)
                else
                  some (status,
                    prefixes.foldl (fun e p => (e.DeleteFile (MetaFilename p)).2) env5)

/-! ## Two bundles, one without tensors -/

/-- The environment after a writer on `dir/a` has added the tensor "x" and finished,
and a writer on `dir/b` has finished without adding a tensor. -/
def exWithEmpty : Env :=
  let (w, env1) := BundleWriter.create {} "dir/a" 1 11 22
  let (w2, env2) := exState (w.Add env1 true "x" exTensorA)
  let env3 := (w2.Finish env2 true).2.2
  let (w4, env4) := BundleWriter.create env3 "dir/b" 1 33 44
  (w4.Finish env4 true).2.2

/-- The outcome of `MergeBundles` of the two bundles into `dir/m`. -/
def exMergedWithEmpty : Status × Env :=
  (MergeBundles exWithEmpty ["dir/a", "dir/b"] "dir/m").getD (Status.OK, exWithEmpty)

/-! ## A hash table whose renamed slice meets another entry -/

/-- The slice of the hash table "h": rows 0 and 1, for the hash range from 5 on, of
length 2. -/
def exHashSlice : TensorSliceProto :=
  { extent := [{ start := 0, has_length := true, length := 2 }],
    hash_slice_begin := 5, hash_slice_length := 2 }

/-- The environment after a writer on `dir/h` has declared the hash table "h" with the
slice `exHashSlice`, has added the two rows of the slice under the name of the hash
range, has added another tensor under the name of the rows 0 and 1 of "h", and has
finished. -/
def exHashBundle : Env :=
  let (w, env1) := BundleWriter.create {} "dir/h" 1 11 22
  let (w2, env2) := exState (w.AddSliceHeader env1 "h" [2] DT_INT16 true exHashSlice)
  let (w3, env3) := exState (w2.Add env2 true
    (EncodeTensorNameSlice "h" (TensorSlice.mk [(5, 2)])) (Tensor.mk DT_INT16 [2] [1, 2, 3, 4] []))
  let (w4, env4) := exState (w3.Add env3 true
    (EncodeTensorNameSlice "h" (TensorSlice.mk [(0, 2)])) (Tensor.mk DT_INT16 [2] [5, 6, 7, 8] []))
  (w4.Finish env4 true).2.2

/-- The state of the merge of that bundle before the fix-up. -/
def exHashState : MergeState :=
  match mergeAll exHashBundle ["dir/h"] {} with
  | some (_, merge) => merge
  | none => {}

/-! ## The renumbering of the slices of a hash table, as the claim words it -/

/-- The length of the first dimension of a slice; 0 for a slice without dimensions. -/
def TensorSliceProto.firstLength (s : TensorSliceProto) : Int :=
  match s.extent with
  | [] => 0
  | e0 :: _ => e0.getLength

/-- The slice with the start of its first dimension set to `start`, every other field
as it is. -/
def TensorSliceProto.withStart (s : TensorSliceProto) (start : Int) : TensorSliceProto :=
  match s.extent with
  | [] => s
  | e0 :: es => { s with extent := { e0 with start := start } :: es }

/-- The slices in one gap-free row space that begins at `start`: the first slice starts
at `start`, each following slice where the one before it ends. -/
def renumberSlices : List TensorSliceProto → Int → List TensorSliceProto
  | [], _ => []
  | s :: rest, start => s.withStart start :: renumberSlices rest (start + s.firstLength)

/-- The slices of `slices` whose first dimension has a positive length. -/
def keptSlices (slices : List TensorSliceProto) : List TensorSliceProto :=
  slices.filter (fun s => decide (s.firstLength > 0))

/-- The entry `e1` is the hash table entry `e` renumbered: for an ordering `sorted` of
the slices of `e` by ascending `hash_slice_begin`, the slices of `e1` are the slices of
`sorted` with a positive first length, in that order, renumbered from 0; the first
dimension of the shape of `e1` is the sum of their first lengths; the other dimensions
and the other fields are those of `e`. -/
def renumberedFrom (e e1 : BundleEntryProto) : Prop :=
  ∃ sorted : List TensorSliceProto, sorted.Perm e.slices ∧
    sorted.Pairwise (fun a b => a.hash_slice_begin ≤ b.hash_slice_begin) ∧
    e1.slices = renumberSlices (keptSlices sorted) 0 ∧
    (∃ d : Nat, e1.tensorShape.head? = some d ∧
      (d : Int) = ((keptSlices sorted).map TensorSliceProto.firstLength).sum) ∧
    e1.tensorShape.tail = e.tensorShape.tail ∧
    e1.dtype = e.dtype ∧ e1.shard_id = e.shard_id ∧ e1.offset = e.offset ∧
    e1.size = e.size ∧ e1.crc32c = e.crc32c ∧ e1.is_hash_table = e.is_hash_table

/-- What the first loop of the fix-up makes of an entry: a hash table is renumbered,
another entry is left as it is. -/
def fixedFrom (e e1 : BundleEntryProto) : Prop :=
  e1.is_hash_table = e.is_hash_table ∧
  (e.is_hash_table = true → renumberedFrom e e1) ∧
  (e.is_hash_table = false → e1 = e)

/-- The names in `bundle_mapping`: every old name is an encoded slice name, and every
new name is an encoded slice name or empty. -/
def encodedMapping (mapping : List (String × String)) : Prop :=
  ∀ p ∈ mapping, (∃ k s, p.1 = EncodeTensorNameSlice k s) ∧
    (p.2 = "" ∨ ∃ k s, p.2 = EncodeTensorNameSlice k s)

/-- A hash table entry with three slices, given out of order, the second one empty. -/
def exHashEntry : BundleEntryProto :=
  { dtype := DT_INT16, shape := some [9, 2], is_hash_table := true,
    slices := [
      { extent := [{ start := 0, has_length := true, length := 3 }, {}],
        hash_slice_begin := 20, hash_slice_length := 10 },
      { extent := [{ start := 0, has_length := true, length := 0 }, {}],
        hash_slice_begin := 10, hash_slice_length := 10 },
      { extent := [{ start := 0, has_length := true, length := 4 }, {}],
        hash_slice_begin := 0, hash_slice_length := 10 }] }

/-- A merge state with that hash table and a plain tensor. -/
def exHashMerge : MergeState :=
  { num_shards := 1, seen_first_bundle := true,
    entries := [("a", tensorEntry true exTensorA 0), ("t", exHashEntry)] }

/-- That merge state after the fix-up: the hash table keeps the slices of the hash
ranges 0 and 20, at the rows 0 to 3 and 4 to 6, and has 7 rows. -/
def exHashFixed : MergeState :=
  { num_shards := 1, seen_first_bundle := true,
    entries := [("a", tensorEntry true exTensorA 0),
      ("t", { dtype := DT_INT16, shape := some [7, 2], is_hash_table := true,
              slices := [
                { extent := [{ start := 0, has_length := true, length := 4 }, {}],
                  hash_slice_begin := 0, hash_slice_length := 10 },
                { extent := [{ start := 4, has_length := true, length := 3 }, {}],
                  hash_slice_begin := 20, hash_slice_length := 10 }] })] }

end tfplus

namespace tfplus
open DataType

/-! ## SegmentBundleWriter -/

/-- `SegmentBundleWriter`.  `writer_` is the writer the object points to.  `buffer_`
holds the bytes of `buffer_[0 .. buffer_ptr_)`: the source reads a byte of the array
only after it has written it, so `buffer_ptr_` is the length of `buffer_` here. -/
structure SegmentBundleWriter where
  writer_ : BundleWriter
  name_ : String
  shape_ : List Nat
  type_ : DataType
  buffer_size_ : Nat
  buffer_ : Bytes := []
  write_counter_ : Nat := 0
  deriving DecidableEq, Repr

namespace SegmentBundleWriter

def buffer_ptr_ (sw : SegmentBundleWriter) : Nat := sw.buffer_.length

/-- `SegmentBundleWriter::SegmentBundleWriter(writer, name, shape, type, buffer_size)`. -/
def create (writer : BundleWriter) (name : String) (shape : List Nat) (type : DataType)
    (buffer_size : Nat) : SegmentBundleWriter :=
  { writer_ := writer, name_ := name, shape_ := shape, type_ := type,
    buffer_size_ := buffer_size, buffer_ := [], write_counter_ := 0 }

/-- `SegmentBundleWriter::Begin`. -/
def Begin (sw : SegmentBundleWriter) (env : Env) :
    Option (Status × SegmentBundleWriter × Env) :=
  match sw.writer_.AddTensorHeaderShape env sw.name_ sw.type_ sw.shape_ with
  | none => none
  | some (st, w1, env1) => some (st, { sw with writer_ := w1 }, env1)

/-- The loop of `WriteData`: `fuel` bounds the iterations, `data` is what is left of
the input, `size` its length.  A `buffer_ptr_` past `buffer_size_` makes the length of
the copy negative; the model gives `none`. -/
def writeLoop : Nat → SegmentBundleWriter → Env → Bytes →
    Option (Status × SegmentBundleWriter × Env)
  | 0, _, _, _ => none
  | fuel + 1, sw, env, data =>
    if data.length > 0 then
      if sw.buffer_ptr_ + data.length ≤ sw.buffer_size_ then
        some (Status.OK, { sw with buffer_ := sw.buffer_ ++ data }, env)
      else if sw.buffer_size_ < sw.buffer_ptr_ then none
      else
        let w := sw.buffer_size_ - sw.buffer_ptr_
        match sw.writer_.AppendSegmentData env (sw.buffer_ ++ data.take w) with
        | none => none
        | some (st, w1, env1) =>
          if !st.ok then some (st, { sw with writer_ := w1 }, env1)
          else
            writeLoop fuel
              { sw with writer_ := w1, buffer_ := [], write_counter_ := sw.write_counter_ + 1 }
              env1 (data.drop w)
    else some (Status.OK, sw, env)

/-- `SegmentBundleWriter::WriteData(data, size)`, `size` the length of `data`.  After
the first pass of the loop every pass takes `buffer_size_` bytes of the input, so the
fuel is enough unless `buffer_size_` is 0; then the loop of the source does not end,
and the model gives `none`. -/
def WriteData (sw : SegmentBundleWriter) (env : Env) (data : Bytes) :
    Option (Status × SegmentBundleWriter × Env) :=
  writeLoop (data.length + 2) sw env data

/-- `SegmentBundleWriter::End`. -/
def End (sw : SegmentBundleWriter) (env : Env) :
    Option (Status × SegmentBundleWriter × Env) :=
  if sw.write_counter_ * sw.buffer_size_ + sw.buffer_ptr_ ≠
      sw.shape_.prod * DataTypeSize sw.type_ then
    some (errors.Internal "SegmentBundleWriter write size error", sw, env)
  else if sw.write_counter_ = 0 then
    match sw.writer_.AddCompeleteData env sw.buffer_ with
    | none => none
    | some (st, w1, env1) => some (st, { sw with writer_ := w1 }, env1)
  else if sw.buffer_ptr_ > 0 then
    match sw.writer_.AppendSegmentData env sw.buffer_ with
    | none => none
    | some (st, w1, env1) =>
      if !st.ok then some (st, { sw with writer_ := w1 }, env1)
      else
        match w1.EndSegmentData (sw.write_counter_ * sw.buffer_size_ + sw.buffer_ptr_)
            sw.buffer_ptr_ with
        | none => none
        | some w2 => some (Status.OK, { sw with writer_ := w2 }, env1)
  else
    match sw.writer_.EndSegmentData (sw.write_counter_ * sw.buffer_size_ + sw.buffer_ptr_)
        sw.buffer_size_ with
    | none => none
    | some w2 => some (Status.OK, { sw with writer_ := w2 }, env)

/-- A caller that hands the pieces to `WriteData` one after the other and stops at the
first call that does not return OK. -/
def writeAll (sw : SegmentBundleWriter) (env : Env) :
    List Bytes → Option (Status × SegmentBundleWriter × Env)
  | [] => some (Status.OK, sw, env)
  | c :: rest =>
    match sw.WriteData env c with
    | none => none
    | some (st, sw1, env1) => if !st.ok then some (st, sw1, env1) else writeAll sw1 env1 rest

/-- A caller that writes a value through the segment writer: `Begin`, `WriteData` for
each piece, then `End`.  It stops at the first call that does not return OK. -/
def run (sw : SegmentBundleWriter) (env : Env) (pieces : List Bytes) :
    Option (Status × SegmentBundleWriter × Env) :=
  match sw.Begin env with
  | none => none
  | some (st, sw1, env1) =>
    if !st.ok then some (st, sw1, env1)
    else match sw1.writeAll env1 pieces with
      | none => none
      | some (st2, sw2, env2) =>
        if !st2.ok then some (st2, sw2, env2) else sw2.End env2

end SegmentBundleWriter

/-! ## A staging buffer larger than the write buffer -/

/-- A segment writer on the fresh writer `exFresh`, whose write buffer has 8 MiB, for a
tensor "t" of 8 MiB + 2 bytes, with a staging buffer of 8 MiB + 1 bytes. -/
def exBigStaging : SegmentBundleWriter :=
  SegmentBundleWriter.create exFresh.1 "t" [8 * 2 ^ 20 + 2] DT_UINT8 (8 * 2 ^ 20 + 1)

/-- That segment writer after `Begin`. -/
def exBigBegun : SegmentBundleWriter :=
  match exBigStaging.Begin exFresh.2 with
  | some (_, sw, _) => sw
  | none => exBigStaging

/-- The bytes of the tensor "t": 8 MiB + 2 zero bytes. -/
def exBigPayload : Bytes := List.replicate (8 * 2 ^ 20 + 2) 0

/-- A segment writer on `exFresh` for the tensor "d" of 8 bytes with a staging buffer
of 3 bytes. -/
def exSmallStaging : SegmentBundleWriter :=
  SegmentBundleWriter.create exFresh.1 "d" [2, 2] DT_INT16 3

end tfplus

namespace tfplus

open DataType

/-! # Theorems

## Checksum lemmas -/

theorem xor_lt32 {a b : Nat} (ha : a < 2 ^ 32) (hb : b < 2 ^ 32) : a ^^^ b < 2 ^ 32 :=
  Nat.xor_lt_two_pow ha hb

theorem crcBit_lt {s : Nat} (h : s < 2 ^ 32) : crcBit s < 2 ^ 32 := by
  unfold crcBit
  split
  · exact xor_lt32 (by omega) (by decide)
  · omega

theorem crcByte_lt {s : Nat} (b : UInt8) (h : s < 2 ^ 32) : crcByte s b < 2 ^ 32 := by
  unfold crcByte
  have hb : b.toNat < 2 ^ 32 := lt_of_lt_of_le b.toNat_lt (by decide)
  have h0 := xor_lt32 h hb
  exact crcBit_lt (crcBit_lt (crcBit_lt (crcBit_lt (crcBit_lt (crcBit_lt (crcBit_lt (crcBit_lt h0)))))))

theorem crcRaw_lt {s : Nat} (data : Bytes) (h : s < 2 ^ 32) : crcRaw s data < 2 ^ 32 := by
  induction data generalizing s with
  | nil => simpa [crcRaw] using h
  | cons b rest ih => exact ih (crcByte_lt b h)

theorem crcRaw_append (s : Nat) (x y : Bytes) : crcRaw s (x ++ y) = crcRaw (crcRaw s x) y := by
  simp [crcRaw, List.foldl_append]

namespace crc32c
theorem Extend_lt (crc : Nat) (data : Bytes) (h : crc < 2 ^ 32) : Extend crc data < 2 ^ 32 :=
  xor_lt32 (crcRaw_lt data (xor_lt32 h (by decide))) (by decide)

theorem Extend_append (crc : Nat) (x y : Bytes) :
    Extend crc (x ++ y) = Extend (Extend crc x) y := by
  simp [Extend, crcRaw_append, Nat.xor_assoc]

theorem Extend_nil (crc : Nat) : Extend crc [] = crc := by
  simp [Extend, crcRaw, Nat.xor_assoc]

theorem Mask_lt (crc : Nat) : Mask crc < 2 ^ 32 := by
  unfold Mask; exact Nat.mod_lt _ (by decide)

theorem rot_or_eq_add (a b : Nat) (k : Nat) (ha : a < 2 ^ k) :
    a ||| (b * 2 ^ k) = b * 2 ^ k + a := by
  rw [Nat.or_comm, Nat.mul_comm, Nat.mul_add_lt_is_or ha]

theorem Unmask_Mask (crc : Nat) (h : crc < 2 ^ 32) : Unmask (Mask crc) = crc := by
  unfold Unmask Mask
  simp only [Nat.shiftLeft_eq, Nat.shiftRight_eq_div_pow]
  have e1 : crc * 2 ^ 17 % 2 ^ 32 = (crc % 2 ^ 15) * 2 ^ 17 := by omega
  have l1 : crc / 2 ^ 15 < 2 ^ 17 := by omega
  rw [e1, rot_or_eq_add _ _ 17 l1]
  have e2 : ((crc % 2 ^ 15 * 2 ^ 17 + crc / 2 ^ 15 + kMaskDelta) % 2 ^ 32 + 2 ^ 32 - kMaskDelta)
      % 2 ^ 32 = crc % 2 ^ 15 * 2 ^ 17 + crc / 2 ^ 15 := by
    unfold kMaskDelta; omega
  rw [e2]
  have e3 : (crc % 2 ^ 15 * 2 ^ 17 + crc / 2 ^ 15) * 2 ^ 15 % 2 ^ 32 = (crc / 2 ^ 15) * 2 ^ 15 := by
    omega
  have e4 : (crc % 2 ^ 15 * 2 ^ 17 + crc / 2 ^ 15) / 2 ^ 17 = crc % 2 ^ 15 := by omega
  have l2 : crc % 2 ^ 15 < 2 ^ 15 := by omega
  rw [e3, e4, rot_or_eq_add _ _ 15 l2]
  omega
end crc32c

/-! ## Duplicate keys in the writer -/

/-- C3 (amended): on a writer whose status is OK, `Add` of a key other than the header
key that is already in the catalog returns the `InvalidArgument` error "Adding
duplicate key"; the environment (so the data file), the output buffer, the running size
and the catalog are as before the call, only the status of the writer now holds the
error. -/
theorem Add_duplicate_key_rejected (w : BundleWriter) (env : Env) (kLittleEndian : Bool)
    (key : String) (val : Tensor) (hok : w.status_.ok = true) (hkey : key ≠ kHeaderEntryKey)
    (hdup : mapContains w.entries_ key = true) :
    w.Add env kLittleEndian key val =
      some (errors.InvalidArgument ("Adding duplicate key: " ++ key),
        { w with status_ := errors.InvalidArgument ("Adding duplicate key: " ++ key) }, env) := by
  simp [BundleWriter.Add, hok, hkey, hdup]

theorem Add_duplicate_key_rejected_witness :
    exAdded.1.Add exAdded.2 true "a" exTensorA =
      some (errors.InvalidArgument ("Adding duplicate key: " ++ "a"),
        { exAdded.1 with status_ := errors.InvalidArgument ("Adding duplicate key: " ++ "a") },
        exAdded.2) :=
  Add_duplicate_key_rejected exAdded.1 exAdded.2 true "a" exTensorA (by decide!) (by decide!)
    (by decide!)

/-- C3 (as stated, refuted): the writer `exFinished` has been closed by a successful
`Finish`, the key "a" is in its catalog, and `Add("a", ...)` returns the stored
`Internal` error "BundleWriter is closed", not `InvalidArgument`. -/
theorem Add_duplicate_key_on_closed_writer :
    mapContains exFinished.1.entries_ "a" = true ∧
    exFinished.1.Add exFinished.2 true "a" exTensorA =
      some (errors.Internal "BundleWriter is closed", exFinished.1, exFinished.2) := by
  decide!

end tfplus

namespace tfplus

open DataType

/-! ## Lemmas on maps -/

theorem mapFind_mapInsert_self {α : Type} (m : List (String × α)) (k : String) (v : α) :
    mapFind (mapInsert m k v) k = some v := by
  induction m with
  | nil => simp [mapInsert, mapFind]
  | cons p rest ih =>
    obtain ⟨k', v'⟩ := p
    unfold mapInsert
    split
    · simp [mapFind]
    · split
      · simp [mapFind]
      · rename_i h1 h2
        have : ¬ k' = k := fun h => h2 h.symm
        simp [mapFind, this, ih]

theorem mapFind_mapInsert_ne {α : Type} (m : List (String × α)) (k k2 : String) (v : α)
    (h : k ≠ k2) : mapFind (mapInsert m k v) k2 = mapFind m k2 := by
  induction m with
  | nil => simp [mapInsert, mapFind, h]
  | cons p rest ih =>
    obtain ⟨k', v'⟩ := p
    unfold mapInsert
    split
    · simp [mapFind, h]
    · split
      · rename_i h1 h2
        subst h2
        simp [mapFind, h]
      · simp only [mapFind, ih]

/-! ## Sticky failure of the writer -/

theorem Status.Update_of_not_ok (s t : Status) (h : s.ok = false) : s.Update t = s := by
  simp [Status.Update, h]

/-- C10 (amended): once the status of a writer holds a failure, `Add`, `AddSlice`,
`AddStringTensor`, both `AddTensorHeader` overloads, `AddSliceHeader` and
`BeginWriteChunkData` return the stored failure and leave the writer and the
environment exactly as they were (no byte appended, no catalog entry changed);
`Finish` returns the stored failure, keeps it as the status and changes neither the
catalog nor the running size (it still closes the buffer and deletes the temporary
data file). -/
theorem sticky_failure (w : BundleWriter) (env : Env) (kLittleEndian : Bool)
    (hfail : w.status_.ok = false) :
    (∀ key val, w.Add env kLittleEndian key val = some (w.status_, w, env)) ∧
    (∀ key shape spec val,
      w.AddSlice env kLittleEndian key shape spec val = some (w.status_, w, env)) ∧
    (∀ key strings shape,
      w.AddStringTensor env kLittleEndian key strings shape = some (w.status_, w, env)) ∧
    (∀ key dtype, w.AddTensorHeader env key dtype = some (w.status_, w, env)) ∧
    (∀ key dtype shape, w.AddTensorHeaderShape env key dtype shape = some (w.status_, w, env)) ∧
    (∀ name shape type is_hash slice,
      w.AddSliceHeader env name shape type is_hash slice = some (w.status_, w, env)) ∧
    (∀ key dtype shape, w.BeginWriteChunkData env key dtype shape = some (w.status_, w, env)) ∧
    (w.Finish env kLittleEndian).1 = w.status_ ∧
    (w.Finish env kLittleEndian).2.1.status_ = w.status_ ∧
    (w.Finish env kLittleEndian).2.1.entries_ = w.entries_ ∧
    (w.Finish env kLittleEndian).2.1.size_ = w.size_ := by
  refine ⟨?_, ?_, ?_, ?_, ?_, ?_, ?_, ?_⟩
  · intro key val; simp [BundleWriter.Add, hfail]
  · intro key shape spec val; simp [BundleWriter.AddSlice, hfail]
  · intro key strings shape; simp [BundleWriter.AddStringTensor, hfail]
  · intro key dtype; simp [BundleWriter.AddTensorHeader, hfail]
  · intro key dtype shape; simp [BundleWriter.AddTensorHeaderShape, hfail]
  · intro name shape type is_hash slice; simp [BundleWriter.AddSliceHeader, hfail]
  · intro key dtype shape; simp [BundleWriter.BeginWriteChunkData, hfail]
  · have hd : (w.finishData env).1.status_ = w.status_ ∧ (w.finishData env).1.entries_ = w.entries_
        ∧ (w.finishData env).1.size_ = w.size_ := by
      unfold BundleWriter.finishData
      cases w.out_ with
      | none => simp
      | some out => simp [Status.Update_of_not_ok _ _ hfail, hfail]
    obtain ⟨h1, h2, h3⟩ := hd
    have hf : (w.finishData env).1.status_.ok = false := by rw [h1]; exact hfail
    simp only [BundleWriter.Finish, hf, Bool.not_false, if_true]
    exact ⟨h1, h1, h2, h3⟩

theorem sticky_failure_witness :
    (∀ key val, exFailed.1.Add exFailed.2 true key val =
      some (exFailed.1.status_, exFailed.1, exFailed.2)) ∧
    exFailed.1.status_ = errors.InvalidArgument "Adding duplicate key: a" :=
  ⟨(sticky_failure exFailed.1 exFailed.2 true (by decide!)).1, by decide!⟩

/-- C10 (as stated, refuted): the writer `exFailed` holds the failure of a duplicate
`Add`; `WriteChunkData` on it returns OK instead of the stored failure and the data
file grows by the eight buffered bytes and the byte of the chunk. -/
theorem WriteChunkData_after_failure :
    exFailed.1.status_.ok = false ∧
    fsFind exFailed.2.files exFailed.1.tmp_data_path_ = some (FileData.bytes []) ∧
    (exFailed.1.WriteChunkData exFailed.2 [9]).map
        (fun res => (res.1, fsFind res.2.2.files exFailed.1.tmp_data_path_)) =
      some (Status.OK, some (FileData.bytes [1, 2, 3, 4, 5, 6, 7, 8, 9])) := by
  decide!

end tfplus

namespace tfplus

open DataType

/-! ## Merging: duplicate keys and slice lists -/

/-- A row whose key is in the merge state with an empty slice list stops the merge
with the duplicate-key error, whatever the row holds. -/
theorem mergeEntries_dup_nonslice (pfx : String) (n : Nat) (key : String) (value : TableValue)
    (rest : List (String × TableValue)) (ms : MergeState) (existing : BundleEntryProto)
    (hfind : mapFind ms.entries key = some existing) (hempty : existing.slices = []) :
    mergeEntries pfx n ((key, value) :: rest) ms =
      some (errors.InvalidArgument ("Duplicate tensor keyed by " ++ key ++
        " encountered, when merging prefix: " ++ pfx), ms) := by
  simp [mergeEntries, hfind, hempty]

/-- A row without slices whose key is in the merge state with slices stops the merge
with an `Internal` error. -/
theorem mergeEntries_dup_slice_nonslice (pfx : String) (n : Nat) (key : String)
    (e : BundleEntryProto) (rest : List (String × TableValue)) (ms : MergeState)
    (existing : BundleEntryProto) (hfind : mapFind ms.entries key = some existing)
    (hslices : existing.slices ≠ []) (hempty : e.slices = []) :
    mergeEntries pfx n ((key, TableValue.entry e) :: rest) ms =
      some (errors.Internal ("Duplicate tensor keyed by " ++ key ++
        "; attempting to merge in a non-slice bundle entry"), ms) := by
  simp [mergeEntries, hfind, hslices, hempty, ParseEntryProto, Status.ok, Status.OK]

/-- A row whose key is in the merge state passes only if both entries have slices. -/
theorem mergeEntries_head_dup_ok (pfx : String) (n : Nat) (key : String) (value : TableValue)
    (rest : List (String × TableValue)) (ms ms' : MergeState) (existing : BundleEntryProto)
    (hfind : mapFind ms.entries key = some existing)
    (h : mergeEntries pfx n ((key, value) :: rest) ms = some (Status.OK, ms')) :
    existing.slices ≠ [] ∧ ∃ e, value = TableValue.entry e ∧ e.slices ≠ [] ∧
      mergeEntries pfx n rest { ms with entries := mapInsert ms.entries key { existing with slices := existing.slices ++ e.slices } } = some (Status.OK, ms') := by
  by_cases hs : existing.slices = []
  · rw [mergeEntries_dup_nonslice pfx n key value rest ms existing hfind hs] at h
    simp [errors.InvalidArgument, Status.OK] at h
  · refine ⟨hs, ?_⟩
    cases value with
    | header hd =>
      simp [mergeEntries, hfind, hs, ParseEntryProto, Status.ok, errors.DataLoss, Status.OK] at h
    | garbage =>
      simp [mergeEntries, hfind, hs, ParseEntryProto, Status.ok, errors.DataLoss, Status.OK] at h
    | entry e =>
      by_cases he : e.slices = []
      · rw [mergeEntries_dup_slice_nonslice pfx n key e rest ms existing hfind hs he] at h
        simp [errors.Internal, Status.OK] at h
      · refine ⟨e, rfl, he, ?_⟩
        simp only [mergeEntries, hfind, List.isEmpty_eq_true, hs, he, ParseEntryProto, Status.ok,
          Status.OK] at h
        simp only [decide_True, Bool.not_true, Bool.false_eq_true, if_false] at h
        split at h
        · simp at h
        · split at h
          · simp at h
          · exact h

/-- The state after a row that passed: the entry of every other key is untouched. -/
theorem mergeEntries_head_other (pfx : String) (n : Nat) (k key : String) (value : TableValue)
    (rest : List (String × TableValue)) (ms ms' : MergeState) (hne : k ≠ key)
    (h : mergeEntries pfx n ((k, value) :: rest) ms = some (Status.OK, ms')) :
    ∃ ms1, mapFind ms1.entries key = mapFind ms.entries key ∧
      mergeEntries pfx n rest ms1 = some (Status.OK, ms') := by
  cases hf : mapFind ms.entries k with
  | some existing =>
    obtain ⟨_, e, _, _, h2⟩ := mergeEntries_head_dup_ok pfx n k value rest ms ms' existing hf h
    refine ⟨_, ?_, h2⟩
    exact mapFind_mapInsert_ne _ _ _ _ hne
  | none =>
    simp only [mergeEntries, hf] at h
    cases value with
    | header hd => simp [ParseEntryProto, Status.ok, errors.DataLoss, Status.OK] at h
    | garbage => simp [ParseEntryProto, Status.ok, errors.DataLoss, Status.OK] at h
    | entry e =>
      simp only [ParseEntryProto, Status.ok, Status.OK, decide_True, Bool.not_true,
        Bool.false_eq_true, if_false] at h
      refine ⟨_, ?_, h⟩
      exact mapFind_mapInsert_ne _ _ _ _ hne

/-- Every row of a bundle whose key is already in the merge state has slices, and so
has the accumulated entry, when the merge of the rows goes through. -/
theorem mergeEntries_dup_ok (pfx : String) (n : Nat) (rows : List (String × TableValue))
    (key : String) (value : TableValue) (ms ms' : MergeState) (existing : BundleEntryProto)
    (hmem : (key, value) ∈ rows) (hfind : mapFind ms.entries key = some existing)
    (h : mergeEntries pfx n rows ms = some (Status.OK, ms')) :
    existing.slices ≠ [] ∧ ∃ e, value = TableValue.entry e ∧ e.slices ≠ [] := by
  induction rows generalizing ms existing with
  | nil => simp at hmem
  | cons row rest ih =>
    obtain ⟨k, v⟩ := row
    by_cases hk : k = key
    · subst hk
      obtain ⟨h1, e, he, hes, h2⟩ := mergeEntries_head_dup_ok pfx n k v rest ms ms' existing hfind h
      rcases List.mem_cons.mp hmem with hhead | htail
      · obtain ⟨_, hv⟩ := Prod.mk.inj hhead
        exact ⟨h1, e, hv ▸ he, hes⟩
      · have hself := mapFind_mapInsert_self ms.entries k
          { existing with slices := existing.slices ++ e.slices }
        exact ⟨h1, (ih _ _ htail hself h2).2⟩
    · obtain ⟨ms1, hf1, h2⟩ := mergeEntries_head_other pfx n k key v rest ms ms' hk h
      rcases List.mem_cons.mp hmem with hhead | htail
      · exact absurd (Prod.mk.inj hhead).1.symm hk
      · exact ih ms1 existing htail (hf1.trans hfind) h2

theorem not_lt_header_key (k : String) : ¬ k < kHeaderEntryKey := by
  intro hlt
  rw [String.lt_iff_toList_lt] at hlt
  have h2 : k.toList < ([] : List Char) := hlt
  generalize k.toList = l at h2
  cases h2

theorem seekRows_header (rows : List (String × TableValue)) :
    seekRows rows kHeaderEntryKey = 0 := by
  cases rows with
  | nil => rfl
  | cons r rest =>
    obtain ⟨k, v⟩ := r
    simp [seekRows, not_lt_header_key k]

theorem mergeHeader_entries (header : BundleHeaderProto) (ms : MergeState) :
    (mergeHeader header ms).2.entries = ms.entries ∧
    (mergeHeader header ms).2.shard_ids = ms.shard_ids := by
  unfold mergeHeader
  simp only
  split
  · exact ⟨rfl, rfl⟩
  · split
    · exact ⟨rfl, rfl⟩
    · split <;> exact ⟨rfl, rfl⟩

/-- What `MergeOneBundle` does once the table is open: the first row is the header,
the rows after it are merged into a state with the same catalog. -/
theorem MergeOneBundle_ok (env : Env) (pfx : String) (ms ms' : MergeState)
    (rows : List (String × TableValue))
    (hopen : env.OpenTable (MetaFilename pfx) = (Status.OK, rows))
    (h : MergeOneBundle env pfx ms = some (Status.OK, ms')) :
    ∃ k0 h0, rows.head? = some (k0, TableValue.header h0) ∧
      mergeEntries pfx h0.num_shards rows.tail (mergeHeader h0 ms).2 = some (Status.OK, ms') := by
  unfold MergeOneBundle at h
  simp only [hopen, seekRows_header] at h
  by_cases c1 : (env.GetFileSize (MetaFilename pfx)).1.ok = true
  · by_cases c2 : (env.NewRandomAccessFile (MetaFilename pfx)).1.ok = true
    · simp only [c1, c2, Bool.not_true, Bool.false_eq_true, if_false] at h
      cases rows with
      | nil => simp [CorruptFileError, Status.ok, Status.OK, errors.Internal] at h
      | cons r rest =>
        obtain ⟨k, v⟩ := r
        cases v with
        | garbage =>
          simp [ParseHeaderProto, CorruptFileError, Status.ok, Status.OK, errors.DataLoss] at h
        | entry e =>
          simp [ParseHeaderProto, CorruptFileError, Status.ok, Status.OK, errors.DataLoss] at h
        | header hd =>
          simp only [List.get?_cons_zero, ParseHeaderProto, zero_add, List.drop_succ_cons,
            List.drop_zero] at h
          by_cases c3 : (mergeHeader hd ms).1.ok = true
          · simp only [Status.ok, Status.OK, decide_True, Bool.not_true, Bool.false_eq_true,
              if_false] at h
            simp only [Status.ok] at c3
            simp only [c3, Bool.not_true, Bool.false_eq_true, if_false] at h
            exact ⟨k, hd, rfl, h⟩
          · exfalso
            simp only [Status.ok, Status.OK, decide_True, Bool.not_true, Bool.false_eq_true,
              if_false] at h
            simp only [Status.ok] at c3
            simp only [c3, Bool.not_false, if_true, Option.some.injEq] at h
            rw [h] at c3
            simp at c3
    · exfalso
      simp only [c1, c2, Bool.not_true, Bool.false_eq_true, if_false, Bool.not_false, if_true,
        Option.some.injEq, Prod.mk.injEq] at h
      simp at c2
      rw [h.1] at c2
      simp [Status.ok, Status.OK] at c2
  · exfalso
    simp only [c1, Bool.not_false, if_true, Option.some.injEq, Prod.mk.injEq] at h
    simp at c1
    rw [h.1] at c1
    simp [Status.ok, Status.OK] at c1

/-- Every row that is merged leads to a state from which the rest is merged. -/
theorem mergeEntries_step (pfx : String) (n : Nat) (k : String) (value : TableValue)
    (rest : List (String × TableValue)) (ms ms' : MergeState)
    (h : mergeEntries pfx n ((k, value) :: rest) ms = some (Status.OK, ms')) :
    ∃ e ms1, value = TableValue.entry e ∧ mergeEntries pfx n rest ms1 = some (Status.OK, ms') ∧
      (∀ key, key ≠ k → mapFind ms1.entries key = mapFind ms.entries key) ∧
      ∃ x, mapFind ms1.entries k = some x ∧
        ((∀ existing, mapFind ms.entries k = some existing →
            existing.slices ≠ [] ∧ e.slices ≠ []) ∧
         (mapFind ms.entries k = none → x.slices = e.slices)) := by
  cases hf : mapFind ms.entries k with
  | some existing =>
    obtain ⟨h1, e, he, hes, h2⟩ := mergeEntries_head_dup_ok pfx n k value rest ms ms' existing hf h
    refine ⟨e, _, he, h2, ?_, _, mapFind_mapInsert_self _ _ _, ?_, ?_⟩
    · intro key hk
      exact mapFind_mapInsert_ne _ _ _ _ (Ne.symm hk)
    · intro ex hex
      obtain rfl : existing = ex := Option.some.inj hex
      exact ⟨h1, hes⟩
    · intro hnone
      simp at hnone
  | none =>
    simp only [mergeEntries, hf] at h
    cases value with
    | header hd => simp [ParseEntryProto, Status.ok, errors.DataLoss, Status.OK] at h
    | garbage => simp [ParseEntryProto, Status.ok, errors.DataLoss, Status.OK] at h
    | entry e =>
      simp only [ParseEntryProto, Status.ok, Status.OK, decide_True, Bool.not_true,
        Bool.false_eq_true, if_false] at h
      refine ⟨e, _, rfl, h, ?_, _, mapFind_mapInsert_self _ _ _, ?_, ?_⟩
      · intro key hk
        exact mapFind_mapInsert_ne _ _ _ _ (Ne.symm hk)
      · intro ex hex
        simp at hex
      · intro _
        rfl

theorem slicesTraceBack_rows (pfx : String) (n : Nat) (key : String) (e1 : BundleEntryProto)
    (rows : List (String × TableValue)) (ms ms' : MergeState)
    (hq : slicesTraceBack key e1 ms)
    (h : mergeEntries pfx n rows ms = some (Status.OK, ms')) : slicesTraceBack key e1 ms' := by
  induction rows generalizing ms with
  | nil =>
    simp only [mergeEntries, Option.some.injEq, Prod.mk.injEq, true_and] at h
    exact h ▸ hq
  | cons row rest ih =>
    obtain ⟨k, v⟩ := row
    obtain ⟨e, ms1, _, h2, hother, x, hx, hdup, _⟩ := mergeEntries_step pfx n k v rest ms ms' h
    obtain ⟨y, hy, himp⟩ := hq
    by_cases hk : key = k
    · subst hk
      have := (hdup y hy).1
      exact ih ms1 ⟨x, hx, fun _ => himp this⟩ h2
    · exact ih ms1 ⟨y, (hother key hk).trans hy, himp⟩ h2

theorem slicesTraceBack_of_row (pfx : String) (n : Nat) (key : String) (v1 : TableValue)
    (rows : List (String × TableValue)) (ms ms' : MergeState) (hmem : (key, v1) ∈ rows)
    (h : mergeEntries pfx n rows ms = some (Status.OK, ms')) :
    ∃ e1, v1 = TableValue.entry e1 ∧ slicesTraceBack key e1 ms' := by
  induction rows generalizing ms with
  | nil => simp at hmem
  | cons row rest ih =>
    obtain ⟨k, v⟩ := row
    obtain ⟨e, ms1, he, h2, _, x, hx, hdup, hfresh⟩ := mergeEntries_step pfx n k v rest ms ms' h
    rcases List.mem_cons.mp hmem with hhead | htail
    · obtain ⟨hk, hv⟩ := Prod.mk.inj hhead
      subst hk hv
      refine ⟨e, he, slicesTraceBack_rows pfx n key e rest ms1 ms' ⟨x, hx, ?_⟩ h2⟩
      intro hxs
      cases hf : mapFind ms.entries key with
      | some existing => exact (hdup existing hf).2
      | none => exact (hfresh hf) ▸ hxs
    · exact ih ms1 htail h2

theorem OpenTable_of_ok (env : Env) (path : String) (h : (env.OpenTable path).1.ok = true) :
    env.OpenTable path = (Status.OK, (env.OpenTable path).2) := by
  unfold Env.OpenTable at h ⊢
  cases hf : fsFind env.files path with
  | none => simp [hf, errors.NotFound, Status.ok] at h
  | some d =>
    cases d with
    | bytes b => simp [hf, errors.DataLoss, Status.ok] at h
    | table rows => simp [hf]

/-- A bundle that is merged has a table that opens. -/
theorem MergeOneBundle_opens (env : Env) (pfx : String) (ms ms' : MergeState)
    (h : MergeOneBundle env pfx ms = some (Status.OK, ms')) :
    ∃ rows, env.OpenTable (MetaFilename pfx) = (Status.OK, rows) := by
  by_cases c : (env.OpenTable (MetaFilename pfx)).1.ok = true
  · exact ⟨_, OpenTable_of_ok env _ c⟩
  · exfalso
    unfold MergeOneBundle at h
    simp only at h
    split at h
    · rename_i c1
      simp only [Option.some.injEq, Prod.mk.injEq] at h
      rw [h.1] at c1
      simp [Status.ok, Status.OK] at c1
    · split at h
      · rename_i c1 c2
        simp only [Option.some.injEq, Prod.mk.injEq] at h
        rw [h.1] at c2
        simp [Status.ok, Status.OK] at c2
      · simp only [Bool.not_eq_true] at c
        simp only [c, Bool.not_false, if_true, Option.some.injEq, Prod.mk.injEq] at h
        rw [h.1] at c
        simp [Status.ok, Status.OK] at c

theorem slicesTraceBack_bundle (env : Env) (pfx key : String) (e1 : BundleEntryProto)
    (ms ms' : MergeState) (hq : slicesTraceBack key e1 ms)
    (h : MergeOneBundle env pfx ms = some (Status.OK, ms')) : slicesTraceBack key e1 ms' := by
  obtain ⟨rows, hopen⟩ := MergeOneBundle_opens env pfx ms ms' h
  obtain ⟨k0, h0, _, hm⟩ := MergeOneBundle_ok env pfx ms ms' rows hopen h
  refine slicesTraceBack_rows pfx h0.num_shards key e1 rows.tail _ ms' ?_ hm
  obtain ⟨x, hx, himp⟩ := hq
  exact ⟨x, by rw [(mergeHeader_entries h0 ms).1]; exact hx, himp⟩

theorem status_ok_eq {st : Status} (h : st.ok = true) (hmsg : st.msg = "") : st = Status.OK := by
  cases st with
  | mk code msg =>
    simp only [Status.ok, decide_eq_true_eq] at h
    simp only at hmsg
    subst h hmsg
    rfl

theorem mergeEntries_status (pfx : String) (n : Nat) (rows : List (String × TableValue))
    (ms ms' : MergeState) (st : Status) (h : mergeEntries pfx n rows ms = some (st, ms'))
    (hok : st.ok = true) : st = Status.OK := by
  induction rows generalizing ms with
  | nil =>
    simp only [mergeEntries, Option.some.injEq, Prod.mk.injEq] at h
    exact h.1.symm
  | cons row rest ih =>
    obtain ⟨k, v⟩ := row
    simp only [mergeEntries] at h
    split at h
    · split at h
      · simp only [Option.some.injEq, Prod.mk.injEq] at h
        rw [← h.1] at hok; simp [Status.ok, errors.InvalidArgument] at hok
      · split at h
        · simp only [Option.some.injEq, Prod.mk.injEq] at h
          rename_i c; rw [h.1] at c; simp [hok] at c
        · split at h
          · simp only [Option.some.injEq, Prod.mk.injEq] at h
            rw [← h.1] at hok; simp [Status.ok, errors.Internal] at hok
          · split at h
            · simp at h
            · split at h
              · simp at h
              · exact ih _ h
    · split at h
      · simp only [Option.some.injEq, Prod.mk.injEq] at h
        rename_i c; rw [h.1] at c; simp [hok] at c
      · exact ih _ h

theorem MergeOneBundle_status (env : Env) (pfx : String) (ms ms' : MergeState) (st : Status)
    (h : MergeOneBundle env pfx ms = some (st, ms')) (hok : st.ok = true) : st = Status.OK := by
  unfold MergeOneBundle at h
  simp only at h
  split at h
  · simp only [Option.some.injEq, Prod.mk.injEq] at h
    rename_i c; rw [h.1] at c; simp [hok] at c
  · split at h
    · simp only [Option.some.injEq, Prod.mk.injEq] at h
      rename_i c; rw [h.1] at c; simp [hok] at c
    · split at h
      · simp only [Option.some.injEq, Prod.mk.injEq] at h
        rename_i c; rw [h.1] at c; simp [hok] at c
      · split at h
        · simp only [Option.some.injEq, Prod.mk.injEq] at h
          rw [← h.1] at hok
          simp [CorruptFileError, Status.ok, Status.OK, errors.Internal] at hok
        · split at h
          · simp only [Option.some.injEq, Prod.mk.injEq] at h
            rename_i c
            rw [← h.1] at hok
            simp only [Bool.not_eq_true'] at c
            simp only [Status.ok, decide_eq_false_iff_not] at c
            simp only [CorruptFileError, Status.ok, c, decide_False, Bool.false_eq_true,
              if_false, decide_eq_true_eq] at hok
          · split at h
            · simp only [Option.some.injEq] at h
              rename_i c; rw [h] at c; simp [hok] at c
            · exact mergeEntries_status _ _ _ _ _ _ h hok

theorem mergeAll_cons (env : Env) (p : String) (rest : List String) (ms ms' : MergeState)
    (h : mergeAll env (p :: rest) ms = some (Status.OK, ms')) :
    ∃ ms1, MergeOneBundle env p ms = some (Status.OK, ms1) ∧
      mergeAll env rest ms1 = some (Status.OK, ms') := by
  simp only [mergeAll] at h
  cases hm : MergeOneBundle env p ms with
  | none => simp [hm] at h
  | some res =>
    obtain ⟨st, ms1⟩ := res
    simp only [hm] at h
    by_cases c : st.ok = true
    · simp only [c, Bool.not_true, Bool.false_eq_true, if_false] at h
      have := MergeOneBundle_status env p ms ms1 st hm c
      exact ⟨ms1, by rw [this], h⟩
    · simp only [Bool.not_eq_true] at c
      simp only [c, Bool.not_false, if_true, Option.some.injEq, Prod.mk.injEq] at h
      rw [h.1] at c
      simp [Status.ok, Status.OK] at c

theorem mergeAll_append (env : Env) (l1 l2 : List String) (ms ms' : MergeState)
    (h : mergeAll env (l1 ++ l2) ms = some (Status.OK, ms')) :
    ∃ ms1, mergeAll env l1 ms = some (Status.OK, ms1) ∧
      mergeAll env l2 ms1 = some (Status.OK, ms') := by
  induction l1 generalizing ms with
  | nil => exact ⟨ms, rfl, h⟩
  | cons p rest ih =>
    obtain ⟨ms1, h1, h2⟩ := mergeAll_cons env p (rest ++ l2) ms ms' h
    obtain ⟨ms2, h3, h4⟩ := ih ms1 h2
    refine ⟨ms2, ?_, h4⟩
    simp only [mergeAll, h1, Status.ok, Status.OK, decide_True, Bool.not_true,
      Bool.false_eq_true, if_false]
    exact h3

theorem slicesTraceBack_all (env : Env) (key : String) (e1 : BundleEntryProto)
    (l : List String) (ms ms' : MergeState) (hq : slicesTraceBack key e1 ms)
    (h : mergeAll env l ms = some (Status.OK, ms')) : slicesTraceBack key e1 ms' := by
  induction l generalizing ms with
  | nil =>
    simp only [mergeAll, Option.some.injEq, Prod.mk.injEq, true_and] at h
    exact h ▸ hq
  | cons p rest ih =>
    obtain ⟨ms1, h1, h2⟩ := mergeAll_cons env p rest ms ms' h
    exact ih ms1 (slicesTraceBack_bundle env p key e1 ms ms1 hq h1) h2

/-- C7: a key that is a non-header row of the bundle at `pfx`.  (1) If the key is also
a non-header row of a bundle `p1` merged before `pfx`, the merge of the list of
bundles goes through only if both rows are entries with a non-empty slice list.
(2) Whatever the merge state accumulated from the earlier bundles, if it holds the
key then the merge of the bundle at `pfx` goes through only if the accumulated entry
and the incoming entry both carry a non-empty slice list; when the row is reached
with an accumulated entry without slices the merge stops with the duplicate-key
`InvalidArgument` error, whether the incoming entry has slices or not, and when the
accumulated entry has slices and the incoming entry has none it stops with an
`Internal` error.  In both cases the merge state is returned as it was: no side
replaces the other. -/
theorem merge_duplicate_key (env : Env) (pfx : String) (rows : List (String × TableValue))
    (key : String) (value : TableValue)
    (hopen : env.OpenTable (MetaFilename pfx) = (Status.OK, rows))
    (hmem : (key, value) ∈ rows.tail) :
    (∀ p1 rows1 v1 l1 l2 l3 ms0 msF,
      env.OpenTable (MetaFilename p1) = (Status.OK, rows1) → (key, v1) ∈ rows1.tail →
      mergeAll env (l1 ++ p1 :: (l2 ++ pfx :: l3)) ms0 = some (Status.OK, msF) →
      (∃ e1, v1 = TableValue.entry e1 ∧ e1.slices ≠ []) ∧
       ∃ e, value = TableValue.entry e ∧ e.slices ≠ []) ∧
    (∀ ms existing, mapFind ms.entries key = some existing →
      (∀ ms', MergeOneBundle env pfx ms = some (Status.OK, ms') →
        existing.slices ≠ [] ∧ ∃ e, value = TableValue.entry e ∧ e.slices ≠ []) ∧
      (existing.slices = [] → ∀ n rest,
        mergeEntries pfx n ((key, value) :: rest) ms =
          some (errors.InvalidArgument ("Duplicate tensor keyed by " ++ key ++
            " encountered, when merging prefix: " ++ pfx), ms)) ∧
      (existing.slices ≠ [] → ∀ e, value = TableValue.entry e → e.slices = [] → ∀ n rest,
        mergeEntries pfx n ((key, value) :: rest) ms =
          some (errors.Internal ("Duplicate tensor keyed by " ++ key ++
            "; attempting to merge in a non-slice bundle entry"), ms))) := by
  have state_level : ∀ ms existing ms', mapFind ms.entries key = some existing →
      MergeOneBundle env pfx ms = some (Status.OK, ms') →
      existing.slices ≠ [] ∧ ∃ e, value = TableValue.entry e ∧ e.slices ≠ [] := by
    intro ms existing ms' hfind h
    obtain ⟨k0, h0, _, hm⟩ := MergeOneBundle_ok env pfx ms ms' rows hopen h
    have hf : mapFind (mergeHeader h0 ms).2.entries key = some existing := by
      rw [(mergeHeader_entries h0 ms).1]; exact hfind
    exact mergeEntries_dup_ok pfx h0.num_shards rows.tail key value _ ms' existing hmem hf hm
  refine ⟨?_, ?_⟩
  · intro p1 rows1 v1 l1 l2 l3 ms0 msF hopen1 hmem1 hall
    obtain ⟨msa, _, ha⟩ := mergeAll_append env l1 _ ms0 msF hall
    obtain ⟨msb, hb, hb2⟩ := mergeAll_cons env p1 _ msa msF ha
    obtain ⟨msc, hc, hc2⟩ := mergeAll_append env l2 _ msb msF hb2
    obtain ⟨msd, hd, _⟩ := mergeAll_cons env pfx _ msc msF hc2
    obtain ⟨k0, h0, _, hm⟩ := MergeOneBundle_ok env p1 msa msb rows1 hopen1 hb
    obtain ⟨e1, hv1, hq⟩ := slicesTraceBack_of_row p1 h0.num_shards key v1 rows1.tail _ msb hmem1 hm
    obtain ⟨x, hx, himp⟩ := slicesTraceBack_all env key e1 l2 msb msc hq hc
    obtain ⟨hxs, hval⟩ := state_level msc x msd hx hd
    exact ⟨⟨e1, hv1, himp hxs⟩, hval⟩
  · intro ms existing hfind
    refine ⟨fun ms' h => state_level ms existing ms' hfind h, ?_, ?_⟩
    · intro hs n rest
      exact mergeEntries_dup_nonslice pfx n key value rest ms existing hfind hs
    · intro hs e hv he n rest
      subst hv
      exact mergeEntries_dup_slice_nonslice pfx n key e rest ms existing hfind hs he

theorem merge_duplicate_key_witness :
    mergeAll exTwoBundles ["dir/a", "dir/b"] {} = some (Status.OK, exMergedAB) ∧
    ∃ e, TableValue.entry exEntryTB = TableValue.entry e ∧ e.slices ≠ [] :=
  ⟨by decide!,
   ((merge_duplicate_key exTwoBundles "dir/b" exRowsB "t" (TableValue.entry exEntryTB)
      (by decide!) (by decide!)).1 "dir/a" (exTwoBundles.OpenTable (MetaFilename "dir/a")).2
      (TableValue.entry exEntryTA) [] [] [] {} exMergedAB (by decide!) (by decide!)
      (by decide!)).2⟩

/-- C8: a row whose key is in the merge state with slices, and whose own entry has
slices and the same dtype and shape, is merged: in the state the rest of the rows is
merged into, the entry of the key is the existing entry with the incoming slice
descriptors appended to its slice list in their order and every other field as it
was, the renumbering map is the same (no shard id is allocated), and the other
entries are untouched. -/
theorem merge_slice_lists (pfx : String) (n : Nat) (key : String) (e : BundleEntryProto)
    (rest : List (String × TableValue)) (ms : MergeState) (existing : BundleEntryProto)
    (hfind : mapFind ms.entries key = some existing) (hs : existing.slices ≠ [])
    (hes : e.slices ≠ []) (hdtype : existing.dtype = e.dtype)
    (hshape : existing.tensorShape = e.tensorShape) :
    ∃ ms1 : MergeState,
      mergeEntries pfx n ((key, TableValue.entry e) :: rest) ms = mergeEntries pfx n rest ms1 ∧
      mergeEntries pfx n [(key, TableValue.entry e)] ms = some (Status.OK, ms1) ∧
      mapFind ms1.entries key =
        some { existing with slices := existing.slices ++ e.slices } ∧
      ms1.shard_ids = ms.shard_ids ∧
      (∀ k, k ≠ key → mapFind ms1.entries k = mapFind ms.entries k) ∧
      ms1.num_shards = ms.num_shards := by
  let merged : BundleEntryProto := { existing with slices := existing.slices ++ e.slices }
  refine ⟨{ ms with entries := mapInsert ms.entries key merged }, ?_, ?_, ?_, rfl, ?_, rfl⟩
  · simp only [mergeEntries, hfind, List.isEmpty_eq_true, hs, hes, ParseEntryProto, Status.ok,
      Status.OK, decide_True, Bool.not_true, Bool.false_eq_true, if_false]
    rw [if_neg (not_not.mpr hdtype), if_neg (not_not.mpr hshape)]
  · simp only [mergeEntries, hfind, List.isEmpty_eq_true, hs, hes, ParseEntryProto, Status.ok,
      Status.OK, decide_True, Bool.not_true, Bool.false_eq_true, if_false]
    rw [if_neg (not_not.mpr hdtype), if_neg (not_not.mpr hshape)]
  · exact mapFind_mapInsert_self _ _ _
  · intro k hk
    exact mapFind_mapInsert_ne _ _ _ _ (Ne.symm hk)

theorem merge_slice_lists_witness :
    ∃ ms1 : MergeState,
      mergeEntries "dir/b" 1 ((("t" : String), TableValue.entry exEntryTB) :: []) exMergedA =
        mergeEntries "dir/b" 1 [] ms1 ∧
      mergeEntries "dir/b" 1 [("t", TableValue.entry exEntryTB)] exMergedA =
        some (Status.OK, ms1) ∧
      mapFind ms1.entries "t" =
        some { exEntryTA with slices := exEntryTA.slices ++ exEntryTB.slices } ∧
      ms1.shard_ids = exMergedA.shard_ids ∧
      (∀ k, k ≠ "t" → mapFind ms1.entries k = mapFind exMergedA.entries k) ∧
      ms1.num_shards = exMergedA.num_shards :=
  merge_slice_lists "dir/b" 1 "t" exEntryTB [] exMergedA exEntryTA (by decide!) (by decide!)
    (by decide!) (by decide!) (by decide!)

end tfplus

namespace tfplus

open DataType

/-! ## Data file names -/

theorem digitChar_isDigit (m : Nat) (h : m < 10) : (Nat.digitChar m).isDigit = true := by
  interval_cases m <;> decide

theorem toDigitsCore_isDigit (fuel n : Nat) (ds : List Char)
    (hds : ∀ c ∈ ds, c.isDigit = true) :
    ∀ c ∈ Nat.toDigitsCore 10 fuel n ds, c.isDigit = true := by
  induction fuel generalizing n ds with
  | zero => simpa [Nat.toDigitsCore] using hds
  | succ f ih =>
    have hd : (Nat.digitChar (n % 10)).isDigit = true := digitChar_isDigit _ (Nat.mod_lt _ (by decide))
    have hcons : ∀ c ∈ Nat.digitChar (n % 10) :: ds, c.isDigit = true := by
      intro c hc
      rcases List.mem_cons.mp hc with h | h
      · rw [h]; exact hd
      · exact hds c h
    simp only [Nat.toDigitsCore]
    split
    · exact hcons
    · exact ih _ _ hcons

theorem repr_isDigit (n : Nat) : ∀ c ∈ (Nat.repr n).data, c.isDigit = true := by
  simp only [Nat.repr, Nat.toDigits, List.asString]
  exact toDigitsCore_isDigit _ _ _ (by simp)

theorem pad5_isDigit (n : Nat) : ∀ c ∈ (pad5 n).data, c.isDigit = true := by
  intro c hc
  simp only [pad5, String.data_append, List.mem_append] at hc
  rcases hc with h | h
  · simp only [List.mem_replicate] at h
    rw [h.2]; decide
  · exact repr_isDigit n c h

theorem dropWhile_digits (l r : List Char) (c : Char) (hl : ∀ x ∈ l, x.isDigit = true)
    (hc : c.isDigit = false) : (l ++ c :: r).dropWhile Char.isDigit = c :: r := by
  induction l with
  | nil => simp [List.dropWhile, hc]
  | cons a rest ih =>
    have ha := hl a (List.mem_cons_self _ _)
    simp only [List.cons_append, List.dropWhile, ha]
    exact ih (fun x hx => hl x (List.mem_cons_of_mem _ hx))

theorem DataFilename_data (p : String) (i n : Nat) :
    (DataFilename p i n).data.reverse =
      (pad5 n).data.reverse ++ '-' :: 'f' :: 'o' :: '-' ::
        ((pad5 i).data.reverse ++ '-' :: 'a' :: 't' :: 'a' :: 'd' :: '.' :: p.data.reverse) := by
  simp [DataFilename, String.data_append]

theorem stripDataSuffix_DataFilename (p : String) (i n : Nat) :
    stripDataSuffix (DataFilename p i n).data.reverse = p.data.reverse := by
  rw [DataFilename_data, stripDataSuffix]
  rw [dropWhile_digits _ _ '-' (fun x hx => pad5_isDigit n x (List.mem_reverse.mp hx)) (by decide)]
  simp only [List.drop_succ_cons, List.drop_zero]
  rw [dropWhile_digits _ _ '-' (fun x hx => pad5_isDigit i x (List.mem_reverse.mp hx)) (by decide)]
  simp only [List.drop_succ_cons, List.drop_zero]

theorem DataFilename_inj_prefix (p q : String) (i n j m : Nat)
    (h : DataFilename p i n = DataFilename q j m) : p = q := by
  have h1 := stripDataSuffix_DataFilename p i n
  rw [h, stripDataSuffix_DataFilename] at h1
  have h2 : q.data = p.data := List.reverse_injective h1
  exact (String.ext h2).symm

/-! ## The renumbering map of a merge -/

theorem mapFind_append {α : Type} (l r : List (String × α)) (k : String) :
    mapFind (l ++ r) k = match mapFind l k with
      | some v => some v
      | none => mapFind r k := by
  induction l with
  | nil => simp [mapFind]
  | cons p rest ih =>
    obtain ⟨k', v⟩ := p
    simp only [List.cons_append, mapFind]
    split
    · rfl
    · exact ih

theorem mapFind_mem {α : Type} (l : List (String × α)) (k : String) (v : α)
    (h : mapFind l k = some v) : (k, v) ∈ l := by
  induction l with
  | nil => simp [mapFind] at h
  | cons p rest ih =>
    obtain ⟨k', v'⟩ := p
    simp only [mapFind] at h
    split at h
    · rename_i hk
      obtain rfl := Option.some.inj h
      rw [hk]; exact List.mem_cons_self _ _
    · exact List.mem_cons_of_mem _ (ih h)

theorem mapFind_none_not_mem {α : Type} (l : List (String × α)) (k : String)
    (h : mapFind l k = none) : k ∉ l.map Prod.fst := by
  induction l with
  | nil => simp
  | cons p rest ih =>
    obtain ⟨k', v'⟩ := p
    simp only [mapFind] at h
    split at h
    · simp at h
    · rename_i hk
      simp only [List.map_cons, List.mem_cons, not_or]
      exact ⟨fun e => hk e.symm, ih h⟩

theorem shardIdsWF_inj (ids : List (String × Nat)) (hwf : shardIdsWF ids) (a b : String)
    (id : Nat) (ha : mapFind ids a = some id) (hb : mapFind ids b = some id) : a = b := by
  have hnd : (ids.map Prod.snd).Nodup := by rw [hwf.1]; exact List.nodup_range _
  have := List.inj_on_of_nodup_map hnd (mapFind_mem ids a id ha) (mapFind_mem ids b id hb) rfl
  exact (Prod.mk.inj this).1

theorem shardIdsWF_append (ids : List (String × Nat)) (hwf : shardIdsWF ids) (path : String)
    (h : mapFind ids path = none) : shardIdsWF (ids ++ [(path, ids.length)]) := by
  refine ⟨?_, ?_⟩
  · simp [List.range_succ, hwf.1]
  · simp only [List.map_append, List.map_cons, List.map_nil]
    refine List.Nodup.append hwf.2 (by simp) ?_
    intro x hx hx2
    simp only [List.mem_singleton] at hx2
    exact mapFind_none_not_mem ids path h (hx2 ▸ hx)

/-- The effect of one merged row on the state. -/
theorem mergeEntries_row (pfx : String) (n : Nat) (k : String) (value : TableValue)
    (rest : List (String × TableValue)) (ms ms' : MergeState)
    (h : mergeEntries pfx n ((k, value) :: rest) ms = some (Status.OK, ms')) :
    ∃ e ms1, value = TableValue.entry e ∧ mergeEntries pfx n rest ms1 = some (Status.OK, ms') ∧
      (∀ key, key ≠ k → mapFind ms1.entries key = mapFind ms.entries key) ∧
      ((∃ existing, mapFind ms.entries k = some existing ∧ ms1.shard_ids = ms.shard_ids ∧
          mapFind ms1.entries k = some { existing with slices := existing.slices ++ e.slices }) ∨
       (mapFind ms.entries k = none ∧
          ∃ id, mapFind ms1.entries k = some { e with shard_id := id } ∧
            mapFind ms1.shard_ids (DataFilename pfx e.shard_id n) = some id ∧
            (ms1.shard_ids = ms.shard_ids ∨
              (mapFind ms.shard_ids (DataFilename pfx e.shard_id n) = none ∧
               ms1.shard_ids =
                 ms.shard_ids ++ [(DataFilename pfx e.shard_id n, ms.shard_ids.length)])))) := by
  cases hf : mapFind ms.entries k with
  | some existing =>
    obtain ⟨h1, e, he, hes, h2⟩ := mergeEntries_head_dup_ok pfx n k value rest ms ms' existing hf h
    refine ⟨e, _, he, h2, ?_, Or.inl ⟨existing, rfl, rfl, mapFind_mapInsert_self _ _ _⟩⟩
    intro key hk
    exact mapFind_mapInsert_ne _ _ _ _ (Ne.symm hk)
  | none =>
    simp only [mergeEntries, hf] at h
    cases value with
    | header hd => simp [ParseEntryProto, Status.ok, errors.DataLoss, Status.OK] at h
    | garbage => simp [ParseEntryProto, Status.ok, errors.DataLoss, Status.OK] at h
    | entry e =>
      simp only [ParseEntryProto, Status.ok, Status.OK, decide_True, Bool.not_true,
        Bool.false_eq_true, if_false] at h
      refine ⟨e, _, rfl, h, ?_, Or.inr ⟨rfl, ?_⟩⟩
      · intro key hk
        exact mapFind_mapInsert_ne _ _ _ _ (Ne.symm hk)
      · cases hp : mapFind ms.shard_ids (DataFilename pfx e.shard_id n) with
        | some id =>
          exact ⟨id, by simp [mapFind_mapInsert_self, hp], by simp [hp], Or.inl (by simp)⟩
        | none =>
          refine ⟨ms.shard_ids.length, ?_, ?_, Or.inr ⟨rfl, by simp⟩⟩
          · simp [mapFind_mapInsert_self, mapFind_append, hp, mapFind]
          · simp [mapFind_append, hp, mapFind]

theorem entrySource_mono (env : Env) (prefixes : List String) (ids ids1 : List (String × Nat))
    (key : String) (e : BundleEntryProto)
    (hids : ∀ q x, mapFind ids q = some x → mapFind ids1 q = some x)
    (h : entrySource env prefixes ids key e) : entrySource env prefixes ids1 key e := by
  obtain ⟨p, hp, k0, h0, rows, e0, hopen, hmem, hfind⟩ := h
  exact ⟨p, hp, k0, h0, rows, e0, hopen, hmem, hids _ _ hfind⟩

theorem mergeInv_rows (env : Env) (prefixes : List String) (p k0 : String)
    (h0 : BundleHeaderProto) (allrows : List (String × TableValue)) (hp : p ∈ prefixes)
    (hopen : env.OpenTable (MetaFilename p) = (Status.OK, (k0, TableValue.header h0) :: allrows))
    (rows : List (String × TableValue)) (hsub : ∀ r ∈ rows, r ∈ allrows) (ms ms' : MergeState)
    (hinv : mergeInv env prefixes ms)
    (h : mergeEntries p h0.num_shards rows ms = some (Status.OK, ms')) :
    mergeInv env prefixes ms' ∧ ∃ t, ms'.shard_ids = ms.shard_ids ++ t := by
  induction rows generalizing ms with
  | nil =>
    simp only [mergeEntries, Option.some.injEq, Prod.mk.injEq, true_and] at h
    subst h
    exact ⟨hinv, [], by simp⟩
  | cons row rest ih =>
    obtain ⟨k, v⟩ := row
    obtain ⟨e, ms1, hv, h2, hother, hcase⟩ := mergeEntries_row p h0.num_shards k v rest ms ms' h
    have hrest : ∀ r ∈ rest, r ∈ allrows := fun r hr => hsub r (List.mem_cons_of_mem _ hr)
    have hrow : (k, TableValue.entry e) ∈ allrows := hv ▸ hsub (k, v) (List.mem_cons_self _ _)
    obtain ⟨hwf, hsrc, hused⟩ := hinv
    have key_step : mergeInv env prefixes ms1 ∧ ∃ t, ms1.shard_ids = ms.shard_ids ++ t := by
      rcases hcase with ⟨existing, hex, hids, hnew⟩ | ⟨hnone, id, hnew, hid, hids⟩
      · refine ⟨⟨hids ▸ hwf, ?_, ?_⟩, [], by simp [hids]⟩
        · intro key x hx
          rw [hids]
          by_cases hk : key = k
          · subst hk
            rw [hnew] at hx
            obtain rfl := Option.some.inj hx
            exact hsrc key existing hex
          · rw [hother key hk] at hx
            exact hsrc key x hx
        · intro path i hmem
          rw [hids] at hmem
          obtain ⟨key, x, hx, hxi⟩ := hused path i hmem
          by_cases hk : key = k
          · subst hk
            rw [hex] at hx
            obtain rfl := Option.some.inj hx
            exact ⟨key, _, hnew, hxi⟩
          · exact ⟨key, x, (hother key hk).trans hx, hxi⟩
      · have hmono : ∀ q x, mapFind ms.shard_ids q = some x → mapFind ms1.shard_ids q = some x := by
          intro q x hq
          rcases hids with hsame | ⟨_, happ⟩
          · rw [hsame]; exact hq
          · rw [happ, mapFind_append, hq]
        have hwf1 : shardIdsWF ms1.shard_ids := by
          rcases hids with hsame | ⟨hn, happ⟩
          · rw [hsame]; exact hwf
          · rw [happ]; exact shardIdsWF_append _ hwf _ hn
        have hext : ∃ t, ms1.shard_ids = ms.shard_ids ++ t := by
          rcases hids with hsame | ⟨_, happ⟩
          · exact ⟨[], by simp [hsame]⟩
          · exact ⟨_, happ⟩
        refine ⟨⟨hwf1, ?_, ?_⟩, hext⟩
        · intro key x hx
          by_cases hk : key = k
          · subst hk
            rw [hnew] at hx
            obtain rfl := Option.some.inj hx
            exact ⟨p, hp, k0, h0, allrows, e, hopen, hrow, hid⟩
          · rw [hother key hk] at hx
            exact entrySource_mono env prefixes _ _ key x hmono (hsrc key x hx)
        · intro path i hmem
          have hold : (path, i) ∈ ms.shard_ids → ∃ key x, mapFind ms1.entries key = some x ∧
              x.shard_id = i := by
            intro hm
            obtain ⟨key, x, hx, hxi⟩ := hused path i hm
            have hk : key ≠ k := by
              intro hk; rw [hk, hnone] at hx; simp at hx
            exact ⟨key, x, (hother key hk).trans hx, hxi⟩
          rcases hids with hsame | ⟨hn, happ⟩
          · exact hold (hsame ▸ hmem)
          · rw [happ] at hmem
            rcases List.mem_append.mp hmem with hm | hm
            · exact hold hm
            · simp only [List.mem_singleton, Prod.mk.injEq] at hm
              refine ⟨k, _, hnew, ?_⟩
              rw [happ, mapFind_append, hn] at hid
              simp only [mapFind, if_true, Option.some.injEq] at hid
              simp only
              rw [← hid, hm.2]
    obtain ⟨hinv1, t1, ht1⟩ := key_step
    obtain ⟨hinv', t2, ht2⟩ := ih hrest ms1 hinv1 h2
    exact ⟨hinv', t1 ++ t2, by rw [ht2, ht1, List.append_assoc]⟩

theorem mergeInv_bundle (env : Env) (prefixes : List String) (p : String) (hp : p ∈ prefixes)
    (ms ms' : MergeState) (hinv : mergeInv env prefixes ms)
    (h : MergeOneBundle env p ms = some (Status.OK, ms')) :
    mergeInv env prefixes ms' ∧ ∃ t, ms'.shard_ids = ms.shard_ids ++ t := by
  obtain ⟨rows, hopen⟩ := MergeOneBundle_opens env p ms ms' h
  obtain ⟨k0, h0, hhead, hm⟩ := MergeOneBundle_ok env p ms ms' rows hopen h
  have hrows : rows = (k0, TableValue.header h0) :: rows.tail := by
    cases rows with
    | nil => simp at hhead
    | cons r rest =>
      simp only [List.head?_cons, Option.some.injEq] at hhead
      simp [hhead]
  have he := mergeHeader_entries h0 ms
  have hinv0 : mergeInv env prefixes (mergeHeader h0 ms).2 := by
    unfold mergeInv
    rw [he.1, he.2]
    exact hinv
  have := mergeInv_rows env prefixes p k0 h0 rows.tail hp (hrows ▸ hopen) rows.tail
    (fun r hr => hr) _ ms' hinv0 hm
  rw [he.2] at this
  exact this

theorem mergeInv_all (env : Env) (prefixes l : List String) (hl : ∀ p ∈ l, p ∈ prefixes)
    (ms ms' : MergeState) (hinv : mergeInv env prefixes ms)
    (h : mergeAll env l ms = some (Status.OK, ms')) :
    mergeInv env prefixes ms' ∧ ∃ t, ms'.shard_ids = ms.shard_ids ++ t := by
  induction l generalizing ms with
  | nil =>
    simp only [mergeAll, Option.some.injEq, Prod.mk.injEq, true_and] at h
    subst h
    exact ⟨hinv, [], by simp⟩
  | cons p rest ih =>
    obtain ⟨ms1, h1, h2⟩ := mergeAll_cons env p rest ms ms' h
    obtain ⟨hinv1, t1, ht1⟩ := mergeInv_bundle env prefixes p (hl p (List.mem_cons_self _ _))
      ms ms1 hinv h1
    obtain ⟨hinv', t2, ht2⟩ := ih (fun q hq => hl q (List.mem_cons_of_mem _ hq)) ms1 hinv1 h2
    exact ⟨hinv', t1 ++ t2, by rw [ht2, ht1, List.append_assoc]⟩

theorem mergeInv_empty (env : Env) (prefixes : List String) : mergeInv env prefixes {} := by
  refine ⟨⟨rfl, List.nodup_nil⟩, ?_, ?_⟩
  · intro key e h; simp [mapFind] at h
  · intro path id h; simp at h

/-- C6: when the loop of `MergeBundles` over the input bundles goes through from the
empty merge state, (1) the renumbering map lists the source data files without
repetition and gives them the ids 0, 1, ..., m-1 in the order of the list; (2) the
list only grows at its end while the bundles are merged, so this order is the order
in which the files were first seen; (3) every id of the map is carried by a merged
entry; (4) every merged entry was read from an input bundle `p`, as a row
`(key, e0)` under the header `h0`, and carries the id the map gives to
`DataFilename(p, e0.shard_id, h0.num_shards)`; (5) two data file names that get the
same id have the same bundle prefix, so entries read from different bundles never
share a shard id. -/
theorem merge_renumbering (env : Env) (prefixes : List String) (msF : MergeState)
    (h : mergeAll env prefixes {} = some (Status.OK, msF)) :
    (msF.shard_ids.map Prod.snd = List.range msF.shard_ids.length ∧
      (msF.shard_ids.map Prod.fst).Nodup) ∧
    (∀ l1 l2 ms1, prefixes = l1 ++ l2 → mergeAll env l1 {} = some (Status.OK, ms1) →
      ∃ t, msF.shard_ids = ms1.shard_ids ++ t) ∧
    (∀ path id, (path, id) ∈ msF.shard_ids →
      ∃ key e, mapFind msF.entries key = some e ∧ e.shard_id = id) ∧
    (∀ key e, mapFind msF.entries key = some e →
      ∃ p ∈ prefixes, ∃ k0 h0 rows e0,
        env.OpenTable (MetaFilename p) = (Status.OK, (k0, TableValue.header h0) :: rows) ∧
        (key, TableValue.entry e0) ∈ rows ∧
        mapFind msF.shard_ids (DataFilename p e0.shard_id h0.num_shards) = some e.shard_id) ∧
    (∀ p1 i1 n1 p2 i2 n2 id, mapFind msF.shard_ids (DataFilename p1 i1 n1) = some id →
      mapFind msF.shard_ids (DataFilename p2 i2 n2) = some id → p1 = p2) := by
  obtain ⟨⟨hwf, hsrc, hused⟩, _⟩ :=
    mergeInv_all env prefixes prefixes (fun p hp => hp) {} msF (mergeInv_empty env prefixes) h
  refine ⟨hwf, ?_, hused, hsrc, ?_⟩
  · intro l1 l2 ms1 hsplit h1
    subst hsplit
    obtain ⟨ms1', h1', h2⟩ := mergeAll_append env l1 l2 {} msF h
    rw [h1] at h1'
    obtain rfl : ms1 = ms1' := (Prod.mk.inj (Option.some.inj h1')).2
    obtain ⟨hinv1, _⟩ := mergeInv_all env (l1 ++ l2) l1 (fun p hp => List.mem_append_left _ hp)
      {} ms1 (mergeInv_empty env _) h1
    exact (mergeInv_all env (l1 ++ l2) l2 (fun p hp => List.mem_append_right _ hp)
      ms1 msF hinv1 h2).2
  · intro p1 i1 n1 p2 i2 n2 id ha hb
    exact DataFilename_inj_prefix p1 p2 i1 n1 i2 n2 (shardIdsWF_inj _ hwf _ _ id ha hb)

theorem merge_renumbering_witness :
    exMergedAB.shard_ids = [("dir/a.data-00000-of-00001", 0), ("dir/b.data-00000-of-00001", 1)] ∧
    (exMergedAB.shard_ids.map Prod.snd = List.range exMergedAB.shard_ids.length ∧
      (exMergedAB.shard_ids.map Prod.fst).Nodup) :=
  ⟨by decide!, (merge_renumbering exTwoBundles ["dir/a", "dir/b"] exMergedAB (by decide!)).1⟩

end tfplus

namespace tfplus

open DataType

/-! ## The file system during `Finish` -/

theorem fsFind_fsErase (fs : Files) (p q : String) :
    fsFind (fsErase fs p) q = if p = q then none else fsFind fs q := by
  induction fs with
  | nil => simp [fsErase, fsFind, mapFind]
  | cons x rest ih =>
    obtain ⟨k, d⟩ := x
    simp only [fsErase, fsFind] at ih ⊢
    by_cases hk : k = p
    · subst hk
      simp only [List.filter, bne_self_eq_false]
      rw [ih]
      by_cases hq : k = q
      · simp [hq]
      · simp [hq, mapFind]
    · have : (k != p) = true := by simpa using hk
      simp only [List.filter, this, mapFind]
      rw [ih]
      by_cases hq : p = q
      · subst hq; simp [hk]
      · simp [hq]

theorem fsFind_fsSet (fs : Files) (p q : String) (d : FileData) :
    fsFind (fsSet fs p d) q = if p = q then some d else fsFind fs q := by
  simp only [fsSet, fsFind, mapFind]
  split
  · rfl
  · rename_i h
    have := fsFind_fsErase fs p q
    simp only [fsFind, h, if_false] at this
    exact this

theorem quietAt_refl (m : String) (env : Env) : quietAt m env env :=
  ⟨[], by simp, fun h => ⟨by simp, h⟩⟩

theorem quietAt_trans (m : String) (env env1 env2 : Env) (h1 : quietAt m env env1)
    (h2 : quietAt m env1 env2) : quietAt m env env2 := by
  obtain ⟨s1, ht1, hq1⟩ := h1
  obtain ⟨s2, ht2, hq2⟩ := h2
  refine ⟨s1 ++ s2, by rw [ht2, ht1, List.append_assoc], ?_⟩
  intro hno
  obtain ⟨ha, hb⟩ := hq1 hno
  obtain ⟨hc, hd⟩ := hq2 hb
  refine ⟨?_, hd⟩
  intro fs hfs
  rcases List.mem_append.mp hfs with h | h
  · exact ha fs h
  · exact hc fs h

/-- A call that only popped the fault script. -/
theorem quietAt_same (m : String) (env env1 : Env) (hf : env1.files = env.files)
    (ht : env1.trace = env.trace) : quietAt m env env1 :=
  ⟨[], by simp [ht], fun h => ⟨by simp, by rw [hf]; exact h⟩⟩

/-- A call that changed the file system once, to one without a file at `m`. -/
theorem quietAt_commit (m : String) (env env0 : Env) (fs : Files) (_hf : env0.files = env.files)
    (ht : env0.trace = env.trace) (hfs : fsFind env.files m = none → fsFind fs m = none) :
    quietAt m env (env0.commit fs) := by
  refine ⟨[fs], by simp [Env.commit, ht], ?_⟩
  intro hno
  refine ⟨?_, by simpa [Env.commit] using hfs hno⟩
  intro x hx
  simp only [List.mem_singleton] at hx
  rw [hx]; exact hfs hno

theorem nextFault_files (env : Env) :
    env.nextFault.2.files = env.files ∧ env.nextFault.2.trace = env.trace := by
  unfold Env.nextFault
  cases env.faults <;> simp

theorem quietAt_NewWritableFile (m path : String) (env : Env) (h : path ≠ m) :
    quietAt m env (env.NewWritableFile path).2 := by
  obtain ⟨hf, ht⟩ := nextFault_files env
  unfold Env.NewWritableFile
  simp only
  split
  · exact quietAt_same m _ _ hf ht
  · refine quietAt_commit m env _ _ hf ht ?_
    intro hno
    rw [fsFind_fsSet, if_neg h, hf]; exact hno

theorem quietAt_Append (m path : String) (env : Env) (data : Bytes) (h : path ≠ m) :
    quietAt m env (env.Append path data).2 := by
  obtain ⟨hf, ht⟩ := nextFault_files env
  unfold Env.Append
  simp only
  split
  · exact quietAt_same m _ _ hf ht
  · split
    · refine quietAt_commit m env _ _ hf ht ?_
      intro hno
      rw [fsFind_fsSet, if_neg h, hf]; exact hno
    · exact quietAt_same m _ _ hf ht

theorem quietAt_Close (m path : String) (env : Env) : quietAt m env (env.Close path).2 := by
  obtain ⟨hf, ht⟩ := nextFault_files env
  exact quietAt_same m _ _ hf ht

theorem quietAt_DeleteFile (m path : String) (env : Env) :
    quietAt m env (env.DeleteFile path).2 := by
  obtain ⟨hf, ht⟩ := nextFault_files env
  unfold Env.DeleteFile
  simp only
  split
  · exact quietAt_same m _ _ hf ht
  · split
    · refine quietAt_commit m env _ _ hf ht ?_
      intro hno
      rw [fsFind_fsErase, hf]
      split
      · rfl
      · exact hno
    · exact quietAt_same m _ _ hf ht

theorem quietAt_BuildTable (m path : String) (env : Env) (rows : List (String × TableValue))
    (h : path ≠ m) : quietAt m env (env.BuildTable path rows).2 := by
  obtain ⟨hf, ht⟩ := nextFault_files env
  unfold Env.BuildTable
  simp only
  split
  · exact quietAt_same m _ _ hf ht
  · split
    · refine quietAt_commit m env _ _ hf ht ?_
      intro hno
      rw [fsFind_fsSet, if_neg h, hf]; exact hno
    · exact quietAt_same m _ _ hf ht

theorem quietAt_RenameFile (m src target : String) (env : Env) (h : target ≠ m) :
    quietAt m env (env.RenameFile src target).2 := by
  obtain ⟨hf, ht⟩ := nextFault_files env
  unfold Env.RenameFile
  simp only
  split
  · exact quietAt_same m _ _ hf ht
  · split
    · refine quietAt_commit m env _ _ hf ht ?_
      intro hno
      rw [fsFind_fsSet, if_neg h, fsFind_fsErase, hf]
      split
      · rfl
      · exact hno
    · exact quietAt_same m _ _ hf ht

theorem quietAt_FlushBuffer (m : String) (b : FileOutputBuffer) (env : Env) (h : b.file_ ≠ m) :
    quietAt m env (b.FlushBuffer env).2.2 := by
  unfold FileOutputBuffer.FlushBuffer
  split
  · simp only
    split
    · exact quietAt_Append m _ env _ h
    · exact quietAt_Append m _ env _ h
  · exact quietAt_refl m env

theorem quietAt_BufferClose (m : String) (b : FileOutputBuffer) (env : Env) (h : b.file_ ≠ m) :
    quietAt m env (b.Close env).2.2 := by
  unfold FileOutputBuffer.Close
  simp only
  split
  · exact quietAt_FlushBuffer m b env h
  · exact quietAt_trans m _ _ _ (quietAt_FlushBuffer m b env h)
      (quietAt_Close m (b.FlushBuffer env).2.1.file_ _)

/-! ## The names of the files of a bundle -/

theorem pad5_zero : pad5 0 = "00000" := by decide
theorem pad5_one : pad5 1 = "00001" := by decide

theorem DataFilename_ne_Meta (p : String) : DataFilename p 0 1 ≠ MetaFilename p := by
  intro h
  have := congrArg String.data h
  simp [MetaFilename, DataFilename, String.data_append, pad5_zero, pad5_one] at this

theorem tmpMeta_ne_Meta (p : String) (s : String) :
    MetaFilename p ++ ".tempstate" ++ s ≠ MetaFilename p := by
  intro h
  have := congrArg String.data h
  simp [MetaFilename, String.data_append] at this

theorem tmpData_ne_Meta (p : String) (s : String) :
    DataFilename p 0 1 ++ ".tempstate" ++ s ≠ MetaFilename p := by
  intro h
  have := congrArg String.data h
  simp [MetaFilename, DataFilename, String.data_append, pad5_zero, pad5_one] at this

theorem tmpMeta_ne_Data (p : String) (s : String) :
    MetaFilename p ++ ".tempstate" ++ s ≠ DataFilename p 0 1 := by
  intro h
  have := congrArg String.data h
  simp [MetaFilename, DataFilename, String.data_append, pad5_zero, pad5_one] at this

/-! ## Commit atomicity -/

theorem RenameFile_ok_target (env : Env) (src target : String)
    (h : (env.RenameFile src target).1.ok = true) :
    (env.RenameFile src target).1 = Status.OK ∧
    fsFind (env.RenameFile src target).2.files target ≠ none ∧
    (∀ q, q ≠ src → q ≠ target → fsFind (env.RenameFile src target).2.files q = fsFind env.files q) ∧
    (env.RenameFile src target).2.trace = env.trace ++ [(env.RenameFile src target).2.files] := by
  obtain ⟨hf, ht⟩ := nextFault_files env
  unfold Env.RenameFile at h ⊢
  simp only at h ⊢
  by_cases c : env.nextFault.1.ok = true
  · simp only [c, Bool.not_true, Bool.false_eq_true, if_false] at h ⊢
    cases hs : fsFind env.nextFault.2.files src with
    | none =>
      simp only [hs] at h
      simp [errors.NotFound, Status.ok] at h
    | some d =>
      refine ⟨rfl, ?_, ?_, ?_⟩
      · simp [Env.commit, fsFind_fsSet]
      · intro q hq1 hq2
        simp only [Env.commit]
        rw [fsFind_fsSet, if_neg (Ne.symm hq2), fsFind_fsErase, if_neg (Ne.symm hq1), hf]
      · simp [Env.commit, ht]
  · simp only [Bool.not_eq_true] at c
    simp only [c, Bool.not_false, if_true] at h
    exact absurd h (by simp)

theorem RenameFile_not_ok (env : Env) (src target : String)
    (h : (env.RenameFile src target).1.ok = false) :
    (env.RenameFile src target).2.files = env.files ∧
    (env.RenameFile src target).2.trace = env.trace := by
  obtain ⟨hf, ht⟩ := nextFault_files env
  unfold Env.RenameFile at h ⊢
  simp only at h ⊢
  by_cases c : env.nextFault.1.ok = true
  · simp only [c, Bool.not_true, Bool.false_eq_true, if_false] at h ⊢
    cases hs : fsFind env.nextFault.2.files src with
    | none => exact ⟨hf, ht⟩
    | some d =>
      simp only [hs] at h
      simp [Status.ok, Status.OK] at h
  · simp only [Bool.not_eq_true] at c
    simp only [c, Bool.not_false, if_true]
    exact ⟨hf, ht⟩

theorem NewWritableFile_other (env : Env) (path q : String) (h : path ≠ q) :
    fsFind (env.NewWritableFile path).2.files q = fsFind env.files q := by
  obtain ⟨hf, _⟩ := nextFault_files env
  unfold Env.NewWritableFile
  simp only
  split
  · rw [hf]
  · simp only [Env.commit]
    rw [fsFind_fsSet, if_neg h, hf]

theorem BuildTable_other (env : Env) (path q : String) (rows : List (String × TableValue))
    (h : path ≠ q) : fsFind (env.BuildTable path rows).2.files q = fsFind env.files q := by
  obtain ⟨hf, _⟩ := nextFault_files env
  unfold Env.BuildTable
  simp only
  split
  · rw [hf]
  · split
    · simp only [Env.commit]
      rw [fsFind_fsSet, if_neg h, hf]
    · rw [hf]

theorem Close_other (env : Env) (path q : String) :
    fsFind (env.Close path).2.files q = fsFind env.files q := by
  obtain ⟨hf, _⟩ := nextFault_files env
  unfold Env.Close
  simp only
  rw [hf]

theorem finishData_spec (w : BundleWriter) (env : Env) (hp : w.pathsWF) :
    quietAt (MetaFilename w.prefix_) env (w.finishData env).2 ∧
    (w.finishData env).1.prefix_ = w.prefix_ ∧
    (w.finishData env).1.tmp_metadata_path_ = w.tmp_metadata_path_ ∧
    (w.finishData env).1.entries_ = w.entries_ ∧
    ((w.finishData env).1.status_.ok = true → w.out_ ≠ none →
      fsFind (w.finishData env).2.files (DataFilename w.prefix_ 0 1) ≠ none) := by
  obtain ⟨⟨r1, r2, hm, hd⟩, hout⟩ := hp
  unfold BundleWriter.finishData
  cases ho : w.out_ with
  | none => exact ⟨quietAt_refl _ _, rfl, rfl, rfl, fun _ h => absurd rfl h⟩
  | some out =>
    have hfile : out.file_ ≠ MetaFilename w.prefix_ := by
      rw [hout out ho, hd]; exact tmpData_ne_Meta _ _
    have hq1 := quietAt_BufferClose (MetaFilename w.prefix_) out env hfile
    simp only
    split
    · refine ⟨quietAt_trans _ _ _ _ hq1 (quietAt_RenameFile _ _ _ _ (DataFilename_ne_Meta _)),
        rfl, rfl, rfl, ?_⟩
      intro hok _
      exact (RenameFile_ok_target _ _ _ hok).2.1
    · rename_i c
      refine ⟨quietAt_trans _ _ _ _ hq1 (quietAt_DeleteFile _ _ _), rfl, rfl, rfl, ?_⟩
      intro hok
      exact absurd hok c

/-- The two ways `Finish` can end: without a file under the metadata name anywhere on
the way, and with a failure; or with OK, the metadata name appearing in the last
step, after a run without it. -/
theorem Finish_outcome (w : BundleWriter) (env : Env) (kLittleEndian : Bool) (hp : w.pathsWF) :
    (quietAt (MetaFilename w.prefix_) env (w.Finish env kLittleEndian).2.2 ∧
      (w.Finish env kLittleEndian).1.ok = false) ∨
    (∃ env4, quietAt (MetaFilename w.prefix_) env env4 ∧
      (w.Finish env kLittleEndian).2.2.trace =
        env4.trace ++ [(w.Finish env kLittleEndian).2.2.files] ∧
      (w.Finish env kLittleEndian).1 = Status.OK ∧
      fsFind (w.Finish env kLittleEndian).2.2.files (MetaFilename w.prefix_) ≠ none ∧
      (w.out_ ≠ none →
        fsFind (w.Finish env kLittleEndian).2.2.files (DataFilename w.prefix_ 0 1) ≠ none)) := by
  obtain ⟨hq1, hpre, htmp, _, hdata⟩ := finishData_spec w env hp
  obtain ⟨⟨r1, r2, hm, hd⟩, hout⟩ := hp
  have htm : (w.finishData env).1.tmp_metadata_path_ ≠ MetaFilename w.prefix_ := by
    rw [htmp, hm]; exact tmpMeta_ne_Meta _ _
  have htd : (w.finishData env).1.tmp_metadata_path_ ≠ DataFilename w.prefix_ 0 1 := by
    rw [htmp, hm]; exact tmpMeta_ne_Data _ _
  unfold BundleWriter.Finish
  simp only
  by_cases c1 : (w.finishData env).1.status_.ok = true
  · simp only [c1, Bool.not_true, Bool.false_eq_true, if_false]
    have hq2 := quietAt_trans _ _ _ _ hq1
      (quietAt_NewWritableFile (MetaFilename w.prefix_) _ (w.finishData env).2 htm)
    by_cases c2 : ((w.finishData env).2.NewWritableFile (w.finishData env).1.tmp_metadata_path_).1.ok = true
    · simp only [c2, Bool.not_true, Bool.false_eq_true, if_false]
      have hq3 := quietAt_trans _ _ _ _ hq2 (quietAt_BuildTable (MetaFilename w.prefix_) _
        ((w.finishData env).2.NewWritableFile (w.finishData env).1.tmp_metadata_path_).2
        (BundleWriter.finishRows kLittleEndian (w.finishData env).1) htm)
      have hq4 := quietAt_trans _ _ _ _ hq3 (quietAt_Close (MetaFilename w.prefix_)
        (w.finishData env).1.tmp_metadata_path_ _)
      split
      · rename_i c3
        left
        refine ⟨quietAt_trans _ _ _ _ hq4 (quietAt_DeleteFile _ _ _), ?_⟩
        simpa using c3
      · split
        · rename_i c3 c4
          left
          simp only [Bool.not_eq_true', Bool.not_eq_false] at c4
          obtain ⟨h1, h2⟩ := RenameFile_not_ok _ _ _ c4
          exact ⟨quietAt_trans _ _ _ _ hq4 (quietAt_same _ _ _ h1 h2), c4⟩
        · rename_i c3 c4
          right
          simp only [Bool.not_eq_true', Bool.not_eq_false] at c4
          obtain ⟨_, h1, h2, h3⟩ := RenameFile_ok_target _ _ _ c4
          refine ⟨_, hq4, h3, rfl, ?_, ?_⟩
          · rw [hpre]; exact hpre ▸ h1
          · intro ho
            have h4 := h2 (DataFilename w.prefix_ 0 1) (Ne.symm htd)
              (by rw [hpre]; exact DataFilename_ne_Meta _)
            rw [h4, Close_other, BuildTable_other _ _ _ _ htd, NewWritableFile_other _ _ _ htd]
            exact hdata c1 ho
    · left
      simp only [Bool.not_eq_true] at c2
      simp only [c2, Bool.not_false, if_true]
      exact ⟨hq2, trivial⟩
  · left
    simp only [Bool.not_eq_true] at c1
    simp only [c1, Bool.not_false, if_true]
    exact ⟨hq1, trivial⟩

/-- A writer without an output buffer that holds a failure fails in `Finish`. -/
theorem Finish_closed (w : BundleWriter) (env : Env) (kLittleEndian : Bool)
    (ho : w.out_ = none) (hs : w.status_.ok = false) :
    (w.Finish env kLittleEndian).1.ok = false := by
  unfold BundleWriter.Finish BundleWriter.finishData
  simp only [ho, hs, Bool.not_false, if_true]

/-- A reader opened where the metadata file is absent has failed and contains no key. -/
theorem reader_absent (env : Env) (pfx : String) (kLittleEndian : Bool)
    (h : fsFind env.files (MetaFilename pfx) = none) :
    (BundleReader.create env pfx kLittleEndian).status_.ok = false ∧
    ∀ key, ((BundleReader.create env pfx kLittleEndian).Contains key).1 = false := by
  have hc : BundleReader.create env pfx kLittleEndian =
      { prefix_ := pfx, status_ := errors.NotFound (MetaFilename pfx), table_ := none, iter_ := 0,
        num_shards_ := 0, need_to_swap_bytes_ := false, tensor_slices_ := [],
        tmp_lookupseg_items_ := [] } := by
    unfold BundleReader.create Env.GetFileSize
    simp only [h]
    rfl
  rw [hc]
  refine ⟨rfl, ?_⟩
  intro key
  rfl


/-- C9 (commit atomicity).  The file system is explicit state and every successful
mutation appends the file system it leaves to the trace.  For a writer whose temporary
paths are the ones its constructor builds, and an environment with no file under the
final metadata name, `Finish` extends the trace by `states` such that: every state
before the last has no file under the metadata name, and a reader opened on the prefix
in such a state (or in the final state of a failed `Finish`) has a non-OK status and
contains no key; a state that has the metadata file is the last one, is the file
system `Finish` returns with OK, and already holds the data file under its final name;
a successful `Finish` does end in such a state. -/
theorem Finish_commit_atomic (w : BundleWriter) (env : Env) (kLittleEndian : Bool)
    (hp : w.pathsWF) (hopen : w.out_ = none → w.status_.ok = false)
    (hno : fsFind env.files (MetaFilename w.prefix_) = none) :
    ∃ states, (w.Finish env kLittleEndian).2.2.trace = env.trace ++ states ∧
      (∀ fs ∈ states.dropLast, fsFind fs (MetaFilename w.prefix_) = none) ∧
      (∀ fs, (fs ∈ states.dropLast ∨ (fs = (w.Finish env kLittleEndian).2.2.files ∧
            (w.Finish env kLittleEndian).1.ok = false)) →
        ∀ e : Env, e.files = fs → ∀ hostLittle : Bool,
          (BundleReader.create e w.prefix_ hostLittle).status_.ok = false ∧
          ∀ key, ((BundleReader.create e w.prefix_ hostLittle).Contains key).1 = false) ∧
      (∀ fs ∈ states, fsFind fs (MetaFilename w.prefix_) ≠ none →
        states.getLast? = some fs ∧ fs = (w.Finish env kLittleEndian).2.2.files ∧
        (w.Finish env kLittleEndian).1 = Status.OK ∧
        fsFind fs (DataFilename w.prefix_ 0 1) ≠ none) ∧
      ((w.Finish env kLittleEndian).1.ok = true →
        states.getLast? = some (w.Finish env kLittleEndian).2.2.files ∧
        fsFind (w.Finish env kLittleEndian).2.2.files (MetaFilename w.prefix_) ≠ none) := by
  rcases Finish_outcome w env kLittleEndian hp with ⟨⟨states, htr, hq⟩, hfail⟩ |
    ⟨env4, ⟨states, htr, hq⟩, htr2, hok, hmeta, hdata⟩
  · obtain ⟨hall, hfin⟩ := hq hno
    refine ⟨states, htr, fun fs hfs => hall fs (List.mem_of_mem_dropLast hfs), ?_, ?_, ?_⟩
    · intro fs hfs e he hostLittle
      refine reader_absent e w.prefix_ hostLittle ?_
      rw [he]
      rcases hfs with hfs | ⟨hfs, _⟩
      · exact hall fs (List.mem_of_mem_dropLast hfs)
      · rw [hfs]; exact hfin
    · intro fs hfs hne
      exact absurd (hall fs hfs) hne
    · intro hok
      rw [hfail] at hok
      exact absurd hok (by decide)
  · obtain ⟨hall, _⟩ := hq hno
    have hout : w.out_ ≠ none := by
      intro ho
      have hf := Finish_closed w env kLittleEndian ho (hopen ho)
      rw [hok] at hf
      exact absurd hf (by decide)
    refine ⟨states ++ [(w.Finish env kLittleEndian).2.2.files], ?_, ?_, ?_, ?_, ?_⟩
    · rw [htr2, htr, List.append_assoc]
    · intro fs hfs
      rw [List.dropLast_concat] at hfs
      exact hall fs hfs
    · intro fs hfs e he hostLittle
      refine reader_absent e w.prefix_ hostLittle ?_
      rw [he]
      rcases hfs with hfs | ⟨_, hf⟩
      · rw [List.dropLast_concat] at hfs
        exact hall fs hfs
      · rw [hok] at hf
        exact absurd hf (by decide)
    · intro fs hfs hne
      rw [List.mem_append, List.mem_singleton] at hfs
      rcases hfs with hfs | hfs
      · exact absurd (hall fs hfs) hne
      · subst hfs
        exact ⟨by simp, rfl, hok, hdata hout⟩
    · intro _
      exact ⟨by simp, hmeta⟩

theorem Finish_commit_atomic_witness :
    fsFind exAdded.2.files (MetaFilename exAdded.1.prefix_) = none ∧
    (exAdded.1.Finish exAdded.2 true).1 = Status.OK ∧
    ∃ states, (exAdded.1.Finish exAdded.2 true).2.2.trace = exAdded.2.trace ++ states ∧
      (∀ fs ∈ states.dropLast, fsFind fs (MetaFilename exAdded.1.prefix_) = none) :=
  ⟨by decide!, by decide!,
    (Finish_commit_atomic exAdded.1 exAdded.2 true
      ⟨⟨11, 22, by decide!, by decide!⟩, by decide!⟩ (by decide!) (by decide!)).imp
      (fun _ h => ⟨h.1, h.2.1⟩)⟩


end tfplus

namespace tfplus

open DataType

/-! ## What the output buffer writes -/

theorem Env_Append_ok (env : Env) (path : String) (data : Bytes)
    (h : (env.Append path data).1.ok = true) :
    ∃ fb, fsFind env.files path = some (FileData.bytes fb) ∧
      fsFind (env.Append path data).2.files path = some (FileData.bytes (fb ++ data)) := by
  obtain ⟨hf, _⟩ := nextFault_files env
  unfold Env.Append at h ⊢
  simp only at h ⊢
  by_cases c : env.nextFault.1.ok = true
  · simp only [c, Bool.not_true, Bool.false_eq_true, if_false] at h ⊢
    rw [hf] at h ⊢
    cases hs : fsFind env.files path with
    | none => simp [hs, errors.NotFound, Status.ok] at h
    | some d =>
      cases d with
      | bytes fb =>
        refine ⟨fb, rfl, ?_⟩
        simp only [Env.commit]
        rw [fsFind_fsSet, if_pos rfl]
      | table rows => simp [hs, errors.NotFound, Status.ok] at h
  · simp only [Bool.not_eq_true] at c
    simp only [c, Bool.not_false, if_true] at h
    exact absurd h (by decide)

theorem FlushBuffer_ok (b : FileOutputBuffer) (env : Env) (c : Bytes)
    (h : (b.FlushBuffer env).1.ok = true) (hc : b.content env = some c) :
    (b.FlushBuffer env).2.1.content (b.FlushBuffer env).2.2 = some c ∧
    (b.FlushBuffer env).2.1.buffer_ = [] ∧
    (b.FlushBuffer env).2.1.crc32c_ = b.crc32c_ ∧
    (b.FlushBuffer env).2.1.file_ = b.file_ ∧
    (b.FlushBuffer env).2.1.buffer_size_ = b.buffer_size_ := by
  unfold FileOutputBuffer.FlushBuffer at h ⊢
  by_cases hp : b.position_ > 0
  · simp only [hp, if_true] at h ⊢
    by_cases ha : (env.Append b.file_ b.buffer_).1.ok = true
    · simp only [ha, Bool.not_true, Bool.false_eq_true, if_false] at h ⊢
      obtain ⟨fb, h1, h2⟩ := Env_Append_ok env b.file_ b.buffer_ ha
      refine ⟨?_, trivial, trivial, trivial, trivial⟩
      unfold FileOutputBuffer.content at hc ⊢
      simp only [h1] at hc
      simp only [h2, List.append_nil]
      exact hc
    · simp only [Bool.not_eq_true] at ha
      simp only [ha, Bool.not_false, if_true] at h
      exact absurd h (by decide)
  · simp only [hp, if_false] at h ⊢
    have hb : b.buffer_ = [] := by
      unfold FileOutputBuffer.position_ at hp
      exact List.length_eq_zero.mp (by omega)
    refine ⟨hc, hb, ?_, ?_, ?_⟩ <;> trivial

theorem take_min_length (l : Bytes) (n : Nat) : l.take (min l.length n) = l.take n := by
  by_cases h : n ≤ l.length
  · rw [Nat.min_eq_right h]
  · have h1 : l.length ≤ n := by omega
    rw [Nat.min_eq_left h1, List.take_of_length_le h1, List.take_of_length_le (le_refl _)]

theorem appendLoop_ok (fuel : Nat) : ∀ (b : FileOutputBuffer) (env : Env) (rest c : Bytes)
    (st : Status) (b1 : FileOutputBuffer) (env1 : Env),
    FileOutputBuffer.appendLoop fuel b env rest = some (st, b1, env1) → st.ok = true →
    b.buffer_ = [] → b.content env = some c →
    b1.content env1 = some (c ++ rest) ∧ b1.crc32c_ = crc32c.Extend b.crc32c_ rest ∧
    b1.file_ = b.file_ ∧ b1.buffer_size_ = b.buffer_size_ := by
  induction fuel with
  | zero => intro b env rest c st b1 env1 h; simp [FileOutputBuffer.appendLoop] at h
  | succ n ih =>
    intro b env rest c st b1 env1 h hst hb hc
    unfold FileOutputBuffer.appendLoop at h
    by_cases hr : rest.length = 0
    · simp only [hr, if_true, Option.some.injEq, Prod.mk.injEq] at h
      obtain ⟨_, h2, h3⟩ := h
      subst h2 h3
      have : rest = [] := List.length_eq_zero.mp hr
      subst this
      simp [hc, crc32c.Extend_nil]
    · simp only [hr, if_false] at h
      rw [take_min_length] at h
      have hc1 : FileOutputBuffer.content
          { b with buffer_ := rest.take b.buffer_size_,
                   crc32c_ := crc32c.Extend b.crc32c_ (rest.take b.buffer_size_) } env =
          some (c ++ rest.take b.buffer_size_) := by
        unfold FileOutputBuffer.content at hc ⊢
        simp only at hc ⊢
        cases hs : fsFind env.files b.file_ with
        | none => simp [hs] at hc
        | some d =>
          cases d with
          | bytes fb =>
            simp only [hs, hb, List.append_nil, Option.some.injEq] at hc ⊢
            rw [hc]
          | table rows => simp [hs] at hc
      by_cases hf : (FileOutputBuffer.FlushBuffer
          { b with buffer_ := rest.take b.buffer_size_,
                   crc32c_ := crc32c.Extend b.crc32c_ (rest.take b.buffer_size_) } env).1.ok = true
      · obtain ⟨k1, k2, k3, k4, k5⟩ := FlushBuffer_ok _ env _ hf hc1
        simp only [hf, Bool.not_true, Bool.false_eq_true, if_false] at h
        obtain ⟨j1, j2, j3, j4⟩ := ih _ _ _ _ _ _ _ h hst k2 k1
        refine ⟨?_, ?_, ?_, ?_⟩
        · rw [j1, List.append_assoc, List.take_append_drop]
        · rw [j2, k3]
          simp only
          rw [← crc32c.Extend_append, List.take_append_drop]
        · rw [j3, k4]
        · rw [j4, k5]
      · simp only [Bool.not_eq_true] at hf
        simp only [hf, Bool.not_false, if_true, Option.some.injEq, Prod.mk.injEq] at h
        obtain ⟨h1, _, _⟩ := h
        rw [← h1, hf] at hst
        exact absurd hst (by decide)

theorem Append_ok (b : FileOutputBuffer) (env : Env) (data c : Bytes) (st : Status)
    (b1 : FileOutputBuffer) (env1 : Env)
    (h : b.Append env data = some (st, b1, env1)) (hst : st.ok = true)
    (hc : b.content env = some c) :
    b1.content env1 = some (c ++ data) ∧ b1.crc32c_ = crc32c.Extend b.crc32c_ data ∧
    b1.file_ = b.file_ ∧ b1.buffer_size_ = b.buffer_size_ := by
  have happ : ∀ (b0 : FileOutputBuffer) (e0 : Env) (c0 : Bytes), b0.content e0 = some c0 →
      FileOutputBuffer.content
        { b0 with buffer_ := b0.buffer_ ++ data, crc32c_ := crc32c.Extend b0.crc32c_ data } e0 =
        some (c0 ++ data) := by
    intro b0 e0 c0 h0
    unfold FileOutputBuffer.content at h0 ⊢
    simp only at h0 ⊢
    cases hs : fsFind e0.files b0.file_ with
    | none => simp [hs] at h0
    | some d =>
      cases d with
      | bytes fb =>
        simp only [hs, Option.some.injEq] at h0 ⊢
        rw [← h0, List.append_assoc]
      | table rows => simp [hs] at h0
  unfold FileOutputBuffer.Append at h
  split at h
  · simp only [Option.some.injEq, Prod.mk.injEq] at h
    obtain ⟨_, h2, h3⟩ := h
    subst h2 h3
    exact ⟨happ b env c hc, rfl, rfl, rfl⟩
  · split at h
    · by_cases hf : (b.FlushBuffer env).1.ok = true
      · obtain ⟨k1, k2, k3, k4, k5⟩ := FlushBuffer_ok b env c hf hc
        simp only [hf, Bool.not_true, Bool.false_eq_true, if_false, Option.some.injEq,
          Prod.mk.injEq] at h
        obtain ⟨_, h2, h3⟩ := h
        subst h2 h3
        exact ⟨happ _ _ c k1, by simp only [k3], k4, k5⟩
      · simp only [Bool.not_eq_true] at hf
        simp only [hf, Bool.not_false, if_true, Option.some.injEq, Prod.mk.injEq] at h
        obtain ⟨h1, _, _⟩ := h
        rw [← h1, hf] at hst
        exact absurd hst (by decide)
    · by_cases hf : (b.FlushBuffer env).1.ok = true
      · obtain ⟨k1, k2, k3, k4, k5⟩ := FlushBuffer_ok b env c hf hc
        simp only [hf, Bool.not_true, Bool.false_eq_true, if_false] at h
        obtain ⟨j1, j2, j3, j4⟩ := appendLoop_ok _ _ _ _ _ _ _ _ h hst k2 k1
        exact ⟨j1, by rw [j2, k3], by rw [j3, k4], by rw [j4, k5]⟩
      · simp only [Bool.not_eq_true] at hf
        simp only [hf, Bool.not_false, if_true, Option.some.injEq, Prod.mk.injEq] at h
        obtain ⟨h1, _, _⟩ := h
        rw [← h1, hf] at hst
        exact absurd hst (by decide)

/-! ## What `Add` writes -/

theorem bytesLE_length (width n : Nat) : (bytesLE width n).length = width := by
  induction width generalizing n with
  | zero => rfl
  | succ w ih => simp [bytesLE, ih]

theorem memInt_length (kLittleEndian : Bool) (width n : Nat) :
    (memInt kLittleEndian width n).length = width := by
  unfold memInt
  split <;> simp [bytesLE_length]

theorem WriteTensor_ok (val : Tensor) (out : FileOutputBuffer) (env : Env) (c : Bytes)
    (st : Status) (out1 : FileOutputBuffer) (env1 : Env) (n : Nat)
    (h : WriteTensor val out env = some (st, out1, env1, n)) (hst : st.ok = true)
    (hc : out.content env = some c) :
    DataTypeCanUseMemcpy val.dtype = true ∧ out1.content env1 = some (c ++ val.data) ∧
    n = val.TotalBytes ∧ out1.crc32c_ = crc32c.Extend out.crc32c_ val.data ∧
    out1.file_ = out.file_ := by
  unfold WriteTensor at h
  by_cases hm : DataTypeCanUseMemcpy val.dtype = true
  · simp only [hm, Bool.not_true, Bool.false_eq_true, if_false] at h
    cases ha : out.Append env val.data with
    | none => simp [ha] at h
    | some res =>
      obtain ⟨st0, out0, env0⟩ := res
      simp only [ha, Option.some.injEq, Prod.mk.injEq] at h
      obtain ⟨h1, h2, h3, h4⟩ := h
      subst h1 h2 h3 h4
      obtain ⟨k1, k2, k3, _⟩ := Append_ok out env val.data c _ _ _ ha hst hc
      exact ⟨hm, k1, rfl, k2, k3⟩
  · simp only [Bool.not_eq_true] at hm
    simp [hm] at h

theorem appendStrings_ok : ∀ (strings : List Bytes) (out : FileOutputBuffer) (env : Env)
    (n crc : Nat) (c : Bytes) (st : Status) (out1 : FileOutputBuffer) (env1 : Env) (n1 crc1 : Nat),
    appendStrings strings out env n crc = some (st, out1, env1, n1, crc1) → st.ok = true →
    out.content env = some c →
    out1.content env1 = some (c ++ strings.flatten) ∧ n1 = n + strings.flatten.length ∧
    crc1 = crc32c.Extend crc strings.flatten ∧ out1.file_ = out.file_ := by
  intro strings
  induction strings with
  | nil =>
    intro out env n crc c st out1 env1 n1 crc1 h hst hc
    simp only [appendStrings, Option.some.injEq, Prod.mk.injEq] at h
    obtain ⟨_, h2, h3, h4, h5⟩ := h
    subst h2 h3 h4 h5
    simp [hc, crc32c.Extend_nil]
  | cons s rest ih =>
    intro out env n crc c st out1 env1 n1 crc1 h hst hc
    unfold appendStrings at h
    cases ha : out.Append env s with
    | none => simp [ha] at h
    | some res =>
      obtain ⟨st0, out0, env0⟩ := res
      simp only [ha] at h
      by_cases hs : st0.ok = true
      · simp only [hs, Bool.not_true, Bool.false_eq_true, if_false] at h
        obtain ⟨k1, _, k3, _⟩ := Append_ok out env s c _ _ _ ha hs hc
        obtain ⟨j1, j2, j3, j4⟩ := ih _ _ _ _ _ _ _ _ _ _ h hst k1
        refine ⟨?_, ?_, ?_, ?_⟩
        · rw [j1]; simp
        · rw [j2]; simp; omega
        · rw [j3, ← crc32c.Extend_append]; simp
        · rw [j4, k3]
      · simp only [Bool.not_eq_true] at hs
        simp only [hs, Bool.not_false, if_true, Option.some.injEq, Prod.mk.injEq] at h
        obtain ⟨h1, _⟩ := h
        rw [← h1, hs] at hst
        exact absurd hst (by decide)

theorem WriteStringVector_ok (kLittleEndian : Bool) (strings : List Bytes)
    (out : FileOutputBuffer) (env : Env) (c : Bytes) (st : Status) (out1 : FileOutputBuffer)
    (env1 : Env) (n crc : Nat)
    (h : WriteStringVector kLittleEndian strings out env = some (st, out1, env1, n, crc))
    (hst : st.ok = true) (hc : out.content env = some c) :
    out1.content env1 = some (c ++ stringPayload kLittleEndian strings) ∧
    n = (stringPayload kLittleEndian strings).length ∧
    crc = stringCrc kLittleEndian strings ∧ out1.file_ = out.file_ := by
  unfold WriteStringVector at h
  simp only at h
  cases ha : out.Append env (stringLengthsVarint strings) with
  | none => simp [ha] at h
  | some res =>
    obtain ⟨st0, out0, env0⟩ := res
    simp only [ha] at h
    by_cases hs : st0.ok = true
    · simp only [hs, Bool.not_true, Bool.false_eq_true, if_false] at h
      obtain ⟨k1, _, k3, _⟩ := Append_ok out env _ c _ _ _ ha hs hc
      cases hb : out0.Append env0
          (memInt kLittleEndian 4 (crc32c.Mask (stringLengthsCrc kLittleEndian 0 strings))) with
      | none => simp [hb] at h
      | some res2 =>
        obtain ⟨st2, out2, env2⟩ := res2
        simp only [hb] at h
        by_cases hs2 : st2.ok = true
        · simp only [hs2, Bool.not_true, Bool.false_eq_true, if_false] at h
          obtain ⟨m1, _, m3, _⟩ := Append_ok out0 env0 _ _ _ _ _ hb hs2 k1
          obtain ⟨j1, j2, j3, j4⟩ := appendStrings_ok _ _ _ _ _ _ _ _ _ _ _ h hst m1
          refine ⟨?_, ?_, ?_, ?_⟩
          · rw [j1]; simp [stringPayload]
          · rw [j2]; simp only [stringPayload, List.length_append, memInt_length]
          · rw [j3]; rfl
          · rw [j4, m3, k3]
        · simp only [Bool.not_eq_true] at hs2
          simp only [hs2, Bool.not_false, if_true, Option.some.injEq, Prod.mk.injEq] at h
          obtain ⟨h1, _⟩ := h
          rw [← h1, hs2] at hst
          exact absurd hst (by decide)
    · simp only [Bool.not_eq_true] at hs
      simp only [hs, Bool.not_false, if_true, Option.some.injEq, Prod.mk.injEq] at h
      obtain ⟨h1, _⟩ := h
      rw [← h1, hs] at hst
      exact absurd hst (by decide)


theorem writeVariants_ok (kLittleEndian : Bool) : ∀ (elems : List Bytes)
    (out : FileOutputBuffer) (env : Env) (n crc : Nat) (c : Bytes) (st : Status)
    (out1 : FileOutputBuffer) (env1 : Env) (n1 crc1 : Nat),
    writeVariants kLittleEndian elems out env n crc = some (st, out1, env1, n1, crc1) →
    st.ok = true → out.content env = some c →
    out1.content env1 = some (c ++ variantPayload kLittleEndian crc elems) ∧
    n1 = n + (variantPayload kLittleEndian crc elems).length ∧
    crc1 = variantCrc kLittleEndian crc elems ∧ out1.file_ = out.file_ := by
  intro elems
  induction elems with
  | nil =>
    intro out env n crc c st out1 env1 n1 crc1 h hst hc
    simp only [writeVariants, Option.some.injEq, Prod.mk.injEq] at h
    obtain ⟨_, h2, h3, h4, h5⟩ := h
    subst h2 h3 h4 h5
    simp [hc, variantPayload, variantCrc]
  | cons elem rest ih =>
    intro out env n crc c st out1 env1 n1 crc1 h hst hc
    unfold writeVariants at h
    simp only at h
    cases ha : out.Append env (PutVarint64 elem.length) with
    | none => simp [ha] at h
    | some res =>
      obtain ⟨st0, out0, env0⟩ := res
      simp only [ha] at h
      by_cases hs : st0.ok = true
      · simp only [hs, Bool.not_true, Bool.false_eq_true, if_false] at h
        obtain ⟨k1, _, k3, _⟩ := Append_ok out env _ c _ _ _ ha hs hc
        cases hb : out0.Append env0 elem with
        | none => simp [hb] at h
        | some res2 =>
          obtain ⟨st2, out2, env2⟩ := res2
          simp only [hb] at h
          by_cases hs2 : st2.ok = true
          · simp only [hs2, Bool.not_true, Bool.false_eq_true, if_false] at h
            obtain ⟨m1, _, m3, _⟩ := Append_ok out0 env0 _ _ _ _ _ hb hs2 k1
            cases hd : out2.Append env2 (memInt kLittleEndian 4 (crc32c.Mask
                (crc32c.Extend (crc32c.Extend crc (memInt kLittleEndian 8 elem.length)) elem))) with
            | none => simp [hd] at h
            | some res3 =>
              obtain ⟨st3, out3, env3⟩ := res3
              simp only [hd] at h
              by_cases hs3 : st3.ok = true
              · simp only [hs3, Bool.not_true, Bool.false_eq_true, if_false] at h
                obtain ⟨p1, _, p3, _⟩ := Append_ok out2 env2 _ _ _ _ _ hd hs3 m1
                obtain ⟨j1, j2, j3, j4⟩ := ih _ _ _ _ _ _ _ _ _ _ h hst p1
                refine ⟨?_, ?_, ?_, ?_⟩
                · rw [j1]; simp [variantPayload]
                · rw [j2]
                  simp only [variantPayload, List.length_append, memInt_length]
                  omega
                · rw [j3]; rfl
                · rw [j4, p3, m3, k3]
              · simp only [Bool.not_eq_true] at hs3
                simp only [hs3, Bool.not_false, if_true, Option.some.injEq, Prod.mk.injEq] at h
                obtain ⟨h1, _⟩ := h
                rw [← h1, hs3] at hst
                exact absurd hst (by decide)
          · simp only [Bool.not_eq_true] at hs2
            simp only [hs2, Bool.not_false, if_true, Option.some.injEq, Prod.mk.injEq] at h
            obtain ⟨h1, _⟩ := h
            rw [← h1, hs2] at hst
            exact absurd hst (by decide)
      · simp only [Bool.not_eq_true] at hs
        simp only [hs, Bool.not_false, if_true, Option.some.injEq, Prod.mk.injEq] at h
        obtain ⟨h1, _⟩ := h
        rw [← h1, hs] at hst
        exact absurd hst (by decide)

theorem PadAlignment_ok (out : FileOutputBuffer) (env : Env) (alignment size : Nat) (c : Bytes)
    (st : Status) (out1 : FileOutputBuffer) (env1 : Env) (size1 : Nat)
    (h : PadAlignment out env alignment size = some (st, out1, env1, size1))
    (hst : st.ok = true) (hc : out.content env = some c) :
    ∃ pad, out1.content env1 = some (c ++ pad) ∧ size1 = size + pad.length ∧
      out1.file_ = out.file_ := by
  unfold PadAlignment at h
  split at h
  · simp at h
  · simp only at h
    split at h
    · simp only [Option.some.injEq, Prod.mk.injEq] at h
      obtain ⟨_, h2, h3, h4⟩ := h
      subst h2 h3 h4
      exact ⟨[], by simp [hc], by simp, rfl⟩
    · cases ha : out.Append env (List.replicate (alignment - size % alignment) 0) with
      | none => simp [ha] at h
      | some res =>
        obtain ⟨st0, out0, env0⟩ := res
        simp only [ha, Option.some.injEq, Prod.mk.injEq] at h
        obtain ⟨h1, h2, h3, h4⟩ := h
        subst h1 h2 h3
        obtain ⟨k1, _, k3, _⟩ := Append_ok out env _ c _ _ _ ha hst hc
        refine ⟨_, k1, ?_, k3⟩
        rw [← h4, hst]
        simp

/-! ## The catalog in key order -/

theorem mapSorted_cons {α : Type} (k : String) (v : α) (m : List (String × α)) :
    mapSorted ((k, v) :: m) ↔ (∀ p ∈ m, k < p.1) ∧ mapSorted m := by
  unfold mapSorted
  simp [List.pairwise_cons]

theorem mapInsert_keys {α : Type} (m : List (String × α)) (k : String) (v : α) :
    ∀ p ∈ mapInsert m k v, p.1 = k ∨ p ∈ m := by
  induction m with
  | nil => intro p hp; simp [mapInsert] at hp; left; rw [hp]
  | cons x rest ih =>
    obtain ⟨k1, v1⟩ := x
    intro p hp
    unfold mapInsert at hp
    split at hp
    · rcases List.mem_cons.mp hp with h | h
      · left; rw [h]
      · right; exact h
    · split at hp
      · rcases List.mem_cons.mp hp with h | h
        · left; rw [h]
        · right; exact List.mem_cons_of_mem _ h
      · rcases List.mem_cons.mp hp with h | h
        · right; rw [h]; exact List.mem_cons_self _ _
        · rcases ih p h with h1 | h1
          · left; exact h1
          · right; exact List.mem_cons_of_mem _ h1

theorem mapInsert_sorted {α : Type} (m : List (String × α)) (k : String) (v : α)
    (h : mapSorted m) : mapSorted (mapInsert m k v) := by
  induction m with
  | nil => simp [mapInsert, mapSorted]
  | cons x rest ih =>
    obtain ⟨k1, v1⟩ := x
    rw [mapSorted_cons] at h
    obtain ⟨h1, h2⟩ := h
    unfold mapInsert
    split
    · rename_i hlt
      rw [mapSorted_cons]
      refine ⟨?_, (mapSorted_cons _ _ _).mpr ⟨h1, h2⟩⟩
      intro p hp
      rcases List.mem_cons.mp hp with hp | hp
      · rw [hp]; exact hlt
      · exact lt_trans hlt (h1 p hp)
    · split
      · rename_i _ heq
        rw [mapSorted_cons]
        refine ⟨?_, h2⟩
        intro p hp
        rw [heq]; exact h1 p hp
      · rename_i hnlt hne
        rw [mapSorted_cons]
        refine ⟨?_, ih h2⟩
        intro p hp
        rcases mapInsert_keys rest k v p hp with hp | hp
        · rw [hp]
          rcases lt_trichotomy k k1 with h3 | h3 | h3
          · exact absurd h3 hnlt
          · exact absurd h3 hne
          · exact h3
        · exact h1 p hp


/-! ## `Add` keeps the invariant and records the entry -/

theorem writePayload_ok (kLittleEndian : Bool) (val : Tensor) (out : FileOutputBuffer)
    (env : Env) (c : Bytes) (st : Status) (out1 : FileOutputBuffer) (env1 : Env) (n crc : Nat)
    (h : (if val.dtype = DT_STRING then WriteStringTensor kLittleEndian val out env
      else if val.dtype = DT_VARIANT then WriteVariantTensor kLittleEndian val out env
      else match WriteTensor val out env with
        | none => none
        | some (st, out1, env1, n) => some (st, out1, env1, n, out1.crc32c_)) =
      some (st, out1, env1, n, crc))
    (hst : st.ok = true) (hc : out.content env = some c) (hcrc : out.crc32c_ = 0)
    (hval : val.WF) :
    out1.content env1 = some (c ++ tensorPayload kLittleEndian val) ∧
    n = (tensorPayload kLittleEndian val).length ∧ crc = tensorCrc kLittleEndian val ∧
    out1.file_ = out.file_ ∧
    (val.dtype = DT_STRING ∨ val.dtype = DT_VARIANT ∨ DataTypeCanUseMemcpy val.dtype = true) := by
  unfold tensorPayload tensorCrc
  by_cases hs : val.dtype = DT_STRING
  · simp only [hs, if_true] at h ⊢
    unfold WriteStringTensor at h
    simp only [hs, ne_eq, not_true_eq_false, if_false] at h
    obtain ⟨j1, j2, j3, j4⟩ := WriteStringVector_ok kLittleEndian _ _ _ c _ _ _ _ _ h hst hc
    exact ⟨j1, j2, j3, j4, Or.inl trivial⟩
  · by_cases hv : val.dtype = DT_VARIANT
    · simp only [hs, hv, if_true, if_false] at h ⊢
      unfold WriteVariantTensor at h
      obtain ⟨j1, j2, j3, j4⟩ := writeVariants_ok kLittleEndian _ _ _ _ _ c _ _ _ _ _ h hst hc
      refine ⟨j1, ?_, j3, j4, Or.inr (Or.inl trivial)⟩
      rw [j2]; simp
    · simp only [hs, hv, if_false] at h ⊢
      cases hw : WriteTensor val out env with
      | none => simp [hw] at h
      | some res =>
        obtain ⟨st0, out0, env0, n0⟩ := res
        simp only [hw, Option.some.injEq, Prod.mk.injEq] at h
        obtain ⟨h1, h2, h3, h4, h5⟩ := h
        subst h1 h2 h3 h4 h5
        obtain ⟨k0, k1, k2, k3, k4⟩ := WriteTensor_ok val out env c _ _ _ _ hw hst hc
        refine ⟨k1, ?_, ?_, k4, Or.inr (Or.inr k0)⟩
        · rw [k2]
          obtain ⟨_, hw2⟩ := hval
          rw [if_pos k0] at hw2
          rw [hw2.1]
          unfold Tensor.TotalBytes
          split
          · rename_i heq; exact absurd heq hs
          · rename_i heq; exact absurd heq hv
          · rfl
        · rw [k3, hcrc]; rfl

theorem Add_ok_full (w : BundleWriter) (env : Env) (kLittleEndian : Bool) (key : String)
    (val : Tensor) (st : Status) (w1 : BundleWriter) (env1 : Env)
    (h : w.Add env kLittleEndian key val = some (st, w1, env1)) (hst : st.ok = true)
    (hinv : w.Inv env) (hval : val.WF) :
    w1.Inv env1 ∧ w1.prefix_ = w.prefix_ ∧ key ≠ kHeaderEntryKey ∧
    (val.dtype = DT_STRING ∨ val.dtype = DT_VARIANT ∨ DataTypeCanUseMemcpy val.dtype = true) ∧
    ∃ out1 c pad, w.size_ = c.length ∧ w1.out_ = some out1 ∧
      out1.content env1 = some (c ++ tensorPayload kLittleEndian val ++ pad) ∧
      mapFind w1.entries_ key = some (tensorEntry kLittleEndian val c.length) ∧
      mapFind w.entries_ key = none ∧
      w1.entries_ = mapInsert (mapInsert w.entries_ key
        { dtype := val.dtype, shape := some val.shape, offset := w.size_ }) key
        (tensorEntry kLittleEndian val c.length) ∧
      (∃ out, w.out_ = some out ∧ out.content env = some c) ∧
      w1.curr_entry_ = w.curr_entry_ ∧ w1.entry_seg_ = w.entry_seg_ := by
  obtain ⟨hp, hsorted, hnohdr, out, c, hout, hc, hsize⟩ := hinv
  unfold BundleWriter.Add at h
  by_cases h0 : w.status_.ok = true
  · simp only [h0, Bool.not_true, Bool.false_eq_true, if_false] at h
    by_cases hk : key = kHeaderEntryKey
    · simp [hk] at h
    · simp only [hk, if_false] at h
      by_cases hcon : mapContains w.entries_ key = true
      · simp only [hcon, if_true, Option.some.injEq, Prod.mk.injEq] at h
        obtain ⟨h1, _⟩ := h
        rw [← h1] at hst
        simp [errors.InvalidArgument, Status.ok] at hst
      · simp only [hcon, Bool.false_eq_true, if_false, hout] at h
        have hfind : mapFind w.entries_ key = none := by
          unfold mapContains at hcon
          cases hf : mapFind w.entries_ key with
          | none => rfl
          | some e => simp [hf] at hcon
        have hc0 : out.clear_crc32c.content env = some c := hc
        generalize hw : (ite (val.dtype = DT_STRING) _ _ :
          Option (Status × FileOutputBuffer × Env × Nat × Nat)) = written at h
        cases written with
        | none => simp at h
        | some res =>
          obtain ⟨st0, out0, env0, n0, crc0⟩ := res
          simp only at h
          by_cases hs0 : st0.ok = true
          · simp only [hs0, if_true] at h
            obtain ⟨j1, j2, j3, j4, j5⟩ :=
              writePayload_ok kLittleEndian val _ env c _ _ _ _ _ hw hs0 hc0 rfl hval
            cases hpad : PadAlignment out0 env0 w.data_alignment (w.size_ + n0) with
            | none => simp [hpad] at h
            | some res2 =>
              obtain ⟨pst, out2, env2, size2⟩ := res2
              simp only [hpad, Option.some.injEq, Prod.mk.injEq] at h
              obtain ⟨h1, h2, h3⟩ := h
              subst h1 h3
              obtain ⟨pad, p1, p2, p3⟩ := PadAlignment_ok _ _ _ _ _ _ _ _ _ hpad hst j1
              have hentry : mapFind w1.entries_ key =
                  some (tensorEntry kLittleEndian val c.length) := by
                rw [← h2]
                simp only [updateEntry]
                rw [mapFind_mapInsert_self, mapFind_mapInsert_self, hfind]
                simp only [Option.getD_some, Option.getD_none, tensorEntry, j2, j3, hsize]
              have hall : w1.entries_ = mapInsert (mapInsert w.entries_ key
                  { dtype := val.dtype, shape := some val.shape, offset := w.size_ }) key
                  (tensorEntry kLittleEndian val c.length) := by
                rw [← h2]
                simp only [updateEntry]
                rw [mapFind_mapInsert_self, hfind]
                simp only [Option.getD_some, Option.getD_none, tensorEntry, j2, j3, hsize]
              refine ⟨?_, by rw [← h2], hk, j5, out2, c, pad, hsize, by rw [← h2], p1, hentry,
                hfind, hall, ⟨out, hout, hc⟩, by rw [← h2], by rw [← h2]⟩
              rw [← h2]
              refine ⟨?_, ?_, ?_, out2, _, rfl, p1, ?_⟩
              · obtain ⟨hp1, hp2⟩ := hp
                refine ⟨hp1, ?_⟩
                intro o ho
                simp only [Option.some.injEq] at ho
                rw [← ho, p3, j4]
                exact hp2 out hout
              · simp only [updateEntry]
                exact mapInsert_sorted _ _ _ (mapInsert_sorted _ _ _ hsorted)
              · simp only [updateEntry]
                rw [mapFind_mapInsert_ne _ _ _ _ hk, mapFind_mapInsert_ne _ _ _ _ hk]
                exact hnohdr
              · simp only [p2, List.length_append, hsize, j2]
          · simp only [Bool.not_eq_true] at hs0
            simp only [hs0, Bool.false_eq_true, if_false, Option.some.injEq, Prod.mk.injEq] at h
            obtain ⟨h1, _⟩ := h
            rw [← h1, hs0] at hst
            exact absurd hst (by decide)
  · simp only [Bool.not_eq_true] at h0
    simp only [h0, Bool.not_false, if_true, Option.some.injEq, Prod.mk.injEq] at h
    obtain ⟨h1, _⟩ := h
    rw [← h1, h0] at hst
    exact absurd hst (by decide)


theorem Add_ok (w : BundleWriter) (env : Env) (kLittleEndian : Bool) (key : String)
    (val : Tensor) (st : Status) (w1 : BundleWriter) (env1 : Env)
    (h : w.Add env kLittleEndian key val = some (st, w1, env1)) (hst : st.ok = true)
    (hinv : w.Inv env) (hval : val.WF) :
    w1.Inv env1 ∧ w1.prefix_ = w.prefix_ ∧ key ≠ kHeaderEntryKey ∧
    (val.dtype = DT_STRING ∨ val.dtype = DT_VARIANT ∨ DataTypeCanUseMemcpy val.dtype = true) ∧
    ∃ out1 c pad, w.size_ = c.length ∧ w1.out_ = some out1 ∧
      out1.content env1 = some (c ++ tensorPayload kLittleEndian val ++ pad) ∧
      mapFind w1.entries_ key = some (tensorEntry kLittleEndian val c.length) := by
  obtain ⟨h1, h2, h3, h4, out1, c, pad, h5, h6, h7, h8, _⟩ :=
    Add_ok_full w env kLittleEndian key val st w1 env1 h hst hinv hval
  exact ⟨h1, h2, h3, h4, out1, c, pad, h5, h6, h7, h8⟩


end tfplus

namespace tfplus

open DataType

/-! ## The files `Finish` leaves -/

theorem RenameFile_ok_data (env : Env) (src target : String)
    (h : (env.RenameFile src target).1.ok = true) :
    ∃ d, fsFind env.files src = some d ∧
      fsFind (env.RenameFile src target).2.files target = some d := by
  obtain ⟨hf, _⟩ := nextFault_files env
  unfold Env.RenameFile at h ⊢
  simp only at h ⊢
  by_cases c : env.nextFault.1.ok = true
  · simp only [c, Bool.not_true, Bool.false_eq_true, if_false] at h ⊢
    rw [hf] at h ⊢
    cases hs : fsFind env.files src with
    | none =>
      simp only [hs] at h
      simp [errors.NotFound, Status.ok] at h
    | some d =>
      refine ⟨d, rfl, ?_⟩
      simp [Env.commit, fsFind_fsSet]
  · simp only [Bool.not_eq_true] at c
    simp only [c, Bool.not_false, if_true] at h
    exact absurd h (by simp)

theorem BuildTable_ok (env : Env) (path : String) (rows : List (String × TableValue))
    (h : (env.BuildTable path rows).1.ok = true) :
    fsFind (env.BuildTable path rows).2.files path = some (FileData.table rows) := by
  unfold Env.BuildTable at h ⊢
  simp only at h ⊢
  by_cases c : env.nextFault.1.ok = true
  · simp only [c, Bool.not_true, Bool.false_eq_true, if_false] at h ⊢
    cases hs : fsFind env.nextFault.2.files path with
    | none =>
      simp only [hs] at h
      simp [errors.NotFound, Status.ok] at h
    | some d => simp [Env.commit, fsFind_fsSet]
  · simp only [Bool.not_eq_true] at c
    simp only [c, Bool.not_false, if_true] at h
    exact absurd h (by simp)

theorem BufferClose_ok (b : FileOutputBuffer) (env : Env) (c : Bytes)
    (h : (b.Close env).1.ok = true) (hc : b.content env = some c) :
    fsFind (b.Close env).2.2.files b.file_ = some (FileData.bytes c) := by
  unfold FileOutputBuffer.Close at h ⊢
  simp only at h ⊢
  by_cases hf : (b.FlushBuffer env).1.ok = true
  · obtain ⟨k1, k2, _, k4, _⟩ := FlushBuffer_ok b env c hf hc
    simp only [hf, Bool.not_true, Bool.false_eq_true, if_false] at h ⊢
    rw [Close_other]
    unfold FileOutputBuffer.content at k1
    rw [k4] at k1
    cases hs : fsFind (b.FlushBuffer env).2.2.files b.file_ with
    | none => simp [hs] at k1
    | some d =>
      cases d with
      | bytes fb =>
        simp only [hs, k2, List.append_nil, Option.some.injEq] at k1
        rw [k1]
      | table rows => simp [hs] at k1
  · simp only [Bool.not_eq_true] at hf
    simp only [hf, Bool.not_false, if_true] at h
    exact absurd h (by decide)

theorem Status.Update_ok (s t : Status) (h : (s.Update t).ok = true) :
    s.ok = true ∧ t.ok = true := by
  unfold Status.Update at h
  by_cases hs : s.ok = true
  · simp only [hs, if_true] at h
    exact ⟨hs, h⟩
  · simp only [hs, Bool.false_eq_true, if_false] at h

theorem finishData_ok (w : BundleWriter) (env : Env) (hinv : w.Inv env)
    (h : (w.finishData env).1.status_.ok = true) :
    ∃ c out, w.out_ = some out ∧ out.content env = some c ∧
      fsFind (w.finishData env).2.files (DataFilename w.prefix_ 0 1) =
        some (FileData.bytes c) := by
  obtain ⟨hp, _, _, out, c, hout, hc, _⟩ := hinv
  refine ⟨c, out, hout, hc, ?_⟩
  unfold BundleWriter.finishData at h ⊢
  simp only [hout] at h ⊢
  by_cases hu : (w.status_.Update (out.Close env).1).ok = true
  · simp only [hu, if_true] at h ⊢
    obtain ⟨d, h1, h2⟩ := RenameFile_ok_data _ _ _ h
    rw [h2, ← h1, ← hp.2 out hout]
    exact BufferClose_ok out env c (Status.Update_ok _ _ hu).2 hc
  · simp only [hu, Bool.false_eq_true, if_false] at h

theorem Finish_ok (w : BundleWriter) (env : Env) (kLittleEndian : Bool) (hinv : w.Inv env)
    (h : (w.Finish env kLittleEndian).1.ok = true) :
    ∃ c out, w.out_ = some out ∧ out.content env = some c ∧
      fsFind (w.Finish env kLittleEndian).2.2.files (DataFilename w.prefix_ 0 1) =
        some (FileData.bytes c) ∧
      fsFind (w.Finish env kLittleEndian).2.2.files (MetaFilename w.prefix_) =
        some (FileData.table (BundleWriter.finishRows kLittleEndian w)) := by
  obtain ⟨_, hpre, htmp, hent, _⟩ := finishData_spec w env hinv.1
  obtain ⟨⟨r1, r2, hm, hd⟩, _⟩ := hinv.1
  have htd : (w.finishData env).1.tmp_metadata_path_ ≠ DataFilename w.prefix_ 0 1 := by
    rw [htmp, hm]; exact tmpMeta_ne_Data _ _
  have hrows : BundleWriter.finishRows kLittleEndian (w.finishData env).1 =
      BundleWriter.finishRows kLittleEndian w := by
    unfold BundleWriter.finishRows
    rw [hent]
  unfold BundleWriter.Finish at h ⊢
  simp only at h ⊢
  by_cases c1 : (w.finishData env).1.status_.ok = true
  · obtain ⟨c, out, hout, hc, hdata⟩ := finishData_ok w env hinv c1
    refine ⟨c, out, hout, hc, ?_⟩
    simp only [c1, Bool.not_true, Bool.false_eq_true, if_false] at h ⊢
    by_cases c2 : ((w.finishData env).2.NewWritableFile
        (w.finishData env).1.tmp_metadata_path_).1.ok = true
    · simp only [c2, Bool.not_true, Bool.false_eq_true, if_false] at h ⊢
      split at h
      · rename_i c3
        simp only [Bool.not_eq_true', Bool.not_eq_false] at c3
        rw [c3] at h
        exact absurd h (by decide)
      · rename_i c3
        simp only [Bool.not_eq_true, Bool.not_eq_false', Bool.not_eq_false] at c3
        obtain ⟨c3a, _⟩ := Status.Update_ok _ _ c3
        simp only [c3, Bool.not_true, Bool.false_eq_true, if_false]
        split at h
        · rename_i c4
          simp only [Bool.not_eq_true', Bool.not_eq_false] at c4
          rw [c4] at h
          exact absurd h (by decide)
        · rename_i c4
          simp only [Bool.not_eq_true, Bool.not_eq_false', Bool.not_eq_false] at c4
          simp only [c4, Bool.not_true, Bool.false_eq_true, if_false]
          obtain ⟨_, _, h2, _⟩ := RenameFile_ok_target _ _ _ c4
          obtain ⟨d, k1, k2⟩ := RenameFile_ok_data _ _ _ c4
          constructor
          · have h4 := h2 (DataFilename w.prefix_ 0 1) (Ne.symm htd)
              (by rw [hpre]; exact DataFilename_ne_Meta _)
            rw [h4, Close_other, BuildTable_other _ _ _ _ htd, NewWritableFile_other _ _ _ htd]
            exact hdata
          · have hmeta : MetaFilename w.prefix_ = MetaFilename (w.finishData env).1.prefix_ := by
              rw [hpre]
            rw [hmeta, k2, ← k1, Close_other, BuildTable_ok _ _ _ c3a, hrows]
    · simp only [Bool.not_eq_true] at c2
      simp only [c2, Bool.not_false, if_true] at h
      exact absurd h (by decide)
  · simp only [Bool.not_eq_true] at c1
    simp only [c1, Bool.not_false, if_true] at h
    exact absurd h (by decide)


end tfplus

namespace tfplus

open DataType

/-! ## Opening the bundle `Finish` wrote and finding a key in it -/

theorem header_key_lt (k : String) (h : k ≠ kHeaderEntryKey) : kHeaderEntryKey < k := by
  rcases lt_trichotomy kHeaderEntryKey k with h1 | h1 | h1
  · exact h1
  · exact absurd h1.symm h
  · exact absurd h1 (not_lt_header_key k)

theorem seekRows_find (rows : List (String × TableValue)) (key : String) (v : TableValue)
    (hs : mapSorted rows) (hf : mapFind rows key = some v) :
    rows.get? (seekRows rows key) = some (key, v) := by
  induction rows with
  | nil => simp [mapFind] at hf
  | cons p rest ih =>
    obtain ⟨k1, v1⟩ := p
    rw [mapSorted_cons] at hs
    obtain ⟨h1, h2⟩ := hs
    unfold seekRows
    unfold mapFind at hf
    by_cases hlt : k1 < key
    · have hne : ¬ k1 = key := ne_of_lt hlt
      simp only [hne, if_false] at hf
      simp only [hlt, if_true, List.get?_cons_succ]
      exact ih h2 hf
    · simp only [hlt, if_false, List.get?_cons_zero]
      by_cases he : k1 = key
      · simp only [he, if_true, Option.some.injEq] at hf
        rw [he, hf]
      · simp only [he, if_false] at hf
        exact absurd (h1 (key, v) (mapFind_mem rest key v hf)) hlt

theorem finishRows_sorted (kLittleEndian : Bool) (w : BundleWriter)
    (hs : mapSorted w.entries_) (hn : mapFind w.entries_ kHeaderEntryKey = none) :
    mapSorted (BundleWriter.finishRows kLittleEndian w) := by
  unfold BundleWriter.finishRows
  rw [mapSorted_cons]
  constructor
  · intro p hp
    obtain ⟨q, hq, rfl⟩ := List.mem_map.mp hp
    apply header_key_lt
    intro he
    exact mapFind_none_not_mem _ _ hn (List.mem_map.mpr ⟨q, hq, he⟩)
  · unfold mapSorted at hs ⊢
    simpa [List.map_map, Function.comp] using hs

theorem mapFind_entries (m : List (String × BundleEntryProto)) (key : String) :
    mapFind (m.map (fun p => (p.1, TableValue.entry p.2))) key =
      (mapFind m key).map TableValue.entry := by
  induction m with
  | nil => rfl
  | cons p rest ih =>
    obtain ⟨k1, v1⟩ := p
    simp only [List.map_cons, mapFind]
    split
    · rfl
    · exact ih

theorem finishRows_find (kLittleEndian : Bool) (w : BundleWriter) (key : String)
    (e : BundleEntryProto) (hk : key ≠ kHeaderEntryKey) (hf : mapFind w.entries_ key = some e) :
    mapFind (BundleWriter.finishRows kLittleEndian w) key = some (TableValue.entry e) := by
  unfold BundleWriter.finishRows
  unfold mapFind
  rw [if_neg (Ne.symm hk), mapFind_entries, hf]
  rfl

/-- The reader of a bundle whose metadata file is the table `Finish` builds, on a host
of the byte order of the writer. -/
theorem reader_open (env : Env) (pfx : String) (kLittleEndian : Bool) (w : BundleWriter)
    (h : fsFind env.files (MetaFilename pfx) =
      some (FileData.table (BundleWriter.finishRows kLittleEndian w))) :
    BundleReader.create env pfx kLittleEndian =
      { prefix_ := pfx, status_ := Status.OK,
        table_ := some (BundleWriter.finishRows kLittleEndian w), iter_ := 0, num_shards_ := 1,
        need_to_swap_bytes_ := false, tensor_slices_ := [], tmp_lookupseg_items_ := [] } := by
  unfold BundleReader.create Env.GetFileSize Env.NewRandomAccessFile Env.OpenTable
  simp only [h, seekRows_header]
  cases kLittleEndian <;> rfl

theorem GetBundleEntryProto_found (r : BundleReader) (rows : List (String × TableValue))
    (key : String) (e : BundleEntryProto) (hst : r.status_.ok = true)
    (ht : r.table_ = some rows) (hs : mapSorted rows)
    (hf : mapFind rows key = some (TableValue.entry e))
    (hv : Tensor.shapeIsValid e.tensorShape = true) :
    r.GetBundleEntryProto key = some (Status.OK, e, r.Seek key) ∧
    (r.Seek key).current = some (key, TableValue.entry e) := by
  have hcur : (r.Seek key).current = some (key, TableValue.entry e) := by
    unfold BundleReader.Seek BundleReader.current
    simp only [ht]
    exact seekRows_find rows key _ hs hf
  refine ⟨?_, hcur⟩
  unfold BundleReader.GetBundleEntryProto
  simp only [hst, Bool.not_true, Bool.false_eq_true, if_false, hcur, ne_eq, not_true_eq_false,
    ParseEntryProto, hv]
  rfl

end tfplus

namespace tfplus

open DataType

/-! ## Integers written and read back -/

theorem toNat_ofNat_lt (n : Nat) (h : n < 256) : (UInt8.ofNat n).toNat = n := by
  show (n % 256 : Nat) = n
  exact Nat.mod_eq_of_lt h

theorem natLE_bytesLE (width n : Nat) : natLE (bytesLE width n) = n % 256 ^ width := by
  induction width generalizing n with
  | zero => simp [bytesLE, natLE, Nat.mod_one]
  | succ w ih =>
    simp only [bytesLE, natLE, ih]
    rw [toNat_ofNat_lt _ (Nat.mod_lt _ (by decide)), pow_succ, Nat.mul_comm (256 ^ w) 256,
      Nat.mod_mul]

theorem loadInt_memInt (kLittleEndian : Bool) (width n : Nat) (h : n < 256 ^ width) :
    loadInt kLittleEndian (memInt kLittleEndian width n) = n := by
  unfold loadInt memInt
  cases kLittleEndian
  · simp only [Bool.false_eq_true, if_false, List.reverse_reverse]
    rw [natLE_bytesLE, Nat.mod_eq_of_lt h]
  · simp only [if_true]
    rw [natLE_bytesLE, Nat.mod_eq_of_lt h]

theorem get?_append_mid (pre : Bytes) (b : UInt8) (post : Bytes) :
    (pre ++ b :: post).get? pre.length = some b := by
  rw [List.get?_eq_getElem?, List.getElem?_append_right (le_refl _)]
  simp

theorem putVarintAux_ne_nil (fuel v : Nat) : putVarintAux fuel v ≠ [] := by
  cases fuel with
  | zero => simp [putVarintAux]
  | succ f =>
    unfold putVarintAux
    split <;> simp

theorem readVarintAux_put (fuel : Nat) : ∀ (v shift acc max_bytes : Nat) (pre post : Bytes),
    acc < 2 ^ shift → v * 2 ^ shift + acc < 2 ^ 64 → v < 128 ^ (fuel + 1) → fuel < max_bytes →
    InputBuffer.readVarintAux (pre ++ putVarintAux fuel v ++ post) max_bytes shift pre.length acc =
      (Status.OK, v * 2 ^ shift + acc, pre.length + (putVarintAux fuel v).length) := by
  induction fuel with
  | zero =>
    intro v shift acc max_bytes pre post hacc htot hv hmax
    obtain ⟨m, rfl⟩ : ∃ m, max_bytes = m + 1 := ⟨max_bytes - 1, by omega⟩
    have hv1 : v < 128 := by simpa using hv
    simp only [putVarintAux, List.append_assoc, List.singleton_append, List.length_singleton,
      Nat.mod_eq_of_lt hv1]
    unfold InputBuffer.readVarintAux
    rw [get?_append_mid]
    have hb : (UInt8.ofNat v).toNat = v := toNat_ofNat_lt v (by omega)
    simp only [hb, hv1, if_true, Nat.shiftLeft_eq, Nat.mod_eq_of_lt hv1]
    rw [crc32c.rot_or_eq_add _ _ _ hacc, Nat.mod_eq_of_lt htot]
  | succ f ih =>
    intro v shift acc max_bytes pre post hacc htot hv hmax
    obtain ⟨m, rfl⟩ : ∃ m, max_bytes = m + 1 := ⟨max_bytes - 1, by omega⟩
    unfold putVarintAux
    by_cases hv1 : v < 128
    · simp only [hv1, if_true, List.append_assoc, List.singleton_append, List.length_singleton]
      unfold InputBuffer.readVarintAux
      rw [get?_append_mid]
      have hb : (UInt8.ofNat v).toNat = v := toNat_ofNat_lt v (by omega)
      simp only [hb, hv1, if_true, Nat.shiftLeft_eq, Nat.mod_eq_of_lt hv1]
      rw [crc32c.rot_or_eq_add _ _ _ hacc, Nat.mod_eq_of_lt htot]
    · simp only [hv1, if_false, List.append_assoc, List.cons_append, List.length_cons]
      unfold InputBuffer.readVarintAux
      rw [get?_append_mid]
      have hb : (UInt8.ofNat (v % 128 + 128)).toNat = v % 128 + 128 :=
        toNat_ofNat_lt _ (by omega)
      have hnl : ¬ (v % 128 + 128 < 128) := by omega
      have hm128 : (v % 128 + 128) % 128 = v % 128 := by omega
      simp only [hb, hnl, if_false, Nat.shiftLeft_eq, hm128]
      rw [crc32c.rot_or_eq_add _ _ _ hacc]
      have hsplit : v * 2 ^ shift = (v / 128) * 2 ^ (shift + 7) + (v % 128) * 2 ^ shift := by
        rw [pow_add]
        have := Nat.div_add_mod v 128
        calc v * 2 ^ shift = (128 * (v / 128) + v % 128) * 2 ^ shift := by rw [this]
          _ = (v / 128) * (2 ^ shift * 2 ^ 7) + (v % 128) * 2 ^ shift := by ring
      have hlt : v % 128 * 2 ^ shift + acc < 2 ^ 64 := by
        have : v % 128 * 2 ^ shift ≤ v * 2 ^ shift :=
          Nat.mul_le_mul_right _ (Nat.mod_le _ _)
        omega
      rw [Nat.mod_eq_of_lt hlt]
      have hacc1 : v % 128 * 2 ^ shift + acc < 2 ^ (shift + 7) := by
        rw [pow_add]
        have h1 : v % 128 < 128 := Nat.mod_lt _ (by decide)
        have h2 : v % 128 * 2 ^ shift ≤ 127 * 2 ^ shift := Nat.mul_le_mul_right _ (by omega)
        have h3 : (2 : Nat) ^ 7 = 128 := by decide
        rw [h3]
        omega
      have hv2 : v / 128 < 128 ^ (f + 1) := by
        rw [Nat.div_lt_iff_lt_mul (by decide)]
        rw [pow_succ] at hv
        exact hv
      have htot2 : v / 128 * 2 ^ (shift + 7) + (v % 128 * 2 ^ shift + acc) < 2 ^ 64 := by
        rw [← Nat.add_assoc, ← hsplit]; exact htot
      have := ih (v / 128) (shift + 7) (v % 128 * 2 ^ shift + acc) m
        (pre ++ [UInt8.ofNat (v % 128 + 128)]) post hacc1 htot2 hv2 (by omega)
      simp only [List.append_assoc, List.singleton_append, List.length_append,
        List.length_singleton, List.cons_append, List.nil_append] at this
      rw [this, ← Nat.add_assoc, ← hsplit]
      simp only [Prod.mk.injEq, true_and]
      omega

theorem ReadVarint64_PutVarint64 (v : Nat) (pre post : Bytes) (h : v < 2 ^ 64) :
    InputBuffer.ReadVarint64 (pre ++ PutVarint64 v ++ post) pre.length =
      (Status.OK, v, pre.length + (PutVarint64 v).length) := by
  unfold InputBuffer.ReadVarint64 PutVarint64
  rw [Nat.mod_eq_of_lt h]
  have := readVarintAux_put 9 v 0 0 10 pre post (by decide) (by simpa using h)
    (lt_of_lt_of_le h (by decide)) (by decide)
  simpa using this

theorem ReadNBytes_mid (pre P post : Bytes) :
    InputBuffer.ReadNBytes (pre ++ P ++ post) pre.length P.length =
      (Status.OK, P, pre.length + P.length) := by
  unfold InputBuffer.ReadNBytes
  simp only [List.append_assoc, List.drop_left, List.take_left, if_true]

theorem Read_mid (pre P post : Bytes) :
    RandomAccessFile.Read (pre ++ P ++ post) pre.length P.length = (Status.OK, P) := by
  unfold RandomAccessFile.Read
  simp only [List.append_assoc, List.drop_left, List.take_left, if_true]

end tfplus

namespace tfplus

open DataType

/-! ## Reading back what `WriteStringTensor` and `WriteVariantTensor` wrote -/

theorem stringLengthsCrc_lt (kLittleEndian : Bool) (strings : List Bytes) :
    ∀ crc, crc < 2 ^ 32 → stringLengthsCrc kLittleEndian crc strings < 2 ^ 32 := by
  induction strings with
  | nil => intro crc h; exact h
  | cons s rest ih =>
    intro crc h
    unfold stringLengthsCrc
    simp only
    split
    · exact ih _ (crc32c.Extend_lt _ _ h)
    · exact ih _ (crc32c.Extend_lt _ _ h)

theorem readStringLengths_ok (kLittleEndian : Bool) (strings : List Bytes) :
    ∀ (pre post : Bytes) (crc : Nat), (∀ s ∈ strings, s.length < 2 ^ 64) →
    readStringLengths kLittleEndian false (pre ++ stringLengthsVarint strings ++ post)
        strings.length pre.length crc =
      (Status.OK, strings.map List.length, pre.length + (stringLengthsVarint strings).length,
        stringLengthsCrc kLittleEndian crc strings) := by
  induction strings with
  | nil => intro pre post crc _; simp [readStringLengths, stringLengthsVarint, stringLengthsCrc]
  | cons s rest ih =>
    intro pre post crc hlen
    have hs : s.length < 2 ^ 64 := hlen s (List.mem_cons_self _ _)
    have hrest : ∀ t ∈ rest, t.length < 2 ^ 64 := fun t ht => hlen t (List.mem_cons_of_mem _ ht)
    have hfile : pre ++ stringLengthsVarint (s :: rest) ++ post =
        pre ++ PutVarint64 s.length ++ (stringLengthsVarint rest ++ post) := by
      simp [stringLengthsVarint]
    have hfile2 : pre ++ stringLengthsVarint (s :: rest) ++ post =
        (pre ++ PutVarint64 s.length) ++ stringLengthsVarint rest ++ post := by
      simp [stringLengthsVarint]
    simp only [List.length_cons]
    unfold readStringLengths
    simp only
    rw [hfile, ReadVarint64_PutVarint64 _ _ _ hs, ← hfile, hfile2]
    have := ih (pre ++ PutVarint64 s.length) post
      (if s.length ≤ UINT32_MAX then crc32c.Extend crc (memInt kLittleEndian 4 s.length)
       else crc32c.Extend crc (memInt kLittleEndian 8 s.length)) hrest
    simp only [List.length_append] at this
    have hl : (stringLengthsVarint (s :: rest)).length =
        (PutVarint64 s.length).length + (stringLengthsVarint rest).length := by
      simp [stringLengthsVarint]
    have hcrc : stringLengthsCrc kLittleEndian crc (s :: rest) = stringLengthsCrc kLittleEndian
        (if s.length ≤ UINT32_MAX then crc32c.Extend crc (memInt kLittleEndian 4 s.length)
         else crc32c.Extend crc (memInt kLittleEndian 8 s.length)) rest := by
      rw [stringLengthsCrc]
      split <;> rfl
    simp only [Status.OK, Status.ok, decide_True, Bool.not_true, Bool.false_eq_true, if_false]
    rw [this, hl, hcrc, Nat.add_assoc]
    rfl

theorem readStringBytes_ok (strings : List Bytes) : ∀ (pre post : Bytes) (crc : Nat),
    readStringBytes (pre ++ strings.flatten ++ post) (strings.map List.length) pre.length crc =
      (Status.OK, strings, crc32c.Extend crc strings.flatten) := by
  induction strings with
  | nil => intro pre post crc; simp [readStringBytes, crc32c.Extend_nil]
  | cons s rest ih =>
    intro pre post crc
    have hfile : pre ++ (s :: rest).flatten ++ post = pre ++ s ++ (rest.flatten ++ post) := by
      simp
    have hfile2 : pre ++ (s :: rest).flatten ++ post = (pre ++ s) ++ rest.flatten ++ post := by
      simp
    simp only [List.map_cons]
    unfold readStringBytes
    simp only
    rw [hfile, ReadNBytes_mid, ← hfile, hfile2]
    have := ih (pre ++ s) post (crc32c.Extend crc s)
    simp only [List.length_append] at this
    simp only [Status.OK, Status.ok, decide_True, Bool.not_true, Bool.false_eq_true, if_false,
      this, List.flatten_cons, crc32c.Extend_append]

theorem ReadStringTensor_ok (kLittleEndian : Bool) (strings destination : List Bytes)
    (pre post : Bytes) (hlen : ∀ s ∈ strings, s.length < 2 ^ 64)
    (hdest : destination.length = strings.length) :
    ReadStringTensor kLittleEndian (pre ++ stringPayload kLittleEndian strings ++ post)
        strings.length pre.length (stringPayload kLittleEndian strings).length destination 0
        false =
      (Status.OK, strings, stringCrc kLittleEndian strings) := by
  have h4 : (memInt kLittleEndian 4
      (crc32c.Mask (stringLengthsCrc kLittleEndian 0 strings))).length = 4 := memInt_length _ _ _
  have hsize : (stringPayload kLittleEndian strings).length ≠ 0 := by
    simp only [stringPayload, List.length_append, h4]; omega
  have hf1 : pre ++ stringPayload kLittleEndian strings ++ post =
      pre ++ stringLengthsVarint strings ++
        (memInt kLittleEndian 4 (crc32c.Mask (stringLengthsCrc kLittleEndian 0 strings)) ++
          strings.flatten ++ post) := by
    simp [stringPayload]
  have hf2 : pre ++ stringPayload kLittleEndian strings ++ post =
      (pre ++ stringLengthsVarint strings) ++
        memInt kLittleEndian 4 (crc32c.Mask (stringLengthsCrc kLittleEndian 0 strings)) ++
          (strings.flatten ++ post) := by
    simp [stringPayload]
  have hf3 : pre ++ stringPayload kLittleEndian strings ++ post =
      (pre ++ stringLengthsVarint strings ++
        memInt kLittleEndian 4 (crc32c.Mask (stringLengthsCrc kLittleEndian 0 strings))) ++
          strings.flatten ++ post := by
    simp [stringPayload]
  have hcrc : stringLengthsCrc kLittleEndian 0 strings < 2 ^ 32 :=
    stringLengthsCrc_lt _ _ _ (by decide)
  unfold ReadStringTensor
  simp only [hsize, if_false]
  rw [hf1, readStringLengths_ok kLittleEndian strings pre _ 0 hlen, ← hf1]
  simp only [Status.OK, Status.ok, decide_True, Bool.not_true, Bool.false_eq_true, if_false]
  have hpos : ¬ (pre.length + (stringPayload kLittleEndian strings).length <
      pre.length + (stringLengthsVarint strings).length) := by
    simp only [stringPayload, List.length_append]; omega
  simp only [hpos, if_false]
  have hread := ReadNBytes_mid (pre ++ stringLengthsVarint strings)
    (memInt kLittleEndian 4 (crc32c.Mask (stringLengthsCrc kLittleEndian 0 strings)))
    (strings.flatten ++ post)
  rw [← hf2] at hread
  simp only [List.length_append, h4] at hread
  rw [hread]
  simp only [Status.OK, Status.ok, decide_True, Bool.not_true, Bool.false_eq_true, if_false]
  rw [loadInt_memInt _ 4 _ (lt_of_lt_of_le (crc32c.Mask_lt _) (by decide)),
    crc32c.Unmask_Mask _ hcrc]
  simp only [ne_eq, not_true_eq_false, if_false]
  have hbytes := readStringBytes_ok strings
    (pre ++ stringLengthsVarint strings ++
      memInt kLittleEndian 4 (crc32c.Mask (stringLengthsCrc kLittleEndian 0 strings))) post
    (crc32c.Extend (stringLengthsCrc kLittleEndian 0 strings)
      (memInt kLittleEndian 4 (crc32c.Mask (stringLengthsCrc kLittleEndian 0 strings))))
  rw [← hf3] at hbytes
  simp only [List.length_append, h4] at hbytes
  rw [hbytes]
  simp only [Prod.mk.injEq]
  refine ⟨rfl, ?_, rfl⟩
  rw [List.drop_of_length_le (by omega), List.append_nil]

theorem variantCrc_lt (kLittleEndian : Bool) (elems : List Bytes) :
    ∀ crc, crc < 2 ^ 32 → variantCrc kLittleEndian crc elems < 2 ^ 32 := by
  induction elems with
  | nil => intro crc h; exact h
  | cons e rest ih =>
    intro crc h
    unfold variantCrc
    exact ih _ (crc32c.Extend_lt _ _ (crc32c.Extend_lt _ _ (crc32c.Extend_lt _ _ h)))

theorem readVariants_ok (lib : VariantLibrary) (kLittleEndian : Bool) (offset size : Nat)
    (elems : List Bytes) :
    ∀ (pre post : Bytes) (i crc : Nat), crc < 2 ^ 32 → (∀ e ∈ elems, e.length < 2 ^ 64) →
    (∀ e ∈ elems, lib.decoding e = VariantDecoding.decoded) →
    readVariants lib kLittleEndian (pre ++ variantPayload kLittleEndian crc elems ++ post)
        offset size elems.length i pre.length crc =
      (Status.OK, elems, variantCrc kLittleEndian crc elems) := by
  induction elems with
  | nil => intro pre post i crc _ _ _; simp [readVariants, variantCrc]
  | cons e rest ih =>
    intro pre post i crc hcrc hlen hdec
    have he : e.length < 2 ^ 64 := hlen e (List.mem_cons_self _ _)
    have hrest : ∀ t ∈ rest, t.length < 2 ^ 64 := fun t ht => hlen t (List.mem_cons_of_mem _ ht)
    have hde : lib.decoding e = VariantDecoding.decoded := hdec e (List.mem_cons_self _ _)
    have hdrest : ∀ t ∈ rest, lib.decoding t = VariantDecoding.decoded :=
      fun t ht => hdec t (List.mem_cons_of_mem _ ht)
    have hc2 : crc32c.Extend (crc32c.Extend crc (memInt kLittleEndian 8 e.length)) e < 2 ^ 32 :=
      crc32c.Extend_lt _ _ (crc32c.Extend_lt _ _ hcrc)
    generalize hcrc2 :
      crc32c.Extend (crc32c.Extend crc (memInt kLittleEndian 8 e.length)) e = crc2 at hc2
    have h4 : (memInt kLittleEndian 4 (crc32c.Mask crc2)).length = 4 := memInt_length _ _ _
    have hp : variantPayload kLittleEndian crc (e :: rest) =
        PutVarint64 e.length ++ e ++ memInt kLittleEndian 4 (crc32c.Mask crc2) ++
          variantPayload kLittleEndian
            (crc32c.Extend crc2 (memInt kLittleEndian 4 (crc32c.Mask crc2))) rest := by
      rw [variantPayload, hcrc2]
    have hv : variantCrc kLittleEndian crc (e :: rest) = variantCrc kLittleEndian
        (crc32c.Extend crc2 (memInt kLittleEndian 4 (crc32c.Mask crc2))) rest := by
      rw [variantCrc, hcrc2]
    have ih1 := ih (pre ++ PutVarint64 e.length ++ e ++ memInt kLittleEndian 4 (crc32c.Mask crc2))
      post (i + 1) (crc32c.Extend crc2 (memInt kLittleEndian 4 (crc32c.Mask crc2)))
      (crc32c.Extend_lt _ _ hc2) hrest hdrest
    rw [hp, hv]
    generalize variantPayload kLittleEndian
      (crc32c.Extend crc2 (memInt kLittleEndian 4 (crc32c.Mask crc2))) rest = tail at ih1 ⊢
    generalize hS : memInt kLittleEndian 4 (crc32c.Mask crc2) = S at ih1 h4 ⊢
    have f1 : pre ++ (PutVarint64 e.length ++ e ++ S ++ tail) ++ post =
        pre ++ PutVarint64 e.length ++ (e ++ S ++ tail ++ post) := by simp
    have f2 : pre ++ (PutVarint64 e.length ++ e ++ S ++ tail) ++ post =
        (pre ++ PutVarint64 e.length) ++ e ++ (S ++ tail ++ post) := by simp
    have f3 : pre ++ (PutVarint64 e.length ++ e ++ S ++ tail) ++ post =
        (pre ++ PutVarint64 e.length ++ e) ++ S ++ (tail ++ post) := by simp
    have f4 : pre ++ (PutVarint64 e.length ++ e ++ S ++ tail) ++ post =
        (pre ++ PutVarint64 e.length ++ e ++ S) ++ tail ++ post := by simp
    have r1 := ReadVarint64_PutVarint64 e.length pre (e ++ S ++ tail ++ post) he
    have r2 := ReadNBytes_mid (pre ++ PutVarint64 e.length) e (S ++ tail ++ post)
    have r3 := ReadNBytes_mid (pre ++ PutVarint64 e.length ++ e) S (tail ++ post)
    rw [← f1] at r1
    rw [← f2] at r2
    rw [← f3] at r3
    rw [← f4] at ih1
    simp only [List.length_append, h4] at r2 r3 ih1
    simp only [List.length_cons]
    unfold readVariants
    simp only [r1, r2, hcrc2, r3, hde]
    simp only [Status.OK, Status.ok, decide_True, Bool.not_true, Bool.false_eq_true, if_false]
    rw [← hS, loadInt_memInt _ 4 _ (lt_of_lt_of_le (crc32c.Mask_lt _) (by decide)),
      crc32c.Unmask_Mask _ hc2]
    simp only [ne_eq, not_true_eq_false, if_false]
    rw [hS, ih1]
    rfl

/-! ## `GetValue` on the entry and the bytes `Add` wrote -/

theorem variantPayload_length_zero (kLittleEndian : Bool) (crc : Nat) (elems : List Bytes)
    (h : (variantPayload kLittleEndian crc elems).length = 0) : elems = [] := by
  cases elems with
  | nil => rfl
  | cons e rest =>
    simp only [variantPayload, List.length_append, memInt_length] at h
    omega

/-- The tensor `GetValue` fills: a fresh one for a destination without elements, the
destination otherwise. -/
theorem ret_facts (val dest : Tensor) (hval : val.WF) (hdest : dest.destinationFor val) :
    ∀ ret, (if decide (dest.NumElements = 0) = true then Tensor.alloc val.dtype val.shape
      else dest) = ret →
    ret.dtype = val.dtype ∧ ret.shape = val.shape ∧
    (DataTypeCanUseMemcpy val.dtype = true →
      ret.data.length = val.data.length ∧ ret.strings = []) ∧
    (DataTypeCanUseMemcpy val.dtype = false →
      ret.data = [] ∧ ret.strings.length = val.strings.length) ∧
    (val.dtype = DT_STRING → ret.stringBytes ≤ val.stringBytes) := by
  intro ret hret
  obtain ⟨_, hw⟩ := hval
  by_cases hf : dest.NumElements = 0
  · simp only [hf, decide_True, if_true] at hret
    subst hret
    unfold Tensor.alloc
    by_cases hm : DataTypeCanUseMemcpy val.dtype = true
    · simp only [hm, if_true] at hw ⊢
      refine ⟨trivial, trivial, fun _ => ⟨?_, trivial⟩, fun h => absurd h (by simp), ?_⟩
      · rw [hw.1]; simp [Tensor.NumElements]
      · intro _; simp [Tensor.stringBytes]
    · simp only [hm, if_false, Bool.false_eq_true] at hw ⊢
      refine ⟨trivial, trivial, fun h => absurd h (by simp), fun _ => ⟨trivial, ?_⟩, ?_⟩
      · rw [hw.2.1]; simp [Tensor.NumElements]
      · intro _; simp [Tensor.stringBytes]
  · simp only [hf, decide_False, Bool.false_eq_true, if_false] at hret
    subst hret
    rcases hdest with h0 | ⟨⟨_, hdw⟩, hd, hs, hb⟩
    · exact absurd h0 hf
    · rw [hd] at hdw
      refine ⟨hd, hs, ?_, ?_, hb⟩
      · intro hm
        simp only [hm, if_true] at hw hdw
        refine ⟨?_, hdw.2⟩
        rw [hdw.1, hw.1, Tensor.NumElements, Tensor.NumElements, hs]
      · intro hm
        simp only [hm, Bool.false_eq_true, if_false] at hw hdw
        refine ⟨hdw.1, ?_⟩
        rw [hdw.2.1, hw.2.1, Tensor.NumElements, Tensor.NumElements, hs]


end tfplus

namespace tfplus

open DataType

theorem memcpy_not_string (d : DataType) (h : DataTypeCanUseMemcpy d = true) :
    d ≠ DT_STRING ∧ d ≠ DT_VARIANT := by
  constructor <;> (intro e; rw [e] at h; exact absurd h (by decide))

theorem TotalBytes_memcpy (t : Tensor) (h : DataTypeCanUseMemcpy t.dtype = true) :
    t.TotalBytes = t.NumElements * DataTypeSize t.dtype := by
  obtain ⟨h1, h2⟩ := memcpy_not_string _ h
  unfold Tensor.TotalBytes
  split
  · rename_i e; exact absurd e h1
  · rename_i e; exact absurd e h2
  · rfl

theorem GetValue_memcpy (r : BundleReader) (env : Env) (kLittleEndian : Bool)
    (val dest : Tensor) (pre pad : Bytes) (hr : r.need_to_swap_bytes_ = false)
    (hfile : fsFind env.files (DataFilename r.prefix_ 0 r.num_shards_) =
      some (FileData.bytes (pre ++ tensorPayload kLittleEndian val ++ pad)))
    (hval : val.WF) (hm : DataTypeCanUseMemcpy val.dtype = true)
    (hdest : dest.destinationFor val) :
    r.GetValue env kLittleEndian (tensorEntry kLittleEndian val pre.length) dest =
      some (Status.OK, val) := by
  obtain ⟨hns, hnv⟩ := memcpy_not_string _ hm
  have hp : tensorPayload kLittleEndian val = val.data := by
    simp [tensorPayload, hns, hnv]
  have hcrc : tensorCrc kLittleEndian val = crc32c.Value val.data := by
    simp [tensorCrc, hns, hnv]
  have hfacts := ret_facts val dest hval hdest
  rw [hp] at hfile
  unfold BundleReader.GetValue
  simp only [tensorEntry, BundleEntryProto.tensorShape, Option.getD_some, hp, hcrc]
  generalize (if decide (dest.NumElements = 0) = true then Tensor.alloc val.dtype val.shape
      else dest) = ret at hfacts ⊢
  obtain ⟨R1, R2, R3, _, _⟩ := hfacts ret rfl
  obtain ⟨R3a, R3b⟩ := R3 hm
  have hmr : DataTypeCanUseMemcpy ret.dtype = true := by rw [R1]; exact hm
  have htb : ret.TotalBytes = val.data.length := by
    rw [TotalBytes_memcpy ret hmr, R1, Tensor.NumElements, R2]
    have h := hval.2
    rw [if_pos hm] at h
    exact h.1.symm
  have hopen : env.NewRandomAccessFile (DataFilename r.prefix_ 0 r.num_shards_) =
      (Status.OK, pre ++ val.data ++ pad) := by
    unfold Env.NewRandomAccessFile
    rw [hfile]
  have hread : (if val.data.length > kBufferSize then
        RandomAccessFile.Read (pre ++ val.data ++ pad) pre.length val.data.length
      else
        ((InputBuffer.ReadNBytes (pre ++ val.data ++ pad) pre.length val.data.length).1,
          (InputBuffer.ReadNBytes (pre ++ val.data ++ pad) pre.length val.data.length).2.1)) =
      (Status.OK, val.data) := by
    rw [Read_mid, ReadNBytes_mid]
    split <;> rfl
  have hun : crc32c.Unmask (crc32c.Mask (crc32c.Value val.data)) = crc32c.Value val.data :=
    crc32c.Unmask_Mask _ (crc32c.Extend_lt _ _ (by decide))
  have hfill : Tensor.mk ret.dtype ret.shape (val.data ++ List.drop val.data.length ret.data)
      ret.strings = val := by
    rw [List.drop_of_length_le (by omega), List.append_nil, R1, R2, R3b]
    have hs : val.strings = [] := by
      have h := hval.2
      rw [if_pos hm] at h
      exact h.2
    rw [← hs]
  simp only [hopen, hread, htb, ne_eq, not_true_eq_false, and_false, if_false, hns, false_and,
    hm, hmr, hr, if_true, Bool.not_true, Bool.false_eq_true, hun, hfill]
  rfl

theorem stringLengthsVarint_length_ge (strings : List Bytes) :
    strings.length ≤ (stringLengthsVarint strings).length := by
  induction strings with
  | nil => simp [stringLengthsVarint]
  | cons s rest ih =>
    have h1 : (stringLengthsVarint (s :: rest)).length =
        (PutVarint64 s.length).length + (stringLengthsVarint rest).length := by
      simp [stringLengthsVarint]
    have h2 : 0 < (PutVarint64 s.length).length :=
      List.length_pos.mpr (putVarintAux_ne_nil _ _)
    rw [h1, List.length_cons]
    omega

theorem stringPayload_length_ge (kLittleEndian : Bool) (strings : List Bytes) :
    strings.length + (strings.map List.length).sum + 4 ≤
      (stringPayload kLittleEndian strings).length := by
  have h := stringLengthsVarint_length_ge strings
  simp only [stringPayload, List.length_append, memInt_length, List.length_flatten]
  omega

theorem GetValue_string (r : BundleReader) (env : Env) (kLittleEndian : Bool)
    (val dest : Tensor) (pre pad : Bytes) (hr : r.need_to_swap_bytes_ = false)
    (hfile : fsFind env.files (DataFilename r.prefix_ 0 r.num_shards_) =
      some (FileData.bytes (pre ++ tensorPayload kLittleEndian val ++ pad)))
    (hval : val.WF) (hs : val.dtype = DT_STRING) (hdest : dest.destinationFor val) :
    r.GetValue env kLittleEndian (tensorEntry kLittleEndian val pre.length) dest =
      some (Status.OK, val) := by
  have hm : DataTypeCanUseMemcpy val.dtype = false := by rw [hs]; rfl
  have hp : tensorPayload kLittleEndian val = stringPayload kLittleEndian val.strings := by
    simp [tensorPayload, hs]
  have hcrc : tensorCrc kLittleEndian val = stringCrc kLittleEndian val.strings := by
    simp [tensorCrc, hs]
  have hfacts := ret_facts val dest hval hdest
  have hw := hval.2
  simp only [hm, Bool.false_eq_true, if_false] at hw
  obtain ⟨hw1, hw2, hw3⟩ := hw
  rw [hp] at hfile
  unfold BundleReader.GetValue
  simp only [tensorEntry, BundleEntryProto.tensorShape, Option.getD_some, hp, hcrc]
  generalize (if decide (dest.NumElements = 0) = true then Tensor.alloc val.dtype val.shape
      else dest) = ret at hfacts ⊢
  obtain ⟨R1, R2, _, R4, R5⟩ := hfacts ret rfl
  obtain ⟨R4a, R4b⟩ := R4 hm
  have hn : ret.NumElements = val.strings.length := by
    rw [hw2, Tensor.NumElements, Tensor.NumElements, R2]
  have hlow : ¬ ((stringPayload kLittleEndian val.strings).length <
      BundleReader.stringLowerBound ret) := by
    have h1 := stringPayload_length_ge kLittleEndian val.strings
    have h2 := R5 hs
    have h3 : ret.TotalBytes = kSizeofTString * ret.NumElements + ret.stringBytes := by
      unfold Tensor.TotalBytes
      rw [R1, hs]
    unfold BundleReader.stringLowerBound
    rw [h3, hn]
    unfold Tensor.stringBytes at h2
    unfold Tensor.stringBytes kSizeofTString
    omega
  have hopen : env.NewRandomAccessFile (DataFilename r.prefix_ 0 r.num_shards_) =
      (Status.OK, pre ++ stringPayload kLittleEndian val.strings ++ pad) := by
    unfold Env.NewRandomAccessFile
    rw [hfile]
  have hread := ReadStringTensor_ok kLittleEndian val.strings ret.strings pre pad hw3 R4b
  have hun : crc32c.Unmask (crc32c.Mask (stringCrc kLittleEndian val.strings)) =
      stringCrc kLittleEndian val.strings :=
    crc32c.Unmask_Mask _ (crc32c.Extend_lt _ _ (crc32c.Extend_lt _ _
      (stringLengthsCrc_lt _ _ _ (by decide))))
  have hfill : Tensor.mk DT_STRING ret.shape ret.data val.strings = val := by
    rw [← hs, R2, R4a, ← hw1]
  have hrd : ret.dtype = DT_STRING := by rw [R1, hs]
  have hok : Status.OK.ok = true := rfl
  have hsv : ¬ (DT_STRING = DT_VARIANT) := by decide
  simp only [hopen, hs, hlow, hn, hread, hr, hun, hfill, hrd, hok, hsv, ne_eq,
    not_true_eq_false, false_and, and_false, if_false, if_true, Bool.not_true,
    Bool.false_eq_true, true_and, DataTypeCanUseMemcpy]


theorem ReadVariantTensor_ok (lib : VariantLibrary) (kLittleEndian : Bool)
    (elems : List Bytes) (ret : Tensor)
    (pre post : Bytes) (hlen : ∀ e ∈ elems, e.length < 2 ^ 64)
    (hdec : ∀ e ∈ elems, lib.decoding e = VariantDecoding.decoded)
    (hd : ret.dtype = DT_VARIANT) (hn : ret.NumElements = elems.length)
    (hs : ret.strings.length = elems.length) :
    ReadVariantTensor lib kLittleEndian (pre ++ variantPayload kLittleEndian 0 elems ++ post)
        ret pre.length (variantPayload kLittleEndian 0 elems).length 0 =
      some (Status.OK, elems, variantCrc kLittleEndian 0 elems) := by
  unfold ReadVariantTensor
  by_cases h0 : (variantPayload kLittleEndian 0 elems).length = 0
  · have he := variantPayload_length_zero _ _ _ h0
    subst he
    have : ret.strings = [] := List.length_eq_zero.mp (by simpa using hs)
    simp [variantPayload, variantCrc, this]
  · simp only [h0, if_false, hn]
    rw [readVariants_ok lib kLittleEndian _ _ elems pre post 0 0 (by decide) hlen hdec]
    simp only [hd, ne_eq, not_true_eq_false, and_false, if_false]
    rw [List.drop_of_length_le (by omega), List.append_nil]

theorem GetValue_variant (r : BundleReader) (env : Env) (kLittleEndian : Bool)
    (val dest : Tensor) (pre pad : Bytes) (hr : r.need_to_swap_bytes_ = false)
    (hfile : fsFind env.files (DataFilename r.prefix_ 0 r.num_shards_) =
      some (FileData.bytes (pre ++ tensorPayload kLittleEndian val ++ pad)))
    (hval : val.WF) (hv : val.dtype = DT_VARIANT) (hdest : dest.destinationFor val)
    (hdec : ∀ e ∈ val.strings, env.variants.decoding e = VariantDecoding.decoded) :
    r.GetValue env kLittleEndian (tensorEntry kLittleEndian val pre.length) dest =
      some (Status.OK, val) := by
  have hm : DataTypeCanUseMemcpy val.dtype = false := by rw [hv]; rfl
  have hp : tensorPayload kLittleEndian val = variantPayload kLittleEndian 0 val.strings := by
    simp [tensorPayload, hv]
  have hcrc : tensorCrc kLittleEndian val = variantCrc kLittleEndian 0 val.strings := by
    simp [tensorCrc, hv]
  have hfacts := ret_facts val dest hval hdest
  have hw := hval.2
  simp only [hm, Bool.false_eq_true, if_false] at hw
  obtain ⟨hw1, hw2, hw3⟩ := hw
  rw [hp] at hfile
  unfold BundleReader.GetValue
  simp only [tensorEntry, BundleEntryProto.tensorShape, Option.getD_some, hp, hcrc]
  generalize (if decide (dest.NumElements = 0) = true then Tensor.alloc val.dtype val.shape
      else dest) = ret at hfacts ⊢
  obtain ⟨R1, R2, _, R4, _⟩ := hfacts ret rfl
  obtain ⟨R4a, R4b⟩ := R4 hm
  have hn : ret.NumElements = val.strings.length := by
    rw [hw2, Tensor.NumElements, Tensor.NumElements, R2]
  have hrd : ret.dtype = DT_VARIANT := by rw [R1, hv]
  have hopen : env.NewRandomAccessFile (DataFilename r.prefix_ 0 r.num_shards_) =
      (Status.OK, pre ++ variantPayload kLittleEndian 0 val.strings ++ pad) := by
    unfold Env.NewRandomAccessFile
    rw [hfile]
  have hread := ReadVariantTensor_ok env.variants kLittleEndian val.strings ret pre pad hw3
    hdec hrd hn R4b
  have hun : crc32c.Unmask (crc32c.Mask (variantCrc kLittleEndian 0 val.strings)) =
      variantCrc kLittleEndian 0 val.strings :=
    crc32c.Unmask_Mask _ (variantCrc_lt _ _ _ (by decide))
  have hfill : Tensor.mk DT_VARIANT ret.shape ret.data val.strings = val := by
    rw [← hv, R2, R4a, ← hw1]
  have hok : Status.OK.ok = true := rfl
  have hsv : ¬ (DT_VARIANT = DT_STRING) := by decide
  simp only [hopen, hv, hread, hr, hun, hfill, hrd, hok, hsv, ne_eq,
    not_true_eq_false, false_and, and_false, if_false, if_true, Bool.not_true,
    Bool.false_eq_true, true_and, DataTypeCanUseMemcpy]

/-- `GetValue` on the entry `Add` records, with the bytes `Add` wrote in the data file,
gives the tensor back; for a variant tensor, when the libraries accept every
element. -/
theorem GetValue_round_trip (r : BundleReader) (env : Env) (kLittleEndian : Bool)
    (val dest : Tensor) (pre pad : Bytes) (hr : r.need_to_swap_bytes_ = false)
    (hfile : fsFind env.files (DataFilename r.prefix_ 0 r.num_shards_) =
      some (FileData.bytes (pre ++ tensorPayload kLittleEndian val ++ pad)))
    (hval : val.WF)
    (hsup : val.dtype = DT_STRING ∨ val.dtype = DT_VARIANT ∨
      DataTypeCanUseMemcpy val.dtype = true)
    (hdest : dest.destinationFor val)
    (hdec : val.dtype = DT_VARIANT →
      ∀ e ∈ val.strings, env.variants.decoding e = VariantDecoding.decoded) :
    r.GetValue env kLittleEndian (tensorEntry kLittleEndian val pre.length) dest =
      some (Status.OK, val) := by
  rcases hsup with h | h | h
  · exact GetValue_string r env kLittleEndian val dest pre pad hr hfile hval h hdest
  · exact GetValue_variant r env kLittleEndian val dest pre pad hr hfile hval h hdest (hdec h)
  · exact GetValue_memcpy r env kLittleEndian val dest pre pad hr hfile hval h hdest


end tfplus

namespace tfplus

open DataType

/-! ## C1: round trip -/

theorem NewWritableFile_ok (env : Env) (path : String)
    (h : (env.NewWritableFile path).1.ok = true) :
    fsFind (env.NewWritableFile path).2.files path = some (FileData.bytes []) := by
  unfold Env.NewWritableFile at h ⊢
  simp only at h ⊢
  by_cases c : env.nextFault.1.ok = true
  · simp only [c, Bool.not_true, Bool.false_eq_true, if_false, Env.commit]
    rw [fsFind_fsSet, if_pos rfl]
  · simp only [Bool.not_eq_true] at c
    simp only [c, Bool.not_false, if_true] at h
    exact absurd h (by decide)

/-- The constructor establishes the invariant of the writer when it succeeds. -/
theorem create_Inv (env : Env) (pfx : String) (data_alignment rand_meta rand_data : Nat)
    (h : (BundleWriter.create env pfx data_alignment rand_meta rand_data).1.status_.ok = true) :
    (BundleWriter.create env pfx data_alignment rand_meta rand_data).1.Inv
      (BundleWriter.create env pfx data_alignment rand_meta rand_data).2 := by
  unfold BundleWriter.create at h ⊢
  simp only at h ⊢
  split at h
  · rename_i c
    simp only [Bool.and_eq_true, Bool.not_eq_true'] at c
    simp only at h
    rw [c.1] at h
    exact absurd h (by decide)
  · rename_i c
    simp only [c, if_false]
    split at h
    · rename_i c2
      simp only [Bool.not_eq_true'] at c2
      simp only at h
      rw [c2] at h
      exact absurd h (by decide)
    · rename_i c2
      simp only [Bool.not_eq_true, Bool.not_eq_false', Bool.not_eq_false] at c2
      simp only [c2, Bool.not_true, Bool.false_eq_true, if_false]
      refine ⟨⟨⟨rand_meta, rand_data, rfl, rfl⟩, ?_⟩, ?_, rfl, _, [], rfl, ?_, rfl⟩
      · intro out ho
        simp only [Option.some.injEq] at ho
        rw [← ho]
      · simp [mapSorted]
      · unfold FileOutputBuffer.content
        simp only
        rw [NewWritableFile_ok _ _ c2]
        rfl

/-- C1 (amended): round trip.  For a writer in a state the constructor and `Add` lead
to, a well-formed tensor `val` and a key: if `Add(key, val)` succeeds and the `Finish`
that follows succeeds, then a reader opened on the same prefix, on a host of the same
byte order, returns OK from `Lookup(key)` and the value `val` itself (dtype, shape and
payload), provided the destination handed to `Lookup` has no elements or has the
dtype and shape of `val` (for strings, elements no longer in total than the written
ones), and provided, for a variant tensor, that `ParseFromString` and
`DecodeUnaryVariant` accept the serialised bytes of every element when `Lookup`
runs. -/
theorem round_trip (w : BundleWriter) (env : Env) (kLittleEndian : Bool) (key : String)
    (val dest : Tensor) (st : Status) (w1 : BundleWriter) (env1 : Env)
    (hinv : w.Inv env) (hval : val.WF)
    (hadd : w.Add env kLittleEndian key val = some (st, w1, env1)) (hst : st.ok = true)
    (hfin : (w1.Finish env1 kLittleEndian).1.ok = true)
    (hdest : dest.destinationFor val)
    (hdec : val.dtype = DT_VARIANT → ∀ s ∈ val.strings,
      (w1.Finish env1 kLittleEndian).2.2.variants.decoding s = VariantDecoding.decoded) :
    ∃ r1, (BundleReader.create (w1.Finish env1 kLittleEndian).2.2 w.prefix_
        kLittleEndian).Lookup (w1.Finish env1 kLittleEndian).2.2 kLittleEndian key dest =
      some (Status.OK, val, r1) := by
  obtain ⟨hinv1, hpre, hk, hsup, out1, c, pad, _, hout1, hcont, hentry⟩ :=
    Add_ok w env kLittleEndian key val st w1 env1 hadd hst hinv hval
  obtain ⟨c2, out2, hout2, hc2, hdata, hmeta⟩ := Finish_ok w1 env1 kLittleEndian hinv1 hfin
  rw [hout1, Option.some.injEq] at hout2
  subst hout2
  rw [hcont, Option.some.injEq] at hc2
  subst hc2
  generalize (w1.Finish env1 kLittleEndian).2.2 = env2 at hdata hmeta hdec ⊢
  rw [← hpre, reader_open env2 w1.prefix_ kLittleEndian w1 hmeta]
  obtain ⟨_, hsorted, hnohdr, _⟩ := hinv1
  have hrows := finishRows_sorted kLittleEndian w1 hsorted hnohdr
  have hfind := finishRows_find kLittleEndian w1 key _ hk hentry
  obtain ⟨hget, _⟩ := GetBundleEntryProto_found
    { prefix_ := w1.prefix_, status_ := Status.OK,
      table_ := some (BundleWriter.finishRows kLittleEndian w1), iter_ := 0, num_shards_ := 1,
      need_to_swap_bytes_ := false, tensor_slices_ := [], tmp_lookupseg_items_ := [] }
    (BundleWriter.finishRows kLittleEndian w1) key (tensorEntry kLittleEndian val c.length)
    rfl rfl hrows hfind hval.1
  unfold BundleReader.Lookup
  rw [hget]
  have hval2 := GetValue_round_trip
    (BundleReader.Seek
      { prefix_ := w1.prefix_, status_ := Status.OK,
        table_ := some (BundleWriter.finishRows kLittleEndian w1), iter_ := 0, num_shards_ := 1,
        need_to_swap_bytes_ := false, tensor_slices_ := [], tmp_lookupseg_items_ := [] } key)
    env2 kLittleEndian val dest c pad rfl hdata hval hsup hdest hdec
  simp only [hval2]
  exact ⟨_, rfl⟩

theorem round_trip_witness :
    exFresh.1.Add exFresh.2 true "a" exTensorA = some (Status.OK, exAdded.1, exAdded.2) ∧
    (∃ r1, (BundleReader.create (exAdded.1.Finish exAdded.2 true).2.2 exFresh.1.prefix_
        true).Lookup (exAdded.1.Finish exAdded.2 true).2.2 true "a" Tensor.empty =
      some (Status.OK, exTensorA, r1)) ∧
    exFreshVA.1.Add exFreshVA.2 true "v" exTensorV =
      some (Status.OK, exAddedVA.1, exAddedVA.2) ∧
    ∃ r1, (BundleReader.create (exAddedVA.1.Finish exAddedVA.2 true).2.2 exFreshVA.1.prefix_
        true).Lookup (exAddedVA.1.Finish exAddedVA.2 true).2.2 true "v" Tensor.empty =
      some (Status.OK, exTensorV, r1) :=
  ⟨by decide!,
    round_trip exFresh.1 exFresh.2 true "a" exTensorA Tensor.empty Status.OK exAdded.1 exAdded.2
      ⟨⟨⟨11, 22, by decide!, by decide!⟩, by decide!⟩, by decide!, by decide!,
        ⟨{ file_ := "dir/ckpt.data-00000-of-00001.tempstate22", buffer_size_ := 8 * 2 ^ 20 }, [],
          by decide!, by decide!, by decide!⟩⟩
      (by decide!) (by decide!) (by decide!) (by decide!) (Or.inl (by decide!))
      (fun h => absurd h (by decide)),
    by decide!,
    round_trip exFreshVA.1 exFreshVA.2 true "v" exTensorV Tensor.empty Status.OK exAddedVA.1
      exAddedVA.2
      ⟨⟨⟨11, 22, by decide!, by decide!⟩, by decide!⟩, by decide!, by decide!,
        ⟨{ file_ := "dir/ckpt.data-00000-of-00001.tempstate22", buffer_size_ := 8 * 2 ^ 20 }, [],
          by decide!, by decide!, by decide!⟩⟩
      (by decide!) (by decide!) (by decide!) (by decide!) (Or.inl (by decide!))
      (fun _ => by decide!)⟩

/-- C1 (as stated, refuted): the tensor `exTensorA` of type `DT_INT16` and shape
`[2, 2]` is added under "a" and the bundle is finished; `Lookup("a")` into a
destination of type `DT_INT64` and shape `[1]`, which has the same eight bytes, returns
OK and a value of type `DT_INT64` and shape `[1]`.  And in an environment whose
libraries have no decoder for the type name "a", the variant tensor `exTensorV`, one
element of that type name, is added under "v" and the bundle is finished; `Lookup("v")`
returns the Internal error of `ReadVariantTensor` for an element that
`DecodeUnaryVariant` rejects. -/
theorem Lookup_into_other_dtype :
    exFresh.1.Add exFresh.2 true "a" exTensorA = some (Status.OK, exAdded.1, exAdded.2) ∧
    (exAdded.1.Finish exAdded.2 true).1 = Status.OK ∧
    ((BundleReader.create exFinished.2 "dir/ckpt" true).Lookup exFinished.2 true "a"
        ⟨DT_INT64, [1], [0, 0, 0, 0, 0, 0, 0, 0], []⟩).map (fun res => (res.1, res.2.1)) =
      some (Status.OK, ⟨DT_INT64, [1], [1, 2, 3, 4, 5, 6, 7, 8], []⟩) ∧
    (⟨DT_INT64, [1], [1, 2, 3, 4, 5, 6, 7, 8], []⟩ : Tensor) ≠ exTensorA ∧
    exNoDecoder.variants.decoding [10, 1, 97] = VariantDecoding.undecodable "a" ∧
    exFreshV.1.Add exFreshV.2 true "v" exTensorV = some (Status.OK, exAddedV.1, exAddedV.2) ∧
    (exAddedV.1.Finish exAddedV.2 true).1 = Status.OK ∧
    ((BundleReader.create exVariantBundle "dir/ckpt" true).Lookup exVariantBundle true "v"
        Tensor.empty).map (fun res => res.1) = some (variantDecodeError "a") ∧
    (variantDecodeError "a").code = Code.INTERNAL := by
  decide!

end tfplus

namespace tfplus

open DataType

/-! ## One byte of the data file altered -/

theorem variantErrors_code (a b c : Nat) :
    (variantParseError a b c).code = Code.DATA_LOSS ∧
    (variantChecksumError a b c).code = Code.DATA_LOSS :=
  ⟨rfl, rfl⟩

end tfplus

namespace tfplus

open DataType

/-! ## C2: checksum sensitivity -/

end tfplus

namespace tfplus

open DataType

/-! ## C12: the writer after a successful `Finish` -/

theorem finishData_out (w : BundleWriter) (env : Env) : (w.finishData env).1.out_ = none := by
  unfold BundleWriter.finishData
  cases ho : w.out_ with
  | none => exact ho
  | some out =>
    simp only
    split <;> rfl

theorem Finish_ok_state (w : BundleWriter) (env : Env) (kLittleEndian : Bool)
    (h : (w.Finish env kLittleEndian).1.ok = true) :
    (w.Finish env kLittleEndian).2.1.status_ = errors.Internal "BundleWriter is closed" ∧
    (w.Finish env kLittleEndian).2.1.out_ = none ∧
    (w.Finish env kLittleEndian).2.1.entries_ = (w.finishData env).1.entries_ := by
  have ho := finishData_out w env
  unfold BundleWriter.Finish at h ⊢
  simp only at h ⊢
  split at h
  · rename_i c
    simp only [Bool.not_eq_true'] at c
    simp only at h
    rw [c] at h
    exact absurd h (by decide)
  · rename_i c
    simp only [c, if_false]
    split at h
    · rename_i c2
      simp only [Bool.not_eq_true'] at c2
      simp only at h
      rw [c2] at h
      exact absurd h (by decide)
    · rename_i c2
      simp only [c2, if_false]
      split at h
      · rename_i c3
        simp only [Bool.not_eq_true'] at c3
        simp only at h
        rw [c3] at h
        exact absurd h (by decide)
      · rename_i c3
        simp only [c3, if_false]
        split at h
        · rename_i c4
          simp only [Bool.not_eq_true'] at c4
          simp only at h
          rw [c4] at h
          exact absurd h (by decide)
        · rename_i c4
          simp only [c4, if_false, Bool.false_eq_true]
          exact ⟨trivial, ho, trivial⟩

/-- C12: after `Finish` has returned success the writer holds the error "BundleWriter
is closed"; every later `Add`, `AddSlice`, `AddStringTensor`, `AddTensorHeader` (with
or without a shape), `BeginWriteChunkData` and `Finish` returns that error and leaves
the writer, with its catalog, and the file system as they are. -/
theorem closed_writer (w : BundleWriter) (env : Env) (kLittleEndian : Bool)
    (hfin : (w.Finish env kLittleEndian).1.ok = true) :
    (w.Finish env kLittleEndian).2.1.status_ = errors.Internal "BundleWriter is closed" ∧
    (∀ key val, (w.Finish env kLittleEndian).2.1.Add (w.Finish env kLittleEndian).2.2
        kLittleEndian key val =
      some (errors.Internal "BundleWriter is closed", (w.Finish env kLittleEndian).2.1,
        (w.Finish env kLittleEndian).2.2)) ∧
    (∀ key shape slice val, (w.Finish env kLittleEndian).2.1.AddSlice
        (w.Finish env kLittleEndian).2.2 kLittleEndian key shape slice val =
      some (errors.Internal "BundleWriter is closed", (w.Finish env kLittleEndian).2.1,
        (w.Finish env kLittleEndian).2.2)) ∧
    (∀ key strings shape, (w.Finish env kLittleEndian).2.1.AddStringTensor
        (w.Finish env kLittleEndian).2.2 kLittleEndian key strings shape =
      some (errors.Internal "BundleWriter is closed", (w.Finish env kLittleEndian).2.1,
        (w.Finish env kLittleEndian).2.2)) ∧
    (∀ key dtype, (w.Finish env kLittleEndian).2.1.AddTensorHeader
        (w.Finish env kLittleEndian).2.2 key dtype =
      some (errors.Internal "BundleWriter is closed", (w.Finish env kLittleEndian).2.1,
        (w.Finish env kLittleEndian).2.2)) ∧
    (∀ key dtype shape, (w.Finish env kLittleEndian).2.1.AddTensorHeaderShape
        (w.Finish env kLittleEndian).2.2 key dtype shape =
      some (errors.Internal "BundleWriter is closed", (w.Finish env kLittleEndian).2.1,
        (w.Finish env kLittleEndian).2.2)) ∧
    (∀ key dtype shape, (w.Finish env kLittleEndian).2.1.BeginWriteChunkData
        (w.Finish env kLittleEndian).2.2 key dtype shape =
      some (errors.Internal "BundleWriter is closed", (w.Finish env kLittleEndian).2.1,
        (w.Finish env kLittleEndian).2.2)) ∧
    (w.Finish env kLittleEndian).2.1.Finish (w.Finish env kLittleEndian).2.2 kLittleEndian =
      (errors.Internal "BundleWriter is closed", (w.Finish env kLittleEndian).2.1,
        (w.Finish env kLittleEndian).2.2) := by
  obtain ⟨hs, ho, _⟩ := Finish_ok_state w env kLittleEndian hfin
  generalize (w.Finish env kLittleEndian).2.1 = w1 at hs ho ⊢
  generalize (w.Finish env kLittleEndian).2.2 = env1
  have hnok : (!w1.status_.ok) = true := by rw [hs]; rfl
  refine ⟨hs, ?_, ?_, ?_, ?_, ?_, ?_, ?_⟩
  · intro key val
    unfold BundleWriter.Add
    rw [if_pos hnok, hs]
  · intro key shape slice val
    unfold BundleWriter.AddSlice
    rw [if_pos hnok, hs]
  · intro key strings shape
    unfold BundleWriter.AddStringTensor
    rw [if_pos hnok, hs]
  · intro key dtype
    unfold BundleWriter.AddTensorHeader
    rw [if_pos hnok, hs]
  · intro key dtype shape
    unfold BundleWriter.AddTensorHeaderShape
    rw [if_pos hnok, hs]
  · intro key dtype shape
    unfold BundleWriter.BeginWriteChunkData
    rw [if_pos hnok, hs]
  · unfold BundleWriter.Finish BundleWriter.finishData
    simp only [ho, hnok, if_true]
    rw [hs]

theorem closed_writer_witness :
    (exAdded.1.Finish exAdded.2 true).1.ok = true ∧
    (exAdded.1.Finish exAdded.2 true).2.1.status_ = errors.Internal "BundleWriter is closed" :=
  ⟨by decide!, (closed_writer exAdded.1 exAdded.2 true (by decide!)).1⟩

end tfplus

namespace tfplus

open DataType

/-! ## The running checksum of the output buffer -/

theorem FlushBuffer_fields (b : FileOutputBuffer) (env : Env) :
    (b.FlushBuffer env).2.1.crc32c_ = b.crc32c_ ∧
    (b.FlushBuffer env).2.1.buffer_size_ = b.buffer_size_ ∧
    (b.FlushBuffer env).2.1.file_ = b.file_ ∧
    ((b.FlushBuffer env).1.ok = true → (b.FlushBuffer env).2.1.buffer_ = []) := by
  unfold FileOutputBuffer.FlushBuffer
  by_cases hp : b.position_ > 0
  · simp only [hp, if_true]
    by_cases ha : (env.Append b.file_ b.buffer_).1.ok = true
    · simp only [ha, Bool.not_true, Bool.false_eq_true, if_false]
      exact ⟨trivial, trivial, trivial, fun _ => trivial⟩
    · simp only [Bool.not_eq_true] at ha
      simp only [ha, Bool.not_false, if_true]
      exact ⟨trivial, trivial, trivial, fun h => absurd h (by decide)⟩
  · simp only [hp, if_false]
    refine ⟨trivial, trivial, trivial, fun _ => ?_⟩
    unfold FileOutputBuffer.position_ at hp
    exact List.length_eq_zero.mp (by omega)

theorem appendLoop_crc (fuel : Nat) : ∀ (b : FileOutputBuffer) (env : Env) (rest : Bytes)
    (st : Status) (b1 : FileOutputBuffer) (env1 : Env),
    FileOutputBuffer.appendLoop fuel b env rest = some (st, b1, env1) → st.ok = true →
    b1.crc32c_ = crc32c.Extend b.crc32c_ rest := by
  induction fuel with
  | zero => intro b env rest st b1 env1 h; simp [FileOutputBuffer.appendLoop] at h
  | succ n ih =>
    intro b env rest st b1 env1 h hst
    unfold FileOutputBuffer.appendLoop at h
    by_cases hr : rest.length = 0
    · simp only [hr, if_true, Option.some.injEq, Prod.mk.injEq] at h
      obtain ⟨_, h2, _⟩ := h
      subst h2
      have : rest = [] := List.length_eq_zero.mp hr
      subst this
      rw [crc32c.Extend_nil]
    · simp only [hr, if_false] at h
      rw [take_min_length] at h
      obtain ⟨k1, k2, _, _⟩ := FlushBuffer_fields
        { b with buffer_ := rest.take b.buffer_size_,
                 crc32c_ := crc32c.Extend b.crc32c_ (rest.take b.buffer_size_) } env
      by_cases hf : (FileOutputBuffer.FlushBuffer
          { b with buffer_ := rest.take b.buffer_size_,
                   crc32c_ := crc32c.Extend b.crc32c_ (rest.take b.buffer_size_) } env).1.ok = true
      · simp only [hf, Bool.not_true, Bool.false_eq_true, if_false] at h
        rw [ih _ _ _ _ _ _ h hst, k1]
        simp only
        rw [← crc32c.Extend_append, List.take_append_drop]
      · simp only [Bool.not_eq_true] at hf
        simp only [hf, Bool.not_false, if_true, Option.some.injEq, Prod.mk.injEq] at h
        obtain ⟨h1, _, _⟩ := h
        rw [← h1, hf] at hst
        exact absurd hst (by decide)

theorem Append_crc (b : FileOutputBuffer) (env : Env) (data : Bytes) (st : Status)
    (b1 : FileOutputBuffer) (env1 : Env)
    (h : b.Append env data = some (st, b1, env1)) (hst : st.ok = true) :
    b1.crc32c_ = crc32c.Extend b.crc32c_ data := by
  obtain ⟨k1, _, _, _⟩ := FlushBuffer_fields b env
  unfold FileOutputBuffer.Append at h
  split at h
  · simp only [Option.some.injEq, Prod.mk.injEq] at h
    obtain ⟨_, h2, _⟩ := h
    subst h2
    rfl
  · split at h
    · by_cases hf : (b.FlushBuffer env).1.ok = true
      · simp only [hf, Bool.not_true, Bool.false_eq_true, if_false, Option.some.injEq,
          Prod.mk.injEq] at h
        obtain ⟨_, h2, _⟩ := h
        subst h2
        simp only [k1]
      · simp only [Bool.not_eq_true] at hf
        simp only [hf, Bool.not_false, if_true, Option.some.injEq, Prod.mk.injEq] at h
        obtain ⟨h1, _, _⟩ := h
        rw [← h1, hf] at hst
        exact absurd hst (by decide)
    · by_cases hf : (b.FlushBuffer env).1.ok = true
      · simp only [hf, Bool.not_true, Bool.false_eq_true, if_false] at h
        rw [appendLoop_crc _ _ _ _ _ _ _ h hst, k1]
      · simp only [Bool.not_eq_true] at hf
        simp only [hf, Bool.not_false, if_true, Option.some.injEq, Prod.mk.injEq] at h
        obtain ⟨h1, _, _⟩ := h
        rw [← h1, hf] at hst
        exact absurd hst (by decide)

/-- `AppendSegment` and `AppendChunk` have the same body: what a successful call does
to the checksum and to the bytes of the file. -/
theorem AppendSegment_ok (b : FileOutputBuffer) (env : Env) (data : Bytes) (st : Status)
    (b1 : FileOutputBuffer) (env1 : Env)
    (h : b.AppendSegment env data = some (st, b1, env1)) (hst : st.ok = true) :
    b1.crc32c_ = crc32c.Extend b.crc32c_ data ∧ data.length ≤ b.buffer_size_ ∧
    b1.buffer_ = [] ∧ b1.file_ = b.file_ ∧ b1.buffer_size_ = b.buffer_size_ ∧
    ∀ c, b.content env = some c → b1.content env1 = some (c ++ data) := by
  obtain ⟨k1, k2, k3, k4⟩ := FlushBuffer_fields b env
  have kc := FlushBuffer_ok b env
  unfold FileOutputBuffer.AppendSegment at h
  simp only at h
  generalize b.FlushBuffer env = fr at h k1 k2 k3 k4 kc
  obtain ⟨s0, b0, e0⟩ := fr
  simp only at h k1 k2 k3 k4 kc
  by_cases hf : s0.ok = true
  · simp only [hf, Bool.not_true, Bool.false_eq_true, if_false] at h
    by_cases hlen : data.length > b0.buffer_size_
    · simp [hlen] at h
    · simp only [hlen, if_false] at h
      obtain ⟨m1, m2, m3, m4⟩ := FlushBuffer_fields
        (FileOutputBuffer.mk b0.file_ b0.buffer_size_ data (crc32c.Extend b0.crc32c_ data)) e0
      have mc := FlushBuffer_ok
        (FileOutputBuffer.mk b0.file_ b0.buffer_size_ data (crc32c.Extend b0.crc32c_ data)) e0
      generalize FileOutputBuffer.FlushBuffer
        (FileOutputBuffer.mk b0.file_ b0.buffer_size_ data (crc32c.Extend b0.crc32c_ data)) e0 =
        fr2 at h m1 m2 m3 m4 mc
      obtain ⟨s2, b2, e2⟩ := fr2
      simp only at h m1 m2 m3 m4 mc
      by_cases hf2 : s2.ok = true
      · simp only [hf2, Bool.not_true, Bool.false_eq_true, if_false, Option.some.injEq,
          Prod.mk.injEq] at h
        obtain ⟨_, h2, h3⟩ := h
        subst h2 h3
        refine ⟨by rw [m1, k1], by omega, m4 hf2, by rw [m3, k3], by rw [m2, k2], ?_⟩
        intro c hc
        obtain ⟨j1, j2, _, _, _⟩ := kc c hf hc
        have hc1 : FileOutputBuffer.content
            (FileOutputBuffer.mk b0.file_ b0.buffer_size_ data (crc32c.Extend b0.crc32c_ data))
            e0 = some (c ++ data) := by
          unfold FileOutputBuffer.content at j1 ⊢
          simp only at j1 ⊢
          cases hs : fsFind e0.files b0.file_ with
          | none => simp [hs] at j1
          | some d =>
            cases d with
            | bytes fb =>
              simp only [hs, j2, List.append_nil, Option.some.injEq] at j1 ⊢
              rw [j1]
            | table rows => simp [hs] at j1
        exact (mc _ hf2 hc1).1
      · simp only [Bool.not_eq_true] at hf2
        simp only [hf2, Bool.not_false, if_true, Option.some.injEq, Prod.mk.injEq] at h
        obtain ⟨h1, _, _⟩ := h
        rw [← h1, hf2] at hst
        exact absurd hst (by decide)
  · simp only [Bool.not_eq_true] at hf
    simp only [hf, Bool.not_false, if_true, Option.some.injEq, Prod.mk.injEq] at h
    obtain ⟨h1, _, _⟩ := h
    rw [← h1, hf] at hst
    exact absurd hst (by decide)

theorem AppendChunk_eq (b : FileOutputBuffer) (env : Env) (data : Bytes) :
    b.AppendChunk env data = b.AppendSegment env data := rfl

theorem call_ok (b : FileOutputBuffer) (env : Env) (c : BufferCall) (st : Status)
    (b1 : FileOutputBuffer) (env1 : Env)
    (h : b.call env c = some (st, b1, env1)) (hst : st.ok = true) :
    b1.crc32c_ = crc32c.Extend b.crc32c_ c.data ∧
    ∀ c0, b.content env = some c0 →
      b1.content env1 = some (c0 ++ c.data) ∧ b1.file_ = b.file_ := by
  cases c with
  | Append d =>
    refine ⟨Append_crc b env d st b1 env1 h hst, ?_⟩
    intro c0 hc
    obtain ⟨j1, _, j3, _⟩ := Append_ok b env d c0 st b1 env1 h hst hc
    exact ⟨j1, j3⟩
  | AppendSegment d =>
    obtain ⟨j1, _, _, j4, _, j6⟩ := AppendSegment_ok b env d st b1 env1 h hst
    exact ⟨j1, fun c0 hc => ⟨j6 c0 hc, j4⟩⟩
  | AppendChunk d =>
    obtain ⟨j1, _, _, j4, _, j6⟩ := AppendSegment_ok b env d st b1 env1 h hst
    exact ⟨j1, fun c0 hc => ⟨j6 c0 hc, j4⟩⟩

theorem calls_ok : ∀ (cs : List BufferCall) (b : FileOutputBuffer) (env : Env) (st : Status)
    (b1 : FileOutputBuffer) (env1 : Env),
    b.calls env cs = some (st, b1, env1) → st.ok = true →
    b1.crc32c_ = crc32c.Extend b.crc32c_ (cs.map BufferCall.data).flatten ∧
    ∀ c0, b.content env = some c0 →
      b1.content env1 = some (c0 ++ (cs.map BufferCall.data).flatten) ∧ b1.file_ = b.file_ := by
  intro cs
  induction cs with
  | nil =>
    intro b env st b1 env1 h _
    simp only [FileOutputBuffer.calls, Option.some.injEq, Prod.mk.injEq] at h
    obtain ⟨_, h2, h3⟩ := h
    subst h2 h3
    simp [crc32c.Extend_nil]
  | cons c rest ih =>
    intro b env st b1 env1 h hst
    unfold FileOutputBuffer.calls at h
    cases hc : b.call env c with
    | none => simp [hc] at h
    | some res =>
      obtain ⟨s0, b0, e0⟩ := res
      simp only [hc] at h
      by_cases hs : s0.ok = true
      · simp only [hs, Bool.not_true, Bool.false_eq_true, if_false] at h
        obtain ⟨k1, k2⟩ := call_ok b env c s0 b0 e0 hc hs
        obtain ⟨j1, j2⟩ := ih b0 e0 st b1 env1 h hst
        refine ⟨?_, ?_⟩
        · rw [j1, k1, ← crc32c.Extend_append]; simp
        · intro c0 h0
          obtain ⟨m1, m2⟩ := k2 c0 h0
          obtain ⟨n1, n2⟩ := j2 _ m1
          exact ⟨by rw [n1]; simp, by rw [n2, m2]⟩
      · simp only [Bool.not_eq_true] at hs
        simp only [hs, Bool.not_false, if_true, Option.some.injEq, Prod.mk.injEq] at h
        obtain ⟨h1, _, _⟩ := h
        rw [← h1, hs] at hst
        exact absurd hst (by decide)

theorem calls_prefix : ∀ (xs ys : List BufferCall) (b : FileOutputBuffer) (env : Env)
    (st : Status) (b1 : FileOutputBuffer) (env1 : Env),
    b.calls env (xs ++ ys) = some (st, b1, env1) → st.ok = true →
    ∃ st0 b0 env0, b.calls env xs = some (st0, b0, env0) ∧ st0.ok = true := by
  intro xs
  induction xs with
  | nil => intro ys b env st b1 env1 _ _; exact ⟨Status.OK, b, env, rfl, rfl⟩
  | cons c rest ih =>
    intro ys b env st b1 env1 h hst
    simp only [List.cons_append] at h
    unfold FileOutputBuffer.calls at h ⊢
    cases hc : b.call env c with
    | none => simp [hc] at h
    | some res =>
      obtain ⟨s0, b0, e0⟩ := res
      simp only [hc] at h ⊢
      by_cases hs : s0.ok = true
      · simp only [hs, Bool.not_true, Bool.false_eq_true, if_false] at h ⊢
        exact ih ys b0 e0 st b1 env1 h hst
      · simp only [Bool.not_eq_true] at hs
        simp only [hs, Bool.not_false, if_true, Option.some.injEq, Prod.mk.injEq] at h
        obtain ⟨h1, _, _⟩ := h
        rw [← h1, hs] at hst
        exact absurd hst (by decide)

/-! ## C15, C16, C17 -/

/-- C15: running checksum.  After `clear_crc32c()`, for every sequence of `Append`,
`AppendSegment` and `AppendChunk` calls that all return OK, with data of any length
for `Append`, the checksum of the buffer is the CRC32C of the concatenation of the
appended byte strings in call order. -/
theorem running_checksum (b : FileOutputBuffer) (env : Env) (cs : List BufferCall)
    (st : Status) (b1 : FileOutputBuffer) (env1 : Env)
    (h : b.clear_crc32c.calls env cs = some (st, b1, env1)) (hst : st.ok = true) :
    b1.crc32c_ = crc32c.Value (cs.map BufferCall.data).flatten :=
  (calls_ok cs b.clear_crc32c env st b1 env1 h hst).1

theorem running_checksum_witness :
    exBuffer.1.clear_crc32c.calls exBuffer.2 exCalls = some (exCallsOn exCalls) ∧
    (exCallsOn exCalls).1.ok = true ∧
    (exCallsOn exCalls).2.1.crc32c_ =
      crc32c.Value [1, 2, 3, 4, 5, 6, 7, 8, 9, 1, 2, 3, 1, 2, 3, 4] :=
  ⟨by decide!, by decide!,
    running_checksum exBuffer.1 exBuffer.2 exCalls (exCallsOn exCalls).1 (exCallsOn exCalls).2.1
      (exCallsOn exCalls).2.2 (by decide!) (by decide!)⟩

/-- C16: buffered write fidelity.  For a buffer on a file that holds `c0` together
with the buffered bytes, and every sequence of `Append` calls that all return OK: the
bytes of the file followed by the buffered bytes are `c0` followed by the appended
byte strings in call order, this holds after every prefix of the calls, and after a
`Close` that returns OK the file holds exactly these bytes. -/
theorem write_fidelity (b : FileOutputBuffer) (env : Env) (datas : List Bytes) (c0 : Bytes)
    (st : Status) (b1 : FileOutputBuffer) (env1 : Env)
    (hc : b.content env = some c0)
    (h : b.calls env (datas.map BufferCall.Append) = some (st, b1, env1))
    (hst : st.ok = true) :
    b1.content env1 = some (c0 ++ datas.flatten) ∧
    (∀ n, ∃ st0 b0 env0,
      b.calls env ((datas.take n).map BufferCall.Append) = some (st0, b0, env0) ∧
      st0.ok = true ∧ b0.content env0 = some (c0 ++ (datas.take n).flatten)) ∧
    ((b1.Close env1).1.ok = true →
      fsFind (b1.Close env1).2.2.files b.file_ = some (FileData.bytes (c0 ++ datas.flatten))) := by
  have hmap : ∀ ds : List Bytes,
      ((ds.map BufferCall.Append).map BufferCall.data).flatten = ds.flatten := by
    intro ds
    congr 1
    rw [List.map_map]
    exact List.map_id ds
  obtain ⟨_, k2⟩ := calls_ok _ b env st b1 env1 h hst
  obtain ⟨k3, k4⟩ := k2 c0 hc
  rw [hmap] at k3
  refine ⟨k3, ?_, ?_⟩
  · intro n
    have hsplit : datas.map BufferCall.Append =
        (datas.take n).map BufferCall.Append ++ (datas.drop n).map BufferCall.Append := by
      rw [← List.map_append, List.take_append_drop]
    rw [hsplit] at h
    obtain ⟨st0, b0, env0, h0, hs0⟩ := calls_prefix _ _ b env st b1 env1 h hst
    obtain ⟨_, m2⟩ := calls_ok _ b env st0 b0 env0 h0 hs0
    refine ⟨st0, b0, env0, h0, hs0, ?_⟩
    rw [(m2 c0 hc).1, hmap]
  · intro hclose
    rw [← k4]
    exact BufferClose_ok b1 env1 _ hclose k3

theorem write_fidelity_witness :
    exBuffer.1.content exBuffer.2 = some [] ∧
    exBuffer.1.calls exBuffer.2 ([[1, 2, 3], [4, 5, 6, 7, 8, 9], [10]].map BufferCall.Append) =
      some (exCallsOn ([[1, 2, 3], [4, 5, 6, 7, 8, 9], [10]].map BufferCall.Append)) ∧
    (exCallsOn ([[1, 2, 3], [4, 5, 6, 7, 8, 9], [10]].map BufferCall.Append)).2.1.content
        (exCallsOn ([[1, 2, 3], [4, 5, 6, 7, 8, 9], [10]].map BufferCall.Append)).2.2 =
      some ([] ++ [[1, 2, 3], [4, 5, 6, 7, 8, 9], [10]].flatten) :=
  ⟨by decide!, by decide!,
    (write_fidelity exBuffer.1 exBuffer.2 [[1, 2, 3], [4, 5, 6, 7, 8, 9], [10]] []
      (exCallsOn ([[1, 2, 3], [4, 5, 6, 7, 8, 9], [10]].map BufferCall.Append)).1
      (exCallsOn ([[1, 2, 3], [4, 5, 6, 7, 8, 9], [10]].map BufferCall.Append)).2.1
      (exCallsOn ([[1, 2, 3], [4, 5, 6, 7, 8, 9], [10]].map BufferCall.Append)).2.2
      (by decide!) (by decide!) (by decide!)).1⟩

/-- C17 (amended): `FileOutputBuffer` keeps no closed state.  After a `Close` that
returned OK, an `Append` of data no longer than the capacity returns OK, holds the
data in the buffer and extends the running checksum by it. -/
theorem Append_after_Close (b : FileOutputBuffer) (env : Env) (data : Bytes)
    (hclose : (b.Close env).1.ok = true) (hlen : data.length ≤ b.buffer_size_) :
    (b.Close env).2.1.Append (b.Close env).2.2 data =
      some (Status.OK,
        FileOutputBuffer.mk b.file_ b.buffer_size_ data (crc32c.Extend b.crc32c_ data),
        (b.Close env).2.2) := by
  obtain ⟨k1, k2, k3, k4⟩ := FlushBuffer_fields b env
  unfold FileOutputBuffer.Close at hclose ⊢
  simp only at hclose ⊢
  by_cases hf : (b.FlushBuffer env).1.ok = true
  · simp only [hf, Bool.not_true, Bool.false_eq_true, if_false] at hclose ⊢
    have hb := k4 hf
    generalize (b.FlushBuffer env).2.1 = b0 at k1 k2 k3 hb ⊢
    unfold FileOutputBuffer.Append FileOutputBuffer.position_
    have hfit : data.length + b0.buffer_.length ≤ b0.buffer_size_ := by
      rw [hb, k2]; simpa using hlen
    have hfit2 : data.length + ([] : Bytes).length ≤ b.buffer_size_ := by simpa using hlen
    simp only [hfit, if_true, hb, List.nil_append, k1, k2, k3, hfit2]
  · simp only [Bool.not_eq_true] at hf
    simp only [hf, Bool.not_false, if_true] at hclose
    exact absurd hclose (by decide)

theorem Append_after_Close_witness :
    (exBuffer.1.Close exBuffer.2).1.ok = true ∧
    (exBuffer.1.Close exBuffer.2).2.1.Append (exBuffer.1.Close exBuffer.2).2.2 [1, 2] =
      some (Status.OK, FileOutputBuffer.mk "f" 4 [1, 2] (crc32c.Extend 0 [1, 2]),
        (exBuffer.1.Close exBuffer.2).2.2) :=
  ⟨by decide!, Append_after_Close exBuffer.1 exBuffer.2 [1, 2] (by decide!) (by decide!)⟩

/-- C17 (as stated, refuted): on the buffer `exBuffer`, after `Close` has returned OK,
`Append` of two bytes returns OK, the buffer holds the two bytes and the checksum has
changed. -/
theorem Append_on_closed_buffer :
    (exBuffer.1.Close exBuffer.2).1 = Status.OK ∧
    ((exBuffer.1.Close exBuffer.2).2.1.buffer_, (exBuffer.1.Close exBuffer.2).2.1.crc32c_) =
      ([], 0) ∧
    ((exBuffer.1.Close exBuffer.2).2.1.Append (exBuffer.1.Close exBuffer.2).2.2 [1, 2]).map
        (fun res => (res.1, res.2.1.buffer_, decide (res.2.1.crc32c_ = 0))) =
      some (Status.OK, [1, 2], false) := by
  decide!


end tfplus

namespace tfplus

open DataType

/-! ## C18: the codec of string payloads -/

theorem stringLengthsCrc_foldl (kLittleEndian : Bool) (strings : List Bytes) : ∀ crc,
    stringLengthsCrc kLittleEndian crc strings =
      strings.foldl (fun acc s => crc32c.Extend acc
        (memInt kLittleEndian (if s.length ≤ 2 ^ 32 - 1 then 4 else 8) s.length)) crc := by
  induction strings with
  | nil => intro crc; rfl
  | cons s rest ih =>
    intro crc
    rw [stringLengthsCrc, List.foldl_cons]
    by_cases h : s.length ≤ UINT32_MAX
    · have h2 : s.length ≤ 2 ^ 32 - 1 := h
      simp only [h, h2, if_true]
      exact ih _
    · have h2 : ¬ s.length ≤ 2 ^ 32 - 1 := h
      simp only [h, h2, if_false]
      exact ih _

/-- C18: string payload codec.  When `WriteStringTensor` returns OK for a string tensor
with elements `val.strings`, the buffer has received the varint length of every
element, then the four bytes of the masked checksum of the lengths, then the bytes of
every element; `bytes_written` is the length of that sequence; the checksum of the
lengths takes every length as a 4-byte integer when it is at most 2^32-1 and as an
8-byte integer otherwise, and the checksum returned extends it by the four checksum
bytes and by the element bytes.  `ReadStringTensor` on those bytes, without byte swap,
returns OK, the same elements and the same checksum. -/
theorem string_codec (kLittleEndian : Bool) (val : Tensor) (out : FileOutputBuffer) (env : Env)
    (c post : Bytes) (destination : List Bytes) (st : Status) (out1 : FileOutputBuffer)
    (env1 : Env) (n crc : Nat)
    (h : WriteStringTensor kLittleEndian val out env = some (st, out1, env1, n, crc))
    (hst : st.ok = true) (hc : out.content env = some c)
    (hlen : ∀ s ∈ val.strings, s.length < 2 ^ 64)
    (hdest : destination.length = val.strings.length) :
    out1.content env1 = some (c ++
      ((val.strings.map (fun s => PutVarint64 s.length)).flatten ++
        memInt kLittleEndian 4 (crc32c.Mask (stringLengthsCrc kLittleEndian 0 val.strings)) ++
        val.strings.flatten)) ∧
    n = ((val.strings.map (fun s => PutVarint64 s.length)).flatten ++
        memInt kLittleEndian 4 (crc32c.Mask (stringLengthsCrc kLittleEndian 0 val.strings)) ++
        val.strings.flatten).length ∧
    stringLengthsCrc kLittleEndian 0 val.strings =
      val.strings.foldl (fun acc s => crc32c.Extend acc
        (memInt kLittleEndian (if s.length ≤ 2 ^ 32 - 1 then 4 else 8) s.length)) 0 ∧
    crc = crc32c.Extend (crc32c.Extend (stringLengthsCrc kLittleEndian 0 val.strings)
        (memInt kLittleEndian 4 (crc32c.Mask (stringLengthsCrc kLittleEndian 0 val.strings))))
      val.strings.flatten ∧
    ReadStringTensor kLittleEndian
        (c ++ ((val.strings.map (fun s => PutVarint64 s.length)).flatten ++
          memInt kLittleEndian 4 (crc32c.Mask (stringLengthsCrc kLittleEndian 0 val.strings)) ++
          val.strings.flatten) ++ post)
        val.strings.length c.length n destination 0 false =
      (Status.OK, val.strings, crc) := by
  unfold WriteStringTensor at h
  split at h
  · simp at h
  · obtain ⟨j1, j2, j3, _⟩ :=
      WriteStringVector_ok kLittleEndian val.strings out env c st out1 env1 n crc h hst hc
    have hread := ReadStringTensor_ok kLittleEndian val.strings destination c post hlen hdest
    refine ⟨j1, j2, stringLengthsCrc_foldl _ _ 0, j3, ?_⟩
    rw [j2, j3]
    exact hread

theorem string_codec_witness :
    WriteStringTensor true exTensorS2 exBuffer.1 exBuffer.2 = some exWriteS2 ∧
    exWriteS2.1.ok = true ∧ exWriteS2.2.2.2.1 = 9 ∧
    exWriteS2.2.1.content exWriteS2.2.2.1 =
      some ([] ++ ((exTensorS2.strings.map (fun s => PutVarint64 s.length)).flatten ++
        memInt true 4 (crc32c.Mask (stringLengthsCrc true 0 exTensorS2.strings)) ++
        exTensorS2.strings.flatten)) :=
  ⟨by decide!, by decide!, by decide!,
    (string_codec true exTensorS2 exBuffer.1 exBuffer.2 [] [] [[], []] exWriteS2.1 exWriteS2.2.1
      exWriteS2.2.2.1 exWriteS2.2.2.2.1 exWriteS2.2.2.2.2 (by decide!) (by decide!) (by decide!)
      (by decide!) (by decide!)).1⟩


end tfplus

namespace tfplus

open DataType

/-! ## C19: one chunked write at a time -/

/-- C19 (amended): on a writer that has not failed and has a chunked write in
progress, `BeginWriteChunkData` with a key that is not in the catalog fails with the
error "Call `BundleWriter::EndWriteChunkData` method after write.", which the writer
stores; the catalog is unchanged, so the key gets no entry and the entry in progress
is not altered.  `EndWriteChunkData` ends the chunked write, and after it
`BeginWriteChunkData` with a key that is not in the catalog returns OK and starts a
chunked write for that key. -/
theorem single_open_chunk (w : BundleWriter) (env : Env) (key k0 : String) (dtype : DataType)
    (shape : List Nat) (out : FileOutputBuffer)
    (hst : w.status_.ok = true) (hk : key ≠ kHeaderEntryKey)
    (hfresh : mapFind w.entries_ key = none) (hopen : w.curr_entry_ = some k0)
    (hout : w.out_ = some out) :
    w.BeginWriteChunkData env key dtype shape =
      some (errors.Internal "Call `BundleWriter::EndWriteChunkData` method after write.",
        { w with status_ :=
            errors.Internal "Call `BundleWriter::EndWriteChunkData` method after write." },
        env) ∧
    ∀ total last, ∃ w2, w.EndWriteChunkData total last = some w2 ∧ w2.curr_entry_ = none ∧
      ∀ key2, key2 ≠ kHeaderEntryKey → mapFind w2.entries_ key2 = none →
        ∃ w3, w2.BeginWriteChunkData env key2 dtype shape = some (w.status_, w3, env) ∧
          w3.curr_entry_ = some key2 ∧
          (mapFind w3.entries_ key2).map (fun e => (e.dtype, e.shape, e.shard_id, e.offset)) =
            some (dtype, some shape, 0, w2.size_) := by
  constructor
  · unfold BundleWriter.BeginWriteChunkData
    simp only [hst, Bool.not_true, Bool.false_eq_true, if_false, hk, mapContains, hfresh,
      Option.isSome_none, hopen, Option.isSome_some, if_true]
  · intro total last
    unfold BundleWriter.EndWriteChunkData
    simp only [hout, hopen]
    refine ⟨_, rfl, rfl, ?_⟩
    intro key2 hk2 hf2
    unfold BundleWriter.BeginWriteChunkData
    simp only [hst, Bool.not_true, Bool.false_eq_true, if_false, hk2, mapContains, hf2,
      Option.isSome_none]
    refine ⟨_, rfl, rfl, ?_⟩
    simp only [updateEntry]
    rw [mapFind_mapInsert_self]
    simp only [hf2, Option.getD_none, Option.map_some']

theorem single_open_chunk_witness :
    exChunkOpen.1.curr_entry_ = some "k1" ∧
    (exChunkOpen.1.BeginWriteChunkData exChunkOpen.2 "k2" DT_FLOAT [3]).map
        (fun res => (res.1, res.2.1.entries_, res.2.2)) =
      some (errors.Internal "Call `BundleWriter::EndWriteChunkData` method after write.",
        exChunkOpen.1.entries_, exChunkOpen.2) := by
  refine ⟨by decide!, ?_⟩
  rw [(single_open_chunk exChunkOpen.1 exChunkOpen.2 "k2" "k1" DT_FLOAT [3]
    (FileOutputBuffer.mk "dir/ckpt.data-00000-of-00001.tempstate22" (8 * 2 ^ 20) [] 0)
    (by decide!) (by decide!) (by decide!) (by decide!) (by decide!)).1]
  rfl

/-- C19 (as stated, refuted): a chunked write for "k1" is in progress on the writer
`exChunkOpen`; `BeginWriteChunkData("k1", ...)` fails with the duplicate-key error
`INVALID_ARGUMENT`, not with the error of a chunked write in progress. -/
theorem Begin_same_key_while_open :
    exChunkOpen.1.curr_entry_ = some "k1" ∧ exChunkOpen.1.status_.ok = true ∧
    (exChunkOpen.1.BeginWriteChunkData exChunkOpen.2 "k1" DT_INT16 [2, 2]).map
        (fun res => res.1) =
      some (errors.InvalidArgument "Adding duplicate key: k1") := by
  decide!

end tfplus

namespace tfplus

open DataType

/-! ## C20: a chunked write and a one-shot `Add` -/

theorem content_file (b : FileOutputBuffer) (env : Env) (c : Bytes)
    (hc : b.content env = some c) :
    ∃ fb, fsFind env.files b.file_ = some (FileData.bytes fb) ∧ c = fb ++ b.buffer_ := by
  unfold FileOutputBuffer.content at hc
  cases hfile : fsFind env.files b.file_ with
  | none => rw [hfile] at hc; cases hc
  | some d =>
    cases d with
    | bytes fb =>
      rw [hfile] at hc
      simp only [Option.some.injEq] at hc
      exact ⟨fb, rfl, hc.symm⟩
    | table rows => rw [hfile] at hc; cases hc

theorem Env_Append_total (env : Env) (path : String) (data fb : Bytes)
    (hf : env.faults = []) (hfile : fsFind env.files path = some (FileData.bytes fb)) :
    (env.Append path data).1 = Status.OK ∧ (env.Append path data).2.faults = [] := by
  unfold Env.Append Env.nextFault
  simp only [hf]
  have hok : Status.OK.ok = true := rfl
  simp only [hok, Bool.not_true, Bool.false_eq_true, if_false, hfile, Env.commit]
  exact ⟨trivial, hf⟩

theorem FlushBuffer_total (b : FileOutputBuffer) (env : Env) (c : Bytes)
    (hf : env.faults = []) (hc : b.content env = some c) :
    (b.FlushBuffer env).1 = Status.OK ∧ (b.FlushBuffer env).2.2.faults = [] := by
  obtain ⟨fb, hfile, _⟩ := content_file b env c hc
  have h1 := Env_Append_total env b.file_ b.buffer_ fb hf hfile
  unfold FileOutputBuffer.FlushBuffer
  by_cases hp : b.position_ > 0
  · simp only [hp, if_true]
    generalize env.Append b.file_ b.buffer_ = r at h1
    obtain ⟨s, e⟩ := r
    simp only at h1
    obtain ⟨h2, h3⟩ := h1
    subst h2
    have hok : Status.OK.ok = true := rfl
    simp only [hok, Bool.not_true, Bool.false_eq_true, if_false, h3, and_self]
  · simp only [hp, if_false, hf, and_self]

theorem AppendSegment_total (b : FileOutputBuffer) (env : Env) (data c : Bytes)
    (hf : env.faults = []) (hc : b.content env = some c)
    (hlen : data.length ≤ b.buffer_size_) :
    ∃ b1 env1, b.AppendSegment env data = some (Status.OK, b1, env1) ∧ env1.faults = [] := by
  have h1 := FlushBuffer_total b env c hf hc
  have h2 := FlushBuffer_ok b env c (by rw [h1.1]; rfl) hc
  unfold FileOutputBuffer.AppendSegment
  generalize b.FlushBuffer env = r at h1 h2
  obtain ⟨s, b1, e1⟩ := r
  simp only at h1 h2
  obtain ⟨h1a, h1b⟩ := h1
  obtain ⟨h2a, h2b, _, _, h2e⟩ := h2
  subst h1a
  have hok : Status.OK.ok = true := rfl
  have hlen2 : ¬ (data.length > b1.buffer_size_) := by rw [h2e]; omega
  simp only [hok, Bool.not_true, Bool.false_eq_true, if_false, hlen2]
  obtain ⟨fb, hfile, hcfb⟩ := content_file b1 e1 c h2a
  have hc2 : (FileOutputBuffer.mk b1.file_ b1.buffer_size_ data
      (crc32c.Extend b1.crc32c_ data)).content e1 = some (fb ++ data) := by
    unfold FileOutputBuffer.content
    simp only [hfile]
  have h3 := FlushBuffer_total _ e1 _ h1b hc2
  generalize (FileOutputBuffer.mk b1.file_ b1.buffer_size_ data
      (crc32c.Extend b1.crc32c_ data)).FlushBuffer e1 = r2 at h3
  obtain ⟨s2, b3, e3⟩ := r2
  simp only at h3
  obtain ⟨h3a, h3b⟩ := h3
  subst h3a
  simp only [hok, Bool.not_true, Bool.false_eq_true, if_false]
  exact ⟨b3, e3, rfl, h3b⟩

theorem writeChunks_ok : ∀ (chunks : List Bytes) (w : BundleWriter) (env : Env) (st : Status)
    (w1 : BundleWriter) (env1 : Env) (out : FileOutputBuffer) (c : Bytes),
    w.writeChunks env chunks = some (st, w1, env1) → st.ok = true →
    w.out_ = some out → out.content env = some c →
    w1.entries_ = w.entries_ ∧ w1.size_ = w.size_ ∧ w1.curr_entry_ = w.curr_entry_ ∧
    ∃ out1, w1.out_ = some out1 ∧
      out1.crc32c_ = crc32c.Extend out.crc32c_ chunks.flatten ∧
      out1.content env1 = some (c ++ chunks.flatten) := by
  intro chunks
  induction chunks with
  | nil =>
    intro w env st w1 env1 out c h _ ho hc
    simp only [BundleWriter.writeChunks, Option.some.injEq, Prod.mk.injEq] at h
    obtain ⟨_, h2, h3⟩ := h
    subst h2 h3
    refine ⟨rfl, rfl, rfl, out, ho, ?_, ?_⟩
    · simp [crc32c.Extend_nil]
    · simpa using hc
  | cons x rest ih =>
    intro w env st w1 env1 out c h hst ho hc
    unfold BundleWriter.writeChunks at h
    unfold BundleWriter.WriteChunkData at h
    simp only [ho] at h
    rw [AppendChunk_eq] at h
    cases hseg : out.AppendSegment env x with
    | none => simp [hseg] at h
    | some res =>
      obtain ⟨s0, o1, e1⟩ := res
      simp only [hseg] at h
      by_cases hs : s0.ok = true
      · simp only [hs, Bool.not_true, Bool.false_eq_true, if_false] at h
        obtain ⟨k1, _, _, _, _, k6⟩ := AppendSegment_ok out env x s0 o1 e1 hseg hs
        obtain ⟨j1, j2, j3, out1, j4, j5, j6⟩ :=
          ih _ e1 st w1 env1 o1 (c ++ x) h hst rfl (k6 c hc)
        refine ⟨j1, j2, j3, out1, j4, ?_, ?_⟩
        · rw [j5, k1, ← crc32c.Extend_append]; simp
        · rw [j6]; simp
      · simp only [Bool.not_eq_true] at hs
        simp only [hs, Bool.not_false, if_true, Option.some.injEq, Prod.mk.injEq] at h
        obtain ⟨h1, _, _⟩ := h
        rw [← h1, hs] at hst
        exact absurd hst (by decide)

theorem writeChunks_total : ∀ (chunks : List Bytes) (w : BundleWriter) (env : Env)
    (out : FileOutputBuffer) (c : Bytes),
    env.faults = [] → w.out_ = some out → out.content env = some c →
    (∀ x ∈ chunks, x.length ≤ out.buffer_size_) →
    ∃ w1 env1, w.writeChunks env chunks = some (Status.OK, w1, env1) := by
  intro chunks
  induction chunks with
  | nil =>
    intro w env out c _ _ _ _
    exact ⟨w, env, rfl⟩
  | cons x rest ih =>
    intro w env out c hf ho hc hlen
    obtain ⟨b1, e1, hseg, hf1⟩ :=
      AppendSegment_total out env x c hf hc (hlen x (List.mem_cons_self _ _))
    obtain ⟨_, _, _, _, k5, k6⟩ := AppendSegment_ok out env x Status.OK b1 e1 hseg rfl
    unfold BundleWriter.writeChunks
    unfold BundleWriter.WriteChunkData
    simp only [ho]
    rw [AppendChunk_eq, hseg]
    have hok : Status.OK.ok = true := rfl
    simp only [hok, Bool.not_true, Bool.false_eq_true, if_false]
    exact ih _ e1 b1 (c ++ x) hf1 rfl (k6 c hc)
      (fun y hy => by rw [k5]; exact hlen y (List.mem_cons_of_mem _ hy))

/-- C20: a fixed-width value whose bytes are split into chunks, each no longer than
the capacity of the output buffer, is written by `BeginWriteChunkData(key, dtype,
shape)`, one `WriteChunkData` per chunk and `EndWriteChunkData(sum of the chunk
lengths, length of the last chunk)`; from a state from which `Add(key, value)` returns
OK, the chunked write returns OK when no file operation fails, and whenever it returns
OK its catalog is the catalog after `Add` (for the key: the same dtype, shape, shard
id, offset, size and masked checksum), it has appended the bytes of the value to the
data file, and `Add` has appended the same bytes followed by its alignment padding. -/
theorem chunked_equals_Add (w : BundleWriter) (env : Env) (kLittleEndian : Bool) (key : String)
    (val : Tensor) (chunks : List Bytes) (stA : Status) (wA : BundleWriter) (envA : Env)
    (hinv : w.Inv env) (hcur : w.curr_entry_ = none) (hval : val.WF)
    (hmem : DataTypeCanUseMemcpy val.dtype = true) (hdata : val.data = chunks.flatten)
    (hcap : ∀ out, w.out_ = some out → ∀ x ∈ chunks, x.length ≤ out.buffer_size_)
    (hA : w.Add env kLittleEndian key val = some (stA, wA, envA)) (hstA : stA.ok = true) :
    (env.faults = [] → ∃ wC envC,
      w.chunkedWrite env key val.dtype val.shape chunks = some (Status.OK, wC, envC)) ∧
    ∀ stC wC envC, w.chunkedWrite env key val.dtype val.shape chunks = some (stC, wC, envC) →
      stC.ok = true →
      wC.entries_ = wA.entries_ ∧
      mapFind wC.entries_ key = some (tensorEntry kLittleEndian val w.size_) ∧
      wC.size_ = w.size_ + val.data.length ∧
      ∃ out outA outC c pad, w.out_ = some out ∧ out.content env = some c ∧
        wA.out_ = some outA ∧ wC.out_ = some outC ∧
        outC.content envC = some (c ++ val.data) ∧
        outA.content envA = some (c ++ val.data ++ pad) := by
  obtain ⟨_, _, hk, _, outA, c, pad, hsize, houtA, hcontA, hentryA, hfind, hall,
    ⟨out, hout, hc⟩, _, _⟩ := Add_ok_full w env kLittleEndian key val stA wA envA hA hstA hinv hval
  have hst : w.status_.ok = true := by
    by_contra hs
    simp only [Bool.not_eq_true] at hs
    unfold BundleWriter.Add at hA
    simp only [hs, Bool.not_false, if_true, Option.some.injEq, Prod.mk.injEq] at hA
    rw [← hA.1, hs] at hstA
    exact absurd hstA (by decide)
  obtain ⟨hns, hnv⟩ : val.dtype ≠ DT_STRING ∧ val.dtype ≠ DT_VARIANT := by
    constructor
    · intro e; rw [e] at hmem; exact absurd hmem (by decide)
    · intro e; rw [e] at hmem; exact absurd hmem (by decide)
  have hpay : tensorPayload kLittleEndian val = val.data := by
    simp only [tensorPayload, hns, hnv, if_false]
  rw [hpay] at hcontA
  obtain ⟨W1, hB, hW1e, hW1o, hW1s, hW1c⟩ : ∃ W1,
      w.BeginWriteChunkData env key val.dtype val.shape = some (w.status_, W1, env) ∧
      W1.entries_ = mapInsert w.entries_ key
        { dtype := val.dtype, shape := some val.shape, offset := w.size_ } ∧
      W1.out_ = some out.clear_crc32c ∧ W1.size_ = w.size_ ∧ W1.curr_entry_ = some key := by
    unfold BundleWriter.BeginWriteChunkData
    simp only [hst, Bool.not_true, Bool.false_eq_true, if_false, hk, mapContains, hfind,
      Option.isSome_none, hcur, hout]
    refine ⟨_, rfl, ?_, rfl, rfl, rfl⟩
    simp only [updateEntry, hfind, Option.getD_none]
  have hc0 : out.clear_crc32c.content env = some c := hc
  have hcrc0 : out.clear_crc32c.crc32c_ = 0 := rfl
  have hend : ∀ (w2 : BundleWriter) (out2 : FileOutputBuffer), w2.entries_ = W1.entries_ →
      w2.size_ = W1.size_ → w2.curr_entry_ = W1.curr_entry_ → w2.out_ = some out2 →
      ∃ w3, w2.EndWriteChunkData chunks.flatten.length
          ((chunks.getLast?.map List.length).getD 0) = some w3 ∧
        w3.entries_ = mapInsert W1.entries_ key
          { dtype := val.dtype, shape := some val.shape, offset := w.size_,
            size := chunks.flatten.length, crc32c := crc32c.Mask out2.crc32c_ } ∧
        w3.size_ = w.size_ + chunks.flatten.length ∧ w3.out_ = some out2 := by
    intro w2 out2 j1 j2 j3 j4
    unfold BundleWriter.EndWriteChunkData
    simp only [j4, j3, hW1c]
    refine ⟨_, rfl, ?_, by simp only [j2, hW1s], rfl⟩
    simp only [updateEntry, j1, hW1e]
    rw [mapFind_mapInsert_self]
    simp only [Option.getD_some]
  constructor
  · intro hf
    obtain ⟨w2, e2, hW⟩ := writeChunks_total chunks W1 env out.clear_crc32c c hf hW1o hc0
      (hcap out hout)
    obtain ⟨j1, j2, j3, out2, j4, _, _⟩ :=
      writeChunks_ok chunks W1 env Status.OK w2 e2 out.clear_crc32c c hW rfl hW1o hc0
    obtain ⟨w3, hE, _⟩ := hend w2 out2 j1 j2 j3 j4
    unfold BundleWriter.chunkedWrite
    simp only [hB, hst, Bool.not_true, Bool.false_eq_true, if_false, hW, hE]
    have hok : Status.OK.ok = true := rfl
    simp only [hok, Bool.not_true, Bool.false_eq_true, if_false]
    exact ⟨w3, e2, rfl⟩
  · intro stC wC envC hC hstC
    unfold BundleWriter.chunkedWrite at hC
    simp only [hB, hst, Bool.not_true, Bool.false_eq_true, if_false] at hC
    cases hW : W1.writeChunks env chunks with
    | none => simp [hW] at hC
    | some res =>
      obtain ⟨s2, w2, e2⟩ := res
      simp only [hW] at hC
      by_cases hs2 : s2.ok = true
      · simp only [hs2, Bool.not_true, Bool.false_eq_true, if_false] at hC
        obtain ⟨j1, j2, j3, out2, j4, j5, j6⟩ :=
          writeChunks_ok chunks W1 env s2 w2 e2 out.clear_crc32c c hW hs2 hW1o hc0
        obtain ⟨w3, hE, m1, m2, m3⟩ := hend w2 out2 j1 j2 j3 j4
        simp only [hE, Option.some.injEq, Prod.mk.injEq] at hC
        obtain ⟨_, hw3, he2⟩ := hC
        subst hw3 he2
        have hent : w3.entries_ = wA.entries_ := by
          rw [m1, hW1e, hall, j5, hcrc0]
          simp only [tensorEntry, hpay, tensorCrc, hns, hnv, if_false, crc32c.Value, hdata,
            hsize]
        refine ⟨hent, ?_, by rw [m2, hdata], out, outA, out2, c, pad, hout, hc, houtA, m3,
          by rw [j6, hdata], hcontA⟩
        rw [hent, hentryA, hsize]
      · simp only [Bool.not_eq_true] at hs2
        simp only [hs2, Bool.not_false, if_true, Option.some.injEq, Prod.mk.injEq] at hC
        obtain ⟨h1, _, _⟩ := hC
        rw [← h1, hs2] at hstC
        exact absurd hstC (by decide)

theorem chunked_equals_Add_witness :
    (exFresh.1.chunkedWrite exFresh.2 "a" DT_INT16 [2, 2] exChunksA).map
        (fun res => (res.1, res.2.1.entries_)) =
      some (Status.OK, exAdded.1.entries_) := by
  have h := chunked_equals_Add exFresh.1 exFresh.2 true "a" exTensorA exChunksA Status.OK
    exAdded.1 exAdded.2 (create_Inv {} "dir/ckpt" 1 11 22 (by decide!)) (by decide!)
    (by decide!) (by decide!) (by decide!) (by decide!) (by decide!) (by decide!)
  obtain ⟨wC, envC, hC⟩ := h.1 (by decide!)
  have h2 := (h.2 Status.OK wC envC hC rfl).1
  have h3 : exTensorA.dtype = DT_INT16 ∧ exTensorA.shape = [2, 2] := ⟨rfl, rfl⟩
  rw [h3.1, h3.2] at hC
  rw [hC, ← h2]
  rfl

end tfplus

namespace tfplus

open DataType

/-! ## C11: a failure in `Finish` -/

theorem DeleteFile_ok_absent (env : Env) (path : String)
    (h : (env.DeleteFile path).1.ok = true) :
    fsFind (env.DeleteFile path).2.files path = none := by
  unfold Env.DeleteFile at h ⊢
  generalize env.nextFault = r at h ⊢
  obtain ⟨f, e1⟩ := r
  simp only at h ⊢
  by_cases hf : f.ok = true
  · simp only [hf, Bool.not_true, Bool.false_eq_true, if_false] at h ⊢
    cases hfile : fsFind e1.files path with
    | none =>
      simp [hfile, errors.NotFound, Status.ok] at h
    | some d =>
      simp only [hfile, Env.commit]
      rw [fsFind_fsErase]
      simp only [if_true]
  · simp only [Bool.not_eq_true] at hf
    simp only [hf, Bool.not_false, if_true] at h
    exact absurd h (by decide)

theorem NewWritableFile_not_ok (env : Env) (path : String)
    (h : (env.NewWritableFile path).1.ok = false) :
    (env.NewWritableFile path).2.files = env.files := by
  unfold Env.NewWritableFile at h ⊢
  have hn := nextFault_files env
  generalize env.nextFault = r at h hn ⊢
  obtain ⟨f, e1⟩ := r
  simp only at h hn ⊢
  by_cases hf : f.ok = true
  · simp only [hf, Bool.not_true, Bool.false_eq_true, if_false] at h
    exact absurd h (by decide)
  · simp only [Bool.not_eq_true] at hf
    simp only [hf, Bool.not_false, if_true]
    exact hn.1

theorem Finish_failed_state (w : BundleWriter) (env : Env) (kLittleEndian : Bool)
    (out : FileOutputBuffer) (hout : w.out_ = some out)
    (hfail : (w.Finish env kLittleEndian).1.ok = false) :
    (w.Finish env kLittleEndian).2.1.status_ = (w.Finish env kLittleEndian).1 ∧
    (w.Finish env kLittleEndian).2.1.out_ = none := by
  unfold BundleWriter.Finish BundleWriter.finishData at hfail ⊢
  simp only [hout] at hfail ⊢
  generalize out.Close env = r at hfail ⊢
  obtain ⟨cst, b1, e1⟩ := r
  simp only at hfail ⊢
  by_cases h1 : (w.status_.Update cst).ok = true
  · simp only [h1, if_true] at hfail ⊢
    generalize e1.RenameFile w.tmp_data_path_ (DataFilename w.prefix_ 0 1) = r2 at hfail ⊢
    obtain ⟨rst, e2⟩ := r2
    simp only at hfail ⊢
    by_cases h2 : rst.ok = true
    · simp only [h2, Bool.not_true, Bool.false_eq_true, if_false] at hfail ⊢
      generalize e2.NewWritableFile w.tmp_metadata_path_ = r3 at hfail ⊢
      obtain ⟨nst, e3⟩ := r3
      simp only at hfail ⊢
      by_cases h3 : nst.ok = true
      · simp only [h3, Bool.not_true, Bool.false_eq_true, if_false] at hfail ⊢
        generalize e3.BuildTable w.tmp_metadata_path_ _ = r4 at hfail ⊢
        obtain ⟨bst, e4⟩ := r4
        simp only at hfail ⊢
        generalize e4.Close w.tmp_metadata_path_ = r5 at hfail ⊢
        obtain ⟨cst2, e5⟩ := r5
        simp only at hfail ⊢
        by_cases h4 : (bst.Update cst2).ok = true
        · simp only [h4, Bool.not_true, Bool.false_eq_true, if_false] at hfail ⊢
          generalize e5.RenameFile w.tmp_metadata_path_ (MetaFilename w.prefix_) = r6 at hfail ⊢
          obtain ⟨rst2, e6⟩ := r6
          simp only at hfail ⊢
          by_cases h5 : rst2.ok = true
          · simp only [h5, Bool.not_true, Bool.false_eq_true, if_false] at hfail
            exact absurd hfail (by decide)
          · simp only [Bool.not_eq_true] at h5
            simp only [h5, Bool.not_false, if_true, and_self]
        · simp only [Bool.not_eq_true] at h4
          simp only [h4, Bool.not_false, if_true, and_self]
      · simp only [Bool.not_eq_true] at h3
        simp only [h3, Bool.not_false, if_true, and_self]
    · simp only [Bool.not_eq_true] at h2
      simp only [h2, Bool.not_false, if_true, and_self]
  · simp only [Bool.not_eq_true] at h1
    simp only [h1, Bool.false_eq_true, if_false, Bool.not_false, if_true, and_self]

/-- C11 (amended): `Finish` on an open writer that has not failed.  When `Finish`
returns a failure, the writer holds that failure as its status and has no output
buffer, and a metadata name that had no file has none.  Step by step: a failure of
closing the data buffer is returned after `DeleteFile` on the temporary data file,
which is gone when that deletion returns OK; a failure of renaming the temporary data
file is returned with the file system as the close left it; a failure of creating the
temporary metadata file is returned with the file system unchanged by that call; a
failure of building or closing the metadata table is returned after `DeleteFile` on the
temporary metadata file, which is gone when that deletion returns OK; a failure of
renaming the temporary metadata file is returned with the file system as the table
close left it. -/
theorem Finish_failure (w : BundleWriter) (env : Env) (kLittleEndian : Bool)
    (out : FileOutputBuffer) (hp : w.pathsWF) (hst : w.status_.ok = true)
    (hout : w.out_ = some out) :
    ((w.Finish env kLittleEndian).1.ok = false →
      (w.Finish env kLittleEndian).2.1.status_ = (w.Finish env kLittleEndian).1 ∧
      (w.Finish env kLittleEndian).2.1.out_ = none ∧
      (fsFind env.files (MetaFilename w.prefix_) = none →
        fsFind (w.Finish env kLittleEndian).2.2.files (MetaFilename w.prefix_) = none)) ∧
    ∀ cst b1 env1, out.Close env = (cst, b1, env1) →
      (cst.ok = false →
        w.Finish env kLittleEndian =
          (cst, { w with out_ := none, status_ := cst },
            (env1.DeleteFile w.tmp_data_path_).2) ∧
        ((env1.DeleteFile w.tmp_data_path_).1.ok = true →
          fsFind (env1.DeleteFile w.tmp_data_path_).2.files w.tmp_data_path_ = none)) ∧
      (cst.ok = true → ∀ rst env2,
        env1.RenameFile w.tmp_data_path_ (DataFilename w.prefix_ 0 1) = (rst, env2) →
        (rst.ok = false →
          w.Finish env kLittleEndian = (rst, { w with out_ := none, status_ := rst }, env2) ∧
          env2.files = env1.files) ∧
        (rst.ok = true → ∀ nst env3,
          env2.NewWritableFile w.tmp_metadata_path_ = (nst, env3) →
          (nst.ok = false →
            w.Finish env kLittleEndian =
              (nst, { w with out_ := none, status_ := nst }, env3) ∧
            env3.files = env2.files) ∧
          (nst.ok = true → ∀ bst env4 cst2 env5,
            env3.BuildTable w.tmp_metadata_path_ (BundleWriter.finishRows kLittleEndian w) = (bst, env4) →
            env4.Close w.tmp_metadata_path_ = (cst2, env5) →
            ((bst.Update cst2).ok = false →
              w.Finish env kLittleEndian =
                (bst.Update cst2, { w with out_ := none, status_ := bst.Update cst2 },
                  (env5.DeleteFile w.tmp_metadata_path_).2) ∧
              ((env5.DeleteFile w.tmp_metadata_path_).1.ok = true →
                fsFind (env5.DeleteFile w.tmp_metadata_path_).2.files
                  w.tmp_metadata_path_ = none)) ∧
            ((bst.Update cst2).ok = true → ∀ rst2 env6,
              env5.RenameFile w.tmp_metadata_path_ (MetaFilename w.prefix_) = (rst2, env6) →
              rst2.ok = false →
              w.Finish env kLittleEndian =
                (rst2, { w with out_ := none, status_ := rst2 }, env6) ∧
              env6.files = env5.files)))) := by
  have hup : ∀ t : Status, w.status_.Update t = t := by
    intro t
    simp only [Status.Update, hst, if_true]
  constructor
  · intro hfail
    obtain ⟨hs1, hs2⟩ := Finish_failed_state w env kLittleEndian out hout hfail
    refine ⟨hs1, hs2, ?_⟩
    · intro hno
      rcases Finish_outcome w env kLittleEndian hp with h | ⟨_, _, _, h, _⟩
      · obtain ⟨⟨states, _, h2⟩, _⟩ := h
        exact (h2 hno).2
      · rw [h] at hfail
        exact absurd hfail (by decide)
  · intro cst b1 env1 hclose
    constructor
    · intro hc
      refine ⟨?_, DeleteFile_ok_absent _ _⟩
      unfold BundleWriter.Finish BundleWriter.finishData
      simp only [hout, hclose, hup, hc, Bool.false_eq_true, if_false, Bool.not_false, if_true]
    · intro hc rst env2 hren
      constructor
      · intro hr
        have h2 := RenameFile_not_ok env1 w.tmp_data_path_ (DataFilename w.prefix_ 0 1)
          (by rw [hren]; exact hr)
        rw [hren] at h2
        refine ⟨?_, h2.1⟩
        unfold BundleWriter.Finish BundleWriter.finishData
        simp only [hout, hclose, hup, hc, if_true, hren, hr, Bool.not_false]
      · intro hr nst env3 hnew
        constructor
        · intro hn
          have h3 := NewWritableFile_not_ok env2 w.tmp_metadata_path_ (by rw [hnew]; exact hn)
          rw [hnew] at h3
          refine ⟨?_, h3⟩
          unfold BundleWriter.Finish BundleWriter.finishData
          simp only [hout, hclose, hup, hc, if_true, hren, hr, Bool.not_true,
            Bool.false_eq_true, if_false, hnew, hn, Bool.not_false]
        · intro hn bst env4 cst2 env5 hbuild hcl
          have hrows : BundleWriter.finishRows kLittleEndian
              (BundleWriter.mk w.prefix_ w.data_alignment w.tmp_metadata_path_ w.tmp_data_path_
                none w.size_ w.entries_ rst w.entry_seg_ w.curr_entry_) =
              BundleWriter.finishRows kLittleEndian w := rfl
          constructor
          · intro hb
            refine ⟨?_, DeleteFile_ok_absent _ _⟩
            unfold BundleWriter.Finish BundleWriter.finishData
            simp only [hout, hclose, hup, hc, if_true, hren, hr, Bool.not_true,
              Bool.false_eq_true, if_false, hnew, hn, hrows, hbuild, hcl, hb, Bool.not_false]
          · intro hb rst2 env6 hren2 hr2
            have h6 := RenameFile_not_ok env5 w.tmp_metadata_path_ (MetaFilename w.prefix_)
              (by rw [hren2]; exact hr2)
            rw [hren2] at h6
            refine ⟨?_, h6.1⟩
            unfold BundleWriter.Finish BundleWriter.finishData
            simp only [hout, hclose, hup, hc, if_true, hren, hr, Bool.not_true,
              Bool.false_eq_true, if_false, hnew, hn, hrows, hbuild, hcl, hb, hren2, hr2,
              Bool.not_false]

theorem Finish_failure_witness :
    (exAdded.1.Finish exCloseFails true).1 = errors.Internal "close failed" ∧
    fsFind exCloseFails.files exAdded.1.tmp_data_path_ =
      some (FileData.bytes []) ∧
    fsFind (exAdded.1.Finish exCloseFails true).2.2.files exAdded.1.tmp_data_path_ = none ∧
    ((exAdded.1.Finish exCloseFails true).2.1.status_ = (exAdded.1.Finish exCloseFails true).1 ∧
      (exAdded.1.Finish exCloseFails true).2.1.out_ = none ∧
      (fsFind exCloseFails.files (MetaFilename exAdded.1.prefix_) = none →
        fsFind (exAdded.1.Finish exCloseFails true).2.2.files
          (MetaFilename exAdded.1.prefix_) = none)) :=
  ⟨by decide!, by decide!, by decide!,
    (Finish_failure exAdded.1 exCloseFails true
      (exAdded.1.out_.getD (FileOutputBuffer.mk "" 0 [] 0))
      ⟨⟨11, 22, by decide!, by decide!⟩, by decide!⟩ (by decide!) (by decide!)).1 (by decide!)⟩

/-- C11 (as stated, refuted): on the writer `exAdded`, with a file system in which the
flush and the close of the data file go through and the rename of the temporary data
file fails, `Finish` returns the failure of the rename and makes no further call on the
file system: the temporary data file is still there, with the eight bytes written. -/
theorem Finish_rename_failure_keeps_temp :
    (exAdded.1.Finish exRenameFails true).1 = errors.Internal "rename failed" ∧
    fsFind (exAdded.1.Finish exRenameFails true).2.2.files exAdded.1.tmp_data_path_ =
      some (FileData.bytes [1, 2, 3, 4, 5, 6, 7, 8]) ∧
    (exAdded.1.Finish exRenameFails true).2.2.faults = [] := by
  decide!

end tfplus

namespace tfplus

open DataType

/-! ## C13: the keys `Finish` hands to the table builder -/

/-- C13 (the code at the failing input): on a fresh writer
`AddSliceHeader("", [4], DT_FLOAT, false, &proto)` returns OK and records an entry
under the header key, where `AddTensorHeader`, `AddSlice`, `Add` and
`BeginWriteChunkData` abort on that key; `Finish` then returns OK after handing the
table builder the header key twice, first with the header and then with the entry, so
the keys are not strictly ascending. -/
theorem AddSliceHeader_header_key :
    (exFresh.1.AddSliceHeader exFresh.2 kHeaderEntryKey [4] DT_FLOAT false {}).map
        (fun res => res.1) = some Status.OK ∧
    exFresh.1.AddTensorHeader exFresh.2 kHeaderEntryKey DT_FLOAT = none ∧
    exFresh.1.AddTensorHeaderShape exFresh.2 kHeaderEntryKey DT_FLOAT [4] = none ∧
    exFresh.1.AddSlice exFresh.2 true kHeaderEntryKey [4] (TensorSlice.mk [(0, 2)])
      (Tensor.mk DT_FLOAT [2] [0, 0, 0, 0, 0, 0, 0, 0] []) = none ∧
    exFresh.1.Add exFresh.2 true kHeaderEntryKey exTensorA = none ∧
    exFresh.1.BeginWriteChunkData exFresh.2 kHeaderEntryKey DT_FLOAT [4] = none ∧
    (exSliceHeaderEmptyKey.1.entries_.map Prod.fst) = [kHeaderEntryKey] ∧
    (BundleWriter.finishRows true exSliceHeaderEmptyKey.1).map Prod.fst =
      [kHeaderEntryKey, kHeaderEntryKey] ∧
    ¬ mapSorted (BundleWriter.finishRows true exSliceHeaderEmptyKey.1) ∧
    (exSliceHeaderEmptyKey.1.Finish exSliceHeaderEmptyKey.2 true).1 = Status.OK ∧
    fsFind (exSliceHeaderEmptyKey.1.Finish exSliceHeaderEmptyKey.2 true).2.2.files
        (MetaFilename "dir/ckpt") =
      some (FileData.table (BundleWriter.finishRows true exSliceHeaderEmptyKey.1)) := by
  decide!

end tfplus

namespace tfplus

open DataType

/-! ## C14: offsets and sizes along a sequence of complete writes -/

theorem mapFind_insert2_ne {α : Type} (m : List (String × α)) (key k : String) (E0 E : α)
    (hk : k ≠ key) : mapFind (mapInsert (mapInsert m key E0) key E) k = mapFind m k := by
  rw [mapFind_mapInsert_ne _ _ _ _ (Ne.symm hk), mapFind_mapInsert_ne _ _ _ _ (Ne.symm hk)]

/-- The writer with a new entry under a fresh key keeps the invariant, when the buffer
still writes to the same file and `size_` is the length of what was written. -/
theorem Inv_of_insert (w w1 : BundleWriter) (env env1 : Env) (key : String)
    (E0 E : BundleEntryProto) (out out1 : FileOutputBuffer) (c1 : Bytes)
    (hinv : w.Inv env) (hk : key ≠ kHeaderEntryKey)
    (hp1 : w1.prefix_ = w.prefix_) (hp2 : w1.tmp_metadata_path_ = w.tmp_metadata_path_)
    (hp3 : w1.tmp_data_path_ = w.tmp_data_path_)
    (hout : w.out_ = some out) (hout1 : w1.out_ = some out1) (hfile : out1.file_ = out.file_)
    (hcont : out1.content env1 = some c1) (hsize : w1.size_ = c1.length)
    (hent : w1.entries_ = mapInsert (mapInsert w.entries_ key E0) key E) : w1.Inv env1 := by
  obtain ⟨⟨hq1, hq2⟩, hsorted, hnohdr, _⟩ := hinv
  refine ⟨⟨?_, ?_⟩, ?_, ?_, out1, c1, hout1, hcont, hsize⟩
  · rw [hp1, hp2, hp3]; exact hq1
  · intro o ho
    rw [hout1] at ho
    simp only [Option.some.injEq] at ho
    rw [← ho, hfile, hp3]
    exact hq2 out hout
  · rw [hent]
    exact mapInsert_sorted _ _ _ (mapInsert_sorted _ _ _ hsorted)
  · rw [hent, mapFind_insert2_ne _ _ _ _ _ (Ne.symm hk)]
    exact hnohdr

/-- The invariant of the payload entries after a write that left the offsets and sizes
of the other entries as they were and stored an entry at or after the old `size_`. -/
theorem payloadInv_step (w w1 : BundleWriter) (log : List String) (key : String)
    (E : BundleEntryProto) (hK : w.payloadInv log)
    (hfresh : mapFind w.entries_ key = none)
    (hsame : ∀ k e, k ≠ key → mapFind w.entries_ k = some e →
      ∃ e1, mapFind w1.entries_ k = some e1 ∧ e1.offset = e.offset ∧ e1.size = e.size)
    (hE : mapFind w1.entries_ key = some E) (hoff : w.size_ ≤ E.offset)
    (hsz : E.offset + E.size ≤ w1.size_) : w1.payloadInv (log ++ [key]) := by
  obtain ⟨hK1, hK2⟩ := hK
  have hne : ∀ k ∈ log, k ≠ key := by
    intro k hk e
    obtain ⟨e0, h0, _⟩ := hK1 k hk
    rw [e, hfresh] at h0
    cases h0
  constructor
  · intro k hk
    rw [List.mem_append] at hk
    rcases hk with hk | hk
    · obtain ⟨e0, h0, h1⟩ := hK1 k hk
      obtain ⟨e1, j1, j2, j3⟩ := hsame k e0 (hne k hk) h0
      exact ⟨e1, j1, by omega⟩
    · simp only [List.mem_singleton] at hk
      subst hk
      exact ⟨E, hE, hsz⟩
  · rw [List.pairwise_append]
    refine ⟨?_, List.pairwise_singleton _ _, ?_⟩
    · refine (List.Pairwise.and_mem.1 hK2).imp ?_
      rintro a b ⟨ha, hb, ea, eb, h1, h2, h3⟩
      obtain ⟨ea1, j1, j2, j3⟩ := hsame a ea (hne a ha) h1
      obtain ⟨eb1, l1, l2, l3⟩ := hsame b eb (hne b hb) h2
      exact ⟨ea1, eb1, j1, l1, by omega⟩
    · intro a ha b hb
      simp only [List.mem_singleton] at hb
      subst hb
      obtain ⟨e0, h0, h1⟩ := hK1 a ha
      obtain ⟨e1, j1, j2, j3⟩ := hsame a e0 (hne a ha) h0
      exact ⟨e1, E, j1, hE, by omega⟩

/-- What a complete write under `key` leaves: the invariant, the other entries with
their offsets and sizes, and an entry for `key` that starts at the old `size_` and ends
at or before the new one. -/
theorem Add_step (w : BundleWriter) (env : Env) (kLittleEndian : Bool) (key : String)
    (val : Tensor) (st : Status) (w1 : BundleWriter) (env1 : Env)
    (h : w.Add env kLittleEndian key val = some (st, w1, env1)) (hst : st.ok = true)
    (hinv : w.Inv env) (hval : val.WF) :
    w1.Inv env1 ∧ mapFind w.entries_ key = none ∧
    (∀ k e, k ≠ key → mapFind w.entries_ k = some e →
      ∃ e1, mapFind w1.entries_ k = some e1 ∧ e1.offset = e.offset ∧ e1.size = e.size) ∧
    ∃ E, mapFind w1.entries_ key = some E ∧ E.offset = w.size_ ∧
      E.offset + E.size ≤ w1.size_ := by
  obtain ⟨hinv1, _, hk, _, out1, c, pad, hsize, hout1, hcont, hentry, hfind, hall, _, _, _⟩ :=
    Add_ok_full w env kLittleEndian key val st w1 env1 h hst hinv hval
  refine ⟨hinv1, hfind, ?_, _, hentry, by simp only [tensorEntry, hsize], ?_⟩
  · intro k e hne hf
    refine ⟨e, ?_, rfl, rfl⟩
    rw [hall, mapFind_insert2_ne _ _ _ _ _ hne]
    exact hf
  · obtain ⟨_, _, _, o, c1, ho, hc1, hs1⟩ := hinv1
    rw [hout1] at ho
    simp only [Option.some.injEq] at ho
    subst ho
    rw [hcont] at hc1
    simp only [Option.some.injEq] at hc1
    rw [hs1, ← hc1]
    simp only [tensorEntry, List.length_append]
    omega

theorem AddSlice_step (w : BundleWriter) (env : Env) (kLittleEndian : Bool) (key : String)
    (shape : List Nat) (slice : TensorSlice) (val : Tensor) (st : Status) (w1 : BundleWriter)
    (env1 : Env)
    (h : w.AddSlice env kLittleEndian key shape slice val = some (st, w1, env1))
    (hst : st.ok = true) (hinv : w.Inv env) (hval : val.WF) :
    w1.Inv env1 ∧
    mapFind w.entries_ (WriteOp.AddSlice key shape slice val).payloadKey = none ∧
    (∀ k e, k ≠ (WriteOp.AddSlice key shape slice val).payloadKey →
      mapFind w.entries_ k = some e →
      ∃ e1, mapFind w1.entries_ k = some e1 ∧ e1.offset = e.offset ∧ e1.size = e.size) ∧
    ∃ E, mapFind w1.entries_ (WriteOp.AddSlice key shape slice val).payloadKey = some E ∧
      E.offset = w.size_ ∧ E.offset + E.size ≤ w1.size_ := by
  unfold BundleWriter.AddSlice at h
  by_cases h0 : w.status_.ok = true
  · simp only [h0, Bool.not_true, Bool.false_eq_true, if_false] at h
    by_cases hk : key = kHeaderEntryKey
    · simp [hk] at h
    · simp only [hk, if_false] at h
      cases hfs : IsFullSlice slice shape with
      | none => simp [hfs] at h
      | some full =>
        cases full with
        | true =>
          simp only [hfs] at h
          simp only [WriteOp.payloadKey, hfs, if_true]
          exact Add_step w env kLittleEndian key val st w1 env1 h hst hinv hval
        | false =>
          simp only [hfs] at h
          have hpk : (WriteOp.AddSlice key shape slice val).payloadKey =
              EncodeTensorNameSlice key slice := by
            simp [WriteOp.payloadKey, hfs]
          rw [hpk]
          split at h
          · simp at h
          · split at h
            · simp at h
            · generalize hW : (BundleWriter.mk w.prefix_ w.data_alignment w.tmp_metadata_path_
                  w.tmp_data_path_ w.out_ w.size_
                  (updateEntry w.entries_ key (fun e =>
                    { e with dtype := val.dtype, shape := some shape,
                             slices := e.slices ++ [slice.AsProto] }))
                  w.status_ w.entry_seg_ w.curr_entry_) = W at h
              have hWe : W.entries_ = updateEntry w.entries_ key (fun e =>
                  { e with dtype := val.dtype, shape := some shape,
                           slices := e.slices ++ [slice.AsProto] }) := by rw [← hW]
              have hWs : W.size_ = w.size_ := by rw [← hW]
              have hWinv : W.Inv env := by
                obtain ⟨hp, hsorted, hnohdr, hrest⟩ := hinv
                rw [← hW]
                refine ⟨hp, ?_, ?_, hrest⟩
                · exact mapInsert_sorted _ _ _ hsorted
                · simp only [updateEntry]
                  rw [mapFind_mapInsert_ne _ _ _ _ hk]
                  exact hnohdr
              cases hadd : W.Add env kLittleEndian (EncodeTensorNameSlice key slice) val with
              | none => simp [hadd] at h
              | some res =>
                obtain ⟨st2, w2, env2⟩ := res
                simp only [hadd, Option.some.injEq, Prod.mk.injEq] at h
                obtain ⟨h1, h2, h3⟩ := h
                subst h1 h3
                obtain ⟨jinv, jfresh, jsame, E, jE, joff, jsz⟩ :=
                  Add_step W env kLittleEndian _ val _ w2 _ hadd hst hWinv hval
                have hpres : ∀ k e, mapFind w.entries_ k = some e →
                    ∃ e1, mapFind W.entries_ k = some e1 ∧ e1.offset = e.offset ∧
                      e1.size = e.size := by
                  intro k e hf
                  rw [hWe]
                  simp only [updateEntry]
                  by_cases hkk : key = k
                  · subst hkk
                    rw [mapFind_mapInsert_self, hf]
                    exact ⟨_, rfl, rfl, rfl⟩
                  · rw [mapFind_mapInsert_ne _ _ _ _ hkk]
                    exact ⟨e, hf, rfl, rfl⟩
                have hw1e : w1.entries_ = w2.entries_ := by rw [← h2]
                have hw1s : w1.size_ = w2.size_ := by rw [← h2]
                refine ⟨?_, ?_, ?_, E, by rw [hw1e]; exact jE, by rw [joff, hWs],
                  by rw [hw1s]; exact jsz⟩
                · rw [← h2]
                  exact jinv
                · cases hf : mapFind w.entries_ (EncodeTensorNameSlice key slice) with
                  | none => rfl
                  | some e =>
                    obtain ⟨e1, j1, _⟩ := hpres _ e hf
                    rw [jfresh] at j1
                    cases j1
                · intro k e hne hf
                  obtain ⟨e1, j1, j2, j3⟩ := hpres k e hf
                  obtain ⟨e2, l1, l2, l3⟩ := jsame k e1 hne j1
                  exact ⟨e2, by rw [hw1e]; exact l1, by rw [l2, j2], by rw [l3, j3]⟩
  · simp only [Bool.not_eq_true] at h0
    simp only [h0, Bool.not_false, if_true, Option.some.injEq, Prod.mk.injEq] at h
    obtain ⟨h1, _⟩ := h
    rw [← h1, h0] at hst
    exact absurd hst (by decide)

/-- The step of a write that began with a header call: the entry of the fresh key
starts at the old `size_` and has the length of the data appended. -/
theorem header_write_step (w w1 : BundleWriter) (env env1 : Env) (key : String)
    (E0 E : BundleEntryProto) (out out1 : FileOutputBuffer) (c data : Bytes)
    (hinv : w.Inv env) (hk : key ≠ kHeaderEntryKey) (hfresh : mapFind w.entries_ key = none)
    (hp1 : w1.prefix_ = w.prefix_) (hp2 : w1.tmp_metadata_path_ = w.tmp_metadata_path_)
    (hp3 : w1.tmp_data_path_ = w.tmp_data_path_)
    (hout : w.out_ = some out) (hc : out.content env = some c)
    (hout1 : w1.out_ = some out1) (hfile : out1.file_ = out.file_)
    (hcont : out1.content env1 = some (c ++ data))
    (hsize : w1.size_ = w.size_ + data.length)
    (hent : w1.entries_ = mapInsert (mapInsert w.entries_ key E0) key E)
    (hoff : E.offset = w.size_) (hsz : E.size = data.length) :
    w1.Inv env1 ∧ mapFind w.entries_ key = none ∧
    (∀ k e, k ≠ key → mapFind w.entries_ k = some e →
      ∃ e1, mapFind w1.entries_ k = some e1 ∧ e1.offset = e.offset ∧ e1.size = e.size) ∧
    ∃ E, mapFind w1.entries_ key = some E ∧ E.offset = w.size_ ∧
      E.offset + E.size ≤ w1.size_ := by
  have hws : w.size_ = c.length := by
    obtain ⟨_, _, _, o, c0, ho, hc0, hs0⟩ := hinv
    rw [hout] at ho
    simp only [Option.some.injEq] at ho
    subst ho
    rw [hc] at hc0
    simp only [Option.some.injEq] at hc0
    rw [hs0, hc0]
  refine ⟨?_, hfresh, ?_, E, ?_, hoff, by omega⟩
  · refine Inv_of_insert w w1 env env1 key E0 E out out1 _ hinv hk hp1 hp2 hp3 hout hout1 hfile
      hcont ?_ hent
    rw [hsize, hws, List.length_append]
  · intro k e hne hf
    refine ⟨e, ?_, rfl, rfl⟩
    rw [hent, mapFind_insert2_ne _ _ _ _ _ hne]
    exact hf
  · rw [hent, mapFind_mapInsert_self]

theorem writeChunks_fields : ∀ (chunks : List Bytes) (w : BundleWriter) (env : Env) (st : Status)
    (w1 : BundleWriter) (env1 : Env) (out : FileOutputBuffer),
    w.writeChunks env chunks = some (st, w1, env1) → st.ok = true → w.out_ = some out →
    w1 = { w with out_ := w1.out_ } ∧ ∃ out1, w1.out_ = some out1 ∧ out1.file_ = out.file_ := by
  intro chunks
  induction chunks with
  | nil =>
    intro w env st w1 env1 out h _ ho
    simp only [BundleWriter.writeChunks, Option.some.injEq, Prod.mk.injEq] at h
    obtain ⟨_, h2, _⟩ := h
    subst h2
    exact ⟨rfl, out, ho, rfl⟩
  | cons x rest ih =>
    intro w env st w1 env1 out h hst ho
    unfold BundleWriter.writeChunks at h
    unfold BundleWriter.WriteChunkData at h
    simp only [ho] at h
    rw [AppendChunk_eq] at h
    cases hseg : out.AppendSegment env x with
    | none => simp [hseg] at h
    | some res =>
      obtain ⟨s0, o1, e1⟩ := res
      simp only [hseg] at h
      by_cases hs : s0.ok = true
      · simp only [hs, Bool.not_true, Bool.false_eq_true, if_false] at h
        obtain ⟨_, _, _, k4, _, _⟩ := AppendSegment_ok out env x s0 o1 e1 hseg hs
        obtain ⟨j1, out1, j2, j3⟩ := ih _ e1 st w1 env1 o1 h hst rfl
        refine ⟨?_, out1, j2, by rw [j3, k4]⟩
        rw [j1]
      · simp only [Bool.not_eq_true] at hs
        simp only [hs, Bool.not_false, if_true, Option.some.injEq, Prod.mk.injEq] at h
        obtain ⟨h1, _, _⟩ := h
        rw [← h1, hs] at hst
        exact absurd hst (by decide)

theorem writeSegments_eq : ∀ (segs : List Bytes) (w : BundleWriter) (env : Env),
    w.writeSegments env segs = w.writeChunks env segs := by
  intro segs
  induction segs with
  | nil => intro w env; rfl
  | cons x rest ih =>
    intro w env
    unfold BundleWriter.writeSegments BundleWriter.writeChunks
    have hx : w.AppendSegmentData env x = w.WriteChunkData env x := rfl
    rw [hx]
    cases w.WriteChunkData env x with
    | none => rfl
    | some res =>
      obtain ⟨s, w1, e1⟩ := res
      simp only [ih]

theorem BeginWriteChunkData_ok (w : BundleWriter) (env : Env) (key : String) (dtype : DataType)
    (shape : List Nat) (st : Status) (w1 : BundleWriter) (env1 : Env) (out : FileOutputBuffer)
    (h : w.BeginWriteChunkData env key dtype shape = some (st, w1, env1)) (hst : st.ok = true)
    (hout : w.out_ = some out) :
    key ≠ kHeaderEntryKey ∧ mapFind w.entries_ key = none ∧ env1 = env ∧
    w1 = { w with curr_entry_ := some key,
                  entries_ := mapInsert w.entries_ key
                    { dtype := dtype, shape := some shape, offset := w.size_ },
                  out_ := some out.clear_crc32c } := by
  unfold BundleWriter.BeginWriteChunkData at h
  by_cases h0 : w.status_.ok = true
  · simp only [h0, Bool.not_true, Bool.false_eq_true, if_false] at h
    by_cases hk : key = kHeaderEntryKey
    · simp [hk] at h
    · simp only [hk, if_false] at h
      by_cases hcon : mapContains w.entries_ key = true
      · simp only [hcon, if_true, Option.some.injEq, Prod.mk.injEq] at h
        obtain ⟨h1, _⟩ := h
        rw [← h1] at hst
        simp [errors.InvalidArgument, Status.ok] at hst
      · simp only [hcon, Bool.false_eq_true, if_false] at h
        have hfind : mapFind w.entries_ key = none := by
          unfold mapContains at hcon
          cases hf : mapFind w.entries_ key with
          | none => rfl
          | some e => simp [hf] at hcon
        by_cases hcur : w.curr_entry_.isSome = true
        · simp only [hcur, if_true, Option.some.injEq, Prod.mk.injEq] at h
          obtain ⟨h1, _⟩ := h
          rw [← h1] at hst
          simp [errors.Internal, Status.ok] at hst
        · simp only [hcur, Bool.false_eq_true, if_false, hout, Option.some.injEq,
            Prod.mk.injEq] at h
          obtain ⟨_, h2, h3⟩ := h
          refine ⟨hk, hfind, h3.symm, ?_⟩
          rw [← h2]
          simp only [updateEntry, hfind, Option.getD_none]
  · simp only [Bool.not_eq_true] at h0
    simp only [h0, Bool.not_false, if_true, Option.some.injEq, Prod.mk.injEq] at h
    obtain ⟨h1, _⟩ := h
    rw [← h1, h0] at hst
    exact absurd hst (by decide)

theorem AddTensorHeaderShape_ok (w : BundleWriter) (env : Env) (key : String) (dtype : DataType)
    (shape : List Nat) (st : Status) (w1 : BundleWriter) (env1 : Env) (out : FileOutputBuffer)
    (h : w.AddTensorHeaderShape env key dtype shape = some (st, w1, env1)) (hst : st.ok = true)
    (hout : w.out_ = some out) :
    key ≠ kHeaderEntryKey ∧ mapFind w.entries_ key = none ∧ env1 = env ∧
    w1 = { w with entry_seg_ := some key,
                  entries_ := mapInsert w.entries_ key
                    { dtype := dtype, shape := some shape, offset := w.size_ },
                  out_ := some out.clear_crc32c } := by
  unfold BundleWriter.AddTensorHeaderShape at h
  by_cases h0 : w.status_.ok = true
  · simp only [h0, Bool.not_true, Bool.false_eq_true, if_false] at h
    by_cases hk : key = kHeaderEntryKey
    · simp [hk] at h
    · simp only [hk, if_false] at h
      by_cases hcon : mapContains w.entries_ key = true
      · simp only [hcon, if_true, Option.some.injEq, Prod.mk.injEq] at h
        obtain ⟨h1, _⟩ := h
        rw [← h1] at hst
        simp [errors.InvalidArgument, Status.ok] at hst
      · simp only [hcon, Bool.false_eq_true, if_false] at h
        have hfind : mapFind w.entries_ key = none := by
          unfold mapContains at hcon
          cases hf : mapFind w.entries_ key with
          | none => rfl
          | some e => simp [hf] at hcon
        simp only [hout, Option.some.injEq, Prod.mk.injEq] at h
        obtain ⟨_, h2, h3⟩ := h
        refine ⟨hk, hfind, h3.symm, ?_⟩
        rw [← h2]
        simp only [updateEntry, hfind, Option.getD_none]
  · simp only [Bool.not_eq_true] at h0
    simp only [h0, Bool.not_false, if_true, Option.some.injEq, Prod.mk.injEq] at h
    obtain ⟨h1, _⟩ := h
    rw [← h1, h0] at hst
    exact absurd hst (by decide)

theorem chunkedWrite_step (w : BundleWriter) (env : Env) (key : String) (dtype : DataType)
    (shape : List Nat) (chunks : List Bytes) (st : Status) (w1 : BundleWriter) (env1 : Env)
    (h : w.chunkedWrite env key dtype shape chunks = some (st, w1, env1)) (hst : st.ok = true)
    (hinv : w.Inv env) :
    w1.Inv env1 ∧ mapFind w.entries_ key = none ∧
    (∀ k e, k ≠ key → mapFind w.entries_ k = some e →
      ∃ e1, mapFind w1.entries_ k = some e1 ∧ e1.offset = e.offset ∧ e1.size = e.size) ∧
    ∃ E, mapFind w1.entries_ key = some E ∧ E.offset = w.size_ ∧
      E.offset + E.size ≤ w1.size_ := by
  obtain ⟨out, c, hout, hc⟩ : ∃ out c, w.out_ = some out ∧ out.content env = some c := by
    obtain ⟨_, _, _, out, c, hout, hc, _⟩ := hinv
    exact ⟨out, c, hout, hc⟩
  unfold BundleWriter.chunkedWrite at h
  cases hB : w.BeginWriteChunkData env key dtype shape with
  | none => simp [hB] at h
  | some res =>
    obtain ⟨sB, W1, eB⟩ := res
    simp only [hB] at h
    by_cases hsB : sB.ok = true
    · simp only [hsB, Bool.not_true, Bool.false_eq_true, if_false] at h
      obtain ⟨hk, hfresh, heB, hW1⟩ :=
        BeginWriteChunkData_ok w env key dtype shape sB W1 eB out hB hsB hout
      subst heB
      have hW1o : W1.out_ = some out.clear_crc32c := by rw [hW1]
      have hc0 : out.clear_crc32c.content eB = some c := hc
      cases hW : W1.writeChunks eB chunks with
      | none => simp [hW] at h
      | some res2 =>
        obtain ⟨s2, W2, e2⟩ := res2
        simp only [hW] at h
        by_cases hs2 : s2.ok = true
        · simp only [hs2, Bool.not_true, Bool.false_eq_true, if_false] at h
          obtain ⟨_, _, _, out2, j4, _, j6⟩ :=
            writeChunks_ok chunks W1 eB s2 W2 e2 out.clear_crc32c c hW hs2 hW1o hc0
          obtain ⟨m1, out2b, m2, m3⟩ :=
            writeChunks_fields chunks W1 eB s2 W2 e2 out.clear_crc32c hW hs2 hW1o
          rw [j4] at m2
          simp only [Option.some.injEq] at m2
          subst m2
          have hW2c : W2.curr_entry_ = some key := by rw [m1, hW1]
          unfold BundleWriter.EndWriteChunkData at h
          simp only [j4, hW2c, Option.some.injEq, Prod.mk.injEq] at h
          obtain ⟨_, h2, h3⟩ := h
          subst h3
          have hW2e : W2.entries_ = mapInsert w.entries_ key
              { dtype := dtype, shape := some shape, offset := w.size_ } := by rw [m1, hW1]
          have hW2s : W2.size_ = w.size_ := by rw [m1, hW1]
          refine header_write_step w w1 eB e2 key
            { dtype := dtype, shape := some shape, offset := w.size_ }
            { dtype := dtype, shape := some shape, offset := w.size_,
              size := chunks.flatten.length, crc32c := crc32c.Mask out2.crc32c_ }
            out out2 c chunks.flatten hinv hk hfresh ?_ ?_ ?_ hout hc ?_ m3 j6 ?_ ?_ rfl rfl
          · rw [← h2, m1, hW1]
          · rw [← h2, m1, hW1]
          · rw [← h2, m1, hW1]
          · rw [← h2]
          · rw [← h2]
            simp only [hW2s]
          · rw [← h2]
            simp only [updateEntry, hW2e]
            rw [mapFind_mapInsert_self]
            simp only [Option.getD_some]
        · simp only [Bool.not_eq_true] at hs2
          simp only [hs2, Bool.not_false, if_true, Option.some.injEq, Prod.mk.injEq] at h
          obtain ⟨h1, _, _⟩ := h
          rw [← h1, hs2] at hst
          exact absurd hst (by decide)
    · simp only [Bool.not_eq_true] at hsB
      simp only [hsB, Bool.not_false, if_true, Option.some.injEq, Prod.mk.injEq] at h
      obtain ⟨h1, _, _⟩ := h
      rw [← h1, hsB] at hst
      exact absurd hst (by decide)

theorem segmentWrite_step (w : BundleWriter) (env : Env) (key : String) (dtype : DataType)
    (shape : List Nat) (segs : List Bytes) (st : Status) (w1 : BundleWriter) (env1 : Env)
    (h : w.segmentWrite env key dtype shape segs = some (st, w1, env1)) (hst : st.ok = true)
    (hinv : w.Inv env) :
    w1.Inv env1 ∧ mapFind w.entries_ key = none ∧
    (∀ k e, k ≠ key → mapFind w.entries_ k = some e →
      ∃ e1, mapFind w1.entries_ k = some e1 ∧ e1.offset = e.offset ∧ e1.size = e.size) ∧
    ∃ E, mapFind w1.entries_ key = some E ∧ E.offset = w.size_ ∧
      E.offset + E.size ≤ w1.size_ := by
  obtain ⟨out, c, hout, hc⟩ : ∃ out c, w.out_ = some out ∧ out.content env = some c := by
    obtain ⟨_, _, _, out, c, hout, hc, _⟩ := hinv
    exact ⟨out, c, hout, hc⟩
  unfold BundleWriter.segmentWrite at h
  cases hB : w.AddTensorHeaderShape env key dtype shape with
  | none => simp [hB] at h
  | some res =>
    obtain ⟨sB, W1, eB⟩ := res
    simp only [hB] at h
    by_cases hsB : sB.ok = true
    · simp only [hsB, Bool.not_true, Bool.false_eq_true, if_false] at h
      obtain ⟨hk, hfresh, heB, hW1⟩ :=
        AddTensorHeaderShape_ok w env key dtype shape sB W1 eB out hB hsB hout
      subst heB
      have hW1o : W1.out_ = some out.clear_crc32c := by rw [hW1]
      have hc0 : out.clear_crc32c.content eB = some c := hc
      rw [writeSegments_eq] at h
      cases hW : W1.writeChunks eB segs with
      | none => simp [hW] at h
      | some res2 =>
        obtain ⟨s2, W2, e2⟩ := res2
        simp only [hW] at h
        by_cases hs2 : s2.ok = true
        · simp only [hs2, Bool.not_true, Bool.false_eq_true, if_false] at h
          obtain ⟨_, _, _, out2, j4, _, j6⟩ :=
            writeChunks_ok segs W1 eB s2 W2 e2 out.clear_crc32c c hW hs2 hW1o hc0
          obtain ⟨m1, out2b, m2, m3⟩ :=
            writeChunks_fields segs W1 eB s2 W2 e2 out.clear_crc32c hW hs2 hW1o
          rw [j4] at m2
          simp only [Option.some.injEq] at m2
          subst m2
          have hW2c : W2.entry_seg_ = some key := by rw [m1, hW1]
          unfold BundleWriter.EndSegmentData at h
          simp only [j4, hW2c, Option.some.injEq, Prod.mk.injEq] at h
          obtain ⟨_, h2, h3⟩ := h
          subst h3
          have hW2e : W2.entries_ = mapInsert w.entries_ key
              { dtype := dtype, shape := some shape, offset := w.size_ } := by rw [m1, hW1]
          have hW2s : W2.size_ = w.size_ := by rw [m1, hW1]
          refine header_write_step w w1 eB e2 key
            { dtype := dtype, shape := some shape, offset := w.size_ }
            { dtype := dtype, shape := some shape, offset := w.size_,
              size := segs.flatten.length, crc32c := crc32c.Mask out2.crc32c_ }
            out out2 c segs.flatten hinv hk hfresh ?_ ?_ ?_ hout hc ?_ m3 j6 ?_ ?_ rfl rfl
          · rw [← h2, m1, hW1]
          · rw [← h2, m1, hW1]
          · rw [← h2, m1, hW1]
          · rw [← h2]
          · rw [← h2]
            simp only [hW2s]
          · rw [← h2]
            simp only [updateEntry, hW2e]
            rw [mapFind_mapInsert_self]
            simp only [Option.getD_some]
        · simp only [Bool.not_eq_true] at hs2
          simp only [hs2, Bool.not_false, if_true, Option.some.injEq, Prod.mk.injEq] at h
          obtain ⟨h1, _, _⟩ := h
          rw [← h1, hs2] at hst
          exact absurd hst (by decide)
    · simp only [Bool.not_eq_true] at hsB
      simp only [hsB, Bool.not_false, if_true, Option.some.injEq, Prod.mk.injEq] at h
      obtain ⟨h1, _, _⟩ := h
      rw [← h1, hsB] at hst
      exact absurd hst (by decide)

theorem completeWrite_step (w : BundleWriter) (env : Env) (key : String) (dtype : DataType)
    (shape : List Nat) (content : Bytes) (st : Status) (w1 : BundleWriter) (env1 : Env)
    (h : w.completeWrite env key dtype shape content = some (st, w1, env1))
    (hst : st.ok = true) (hinv : w.Inv env) :
    w1.Inv env1 ∧ mapFind w.entries_ key = none ∧
    (∀ k e, k ≠ key → mapFind w.entries_ k = some e →
      ∃ e1, mapFind w1.entries_ k = some e1 ∧ e1.offset = e.offset ∧ e1.size = e.size) ∧
    ∃ E, mapFind w1.entries_ key = some E ∧ E.offset = w.size_ ∧
      E.offset + E.size ≤ w1.size_ := by
  obtain ⟨out, c, hout, hc⟩ : ∃ out c, w.out_ = some out ∧ out.content env = some c := by
    obtain ⟨_, _, _, out, c, hout, hc, _⟩ := hinv
    exact ⟨out, c, hout, hc⟩
  unfold BundleWriter.completeWrite at h
  cases hB : w.AddTensorHeaderShape env key dtype shape with
  | none => simp [hB] at h
  | some res =>
    obtain ⟨sB, W1, eB⟩ := res
    simp only [hB] at h
    by_cases hsB : sB.ok = true
    · simp only [hsB, Bool.not_true, Bool.false_eq_true, if_false] at h
      obtain ⟨hk, hfresh, heB, hW1⟩ :=
        AddTensorHeaderShape_ok w env key dtype shape sB W1 eB out hB hsB hout
      subst heB
      have hW1o : W1.out_ = some out.clear_crc32c := by rw [hW1]
      have hW1g : W1.entry_seg_ = some key := by rw [hW1]
      have hW1e : W1.entries_ = mapInsert w.entries_ key
          { dtype := dtype, shape := some shape, offset := w.size_ } := by rw [hW1]
      have hW1s : W1.size_ = w.size_ := by rw [hW1]
      have hc0 : out.clear_crc32c.content eB = some c := hc
      unfold BundleWriter.AddCompeleteData at h
      simp only [hW1o] at h
      cases hA : out.clear_crc32c.Append eB content with
      | none => simp [hA] at h
      | some res2 =>
        obtain ⟨s2, out2, e2⟩ := res2
        simp only [hA] at h
        by_cases hs2 : s2.ok = true
        · simp only [hs2, Bool.not_true, Bool.false_eq_true, if_false, hW1g,
            Option.some.injEq, Prod.mk.injEq] at h
          obtain ⟨_, h2, h3⟩ := h
          subst h3
          obtain ⟨a1, _, a3, _⟩ := Append_ok _ eB content c s2 out2 e2 hA hs2 hc0
          refine header_write_step w w1 eB e2 key
            { dtype := dtype, shape := some shape, offset := w.size_ }
            { dtype := dtype, shape := some shape, offset := w.size_,
              size := content.length, crc32c := crc32c.Mask out2.crc32c_ }
            out out2 c content hinv hk hfresh ?_ ?_ ?_ hout hc ?_ a3 a1 ?_ ?_ rfl rfl
          · rw [← h2, hW1]
          · rw [← h2, hW1]
          · rw [← h2, hW1]
          · rw [← h2]
          · rw [← h2]
            simp only [hW1s]
          · rw [← h2]
            simp only [updateEntry, hW1e]
            rw [mapFind_mapInsert_self]
            simp only [Option.getD_some]
        · simp only [Bool.not_eq_true] at hs2
          simp only [hs2, Bool.not_false, if_true, Option.some.injEq, Prod.mk.injEq] at h
          obtain ⟨h1, _, _⟩ := h
          rw [← h1, hs2] at hst
          exact absurd hst (by decide)
    · simp only [Bool.not_eq_true] at hsB
      simp only [hsB, Bool.not_false, if_true, Option.some.injEq, Prod.mk.injEq] at h
      obtain ⟨h1, _, _⟩ := h
      rw [← h1, hsB] at hst
      exact absurd hst (by decide)

theorem write_step (w : BundleWriter) (env : Env) (kLittleEndian : Bool) (op : WriteOp)
    (st : Status) (w1 : BundleWriter) (env1 : Env)
    (h : w.write env kLittleEndian op = some (st, w1, env1)) (hst : st.ok = true)
    (hinv : w.Inv env) (hwf : op.WF) :
    w1.Inv env1 ∧ mapFind w.entries_ op.payloadKey = none ∧
    (∀ k e, k ≠ op.payloadKey → mapFind w.entries_ k = some e →
      ∃ e1, mapFind w1.entries_ k = some e1 ∧ e1.offset = e.offset ∧ e1.size = e.size) ∧
    ∃ E, mapFind w1.entries_ op.payloadKey = some E ∧ E.offset = w.size_ ∧
      E.offset + E.size ≤ w1.size_ := by
  cases op with
  | Add key val => exact Add_step w env kLittleEndian key val st w1 env1 h hst hinv hwf
  | AddSlice key shape slice val =>
    exact AddSlice_step w env kLittleEndian key shape slice val st w1 env1 h hst hinv hwf
  | complete key dtype shape content =>
    exact completeWrite_step w env key dtype shape content st w1 env1 h hst hinv
  | segments key dtype shape segs =>
    exact segmentWrite_step w env key dtype shape segs st w1 env1 h hst hinv
  | chunks key dtype shape chunks =>
    exact chunkedWrite_step w env key dtype shape chunks st w1 env1 h hst hinv

theorem writes_ok (kLittleEndian : Bool) : ∀ (ops : List WriteOp) (w : BundleWriter) (env : Env)
    (log : List String) (st : Status) (w1 : BundleWriter) (env1 : Env),
    w.writes env kLittleEndian ops = some (st, w1, env1) → st.ok = true → w.Inv env →
    w.payloadInv log → (∀ op ∈ ops, op.WF) →
    w1.Inv env1 ∧ w1.payloadInv (log ++ ops.map WriteOp.payloadKey) := by
  intro ops
  induction ops with
  | nil =>
    intro w env log st w1 env1 h _ hinv hK _
    simp only [BundleWriter.writes, Option.some.injEq, Prod.mk.injEq] at h
    obtain ⟨_, h2, h3⟩ := h
    subst h2 h3
    simp only [List.map_nil, List.append_nil]
    exact ⟨hinv, hK⟩
  | cons op rest ih =>
    intro w env log st w1 env1 h hst hinv hK hwf
    unfold BundleWriter.writes at h
    cases hop : w.write env kLittleEndian op with
    | none => simp [hop] at h
    | some res =>
      obtain ⟨s0, W, e0⟩ := res
      simp only [hop] at h
      by_cases hs : s0.ok = true
      · simp only [hs, Bool.not_true, Bool.false_eq_true, if_false] at h
        obtain ⟨jinv, jfresh, jsame, E, jE, joff, jsz⟩ :=
          write_step w env kLittleEndian op s0 W e0 hop hs hinv (hwf op (List.mem_cons_self _ _))
        have hK1 := payloadInv_step w W log op.payloadKey E hK jfresh jsame jE
          (Nat.le_of_eq joff.symm) jsz
        obtain ⟨r1, r2⟩ := ih W e0 _ st w1 env1 h hst jinv hK1
          (fun o ho => hwf o (List.mem_cons_of_mem _ ho))
        refine ⟨r1, ?_⟩
        simp only [List.map_cons]
        rw [List.append_assoc] at r2
        exact r2
      · simp only [Bool.not_eq_true] at hs
        simp only [hs, Bool.not_false, if_true, Option.some.injEq, Prod.mk.injEq] at h
        obtain ⟨h1, _, _⟩ := h
        rw [← h1, hs] at hst
        exact absurd hst (by decide)

/-- C14 (amended): from a writer whose `size_` is the number of bytes written to its
data file, after a sequence of complete writes that all return OK (`Add`, `AddSlice`,
`AddTensorHeader` with `AddCompeleteData`, `AddTensorHeader` with `AppendSegmentData`
calls and `EndSegmentData` given their total, `BeginWriteChunkData` with
`WriteChunkData` calls and `EndWriteChunkData` given their total), `size_` is again the
number of bytes written to the data file; the entries that hold the payloads of the
writes, in the order they were written, have non-decreasing offsets, each ends at or
before the offset of every later one, so no two ranges overlap, and each ends at or
before `size_`. -/
theorem offset_invariant (w : BundleWriter) (env : Env) (kLittleEndian : Bool)
    (ops : List WriteOp) (st : Status) (w1 : BundleWriter) (env1 : Env)
    (hinv : w.Inv env) (hwf : ∀ op ∈ ops, op.WF)
    (h : w.writes env kLittleEndian ops = some (st, w1, env1)) (hst : st.ok = true) :
    (∃ out c, w1.out_ = some out ∧ out.content env1 = some c ∧ w1.size_ = c.length) ∧
    (ops.map WriteOp.payloadKey).Pairwise (fun a b =>
      ∃ ea eb, mapFind w1.entries_ a = some ea ∧ mapFind w1.entries_ b = some eb ∧
        ea.offset ≤ eb.offset ∧ ea.offset + ea.size ≤ eb.offset) ∧
    ∀ a ∈ ops.map WriteOp.payloadKey,
      ∃ e, mapFind w1.entries_ a = some e ∧ e.offset + e.size ≤ w1.size_ := by
  have hK0 : w.payloadInv [] := ⟨fun k hk => absurd hk (List.not_mem_nil k), List.Pairwise.nil⟩
  obtain ⟨⟨_, _, _, hsz⟩, hK1, hK2⟩ :=
    writes_ok kLittleEndian ops w env [] st w1 env1 h hst hinv hK0 hwf
  simp only [List.nil_append] at hK1 hK2
  refine ⟨hsz, ?_, hK1⟩
  refine hK2.imp ?_
  rintro a b ⟨ea, eb, h1, h2, h3⟩
  exact ⟨ea, eb, h1, h2, by omega, h3⟩

theorem offset_invariant_witness :
    exFresh.1.writes exFresh.2 true exWrites = some (Status.OK, exWritten.1, exWritten.2) ∧
    exWritten.1.size_ = 22 ∧
    (exWritten.1.entries_.map (fun p => (p.1, p.2.offset, p.2.size))) =
      [(EncodeTensorNameSlice "b" (TensorSlice.mk [(0, 2)]), 8, 4), ("a", 0, 8), ("b", 0, 0),
        ("c", 12, 2), ("d", 14, 4), ("e", 18, 4)] ∧
    ((∃ out c, exWritten.1.out_ = some out ∧ out.content exWritten.2 = some c ∧
      exWritten.1.size_ = c.length) ∧
    (exWrites.map WriteOp.payloadKey).Pairwise (fun a b =>
      ∃ ea eb, mapFind exWritten.1.entries_ a = some ea ∧
        mapFind exWritten.1.entries_ b = some eb ∧
        ea.offset ≤ eb.offset ∧ ea.offset + ea.size ≤ eb.offset) ∧
    ∀ a ∈ exWrites.map WriteOp.payloadKey,
      ∃ e, mapFind exWritten.1.entries_ a = some e ∧
        e.offset + e.size ≤ exWritten.1.size_) :=
  ⟨by decide!, by decide!, by decide!,
    offset_invariant exFresh.1 exFresh.2 true exWrites Status.OK exWritten.1 exWritten.2
      (create_Inv {} "dir/ckpt" 1 11 22 (by decide!)) (by decide!) (by decide!) (by decide!)⟩

/-- C14 (as stated, refuted): after `Add("a", ...)` and `Add("c", ...)` of eight bytes
each, the entry of "c" has offset 8; `AddSlice("b", [4], slice, tensor)` then returns OK
and writes, besides the entry of the slice at offset 16, the entry of the full tensor
"b", which was not in the catalog before and has offset 0 and size 0: an entry written
later has a smaller offset. -/
theorem AddSlice_full_entry_offset :
    (mapFind exAddedAC.1.entries_ "c").map (fun e => (e.offset, e.size)) = some (8, 8) ∧
    mapFind exAddedAC.1.entries_ "b" = none ∧
    (exAddedAC.1.AddSlice exAddedAC.2 true "b" [4] (TensorSlice.mk [(0, 2)])
      (Tensor.mk DT_INT16 [2] [1, 2, 3, 4] [])).map (fun res => res.1) = some Status.OK ∧
    (mapFind exSlicedB.1.entries_ "c").map (fun e => (e.offset, e.size)) = some (8, 8) ∧
    (mapFind exSlicedB.1.entries_ "b").map (fun e => (e.offset, e.size)) = some (0, 0) ∧
    (mapFind exSlicedB.1.entries_ (EncodeTensorNameSlice "b" (TensorSlice.mk [(0, 2)]))).map
      (fun e => (e.offset, e.size)) = some (16, 4) := by
  decide!

end tfplus

namespace tfplus

open DataType

/-! ## C4: rows by index on a host of the other byte order -/

/-- C4 (the code at the failing input): the bundle holds the `int16` tensor of shape
[2, 2] with the bytes 1..8, written on a little-endian host.  A reader on a big-endian
host swaps bytes: `Lookup("a")` returns the bytes 2 1 4 3 6 5 8 7, so row 1 is 6 5 8 7;
`LookupWithIndices("a", out, [1])` returns OK with the row 5 6 7 8, the bytes of the
file without the swap.  On a little-endian host the two agree. -/
theorem LookupWithIndices_no_byte_swap :
    exReaderBig.need_to_swap_bytes_ = true ∧
    (exReaderBig.Lookup exFinished.2 false "a" Tensor.empty).map (fun res => (res.1, res.2.1)) =
      some (Status.OK, Tensor.mk DT_INT16 [2, 2] [2, 1, 4, 3, 6, 5, 8, 7] []) ∧
    (exReaderBig.LookupWithIndices exFinished.2 "a" exRowOut [1]).map
        (fun res => (res.1, res.2.1)) =
      some (Status.OK, Tensor.mk DT_INT16 [1, 2] [5, 6, 7, 8] []) ∧
    (exReaderLittle.Lookup exFinished.2 true "a" Tensor.empty).map
        (fun res => (res.1, res.2.1)) =
      some (Status.OK, Tensor.mk DT_INT16 [2, 2] [1, 2, 3, 4, 5, 6, 7, 8] []) ∧
    (exReaderLittle.LookupWithIndices exFinished.2 "a" exRowOut [1]).map
        (fun res => (res.1, res.2.1)) =
      some (Status.OK, Tensor.mk DT_INT16 [1, 2] [5, 6, 7, 8] []) := by
  decide!

end tfplus

namespace tfplus

open DataType

/-! ## C5: the indices of slices and of their intersections -/

theorem isFullExtent_iff (e : Int × Int) :
    TensorSlice.isFullExtent e = true ↔ e.2 = -1 ∧ e.1 = 0 := by
  simp [TensorSlice.isFullExtent, kFullExtent]

theorem inExtents_length : ∀ (ext : List (Int × Int)) (shape p : List Nat),
    inExtents ext shape p = true → ext.length = shape.length ∧ p.length = shape.length := by
  intro ext
  induction ext with
  | nil =>
    intro shape p h
    cases shape <;> cases p <;> simp_all [inExtents]
  | cons e es ih =>
    intro shape p h
    cases shape with
    | nil => simp [inExtents] at h
    | cons d ds =>
      cases p with
      | nil => simp [inExtents] at h
      | cons i is =>
        simp only [inExtents, Bool.and_eq_true] at h
        obtain ⟨h1, h2⟩ := ih ds is h.2
        simp [h1, h2]

theorem validExtents_length : ∀ (ext : List (Int × Int)) (shape : List Nat),
    validExtents ext shape = true → ext.length = shape.length := by
  intro ext
  induction ext with
  | nil => intro shape h; cases shape <;> simp_all [validExtents]
  | cons e es ih =>
    intro shape h
    cases shape with
    | nil => simp [validExtents] at h
    | cons d ds =>
      simp only [validExtents, Bool.and_eq_true] at h
      simp [ih ds h.2]

theorem mem_extentsPoints : ∀ (ext : List (Int × Int)) (shape p : List Nat),
    p ∈ extentsPoints ext shape ↔ inExtents ext shape p = true := by
  intro ext
  induction ext with
  | nil =>
    intro shape p
    cases shape <;> cases p <;> simp [extentsPoints, inExtents]
  | cons e es ih =>
    intro shape p
    cases shape with
    | nil => simp [extentsPoints, inExtents]
    | cons d ds =>
      cases p with
      | nil => simp [extentsPoints, inExtents]
      | cons i is =>
        simp only [extentsPoints, inExtents, List.mem_flatMap, List.mem_range, List.mem_map,
          List.cons.injEq, Bool.and_eq_true, decide_eq_true_eq]
        constructor
        · rintro ⟨j, hj, t, ht, h1, h2⟩
          subst h2
          exact ⟨⟨by omega, by omega⟩, (ih ds t).1 ht⟩
        · rintro ⟨⟨h1, h2⟩, h3⟩
          exact ⟨i - extentStart e, by omega, is, (ih ds is).2 h3, by omega, rfl⟩

theorem length_extentsPoints : ∀ (ext : List (Int × Int)) (shape : List Nat),
    ext.length = shape.length →
    (extentsPoints ext shape).length = (List.zipWith extentLength ext shape).prod := by
  intro ext
  induction ext with
  | nil =>
    intro shape h
    cases shape with
    | nil => simp [extentsPoints]
    | cons d ds => simp at h
  | cons e es ih =>
    intro shape h
    cases shape with
    | nil => simp at h
    | cons d ds =>
      simp only [List.length_cons, Nat.add_right_cancel_iff] at h
      simp only [extentsPoints, List.length_flatMap, List.length_map, List.zipWith_cons_cons,
        List.prod_cons, ih ds h]
      have hc : (List.length ∘ fun j =>
          List.map (fun t => (extentStart e + j) :: t) (extentsPoints es ds)) =
          fun _ => (extentsPoints es ds).length := by
        funext j
        simp
      rw [hc, List.map_const', List.sum_replicate, List.length_range, ih ds h]
      simp

theorem sliceShapeAux_valid : ∀ (ext : List (Int × Int)) (shape acc : List Nat),
    validExtents ext shape = true →
    TensorSlice.sliceShapeAux ext shape acc =
      TensorSlice.ShapeResult.ok (acc.reverse ++ List.zipWith extentLength ext shape) := by
  intro ext
  induction ext with
  | nil =>
    intro shape acc h
    cases shape with
    | nil => simp [TensorSlice.sliceShapeAux]
    | cons d ds => simp [validExtents] at h
  | cons e es ih =>
    intro shape acc h
    cases shape with
    | nil => simp [validExtents] at h
    | cons d ds =>
      simp only [validExtents, Bool.and_eq_true, Bool.or_eq_true, decide_eq_true_eq] at h
      obtain ⟨h1, h2⟩ := h
      unfold TensorSlice.sliceShapeAux
      by_cases hf : TensorSlice.isFullExtent e = true
      · simp only [hf, if_true]
        rw [ih ds _ h2]
        simp [extentLength, hf]
      · simp only [hf, Bool.false_eq_true, if_false]
        rcases h1 with h1 | ⟨⟨h1, h3⟩, h4⟩
        · exact absurd h1 hf
        · have h5 : ¬ (e.2 < 0) := by omega
          simp only [h4, if_true, h5, if_false]
          rw [ih ds _ h2]
          simp [extentLength, hf]

theorem SliceTensorShape_valid (s : TensorSlice) (shape : List Nat)
    (h : s.validFor shape = true) :
    s.SliceTensorShape shape = TensorSlice.ShapeResult.ok (s.shapeIn shape) := by
  unfold TensorSlice.SliceTensorShape
  have hl := validExtents_length _ _ h
  have hd : ¬ (shape.length ≠ s.dims) := by
    simp [TensorSlice.dims, hl]
  simp only [hd, if_false]
  rw [sliceShapeAux_valid _ _ _ h]
  simp [TensorSlice.shapeIn]

/-- The indices of a valid extent lie within the dimension. -/
theorem validExtent_bound (e : Int × Int) (d : Nat)
    (h : TensorSlice.isFullExtent e = true ∨ (0 ≤ e.1 ∧ 0 < e.2 ∧ e.1 + e.2 ≤ (d : Int))) :
    extentStart e + extentLength e d ≤ d := by
  unfold extentStart extentLength
  by_cases hf : TensorSlice.isFullExtent e = true
  · simp [hf]
  · simp only [hf, Bool.false_eq_true, if_false]
    rcases h with h | h
    · exact absurd h hf
    · omega

theorem and3_congr (A B C D E F : Prop) [Decidable A] [Decidable B] [Decidable C]
    [Decidable D] [Decidable E] [Decidable F] (r1 r2 : Bool)
    (h : (A ∧ B) ↔ ((C ∧ D) ∧ (E ∧ F))) :
    (decide A && decide B && (r1 && r2)) =
      ((decide C && decide D && r1) && (decide E && decide F && r2)) := by
  rw [Bool.eq_iff_iff]
  simp only [Bool.and_eq_true, decide_eq_true_eq]
  tauto

theorem and3_false (C D E F : Prop) [Decidable C] [Decidable D] [Decidable E] [Decidable F]
    (r1 r2 : Bool) (h : ¬ ((C ∧ D) ∧ (E ∧ F)) ∨ (r1 && r2) = false) :
    ((decide C && decide D && r1) && (decide E && decide F && r2)) = false := by
  rw [Bool.eq_false_iff]
  simp only [ne_eq, Bool.and_eq_true, decide_eq_true_eq]
  rcases h with h | h
  · tauto
  · rw [Bool.eq_false_iff] at h
    simp only [ne_eq, Bool.and_eq_true] at h
    tauto

/-- The intersection of two slices of a tensor: its indices are the common indices,
and there are none when `Intersect` finds no intersection. -/
theorem intersectAux_spec : ∀ (x y : List (Int × Int)) (shape : List Nat),
    validExtents x shape = true → validExtents y shape = true →
    (∀ t, intersectAux x y = some t →
      validExtents t shape = true ∧
      ∀ p, inExtents t shape p = (inExtents x shape p && inExtents y shape p)) ∧
    (intersectAux x y = none →
      ∀ p, (inExtents x shape p && inExtents y shape p) = false) := by
  intro x
  induction x with
  | nil =>
    intro y shape hx hy
    cases shape with
    | nil =>
      cases y with
      | nil =>
        refine ⟨?_, ?_⟩
        · intro t ht
          simp only [intersectAux, Option.some.injEq] at ht
          subst ht
          exact ⟨rfl, fun p => by simp⟩
        · intro h
          simp [intersectAux] at h
      | cons f fs => simp [validExtents] at hy
    | cons d ds => simp [validExtents] at hx
  | cons e es ih =>
    intro y shape hx hy
    cases shape with
    | nil => simp [validExtents] at hx
    | cons d ds =>
      cases y with
      | nil => simp [validExtents] at hy
      | cons f fs =>
        simp only [validExtents, Bool.and_eq_true, Bool.or_eq_true, decide_eq_true_eq] at hx hy
        obtain ⟨hx1, hx2⟩ := hx
        obtain ⟨hy1, hy2⟩ := hy
        have hx1b : TensorSlice.isFullExtent e = true ∨
            (0 ≤ e.1 ∧ 0 < e.2 ∧ e.1 + e.2 ≤ (d : Int)) := by
          rcases hx1 with h | ⟨⟨h1, h2⟩, h3⟩
          · exact Or.inl h
          · exact Or.inr ⟨h1, h2, h3⟩
        have hy1b : TensorSlice.isFullExtent f = true ∨
            (0 ≤ f.1 ∧ 0 < f.2 ∧ f.1 + f.2 ≤ (d : Int)) := by
          rcases hy1 with h | ⟨⟨h1, h2⟩, h3⟩
          · exact Or.inl h
          · exact Or.inr ⟨h1, h2, h3⟩
        have bx := validExtent_bound e d hx1b
        have bY := validExtent_bound f d hy1b
        obtain ⟨ih1, ih2⟩ := ih fs ds hx2 hy2
        have hnone : intersectAux es fs = none → ∀ p,
            (inExtents (e :: es) (d :: ds) p && inExtents (f :: fs) (d :: ds) p) = false := by
          intro hn p
          cases p with
          | nil => simp [inExtents]
          | cons i is =>
            simp only [inExtents]
            exact and3_false _ _ _ _ _ _ (Or.inr (ih2 hn is))
        unfold intersectAux
        by_cases he : TensorSlice.isFullExtent e = true
        · simp only [he, if_true, Option.map_eq_some', Option.map_eq_none']
          have hes : extentStart e = 0 := by simp [extentStart, he]
          have hel : extentLength e d = d := by simp [extentLength, he]
          refine ⟨?_, hnone⟩
          rintro t ⟨t0, ht0, rfl⟩
          obtain ⟨j1, j2⟩ := ih1 t0 ht0
          refine ⟨?_, ?_⟩
          · simp only [validExtents, Bool.and_eq_true, Bool.or_eq_true, decide_eq_true_eq]
            exact ⟨hy1, j1⟩
          · intro p
            cases p with
            | nil => simp [inExtents]
            | cons i is =>
              simp only [inExtents, j2]
              refine and3_congr _ _ _ _ _ _ _ _ ?_
              omega
        · simp only [he, Bool.false_eq_true, if_false]
          have hes : extentStart e = e.1.toNat := by simp [extentStart, he]
          have hel : extentLength e d = e.2.toNat := by simp [extentLength, he]
          have hxe : 0 ≤ e.1 ∧ 0 < e.2 ∧ e.1 + e.2 ≤ (d : Int) := by
            rcases hx1b with h | h
            · exact absurd h he
            · exact h
          by_cases hf : TensorSlice.isFullExtent f = true
          · simp only [hf, if_true, Option.map_eq_some', Option.map_eq_none']
            have hfs : extentStart f = 0 := by simp [extentStart, hf]
            have hfl : extentLength f d = d := by simp [extentLength, hf]
            refine ⟨?_, hnone⟩
            rintro t ⟨t0, ht0, rfl⟩
            obtain ⟨j1, j2⟩ := ih1 t0 ht0
            refine ⟨?_, ?_⟩
            · simp only [validExtents, Bool.and_eq_true, Bool.or_eq_true, decide_eq_true_eq]
              exact ⟨hx1, j1⟩
            · intro p
              cases p with
              | nil => simp [inExtents]
              | cons i is =>
                simp only [inExtents, j2]
                refine and3_congr _ _ _ _ _ _ _ _ ?_
                omega
          · simp only [hf, Bool.false_eq_true, if_false]
            have hfs : extentStart f = f.1.toNat := by simp [extentStart, hf]
            have hfl : extentLength f d = f.2.toNat := by simp [extentLength, hf]
            have hyf : 0 ≤ f.1 ∧ 0 < f.2 ∧ f.1 + f.2 ≤ (d : Int) := by
              rcases hy1b with h | h
              · exact absurd h hf
              · exact h
            by_cases hl : min (e.1 + e.2) (f.1 + f.2) - max e.1 f.1 > 0
            · simp only [hl, if_true, Option.map_eq_some', Option.map_eq_none']
              have hnf : TensorSlice.isFullExtent
                  (max e.1 f.1, min (e.1 + e.2) (f.1 + f.2) - max e.1 f.1) = false := by
                simp only [TensorSlice.isFullExtent, kFullExtent, Bool.and_eq_false_iff,
                  decide_eq_false_iff_not]
                left
                omega
              have hts : extentStart (max e.1 f.1,
                  min (e.1 + e.2) (f.1 + f.2) - max e.1 f.1) = (max e.1 f.1).toNat := by
                simp [extentStart, hnf]
              have htl : extentLength (max e.1 f.1,
                  min (e.1 + e.2) (f.1 + f.2) - max e.1 f.1) d =
                  (min (e.1 + e.2) (f.1 + f.2) - max e.1 f.1).toNat := by
                simp [extentLength, hnf]
              refine ⟨?_, hnone⟩
              rintro t ⟨t0, ht0, rfl⟩
              obtain ⟨j1, j2⟩ := ih1 t0 ht0
              refine ⟨?_, ?_⟩
              · simp only [validExtents, Bool.and_eq_true, Bool.or_eq_true, decide_eq_true_eq]
                refine ⟨Or.inr ⟨⟨?_, ?_⟩, ?_⟩, j1⟩ <;> omega
              · intro p
                cases p with
                | nil => simp [inExtents]
                | cons i is =>
                  simp only [inExtents, j2]
                  refine and3_congr _ _ _ _ _ _ _ _ ?_
                  rw [hts, htl, hes, hel, hfs, hfl]
                  omega
            · simp only [hl, if_false]
              refine ⟨fun t ht => (by cases ht), ?_⟩
              intro _ p
              cases p with
              | nil => simp [inExtents]
              | cons i is =>
                simp only [inExtents]
                refine and3_false _ _ _ _ _ _ (Or.inl ?_)
                rw [hes, hel, hfs, hfl]
                omega

end tfplus

namespace tfplus

open DataType

/-! ## C5: counting the indices a set of slices covers -/

theorem nodup_extentsPoints : ∀ (ext : List (Int × Int)) (shape : List Nat),
    (extentsPoints ext shape).Nodup := by
  intro ext
  induction ext with
  | nil =>
    intro shape
    cases shape <;> simp [extentsPoints]
  | cons e es ih =>
    intro shape
    cases shape with
    | nil => simp [extentsPoints]
    | cons d ds =>
      unfold extentsPoints
      rw [List.nodup_flatMap]
      refine ⟨?_, ?_⟩
      · intro j _
        refine List.Nodup.map ?_ (ih ds)
        intro a b hab
        simp only [List.cons.injEq, true_and] at hab
        exact hab
      · refine List.Pairwise.imp_of_mem ?_ (List.nodup_range _)
        intro a b _ _ hab
        simp only [Function.onFun, List.disjoint_left, List.mem_map, not_exists, not_and]
        rintro p ⟨t, _, rfl⟩ t2 _ h
        simp only [List.cons.injEq] at h
        omega

/-- Two lists without repetitions and with the same members have the same length. -/
theorem length_eq_of_nodup {α : Type} (l1 l2 : List α) (h1 : l1.Nodup) (h2 : l2.Nodup)
    (h : ∀ a, a ∈ l1 ↔ a ∈ l2) : l1.length = l2.length :=
  ((List.perm_ext_iff_of_nodup h1 h2).2 h).length_eq

theorem countP_intersect (qe xe : List (Int × Int)) (shape : List Nat)
    (hq : validExtents qe shape = true) (hx : validExtents xe shape = true) :
    (∀ t, intersectAux qe xe = some t →
      (extentsPoints qe shape).countP (fun p => inExtents xe shape p) =
        (List.zipWith extentLength t shape).prod) ∧
    (intersectAux qe xe = none →
      (extentsPoints qe shape).countP (fun p => inExtents xe shape p) = 0) := by
  obtain ⟨h1, h2⟩ := intersectAux_spec qe xe shape hq hx
  constructor
  · intro t ht
    obtain ⟨hv, hp⟩ := h1 t ht
    rw [List.countP_eq_length_filter,
      ← length_extentsPoints t shape (validExtents_length _ _ hv)]
    refine length_eq_of_nodup _ _ ((nodup_extentsPoints qe shape).filter _)
      (nodup_extentsPoints t shape) ?_
    intro p
    simp only [List.mem_filter, mem_extentsPoints, hp, Bool.and_eq_true]
  · intro hn
    rw [List.countP_eq_zero]
    intro p hp
    have := h2 hn p
    rw [mem_extentsPoints] at hp
    simp only [hp, Bool.true_and] at this
    simp [this]

theorem countP_eq_sum {α : Type} (P : α → Bool) (L : List α) :
    L.countP P = (L.map (fun p => if P p then 1 else 0)).sum := by
  induction L with
  | nil => simp
  | cons a L ih =>
    rw [List.countP_cons, ih]
    simp only [List.map_cons, List.sum_cons]
    omega

theorem sum_map_add {α : Type} (f g : α → Nat) (L : List α) :
    (L.map (fun p => f p + g p)).sum = (L.map f).sum + (L.map g).sum := by
  induction L with
  | nil => simp
  | cons a L ih =>
    simp only [List.map_cons, List.sum_cons, ih]
    omega

/-- Counting the pairs of a slice and an index it contains, by slice and by index. -/
theorem double_count {α β : Type} (P : α → β → Bool) (S : List α) (L : List β) :
    (S.map (fun x => L.countP (fun p => P x p))).sum =
      (L.map (fun p => S.countP (fun x => P x p))).sum := by
  induction S with
  | nil => simp
  | cons x S ih =>
    simp only [List.map_cons, List.sum_cons, ih, List.countP_cons]
    rw [countP_eq_sum, ← sum_map_add]
    congr 1
    apply List.map_congr_left
    intro p _
    omega

theorem sum_eq_length_iff {α : Type} (f : α → Nat) : ∀ (L : List α),
    (∀ p ∈ L, f p ≤ 1) → ((L.map f).sum = L.length ↔ ∀ p ∈ L, f p = 1) := by
  intro L
  induction L with
  | nil => simp
  | cons a L ih =>
    intro h
    have ha := h a (List.mem_cons_self _ _)
    have hL := ih (fun p hp => h p (List.mem_cons_of_mem _ hp))
    have hle : (L.map f).sum ≤ L.length := by
      clear hL ih ha
      induction L with
      | nil => simp
      | cons b L ih2 =>
        have hb := h b (List.mem_cons_of_mem _ (List.mem_cons_self _ _))
        have := ih2 (fun p hp => by
          rcases List.mem_cons.1 hp with rfl | hp
          · exact h p (List.mem_cons_self _ _)
          · exact h p (List.mem_cons_of_mem _ (List.mem_cons_of_mem _ hp)))
        simp only [List.map_cons, List.sum_cons, List.length_cons]
        omega
    simp only [List.map_cons, List.sum_cons, List.length_cons, List.mem_cons, forall_eq_or_imp]
    constructor
    · intro hs
      have h1 : f a = 1 := by omega
      exact ⟨h1, hL.1 (by omega)⟩
    · rintro ⟨h1, h2⟩
      have := hL.2 h2
      omega

theorem not_overlaps_disjoint (a b : TensorSlice) (shape : List Nat)
    (ha : a.validFor shape = true) (hb : b.validFor shape = true)
    (h : a.Overlaps b = false) (p : List Nat) :
    (a.contains shape p && b.contains shape p) = false := by
  unfold TensorSlice.Overlaps TensorSlice.Intersect at h
  have hn : intersectAux a.extents b.extents = none := by
    cases hi : intersectAux a.extents b.extents with
    | none => rfl
    | some t => simp [hi] at h
  exact (intersectAux_spec a.extents b.extents shape ha hb).2 hn p

theorem countP_contains_le_one (shape p : List Nat) : ∀ (S : List TensorSlice),
    (∀ x ∈ S, x.validFor shape = true) → S.Pairwise (fun a b => a.Overlaps b = false) →
    S.countP (fun x => x.contains shape p) ≤ 1 := by
  intro S
  induction S with
  | nil => intro _ _; simp
  | cons x S ih =>
    intro hv hp
    rw [List.pairwise_cons] at hp
    have h1 := ih (fun y hy => hv y (List.mem_cons_of_mem _ hy)) hp.2
    rw [List.countP_cons]
    by_cases hx : x.contains shape p = true
    · have h0 : S.countP (fun y => y.contains shape p) = 0 := by
        rw [List.countP_eq_zero]
        intro y hy
        have := not_overlaps_disjoint x y shape (hv x (List.mem_cons_self _ _))
          (hv y (List.mem_cons_of_mem _ hy)) (hp.1 y hy) p
        simp only [hx, Bool.true_and] at this
        simp [this]
      simp only [hx, if_true, h0]
      omega
    · simp only [hx, Bool.false_eq_true, if_false]
      omega

/-- The sum of the indices of `L` that the slices of `S` contain is the length of `L`
exactly when every index of `L` lies in a slice of `S`. -/
theorem cover_count (shape : List Nat) (S : List TensorSlice) (L : List (List Nat))
    (hv : ∀ x ∈ S, x.validFor shape = true)
    (hp : S.Pairwise (fun a b => a.Overlaps b = false)) :
    (S.map (fun x => L.countP (fun p => x.contains shape p))).sum = L.length ↔
      ∀ p ∈ L, ∃ x ∈ S, x.contains shape p = true := by
  rw [double_count (fun x p => x.contains shape p) S L]
  rw [sum_eq_length_iff _ L (fun p _ => countP_contains_le_one shape p S hv hp)]
  constructor
  · intro h p hpL
    have h1 := h p hpL
    have h2 : 0 < S.countP (fun x => x.contains shape p) := by omega
    rw [List.countP_pos_iff] at h2
    obtain ⟨x, hx, hc⟩ := h2
    exact ⟨x, hx, hc⟩
  · intro h p hpL
    obtain ⟨x, hx, hc⟩ := h p hpL
    have h2 : 0 < S.countP (fun x => x.contains shape p) :=
      List.countP_pos_iff.2 ⟨x, hx, hc⟩
    have h3 := countP_contains_le_one shape p S hv hp
    omega

theorem queryLoop_spec (shape : List Nat) (q : TensorSlice) (hq : q.validFor shape = true) :
    ∀ (S : List TensorSlice) (n : Nat) (res : List TensorSlice),
    (∀ x ∈ S, x.validFor shape = true) →
    TensorSliceSet.queryLoop shape q S n res =
      some (some (n + (S.map (fun x =>
          (extentsPoints q.extents shape).countP (fun p => x.contains shape p))).sum,
        res ++ S.filter (fun x => (q.Intersect x).isSome))) := by
  intro S
  induction S with
  | nil => intro n res _; simp [TensorSliceSet.queryLoop]
  | cons x S ih =>
    intro n res hv
    have hx := hv x (List.mem_cons_self _ _)
    obtain ⟨c1, c2⟩ := countP_intersect q.extents x.extents shape hq hx
    obtain ⟨s1, _⟩ := intersectAux_spec q.extents x.extents shape hq hx
    unfold TensorSliceSet.queryLoop
    cases hi : intersectAux q.extents x.extents with
    | none =>
      have hI : q.Intersect x = none := by simp [TensorSlice.Intersect, hi]
      simp only [hI]
      rw [ih n res (fun y hy => hv y (List.mem_cons_of_mem _ hy))]
      have h0 := c2 hi
      simp only [TensorSlice.contains] at h0 ⊢
      simp [List.filter_cons, hI, h0]
    | some t =>
      have hI : q.Intersect x = some ⟨t⟩ := by simp [TensorSlice.Intersect, hi]
      simp only [hI]
      have hvt : (TensorSlice.mk t).validFor shape = true := (s1 t hi).1
      rw [SliceTensorShape_valid _ _ hvt]
      simp only
      rw [ih _ _ (fun y hy => hv y (List.mem_cons_of_mem _ hy))]
      have h0 := c1 t hi
      simp only [TensorSlice.contains] at h0 ⊢
      simp only [List.map_cons, List.sum_cons, h0, TensorSlice.shapeIn, List.filter_cons, hI,
        Option.isSome_some, if_true, List.append_assoc, List.singleton_append]
      simp only [Nat.add_assoc]

/-- `QueryMeta` on a set of valid slices that do not overlap: a registered slice is
its own answer; another slice is answered by the registered slices that meet it when
they cover it, and not at all when they do not. -/
theorem QueryMeta_spec (tss : TensorSliceSet) (q : TensorSlice)
    (hq : q.validFor tss.shape_ = true)
    (hv : ∀ x ∈ tss.slices_, x.validFor tss.shape_ = true)
    (hp : tss.slices_.Pairwise (fun a b => a.Overlaps b = false)) :
    (q ∈ tss.slices_ → tss.QueryMeta q = some (some [q])) ∧
    (q ∉ tss.slices_ →
      (∀ p, q.contains tss.shape_ p = true → ∃ x ∈ tss.slices_, x.contains tss.shape_ p = true) →
      tss.QueryMeta q =
        some (some (tss.slices_.filter (fun x => (q.Intersect x).isSome)))) ∧
    (¬ (∀ p, q.contains tss.shape_ p = true →
        ∃ x ∈ tss.slices_, x.contains tss.shape_ p = true) →
      tss.QueryMeta q = some none) := by
  have hcov := cover_count tss.shape_ tss.slices_ (extentsPoints q.extents tss.shape_) hv hp
  rw [length_extentsPoints _ _ (validExtents_length _ _ hq)] at hcov
  have hmem : (∀ p ∈ extentsPoints q.extents tss.shape_,
      ∃ x ∈ tss.slices_, x.contains tss.shape_ p = true) ↔
      (∀ p, q.contains tss.shape_ p = true →
        ∃ x ∈ tss.slices_, x.contains tss.shape_ p = true) := by
    constructor
    · intro h p hpq
      exact h p ((mem_extentsPoints _ _ _).2 hpq)
    · intro h p hpq
      exact h p ((mem_extentsPoints _ _ _).1 hpq)
  rw [hmem] at hcov
  have hgen : q ∉ tss.slices_ → tss.QueryMeta q =
      if (List.zipWith extentLength q.extents tss.shape_).prod =
          (tss.slices_.map (fun x =>
            (extentsPoints q.extents tss.shape_).countP (fun p => x.contains tss.shape_ p))).sum
      then some (some (tss.slices_.filter (fun x => (q.Intersect x).isSome)))
      else some none := by
    intro hnm
    unfold TensorSliceSet.QueryMeta
    simp only [hnm, if_false]
    rw [SliceTensorShape_valid _ _ hq]
    simp only
    rw [queryLoop_spec tss.shape_ q hq tss.slices_ 0 [] hv]
    simp only [Nat.zero_add, List.nil_append, TensorSlice.shapeIn]
  refine ⟨?_, ?_, ?_⟩
  · intro h
    unfold TensorSliceSet.QueryMeta
    simp only [h, if_true]
  · intro hnm hc
    rw [hgen hnm, if_pos (hcov.2 hc).symm]
  · intro hnc
    have hnm : q ∉ tss.slices_ := by
      intro hm
      exact hnc (fun p hpq => ⟨q, hm, hpq⟩)
    rw [hgen hnm, if_neg]
    intro he
    exact hnc (hcov.1 he.symm)

end tfplus

namespace tfplus

open DataType

/-! ## C5: elements of a row-major buffer -/

theorem setElem_length (w : Nat) (data : Bytes) (k : Nat) (e : Bytes)
    (hk : k * w + w ≤ data.length) (he : e.length = w) :
    (setElem w data k e).length = data.length := by
  unfold setElem
  simp only [List.length_append, List.length_take, List.length_drop, he]
  omega

theorem getElem_length (w : Nat) (data : Bytes) (k : Nat) (hk : k * w + w ≤ data.length) :
    (getElem w data k).length = w := by
  unfold getElem
  simp only [List.length_take, List.length_drop]
  omega

theorem getElem_setElem_self (w : Nat) (data : Bytes) (k : Nat) (e : Bytes)
    (hk : k * w + w ≤ data.length) (he : e.length = w) :
    getElem w (setElem w data k e) k = e := by
  unfold getElem setElem
  have h1 : (List.take (k * w) data).length = k * w := by
    simp only [List.length_take]; omega
  have h2 : List.drop (k * w) (List.take (k * w) data) = [] := by
    rw [List.drop_eq_nil_iff]; omega
  have h3 : List.take w e = e := by
    rw [List.take_eq_self_iff]; omega
  rw [List.append_assoc, List.drop_append_of_le_length (by omega), h2,
    List.nil_append, List.take_append_of_le_length (by omega), h3]

theorem mul_succ_le (a b w : Nat) (h : a < b) : a * w + w ≤ b * w := by
  have := Nat.mul_le_mul_right w (Nat.succ_le_of_lt h)
  rw [Nat.succ_mul] at this
  exact this

theorem getElem_setElem_ne (w : Nat) (data : Bytes) (k k2 : Nat) (e : Bytes)
    (hk : k * w + w ≤ data.length) (he : e.length = w) (hne : k2 ≠ k) :
    getElem w (setElem w data k e) k2 = getElem w data k2 := by
  unfold getElem setElem
  have h1 : (List.take (k * w) data).length = k * w := by
    simp only [List.length_take]; omega
  rcases Nat.lt_or_gt_of_ne hne with hlt | hgt
  · have h2 := mul_succ_le k2 k w hlt
    rw [List.append_assoc, List.drop_append_of_le_length (by omega),
      List.take_append_of_le_length (by simp only [List.length_drop, h1]; omega),
      List.drop_take, List.take_take]
    congr 1
    omega
  · have h2 := mul_succ_le k k2 w hgt
    rw [List.drop_append_eq_append_drop, List.drop_append_eq_append_drop]
    have h3 : List.drop (k2 * w) (List.take (k * w) data) = [] := by
      rw [List.drop_eq_nil_iff]; omega
    have h4 : List.drop (k2 * w - (List.take (k * w) data).length) e = [] := by
      rw [List.drop_eq_nil_iff]; omega
    rw [h3, h4, List.nil_append, List.nil_append, List.drop_drop]
    congr 2
    simp only [List.length_append, h1, he]
    omega

/-! ## Row-major offsets -/

theorem flatIndex_lt : ∀ (shape idx : List Nat), List.Forall₂ (fun i d => i < d) idx shape →
    flatIndex shape idx < shape.prod := by
  intro shape
  induction shape with
  | nil =>
    intro idx h
    cases h
    simp [flatIndex]
  | cons d ds ih =>
    intro idx h
    cases h with
    | cons h1 h2 =>
      rename_i i is
      have := ih is h2
      simp only [flatIndex, List.prod_cons]
      calc i * ds.prod + flatIndex ds is < i * ds.prod + ds.prod := by omega
        _ = (i + 1) * ds.prod := by rw [Nat.succ_mul]
        _ ≤ d * ds.prod := Nat.mul_le_mul_right _ h1

theorem flatIndex_inj : ∀ (shape a b : List Nat), List.Forall₂ (fun i d => i < d) a shape →
    List.Forall₂ (fun i d => i < d) b shape → flatIndex shape a = flatIndex shape b → a = b := by
  intro shape
  induction shape with
  | nil =>
    intro a b ha hb _
    cases ha
    cases hb
    rfl
  | cons d ds ih =>
    intro a b ha hb h
    cases ha with
    | cons ha1 ha2 =>
      cases hb with
      | cons hb1 hb2 =>
        rename_i i is j js
        have fa := flatIndex_lt ds is ha2
        have fb := flatIndex_lt ds js hb2
        simp only [flatIndex] at h
        have hpos : 0 < ds.prod := by omega
        have hij : i = j := by
          have e1 : (i * ds.prod + flatIndex ds is) / ds.prod = i := by
            rw [Nat.add_comm, Nat.add_mul_div_right _ _ hpos, Nat.div_eq_of_lt fa, Nat.zero_add]
          have e2 : (j * ds.prod + flatIndex ds js) / ds.prod = j := by
            rw [Nat.add_comm, Nat.add_mul_div_right _ _ hpos, Nat.div_eq_of_lt fb, Nat.zero_add]
          rw [← e1, ← e2, h]
        subst hij
        have hf : flatIndex ds is = flatIndex ds js := by omega
        rw [ih is js ha2 hb2 hf]

theorem mem_boxIndices : ∀ (sizes j : List Nat),
    j ∈ boxIndices sizes ↔ List.Forall₂ (fun i d => i < d) j sizes := by
  intro sizes
  induction sizes with
  | nil =>
    intro j
    simp only [boxIndices, List.mem_singleton]
    constructor
    · rintro rfl; exact List.Forall₂.nil
    · intro h; cases h; rfl
  | cons n rest ih =>
    intro j
    simp only [boxIndices, List.mem_flatMap, List.mem_range, List.mem_map]
    constructor
    · rintro ⟨i, hi, t, ht, rfl⟩
      exact List.Forall₂.cons hi ((ih t).1 ht)
    · intro h
      cases h with
      | cons h1 h2 =>
        rename_i i t
        exact ⟨i, h1, t, (ih t).2 h2, rfl⟩

/-- A sequence of element copies into distinct places: every place copied to holds
the element copied, every other place is as before. -/
theorem foldl_setElem (w : Nat) (src : Bytes) (pd ps : List Nat → Nat) :
    ∀ (L : List (List Nat)) (dst : Bytes),
    (∀ j ∈ L, pd j * w + w ≤ dst.length) → (∀ j ∈ L, ps j * w + w ≤ src.length) →
    (∀ j ∈ L, ∀ j2 ∈ L, pd j = pd j2 → j = j2) →
    (L.foldl (fun acc j => setElem w acc (pd j) (getElem w src (ps j))) dst).length =
      dst.length ∧
    (∀ j ∈ L, getElem w
      (L.foldl (fun acc j => setElem w acc (pd j) (getElem w src (ps j))) dst) (pd j) =
        getElem w src (ps j)) ∧
    (∀ k, (∀ j ∈ L, pd j ≠ k) → getElem w
      (L.foldl (fun acc j => setElem w acc (pd j) (getElem w src (ps j))) dst) k =
        getElem w dst k) := by
  intro L
  induction L with
  | nil =>
    intro dst _ _ _
    exact ⟨rfl, fun j hj => absurd hj (List.not_mem_nil j), fun k _ => rfl⟩
  | cons j0 L ih =>
    intro dst hd hs hinj
    have hd0 := hd j0 (List.mem_cons_self _ _)
    have hs0 := hs j0 (List.mem_cons_self _ _)
    have hl0 := getElem_length w src (ps j0) hs0
    have hlen := setElem_length w dst (pd j0) _ hd0 hl0
    obtain ⟨i1, i2, i3⟩ := ih (setElem w dst (pd j0) (getElem w src (ps j0)))
      (fun j hj => by rw [hlen]; exact hd j (List.mem_cons_of_mem _ hj))
      (fun j hj => hs j (List.mem_cons_of_mem _ hj))
      (fun j hj j2 hj2 => hinj j (List.mem_cons_of_mem _ hj) j2 (List.mem_cons_of_mem _ hj2))
    simp only [List.foldl_cons]
    refine ⟨by rw [i1, hlen], ?_, ?_⟩
    · intro j hj
      by_cases hjL : j ∈ L
      · exact i2 j hjL
      · rcases List.mem_cons.1 hj with rfl | h
        · rw [i3 (pd j) (fun j2 hj2 hp => hjL (by
            have := hinj j2 (List.mem_cons_of_mem _ hj2) j (List.mem_cons_self _ _) hp
            rw [← this]; exact hj2))]
          exact getElem_setElem_self w dst (pd j) _ hd0 hl0
        · exact absurd h hjL
    · intro k hk
      rw [i3 k (fun j hj => hk j (List.mem_cons_of_mem _ hj))]
      exact getElem_setElem_ne w dst (pd j0) k _ hd0 hl0
        (fun e => hk j0 (List.mem_cons_self _ _) e.symm)

end tfplus

namespace tfplus

open DataType

/-! ## C5: the boxes `CopyDataFromTensorSliceToTensorSlice` copies between -/

theorem intersectAux_comm : ∀ (x y : List (Int × Int)), intersectAux x y = intersectAux y x := by
  intro x
  induction x with
  | nil =>
    intro y
    cases y <;> simp [intersectAux]
  | cons e es ih =>
    intro y
    cases y with
    | nil => simp [intersectAux]
    | cons f fs =>
      unfold intersectAux
      rw [ih fs]
      by_cases he : TensorSlice.isFullExtent e = true
      · by_cases hf : TensorSlice.isFullExtent f = true
        · have h1 := (isFullExtent_iff e).1 he
          have h2 := (isFullExtent_iff f).1 hf
          have hef : e = f := Prod.ext (by rw [h1.2, h2.2]) (by rw [h1.1, h2.1])
          simp [he, hf, hef]
        · simp [he, hf]
      · by_cases hf : TensorSlice.isFullExtent f = true
        · simp [he, hf]
        · simp only [he, hf, Bool.false_eq_true, if_false]
          rw [max_comm e.1 f.1, min_comm (e.1 + e.2) (f.1 + f.2)]

theorem intersect_sub : ∀ (x y t : List (Int × Int)) (shape : List Nat),
    validExtents x shape = true → validExtents y shape = true → intersectAux x y = some t →
    subExtents t x shape := by
  intro x
  induction x with
  | nil =>
    intro y t shape hx hy h
    cases shape with
    | nil =>
      cases y with
      | nil =>
        simp only [intersectAux, Option.some.injEq] at h
        subst h
        trivial
      | cons f fs => simp [validExtents] at hy
    | cons d ds => simp [validExtents] at hx
  | cons e es ih =>
    intro y t shape hx hy h
    cases shape with
    | nil => simp [validExtents] at hx
    | cons d ds =>
      cases y with
      | nil => simp [validExtents] at hy
      | cons f fs =>
        simp only [validExtents, Bool.and_eq_true, Bool.or_eq_true, decide_eq_true_eq] at hx hy
        obtain ⟨hx1, hx2⟩ := hx
        obtain ⟨hy1, hy2⟩ := hy
        have hx1b : TensorSlice.isFullExtent e = true ∨
            (0 ≤ e.1 ∧ 0 < e.2 ∧ e.1 + e.2 ≤ (d : Int)) := by
          rcases hx1 with h | ⟨⟨h1, h2⟩, h3⟩
          · exact Or.inl h
          · exact Or.inr ⟨h1, h2, h3⟩
        have hy1b : TensorSlice.isFullExtent f = true ∨
            (0 ≤ f.1 ∧ 0 < f.2 ∧ f.1 + f.2 ≤ (d : Int)) := by
          rcases hy1 with h | ⟨⟨h1, h2⟩, h3⟩
          · exact Or.inl h
          · exact Or.inr ⟨h1, h2, h3⟩
        have bx := validExtent_bound e d hx1b
        have bY := validExtent_bound f d hy1b
        unfold intersectAux at h
        by_cases he : TensorSlice.isFullExtent e = true
        · simp only [he, if_true, Option.map_eq_some'] at h
          obtain ⟨t0, ht0, rfl⟩ := h
          have hes : extentStart e = 0 := by simp [extentStart, he]
          have hel : extentLength e d = d := by simp [extentLength, he]
          refine ⟨?_, ?_, ?_, ih fs t0 ds hx2 hy2 ht0⟩ <;> omega
        · simp only [he, Bool.false_eq_true, if_false] at h
          have hes : extentStart e = e.1.toNat := by simp [extentStart, he]
          have hel : extentLength e d = e.2.toNat := by simp [extentLength, he]
          have hxe : 0 ≤ e.1 ∧ 0 < e.2 ∧ e.1 + e.2 ≤ (d : Int) := by
            rcases hx1b with h | h
            · exact absurd h he
            · exact h
          by_cases hf : TensorSlice.isFullExtent f = true
          · simp only [hf, if_true, Option.map_eq_some'] at h
            obtain ⟨t0, ht0, rfl⟩ := h
            refine ⟨?_, ?_, ?_, ih fs t0 ds hx2 hy2 ht0⟩ <;> omega
          · simp only [hf, Bool.false_eq_true, if_false] at h
            have hfs : extentStart f = f.1.toNat := by simp [extentStart, hf]
            have hfl : extentLength f d = f.2.toNat := by simp [extentLength, hf]
            have hyf : 0 ≤ f.1 ∧ 0 < f.2 ∧ f.1 + f.2 ≤ (d : Int) := by
              rcases hy1b with h | h
              · exact absurd h hf
              · exact h
            by_cases hl : min (e.1 + e.2) (f.1 + f.2) - max e.1 f.1 > 0
            · simp only [hl, if_true, Option.map_eq_some'] at h
              obtain ⟨t0, ht0, rfl⟩ := h
              have hnf : TensorSlice.isFullExtent
                  (max e.1 f.1, min (e.1 + e.2) (f.1 + f.2) - max e.1 f.1) = false := by
                simp only [TensorSlice.isFullExtent, kFullExtent, Bool.and_eq_false_iff,
                  decide_eq_false_iff_not]
                left
                omega
              have hts : extentStart (max e.1 f.1,
                  min (e.1 + e.2) (f.1 + f.2) - max e.1 f.1) = (max e.1 f.1).toNat := by
                simp [extentStart, hnf]
              have htl : extentLength (max e.1 f.1,
                  min (e.1 + e.2) (f.1 + f.2) - max e.1 f.1) d =
                  (min (e.1 + e.2) (f.1 + f.2) - max e.1 f.1).toNat := by
                simp [extentLength, hnf]
              refine ⟨?_, ?_, ?_, ih fs t0 ds hx2 hy2 ht0⟩
              · rw [hts, hes]; omega
              · rw [hts, htl, hes, hel]; omega
              · omega
            · simp only [hl, if_false] at h
              cases h

theorem intersectAux_cons (e f : Int × Int) (es fs t : List (Int × Int))
    (h : intersectAux (e :: es) (f :: fs) = some t) :
    ∃ te t0, t = te :: t0 ∧ intersectAux es fs = some t0 ∧
      ((TensorSlice.isFullExtent e = true ∧ te = f) ∨
        (TensorSlice.isFullExtent e = false ∧ TensorSlice.isFullExtent f = true ∧ te = e) ∨
        (TensorSlice.isFullExtent e = false ∧ TensorSlice.isFullExtent f = false ∧
          0 < min (e.1 + e.2) (f.1 + f.2) - max e.1 f.1 ∧
          te = (max e.1 f.1, min (e.1 + e.2) (f.1 + f.2) - max e.1 f.1))) := by
  unfold intersectAux at h
  by_cases he : TensorSlice.isFullExtent e = true
  · simp only [he, if_true, Option.map_eq_some'] at h
    obtain ⟨t0, ht0, rfl⟩ := h
    exact ⟨f, t0, rfl, ht0, Or.inl ⟨he, rfl⟩⟩
  · simp only [he, Bool.false_eq_true, if_false] at h
    simp only [Bool.not_eq_true] at he
    by_cases hf : TensorSlice.isFullExtent f = true
    · simp only [hf, if_true, Option.map_eq_some'] at h
      obtain ⟨t0, ht0, rfl⟩ := h
      exact ⟨e, t0, rfl, ht0, Or.inr (Or.inl ⟨he, hf, rfl⟩)⟩
    · simp only [hf, Bool.false_eq_true, if_false] at h
      simp only [Bool.not_eq_true] at hf
      by_cases hl : min (e.1 + e.2) (f.1 + f.2) - max e.1 f.1 > 0
      · simp only [hl, if_true, Option.map_eq_some'] at h
        obtain ⟨t0, ht0, rfl⟩ := h
        exact ⟨_, t0, rfl, ht0, Or.inr (Or.inr ⟨he, hf, hl, rfl⟩)⟩
      · simp only [hl, if_false] at h
        cases h

/-- One dimension of the box that `ComputeRelative` and `FillIndicesAndSizes` give for
the intersection `te` within the slice extent `e`. -/
theorem relBox_dim (e f te : Int × Int) (d : Nat)
    (he : TensorSlice.isFullExtent e = true ∨ (0 ≤ e.1 ∧ 0 < e.2 ∧ e.1 + e.2 ≤ (d : Int)))
    (hf : TensorSlice.isFullExtent f = true ∨ (0 ≤ f.1 ∧ 0 < f.2 ∧ f.1 + f.2 ≤ (d : Int)))
    (hte : (TensorSlice.isFullExtent e = true ∧ te = f) ∨
        (TensorSlice.isFullExtent e = false ∧ TensorSlice.isFullExtent f = true ∧ te = e) ∨
        (TensorSlice.isFullExtent e = false ∧ TensorSlice.isFullExtent f = false ∧
          0 < min (e.1 + e.2) (f.1 + f.2) - max e.1 f.1 ∧
          te = (max e.1 f.1, min (e.1 + e.2) (f.1 + f.2) - max e.1 f.1))) :
    ∃ box : Int × Int,
      (if TensorSlice.isFullExtent
          (if TensorSlice.isFullExtent e then te else (te.1 - e.1, te.2)) then
        ((0 : Int), ((extentLength e d : Nat) : Int))
       else (if TensorSlice.isFullExtent e then te else (te.1 - e.1, te.2))) = box ∧
      box.1.toNat = extentStart te - extentStart e ∧ box.2.toNat = extentLength te d ∧
      0 ≤ box.1 ∧ 0 ≤ box.2 ∧ box.1 + box.2 ≤ ((extentLength e d : Nat) : Int) := by
  refine ⟨_, rfl, ?_⟩
  rcases hte with ⟨h1, rfl⟩ | ⟨h1, h2, rfl⟩ | ⟨h1, h2, h3, rfl⟩
  · have hes : extentStart e = 0 := by simp [extentStart, h1]
    have hel : extentLength e d = d := by simp [extentLength, h1]
    by_cases hte : TensorSlice.isFullExtent te = true
    · have hts : extentStart te = 0 := by simp [extentStart, hte]
      have htl : extentLength te d = d := by simp [extentLength, hte]
      refine ⟨?_, ?_, ?_, ?_, ?_⟩ <;>
        (try simp only [h1, if_true, hte, hes, hel, hts, htl]) <;> (try omega)
    · have hts : extentStart te = te.1.toNat := by simp [extentStart, hte]
      have htl : extentLength te d = te.2.toNat := by simp [extentLength, hte]
      have hf2 : 0 ≤ te.1 ∧ 0 < te.2 ∧ te.1 + te.2 ≤ (d : Int) := by
        rcases hf with hf | hf
        · exact absurd hf hte
        · exact hf
      refine ⟨?_, ?_, ?_, ?_, ?_⟩ <;>
        (try simp only [h1, if_true, hte, Bool.false_eq_true, if_false, hes, hel, hts, htl]) <;>
        (try omega)
  · have hes : extentStart te = te.1.toNat := by simp [extentStart, h1]
    have hel : extentLength te d = te.2.toNat := by simp [extentLength, h1]
    rcases he with he | he
    · rw [h1] at he; cases he
    · have hnf : TensorSlice.isFullExtent (te.1 - te.1, te.2) = false := by
        simp only [TensorSlice.isFullExtent, kFullExtent, Bool.and_eq_false_iff,
          decide_eq_false_iff_not]
        left
        omega
      refine ⟨?_, ?_, ?_, ?_, ?_⟩ <;>
        (try simp only [h1, Bool.false_eq_true, if_false, hnf, hes, hel]) <;> (try omega)
  · have hes : extentStart e = e.1.toNat := by simp [extentStart, h1]
    have hel : extentLength e d = e.2.toNat := by simp [extentLength, h1]
    rcases he with he | he
    · rw [h1] at he; cases he
    · rcases hf with hf | hf
      · rw [h2] at hf; cases hf
      · have hnt : TensorSlice.isFullExtent
            (max e.1 f.1, min (e.1 + e.2) (f.1 + f.2) - max e.1 f.1) = false := by
          simp only [TensorSlice.isFullExtent, kFullExtent, Bool.and_eq_false_iff,
            decide_eq_false_iff_not]
          left
          omega
        have hts : extentStart (max e.1 f.1,
            min (e.1 + e.2) (f.1 + f.2) - max e.1 f.1) = (max e.1 f.1).toNat := by
          simp [extentStart, hnt]
        have htl : extentLength (max e.1 f.1,
            min (e.1 + e.2) (f.1 + f.2) - max e.1 f.1) d =
            (min (e.1 + e.2) (f.1 + f.2) - max e.1 f.1).toNat := by
          simp [extentLength, hnt]
        have hnf : TensorSlice.isFullExtent
            (max e.1 f.1 - e.1, min (e.1 + e.2) (f.1 + f.2) - max e.1 f.1) = false := by
          simp only [TensorSlice.isFullExtent, kFullExtent, Bool.and_eq_false_iff,
            decide_eq_false_iff_not]
          left
          omega
        refine ⟨?_, ?_, ?_, ?_, ?_⟩ <;>
          (try simp only [h1, Bool.false_eq_true, if_false, hnf, hts, htl, hes, hel]) <;>
          (try omega)

theorem relBox_aux : ∀ (x y t : List (Int × Int)) (shape : List Nat),
    validExtents x shape = true → validExtents y shape = true → intersectAux x y = some t →
    (List.zipWith (fun (e : Int × Int) (d : Nat) =>
        if TensorSlice.isFullExtent e then ((0 : Int), (d : Int)) else e)
      (List.zipWith (fun b s => if TensorSlice.isFullExtent b then s else (s.1 - b.1, s.2)) x t)
      (List.zipWith extentLength x shape)).map (fun e => e.1.toNat) =
      List.zipWith (fun te xe => extentStart te - extentStart xe) t x ∧
    (List.zipWith (fun (e : Int × Int) (d : Nat) =>
        if TensorSlice.isFullExtent e then ((0 : Int), (d : Int)) else e)
      (List.zipWith (fun b s => if TensorSlice.isFullExtent b then s else (s.1 - b.1, s.2)) x t)
      (List.zipWith extentLength x shape)).map (fun e => e.2.toNat) =
      List.zipWith extentLength t shape ∧
    (List.zipWith (fun (e : Int × Int) (d : Nat) =>
        if TensorSlice.isFullExtent e then ((0 : Int), (d : Int)) else e)
      (List.zipWith (fun b s => if TensorSlice.isFullExtent b then s else (s.1 - b.1, s.2)) x t)
      (List.zipWith extentLength x shape)).length = shape.length ∧
    (List.zipWith (fun (e : Int × Int) (d : Nat) =>
        decide (0 ≤ e.1) && decide (0 ≤ e.2) && decide (e.1 + e.2 ≤ (d : Int)))
      (List.zipWith (fun (e : Int × Int) (d : Nat) =>
          if TensorSlice.isFullExtent e then ((0 : Int), (d : Int)) else e)
        (List.zipWith (fun b s => if TensorSlice.isFullExtent b then s else (s.1 - b.1, s.2)) x t)
        (List.zipWith extentLength x shape))
      (List.zipWith extentLength x shape)).all id = true := by
  intro x
  induction x with
  | nil =>
    intro y t shape hx hy h
    cases shape with
    | nil =>
      cases y with
      | nil =>
        simp only [intersectAux, Option.some.injEq] at h
        subst h
        simp
      | cons f fs => simp [validExtents] at hy
    | cons d ds => simp [validExtents] at hx
  | cons e es ih =>
    intro y t shape hx hy h
    cases shape with
    | nil => simp [validExtents] at hx
    | cons d ds =>
      cases y with
      | nil => simp [validExtents] at hy
      | cons f fs =>
        simp only [validExtents, Bool.and_eq_true, Bool.or_eq_true, decide_eq_true_eq] at hx hy
        obtain ⟨hx1, hx2⟩ := hx
        obtain ⟨hy1, hy2⟩ := hy
        have hx1b : TensorSlice.isFullExtent e = true ∨
            (0 ≤ e.1 ∧ 0 < e.2 ∧ e.1 + e.2 ≤ (d : Int)) := by
          rcases hx1 with h | ⟨⟨h1, h2⟩, h3⟩
          · exact Or.inl h
          · exact Or.inr ⟨h1, h2, h3⟩
        have hy1b : TensorSlice.isFullExtent f = true ∨
            (0 ≤ f.1 ∧ 0 < f.2 ∧ f.1 + f.2 ≤ (d : Int)) := by
          rcases hy1 with h | ⟨⟨h1, h2⟩, h3⟩
          · exact Or.inl h
          · exact Or.inr ⟨h1, h2, h3⟩
        obtain ⟨te, t0, rfl, ht0, hte⟩ := intersectAux_cons e f es fs t h
        obtain ⟨i1, i2, i3, i4⟩ := ih fs t0 ds hx2 hy2 ht0
        obtain ⟨box, hbox, b1, b2, b3, b4, b5⟩ := relBox_dim e f te d hx1b hy1b hte
        simp only [List.zipWith_cons_cons, List.map_cons, List.length_cons, List.all_cons, hbox,
          i1, i2, i3, i4, b1, b2, id, Bool.and_true, Bool.and_eq_true, decide_eq_true_eq]
        exact ⟨trivial, trivial, trivial, ⟨b3, b4⟩, b5⟩

end tfplus

namespace tfplus

open DataType

/-! ## C5: indices of the full tensor and indices within a slice -/

theorem relative_bounds : ∀ (b : List (Int × Int)) (shape p : List Nat),
    inExtents b shape p = true →
    List.Forall₂ (fun i d => i < d) (List.zipWith (fun i be => i - extentStart be) p b)
      (List.zipWith extentLength b shape) := by
  intro b
  induction b with
  | nil =>
    intro shape p h
    cases shape <;> cases p <;> simp_all [inExtents]
  | cons e es ih =>
    intro shape p h
    cases shape with
    | nil => simp [inExtents] at h
    | cons d ds =>
      cases p with
      | nil => simp [inExtents] at h
      | cons i is =>
        simp only [inExtents, Bool.and_eq_true, decide_eq_true_eq] at h
        simp only [List.zipWith_cons_cons]
        exact List.Forall₂.cons (by omega) (ih ds is h.2)

theorem box_bounds : ∀ (t b : List (Int × Int)) (shape j : List Nat),
    subExtents t b shape →
    List.Forall₂ (fun i d => i < d) j (List.zipWith extentLength t shape) →
    List.Forall₂ (fun i d => i < d)
      (List.zipWith (fun a c => a + c)
        (List.zipWith (fun te be => extentStart te - extentStart be) t b) j)
      (List.zipWith extentLength b shape) := by
  intro t
  induction t with
  | nil =>
    intro b shape j hs hj
    cases b <;> cases shape <;> simp_all [subExtents]
  | cons te ts ih =>
    intro b shape j hs hj
    cases b with
    | nil => simp [subExtents] at hs
    | cons be bs =>
      cases shape with
      | nil => simp [subExtents] at hs
      | cons d ds =>
        simp only [subExtents] at hs
        simp only [List.zipWith_cons_cons] at hj
        cases hj with
        | cons h1 h2 =>
          simp only [List.zipWith_cons_cons]
          exact List.Forall₂.cons (by omega) (ih bs ds _ hs.2.2.2 h2)

theorem box_of_point : ∀ (t b : List (Int × Int)) (shape p : List Nat),
    subExtents t b shape → inExtents t shape p = true →
    List.Forall₂ (fun i d => i < d) (List.zipWith (fun i te => i - extentStart te) p t)
      (List.zipWith extentLength t shape) ∧
    List.zipWith (fun a c => a + c)
      (List.zipWith (fun te be => extentStart te - extentStart be) t b)
      (List.zipWith (fun i te => i - extentStart te) p t) =
      List.zipWith (fun i be => i - extentStart be) p b := by
  intro t
  induction t with
  | nil =>
    intro b shape p hs hp
    cases b <;> cases shape <;> cases p <;> simp_all [subExtents, inExtents]
  | cons te ts ih =>
    intro b shape p hs hp
    cases b with
    | nil => simp [subExtents] at hs
    | cons be bs =>
      cases shape with
      | nil => simp [subExtents] at hs
      | cons d ds =>
        cases p with
        | nil => simp [inExtents] at hp
        | cons i is =>
          simp only [subExtents] at hs
          simp only [inExtents, Bool.and_eq_true, decide_eq_true_eq] at hp
          obtain ⟨i1, i2⟩ := ih bs ds is hs.2.2.2 hp.2
          simp only [List.zipWith_cons_cons, i2, List.cons.injEq, and_true]
          exact ⟨List.Forall₂.cons (by omega) i1, by omega⟩

theorem point_of_box : ∀ (t b : List (Int × Int)) (shape p j : List Nat),
    subExtents t b shape → inExtents b shape p = true →
    List.Forall₂ (fun i d => i < d) j (List.zipWith extentLength t shape) →
    List.zipWith (fun a c => a + c)
      (List.zipWith (fun te be => extentStart te - extentStart be) t b) j =
      List.zipWith (fun i be => i - extentStart be) p b →
    inExtents t shape p = true := by
  intro t
  induction t with
  | nil =>
    intro b shape p j hs hp _ _
    cases b <;> cases shape <;> cases p <;> simp_all [subExtents, inExtents]
  | cons te ts ih =>
    intro b shape p j hs hp hj he
    cases b with
    | nil => simp [subExtents] at hs
    | cons be bs =>
      cases shape with
      | nil => simp [subExtents] at hs
      | cons d ds =>
        cases p with
        | nil => simp [inExtents] at hp
        | cons i is =>
          simp only [subExtents] at hs
          simp only [inExtents, Bool.and_eq_true, decide_eq_true_eq] at hp ⊢
          simp only [List.zipWith_cons_cons] at hj
          cases hj with
          | cons h1 h2 =>
            simp only [List.zipWith_cons_cons, List.cons.injEq] at he
            exact ⟨⟨by omega, by omega⟩, ih bs ds is _ hs.2.2.2 hp.2 h2 he.2⟩

theorem zipWith_add_inj : ∀ (s j j2 sizes : List Nat), s.length = sizes.length →
    List.Forall₂ (fun i d => i < d) j sizes → List.Forall₂ (fun i d => i < d) j2 sizes →
    List.zipWith (fun a c => a + c) s j = List.zipWith (fun a c => a + c) s j2 → j = j2 := by
  intro s
  induction s with
  | nil =>
    intro j j2 sizes hl h1 h2 _
    cases sizes with
    | nil => cases h1; cases h2; rfl
    | cons d ds => simp at hl
  | cons a s ih =>
    intro j j2 sizes hl h1 h2 he
    cases sizes with
    | nil => simp at hl
    | cons d ds =>
      cases h1 with
      | cons a1 a2 =>
        cases h2 with
        | cons b1 b2 =>
          simp only [List.zipWith_cons_cons, List.cons.injEq] at he
          simp only [List.length_cons, Nat.add_right_cancel_iff] at hl
          rw [ih _ _ ds hl a2 b2 he.2]
          congr 1
          omega

theorem subExtents_length : ∀ (t b : List (Int × Int)) (shape : List Nat),
    subExtents t b shape → t.length = shape.length ∧ b.length = shape.length := by
  intro t
  induction t with
  | nil =>
    intro b shape h
    cases b <;> cases shape <;> simp_all [subExtents]
  | cons te ts ih =>
    intro b shape h
    cases b with
    | nil => simp [subExtents] at h
    | cons be bs =>
      cases shape with
      | nil => simp [subExtents] at h
      | cons d ds =>
        simp only [subExtents] at h
        obtain ⟨h1, h2⟩ := ih bs ds h.2.2.2
        simp [h1, h2]

theorem bind_cast (shape : List Nat) :
    (bind shape (fun a => pure (Nat.cast a)) : List Int) =
      shape.map (fun a => (Nat.cast a : Int)) := by
  induction shape with
  | nil => rfl
  | cons a l ih =>
    show (Nat.cast a : Int) :: (bind l (fun a => pure (Nat.cast a)) : List Int) = _
    rw [ih]
    rfl

theorem FillIndicesAndSizes_eq (s : TensorSlice) (shape : List Nat) :
    s.FillIndicesAndSizes shape =
      List.zipWith (fun (e : Int × Int) (d : Nat) =>
        if TensorSlice.isFullExtent e then ((0 : Int), (d : Int)) else e) s.extents shape := by
  unfold TensorSlice.FillIndicesAndSizes
  rw [bind_cast, List.zipWith_map_right]

end tfplus

namespace tfplus

open DataType

/-! ## C5: the copy between two slices -/

theorem shapeIn_length (s : TensorSlice) (shape : List Nat) (h : s.validFor shape = true) :
    (s.shapeIn shape).length = shape.length := by
  have := validExtents_length _ _ h
  simp [TensorSlice.shapeIn, this]

theorem mul_bound (k n w : Nat) (h : k < n) : k * w + w ≤ n * w := mul_succ_le k n w h

/-- The copy of the common part of the stored slice `x` into the buffer of the
requested slice `q`: every element of `q` that lies in `x` is the element of `x`, every
other element of `q` is as before. -/
theorem CopyData_spec (w : Nat) (shape : List Nat) (x q : TensorSlice) (src dst : Bytes)
    (t : List (Int × Int))
    (hrank : shape.length ≤ kTensorSliceMaxRank) (hx : x.validFor shape = true)
    (hq : q.validFor shape = true) (hi : intersectAux x.extents q.extents = some t)
    (hsrc : src.length = (x.shapeIn shape).prod * w)
    (hdst : dst.length = (q.shapeIn shape).prod * w) :
    ∃ R, CopyDataFromTensorSliceToTensorSlice w shape x q src dst = some (true, R) ∧
      R.length = dst.length ∧
      ∀ p, q.contains shape p = true →
        sliceElem w q shape R p =
          if x.contains shape p = true then sliceElem w x shape src p
          else sliceElem w q shape dst p := by
  have hi2 : intersectAux q.extents x.extents = some t := by rw [intersectAux_comm]; exact hi
  have subX := intersect_sub x.extents q.extents t shape hx hq hi
  have subQ := intersect_sub q.extents x.extents t shape hq hx hi2
  obtain ⟨x1, x2, x3, x4⟩ := relBox_aux x.extents q.extents t shape hx hq hi
  obtain ⟨q1, q2, q3, q4⟩ := relBox_aux q.extents x.extents t shape hq hx hi2
  obtain ⟨hsem, _⟩ := intersectAux_spec x.extents q.extents shape hx hq
  obtain ⟨_, hsem2⟩ := hsem t hi
  have hlx := shapeIn_length x shape hx
  have hlq := shapeIn_length q shape hq
  obtain ⟨htl, _⟩ := subExtents_length t x.extents shape subX
  have hqel := validExtents_length _ _ hq
  -- the fold
  have hbound_d : ∀ j ∈ boxIndices (List.zipWith extentLength t shape),
      List.Forall₂ (fun i d => i < d)
        (List.zipWith (fun a c => a + c)
          (List.zipWith (fun te be => extentStart te - extentStart be) t q.extents) j)
        (q.shapeIn shape) :=
    fun j hj => box_bounds t q.extents shape j subQ ((mem_boxIndices _ _).1 hj)
  have hbound_s : ∀ j ∈ boxIndices (List.zipWith extentLength t shape),
      List.Forall₂ (fun i d => i < d)
        (List.zipWith (fun a c => a + c)
          (List.zipWith (fun te be => extentStart te - extentStart be) t x.extents) j)
        (x.shapeIn shape) :=
    fun j hj => box_bounds t x.extents shape j subX ((mem_boxIndices _ _).1 hj)
  obtain ⟨f1, f2, f3⟩ := foldl_setElem w src
    (fun j => flatIndex (q.shapeIn shape) (List.zipWith (fun a c => a + c)
      (List.zipWith (fun te be => extentStart te - extentStart be) t q.extents) j))
    (fun j => flatIndex (x.shapeIn shape) (List.zipWith (fun a c => a + c)
      (List.zipWith (fun te be => extentStart te - extentStart be) t x.extents) j))
    (boxIndices (List.zipWith extentLength t shape)) dst
    (fun j hj => by
      rw [hdst]
      exact mul_bound _ _ w (flatIndex_lt _ _ (hbound_d j hj)))
    (fun j hj => by
      rw [hsrc]
      exact mul_bound _ _ w (flatIndex_lt _ _ (hbound_s j hj)))
    (fun j hj j2 hj2 he => by
      have e1 := flatIndex_inj _ _ _ (hbound_d j hj) (hbound_d j2 hj2) he
      refine zipWith_add_inj _ j j2 (List.zipWith extentLength t shape) ?_
        ((mem_boxIndices _ _).1 hj) ((mem_boxIndices _ _).1 hj2) e1
      simp [htl, hqel])
  refine ⟨_, ?_, f1, ?_⟩
  · unfold CopyDataFromTensorSliceToTensorSlice
    have hr : ¬ (shape.length > kTensorSliceMaxRank) := by omega
    have hI : x.Intersect q = some ⟨t⟩ := by simp [TensorSlice.Intersect, hi]
    simp only [hr, if_false, hI, SliceTensorShape_valid _ _ hx, SliceTensorShape_valid _ _ hq]
    have hbx : boxInside (x.shapeIn shape)
        ((x.ComputeRelative ⟨t⟩).FillIndicesAndSizes (x.shapeIn shape)) = true := by
      rw [FillIndicesAndSizes_eq]
      unfold boxInside TensorSlice.ComputeRelative
      simp only [TensorSlice.shapeIn] at hlx ⊢
      rw [Bool.and_eq_true, decide_eq_true_eq]
      exact ⟨by rw [x3, hlx], x4⟩
    have hbq : boxInside (q.shapeIn shape)
        ((q.ComputeRelative ⟨t⟩).FillIndicesAndSizes (q.shapeIn shape)) = true := by
      rw [FillIndicesAndSizes_eq]
      unfold boxInside TensorSlice.ComputeRelative
      simp only [TensorSlice.shapeIn] at hlq ⊢
      rw [Bool.and_eq_true, decide_eq_true_eq]
      exact ⟨by rw [q3, hlq], q4⟩
    have hlen : ¬ (src.length ≠ (x.shapeIn shape).prod * w ∨
        dst.length ≠ (q.shapeIn shape).prod * w) := by
      simp [hsrc, hdst]
    simp only [hbx, hbq, Bool.not_true, Bool.or_self, Bool.false_eq_true, if_false, hlen]
    rw [FillIndicesAndSizes_eq, FillIndicesAndSizes_eq]
    unfold copyBox TensorSlice.ComputeRelative
    simp only [TensorSlice.shapeIn] at x1 x2 q1 q2 ⊢
    rw [x1, x2, q1]
  · intro p hp
    unfold sliceElem
    by_cases hxp : x.contains shape p = true
    · simp only [hxp, if_true]
      have hpt : inExtents t shape p = true := by
        rw [hsem2]
        simp only [TensorSlice.contains] at hxp hp
        simp [hxp, hp]
      obtain ⟨b1, b2⟩ := box_of_point t q.extents shape p subQ hpt
      obtain ⟨_, b3⟩ := box_of_point t x.extents shape p subX hpt
      have := f2 _ ((mem_boxIndices _ _).2 b1)
      simp only [b2, b3] at this
      exact this
    · simp only [hxp, Bool.false_eq_true, if_false]
      refine f3 _ ?_
      intro j hj he
      have hrel := relative_bounds q.extents shape p hp
      have e1 := flatIndex_inj _ _ _ (hbound_d j hj) hrel he
      have hpt := point_of_box t q.extents shape p j subQ hp ((mem_boxIndices _ _).1 hj) e1
      rw [hsem2] at hpt
      simp only [Bool.and_eq_true] at hpt
      exact hxp hpt.1

end tfplus

namespace tfplus

open DataType

/-! ## C5: slices that `GetSliceValue` reads straight into the destination -/

theorem sliceCopySupported_memcpy (d : DataType) (h : sliceCopySupported d = true) :
    DataTypeCanUseMemcpy d = true := by
  cases d <;> first | rfl | (exact absurd h (by decide))

theorem alloc_destinationFor (dtype : DataType) (shape : List Nat) (V : Tensor)
    (hm : DataTypeCanUseMemcpy dtype = true) (hv : Tensor.shapeIsValid shape = true)
    (hd : V.dtype = dtype) (hs : V.shape = shape) :
    (Tensor.alloc dtype shape).destinationFor V := by
  right
  have hns : dtype ≠ DT_STRING := by
    intro e; rw [e] at hm; exact absurd hm (by decide)
  unfold Tensor.alloc
  simp only [hm, if_true]
  refine ⟨⟨hv, ?_⟩, hd.symm, hs.symm, fun e => absurd (hd ▸ e) hns⟩
  simp only [hm, if_true, Tensor.NumElements, List.length_replicate, and_self]

/-- A slice that is full relative to its own shape starts at 0 in every dimension. -/
theorem sliceShapeAux_own : ∀ (ext : List (Int × Int)) (shape acc : List Nat) (res : List Nat),
    validExtents ext shape = true →
    TensorSlice.sliceShapeAux ext (List.zipWith extentLength ext shape) acc =
      TensorSlice.ShapeResult.ok res →
    ∀ e ∈ ext, extentStart e = 0 := by
  intro ext
  induction ext with
  | nil => intro shape acc res _ _ e he; cases he
  | cons e es ih =>
    intro shape acc res hv h
    cases shape with
    | nil => simp [validExtents] at hv
    | cons d ds =>
      simp only [validExtents, Bool.and_eq_true, Bool.or_eq_true, decide_eq_true_eq] at hv
      obtain ⟨hv1, hv2⟩ := hv
      simp only [List.zipWith_cons_cons] at h
      unfold TensorSlice.sliceShapeAux at h
      by_cases hf : TensorSlice.isFullExtent e = true
      · simp only [hf, if_true] at h
        intro e2 he2
        rcases List.mem_cons.1 he2 with rfl | he2
        · simp [extentStart, hf]
        · exact ih ds _ res hv2 h e2 he2
      · simp only [hf, Bool.false_eq_true, if_false] at h
        have hl : extentLength e d = e.2.toNat := by simp [extentLength, hf]
        rcases hv1 with hv1 | ⟨⟨h1, h2⟩, h3⟩
        · exact absurd hv1 hf
        · by_cases hle : e.1 + e.2 ≤ ((extentLength e d : Nat) : Int)
          · have h5 : ¬ (e.2 < 0) := by omega
            simp only [hle, if_true, h5, if_false] at h
            intro e2 he2
            rcases List.mem_cons.1 he2 with rfl | he2
            · simp only [extentStart, hf, Bool.false_eq_true, if_false]
              omega
            · exact ih ds _ res hv2 h e2 he2
          · simp only [hle, if_false] at h
            cases h

theorem IsFull_starts (s : TensorSlice) (h : s.IsFull = true) :
    ∀ e ∈ s.extents, extentStart e = 0 := by
  intro e he
  unfold TensorSlice.IsFull at h
  rw [List.all_eq_true] at h
  simp [extentStart, h e he]

theorem IsFullSlice_own (s : TensorSlice) (shape : List Nat) (hv : s.validFor shape = true)
    (h : IsFullSlice s (s.shapeIn shape) = some true) :
    ∀ e ∈ s.extents, extentStart e = 0 := by
  unfold IsFullSlice at h
  by_cases hf : s.IsFull = true
  · exact IsFull_starts s hf
  · simp only [hf, Bool.false_eq_true, if_false] at h
    unfold TensorSlice.SliceTensorShape at h
    have hl := validExtents_length _ _ hv
    have hd : ¬ ((s.shapeIn shape).length ≠ s.dims) := by
      simp [TensorSlice.shapeIn, TensorSlice.dims, hl]
    simp only [hd, if_false] at h
    cases hr : TensorSlice.sliceShapeAux s.extents (s.shapeIn shape) [] with
    | ok res => exact sliceShapeAux_own s.extents shape [] res hv hr
    | error =>
      rw [hr] at h
      simp only [Option.some.injEq, decide_eq_true_eq] at h
      have h0 : s.extents = [] := by
        have h1 : (s.shapeIn shape).length = 0 := by rw [← h]; rfl
        simp only [TensorSlice.shapeIn, List.length_zipWith, hl, Nat.min_self] at h1
        rw [← hl] at h1
        exact List.length_eq_zero.1 h1
      simp [TensorSlice.IsFull, h0] at hf
    | abort =>
      rw [hr] at h
      cases h

theorem IsFullSlice_some (s : TensorSlice) (shape sh : List Nat)
    (hv : s.validFor shape = true) : ∃ b, IsFullSlice s sh = some b := by
  unfold IsFullSlice
  by_cases hf : s.IsFull = true
  · exact ⟨true, by simp [hf]⟩
  · simp only [hf, Bool.false_eq_true, if_false]
    cases hr : s.SliceTensorShape sh with
    | ok res => exact ⟨_, rfl⟩
    | error => exact ⟨_, rfl⟩
    | abort =>
      exfalso
      unfold TensorSlice.SliceTensorShape at hr
      split at hr
      · cases hr
      · have : ∀ (ext : List (Int × Int)) (shape sh acc : List Nat),
            validExtents ext shape = true →
            TensorSlice.sliceShapeAux ext sh acc ≠ TensorSlice.ShapeResult.abort := by
          intro ext
          induction ext with
          | nil =>
            intro shape sh acc _
            cases sh <;> simp [TensorSlice.sliceShapeAux]
          | cons e es ih =>
            intro shape sh acc hv
            cases shape with
            | nil => simp [validExtents] at hv
            | cons d ds =>
              simp only [validExtents, Bool.and_eq_true, Bool.or_eq_true,
                decide_eq_true_eq] at hv
              cases sh with
              | nil => simp [TensorSlice.sliceShapeAux]
              | cons d2 ds2 =>
                unfold TensorSlice.sliceShapeAux
                by_cases hfe : TensorSlice.isFullExtent e = true
                · simp only [hfe, if_true]
                  exact ih ds ds2 _ hv.2
                · simp only [hfe, Bool.false_eq_true, if_false]
                  rcases hv.1 with h | ⟨⟨h1, h2⟩, h3⟩
                  · exact absurd h hfe
                  · have h5 : ¬ (e.2 < 0) := by omega
                    by_cases hle : e.1 + e.2 ≤ (d2 : Int)
                    · simp only [hle, if_true, h5, if_false]
                      exact ih ds ds2 _ hv.2
                    · simp [hle]
        exact this s.extents shape sh [] hv hr

/-- Two slices of the same shape that start at 0 in every dimension hold the same
elements at the same places. -/
theorem same_slice : ∀ (x q : List (Int × Int)) (shape p : List Nat),
    x.length = shape.length → q.length = shape.length →
    List.zipWith extentLength x shape = List.zipWith extentLength q shape →
    (∀ e ∈ x, extentStart e = 0) → (∀ e ∈ q, extentStart e = 0) →
    inExtents x shape p = inExtents q shape p ∧
    List.zipWith (fun i e => i - extentStart e) p x =
      List.zipWith (fun i e => i - extentStart e) p q := by
  intro x
  induction x with
  | nil =>
    intro q shape p hx hq _ _ _
    cases shape with
    | nil =>
      cases q with
      | nil => exact ⟨rfl, rfl⟩
      | cons f fs => simp at hq
    | cons d ds => simp at hx
  | cons e es ih =>
    intro q shape p hx hq hz h1 h2
    cases shape with
    | nil => simp at hx
    | cons d ds =>
      cases q with
      | nil => simp at hq
      | cons f fs =>
        simp only [List.length_cons, Nat.add_right_cancel_iff] at hx hq
        simp only [List.zipWith_cons_cons, List.cons.injEq] at hz
        have he := h1 e (List.mem_cons_self _ _)
        have hf := h2 f (List.mem_cons_self _ _)
        cases p with
        | nil => simp [inExtents]
        | cons i is =>
          obtain ⟨i1, i2⟩ := ih fs ds is hx hq hz.2
            (fun a ha => h1 a (List.mem_cons_of_mem _ ha))
            (fun a ha => h2 a (List.mem_cons_of_mem _ ha))
          simp only [inExtents, List.zipWith_cons_cons, i1, i2, he, hf, hz.1]
          exact ⟨trivial, trivial⟩

end tfplus

namespace tfplus

open DataType

/-! ## C5: the loop of `GetSliceValue` over the stored slices -/

theorem WF_data_length (V : Tensor) (hv : V.WF) (hm : DataTypeCanUseMemcpy V.dtype = true) :
    V.data.length = V.shape.prod * DataTypeSize V.dtype := by
  obtain ⟨_, h⟩ := hv
  rw [if_pos hm] at h
  exact h.1

theorem sliceLoop_spec (env : Env) (kLittleEndian : Bool) (key : String)
    (full_entry : BundleEntryProto) (q : TensorSlice) (rows : List (String × TableValue))
    (r0 : BundleReader) (T : List Nat → Bytes) (entryOf : TensorSlice → BundleEntryProto)
    (valueOf : TensorSlice → Tensor) (hsorted : mapSorted rows)
    (hrank : full_entry.tensorShape.length ≤ kTensorSliceMaxRank)
    (hq : q.validFor full_entry.tensorShape = true)
    (hdt : sliceCopySupported full_entry.dtype = true) :
    ∀ (ds : List TensorSlice) (entry0 : BundleEntryProto) (val : Tensor) (r : BundleReader)
      (covered : List Nat → Prop),
    (∀ x ∈ ds, x.validFor full_entry.tensorShape = true ∧ (q.Intersect x).isSome = true ∧
      holdsSlice r0 env kLittleEndian rows key full_entry T x (entryOf x) (valueOf x)) →
    (∀ x ∈ ds, x.IsFull = true → entry0 = entryOf x) →
    (∀ x ∈ ds, ∀ y ∈ ds, y.IsFull = true → entryOf x = entryOf y) →
    r.status_.ok = true → r.table_ = some rows → r.prefix_ = r0.prefix_ →
    r.num_shards_ = r0.num_shards_ → r.need_to_swap_bytes_ = r0.need_to_swap_bytes_ →
    val.WF → val.dtype = full_entry.dtype → val.shape = q.shapeIn full_entry.tensorShape →
    (∀ p, q.contains full_entry.tensorShape p = true → covered p →
      sliceElem (DataTypeSize full_entry.dtype) q full_entry.tensorShape val.data p = T p) →
    ∃ val2 r2, BundleReader.sliceLoop env kLittleEndian key full_entry q ds entry0 val r =
        some (Status.OK, val2, r2) ∧
      val2.dtype = val.dtype ∧ val2.shape = val.shape ∧ val2.WF ∧
      ∀ p, q.contains full_entry.tensorShape p = true →
        (covered p ∨ ∃ x ∈ ds, x.contains full_entry.tensorShape p = true) →
        sliceElem (DataTypeSize full_entry.dtype) q full_entry.tensorShape val2.data p = T p := by
  have hmem := sliceCopySupported_memcpy _ hdt
  intro ds
  induction ds with
  | nil =>
    intro entry0 val r covered _ _ _ _ _ _ _ _ hvwf _ _ hcov
    refine ⟨val, r, rfl, rfl, rfl, hvwf, ?_⟩
    intro p hp hc
    rcases hc with hc | ⟨x, hx, _⟩
    · exact hcov p hp hc
    · cases hx
  | cons x rest ih =>
    intro entry0 val r covered hds he0 hfull hst ht hpfx hns hsw hvwf hvd hvs hcov
    obtain ⟨hxv, hxi, hS1, hS2, hS3, hS4, hS5, hS6, hS7, hS8, hS9, hS10⟩ :=
      hds x (List.mem_cons_self _ _)
    have hok : Status.OK.ok = true := rfl
    unfold BundleReader.sliceLoop
    simp only []
    -- the entry of the stored slice
    generalize hl : (ite ((!x.IsFull) = true) _ _ :
      Option (Status × BundleEntryProto × BundleReader)) = looked
    obtain ⟨r1, hlooked, hr1st, hr1t, hr1p, hr1n, hr1s⟩ : ∃ r1 : BundleReader,
        looked = some (Status.OK, entryOf x, r1) ∧
        r1.status_.ok = true ∧ r1.table_ = some rows ∧ r1.prefix_ = r0.prefix_ ∧
        r1.num_shards_ = r0.num_shards_ ∧ r1.need_to_swap_bytes_ = r0.need_to_swap_bytes_ := by
      by_cases hf : x.IsFull = true
      · refine ⟨r, ?_, hst, ht, hpfx, hns, hsw⟩
        simp only [hf, Bool.not_true, Bool.false_eq_true, if_false,
          he0 x (List.mem_cons_self _ _) hf] at hl
        exact hl.symm
      · simp only [Bool.not_eq_true] at hf
        obtain ⟨g1, _⟩ := GetBundleEntryProto_found r rows (EncodeTensorNameSlice key x)
          (entryOf x) hst ht hsorted (hS2 hf) hS3
        simp only [hf, Bool.not_false, if_true, g1] at hl
        refine ⟨_, hl.symm, ?_, ?_, ?_, ?_, ?_⟩
        · exact hok
        · simp only [BundleReader.Seek, ht]
        · simp only [BundleReader.Seek, ht]; exact hpfx
        · simp only [BundleReader.Seek, ht]; exact hns
        · simp only [BundleReader.Seek, ht]; exact hsw
    subst hlooked
    clear hl
    simp only [hok, Bool.not_true, Bool.false_eq_true, if_false]
    -- whether the slice is read straight into the destination
    generalize hd : (ite (x = q) _ _ : Option Bool) = direct
    obtain ⟨b, hdirect, hb⟩ : ∃ b : Bool, direct = some b ∧
        (b = true → val.shape = x.shapeIn full_entry.tensorShape ∧
          ∀ p, q.contains full_entry.tensorShape p = true →
            sliceElem (DataTypeSize full_entry.dtype) q full_entry.tensorShape
              (valueOf x).data p = T p) := by
      by_cases hxq : x = q
      · simp only [hxq, if_true] at hd
        refine ⟨true, hd.symm, fun _ => ⟨?_, ?_⟩⟩
        · rw [hvs, hxq]
        · intro p hp
          rw [← hxq] at hp ⊢
          exact hS10 p hp
      · simp only [hxq, if_false] at hd
        by_cases hsh : (entryOf x).tensorShape ≠ val.shape
        · simp only [hsh, ne_eq, not_false_eq_true, if_true] at hd
          exact ⟨false, hd.symm, fun h => by cases h⟩
        · simp only [hsh, if_false] at hd
          simp only [ne_eq, Decidable.not_not] at hsh
          obtain ⟨b1, hb1⟩ := IsFullSlice_some x full_entry.tensorShape
            (entryOf x).tensorShape hxv
          rw [hb1] at hd
          cases b1 with
          | false => exact ⟨false, hd.symm, fun h => by cases h⟩
          | true =>
            obtain ⟨b2, hb2⟩ := IsFullSlice_some q full_entry.tensorShape
              (entryOf x).tensorShape hq
            simp only [hb2] at hd
            refine ⟨b2, hd.symm, ?_⟩
            intro hb2t
            subst hb2t
            have hsx : x.shapeIn full_entry.tensorShape = q.shapeIn full_entry.tensorShape := by
              rw [← hS4, hsh, hvs]
            rw [hS4] at hb1
            rw [hS4, hsx] at hb2
            have sx := IsFullSlice_own x _ hxv hb1
            have sq := IsFullSlice_own q _ hq hb2
            refine ⟨by rw [hvs, hsx], ?_⟩
            intro p hp
            obtain ⟨c1, c2⟩ := same_slice x.extents q.extents full_entry.tensorShape p
              (validExtents_length _ _ hxv) (validExtents_length _ _ hq) hsx sx sq
            have hpx : x.contains full_entry.tensorShape p = true := by
              simp only [TensorSlice.contains] at hp ⊢
              rw [c1]; exact hp
            have := hS10 p hpx
            simp only [sliceElem, TensorSlice.relative] at this ⊢
            rw [← hsx, ← c2]
            exact this
    subst hdirect
    clear hd
    have hVm : DataTypeCanUseMemcpy (valueOf x).dtype = true := by rw [hS6]; exact hmem
    have hVns : (valueOf x).dtype ≠ DT_STRING := by
      intro e; rw [e] at hVm; exact absurd hVm (by decide)
    cases b with
    | true =>
      obtain ⟨hb1, hb2⟩ := hb rfl
      have hdest : val.destinationFor (valueOf x) :=
        Or.inr ⟨hvwf, by rw [hvd, hS6], by rw [hb1, hS7], fun e => absurd e hVns⟩
      simp only [hS9 r1 val hr1p hr1n hr1s hdest]
      exact ⟨valueOf x, _, rfl, by rw [hS6, hvd], by rw [hS7, hb1], hS8,
        fun p hp _ => hb2 p hp⟩
    | false =>
      have hdest : (Tensor.alloc (entryOf x).dtype (entryOf x).tensorShape).destinationFor
          (valueOf x) :=
        alloc_destinationFor _ _ _ (by rw [hS5]; exact hmem) hS3 (by rw [hS6, hS5])
          (by rw [hS7, hS4])
      simp only [hS9 r1 _ hr1p hr1n hr1s hdest, hok, Bool.not_true, Bool.false_eq_true,
        if_false, hdt]
      have hty : ¬ ((valueOf x).dtype ≠ full_entry.dtype ∨ val.dtype ≠ full_entry.dtype) := by
        simp [hS6, hvd]
      simp only [hty, if_false]
      -- the copy
      obtain ⟨t, hit⟩ : ∃ t, intersectAux x.extents q.extents = some t := by
        unfold TensorSlice.Intersect at hxi
        rw [intersectAux_comm]
        cases hi : intersectAux q.extents x.extents with
        | none => simp [hi] at hxi
        | some t => exact ⟨t, rfl⟩
      have hsrc : (valueOf x).data.length =
          (x.shapeIn full_entry.tensorShape).prod * DataTypeSize full_entry.dtype := by
        rw [WF_data_length _ hS8 hVm, hS7, hS6]
      have hdst : val.data.length =
          (q.shapeIn full_entry.tensorShape).prod * DataTypeSize full_entry.dtype := by
        rw [WF_data_length _ hvwf (by rw [hvd]; exact hmem), hvs, hvd]
      obtain ⟨R, hR, hRl, hRe⟩ := CopyData_spec (DataTypeSize full_entry.dtype)
        full_entry.tensorShape x q (valueOf x).data val.data t hrank hxv hq hit hsrc hdst
      simp only [hR]
      obtain ⟨val2, r2, k1, k2, k3, k5, k4⟩ := ih (entryOf x)
        (Tensor.mk val.dtype val.shape R val.strings)
        { r1 with status_ := Status.OK }
        (fun p => covered p ∨ x.contains full_entry.tensorShape p = true)
        (fun y hy => hds y (List.mem_cons_of_mem _ hy))
        (fun y hy hyf => hfull x (List.mem_cons_self _ _) y (List.mem_cons_of_mem _ hy) hyf)
        (fun y hy z hz hzf =>
          hfull y (List.mem_cons_of_mem _ hy) z (List.mem_cons_of_mem _ hz) hzf)
        hok hr1t hr1p hr1n hr1s
        (by
          obtain ⟨w1, w2⟩ := hvwf
          refine ⟨w1, ?_⟩
          have hm2 : DataTypeCanUseMemcpy val.dtype = true := by rw [hvd]; exact hmem
          rw [if_pos hm2] at w2 ⊢
          exact ⟨by
            show R.length = _
            rw [hRl]; exact w2.1, w2.2⟩)
        hvd hvs
        (by
          intro p hp hc
          show sliceElem _ q _ R p = T p
          rw [hRe p hp]
          by_cases hxp : x.contains full_entry.tensorShape p = true
          · simp only [hxp, if_true]
            exact hS10 p hxp
          · simp only [hxp, Bool.false_eq_true, if_false]
            rcases hc with hc | hc
            · exact hcov p hp hc
            · exact absurd hc hxp)
      refine ⟨val2, r2, k1, k2, k3, k5, ?_⟩
      intro p hp hc
      refine k4 p hp ?_
      rcases hc with hc | ⟨y, hy, hyp⟩
      · exact Or.inl (Or.inl hc)
      · rcases List.mem_cons.1 hy with rfl | hy
        · exact Or.inl (Or.inr hyp)
        · exact Or.inr ⟨y, hy, hyp⟩

end tfplus

namespace tfplus

open DataType

/-! ## C5: registering the stored slices -/

theorem intersectAux_full : ∀ (x y : List (Int × Int)),
    y.all TensorSlice.isFullExtent = true → x.length = y.length →
    (intersectAux x y).isSome = true := by
  intro x
  induction x with
  | nil =>
    intro y _ hl
    cases y with
    | nil => rfl
    | cons f fs => cases hl
  | cons e es ih =>
    intro y hy hl
    cases y with
    | nil => cases hl
    | cons f fs =>
      simp only [List.all_cons, Bool.and_eq_true] at hy
      have hr := ih fs hy.2 (by simpa using hl)
      unfold intersectAux
      by_cases he : TensorSlice.isFullExtent e = true
      · simp only [he, if_true, Option.isSome_map']
        exact hr
      · simp only [he, Bool.false_eq_true, if_false, hy.1, if_true, Option.isSome_map']
        exact hr

theorem intersectAux_self : ∀ (x : List (Int × Int)) (shape : List Nat),
    validExtents x shape = true → (intersectAux x x).isSome = true := by
  intro x
  induction x with
  | nil =>
    intro shape _
    rfl
  | cons e es ih =>
    intro shape h
    cases shape with
    | nil => simp [validExtents] at h
    | cons d ds =>
      simp only [validExtents, Bool.and_eq_true, Bool.or_eq_true, decide_eq_true_eq] at h
      have hr := ih ds h.2
      unfold intersectAux
      by_cases he : TensorSlice.isFullExtent e = true
      · simp only [he, if_true, Option.isSome_map']
        exact hr
      · simp only [he, Bool.false_eq_true, if_false]
        rcases h.1 with h1 | h1
        · exact absurd h1 he
        · have hl : min (e.1 + e.2) (e.1 + e.2) - max e.1 e.1 > 0 := by
            rw [min_self, max_self]
            omega
          simp only [hl, if_true, Option.isSome_map']
          exact hr

/-- A full slice overlaps every slice of its rank. -/
theorem Overlaps_full (x y : TensorSlice) (hy : y.IsFull = true)
    (hl : x.extents.length = y.extents.length) : x.Overlaps y = true := by
  unfold TensorSlice.Overlaps TensorSlice.Intersect
  rw [Option.isSome_map']
  exact intersectAux_full _ _ hy hl

theorem Register_ok (tss : TensorSliceSet) (slice : TensorSlice)
    (hv : slice.validFor tss.shape_ = true)
    (hno : ∀ x ∈ tss.slices_, slice.Overlaps x = false) (hnm : slice ∉ tss.slices_) :
    tss.Register slice = some (Status.OK, { tss with slices_ := tss.slices_ ++ [slice] }) := by
  unfold TensorSliceSet.Register
  rw [SliceTensorShape_valid _ _ hv]
  have ha : tss.slices_.any (fun x => slice.Overlaps x) = false := by
    rw [List.any_eq_false]
    intro x hx
    rw [hno x hx]
    decide
  simp only [ha, Bool.false_eq_true, if_false, hnm]

theorem RegisterTensorSlice_ok (name : String) (shape : List Nat) (type : DataType)
    (slice : TensorSlice) (ts : List (String × TensorSliceSet)) (pre : List TensorSlice)
    (h : (mapFind ts name = none ∧ pre = []) ∨ mapFind ts name = some ⟨shape, type, pre⟩)
    (hv : slice.validFor shape = true)
    (hno : ∀ x ∈ pre, slice.Overlaps x = false) (hnm : slice ∉ pre) :
    RegisterTensorSlice name shape type slice ts =
      some (Status.OK, mapInsert ts name ⟨shape, type, pre ++ [slice]⟩) := by
  unfold RegisterTensorSlice
  rcases h with ⟨h1, h2⟩ | h1
  · subst h2
    simp only [h1]
    rw [Register_ok ⟨shape, type, []⟩ slice hv hno hnm]
  · simp only [h1, ne_eq, not_true_eq_false, if_false]
    rw [Register_ok ⟨shape, type, pre⟩ slice hv hno hnm]

theorem registerSlices_ok (name : String) (shape : List Nat) (type : DataType) :
    ∀ (ps : List TensorSliceProto) (ts : List (String × TensorSliceSet))
      (pre : List TensorSlice),
    ((mapFind ts name = none ∧ pre = [] ∧ ps ≠ []) ∨
      mapFind ts name = some ⟨shape, type, pre⟩) →
    (∀ x ∈ ps.map TensorSlice.ofProto, x.validFor shape = true) →
    (pre ++ ps.map TensorSlice.ofProto).Nodup →
    (∀ a ∈ pre ++ ps.map TensorSlice.ofProto, ∀ b ∈ pre ++ ps.map TensorSlice.ofProto,
      a ≠ b → a.Overlaps b = false) →
    ∃ ts1, registerSlices name shape type ps ts = some (Status.OK, ts1) ∧
      mapFind ts1 name = some ⟨shape, type, pre ++ ps.map TensorSlice.ofProto⟩ := by
  intro ps
  induction ps with
  | nil =>
    intro ts pre h _ _ _
    rcases h with ⟨_, _, h3⟩ | h
    · exact absurd rfl h3
    · refine ⟨ts, rfl, ?_⟩
      simp only [List.map_nil, List.append_nil]
      exact h
  | cons p rest ih =>
    intro ts pre h hv hnd hdj
    simp only [List.map_cons] at hv hnd hdj
    have hnm : TensorSlice.ofProto p ∉ pre := by
      intro hm
      have := List.nodup_append.1 hnd
      exact this.2.2 hm (List.mem_cons_self _ _)
    have hno : ∀ x ∈ pre, (TensorSlice.ofProto p).Overlaps x = false := by
      intro x hx
      refine hdj _ (List.mem_append_right _ (List.mem_cons_self _ _)) x
        (List.mem_append_left _ hx) ?_
      intro e
      rw [e] at hnm
      exact hnm hx
    have h1 : (mapFind ts name = none ∧ pre = []) ∨ mapFind ts name = some ⟨shape, type, pre⟩ := by
      rcases h with ⟨a, b, _⟩ | h
      · exact Or.inl ⟨a, b⟩
      · exact Or.inr h
    have hreg := RegisterTensorSlice_ok name shape type (TensorSlice.ofProto p) ts pre h1
      (hv _ (List.mem_cons_self _ _)) hno hnm
    have hassoc : (pre ++ [TensorSlice.ofProto p]) ++ rest.map TensorSlice.ofProto =
        pre ++ TensorSlice.ofProto p :: rest.map TensorSlice.ofProto := by
      simp
    obtain ⟨ts1, k1, k2⟩ := ih (mapInsert ts name ⟨shape, type, pre ++ [TensorSlice.ofProto p]⟩)
      (pre ++ [TensorSlice.ofProto p]) (Or.inr (mapFind_mapInsert_self _ _ _))
      (fun x hx => hv x (List.mem_cons_of_mem _ hx))
      (by rw [hassoc]; exact hnd)
      (by rw [hassoc]; exact hdj)
    refine ⟨ts1, ?_, ?_⟩
    · unfold registerSlices
      simp only [hreg]
      have hok : Status.OK.ok = true := rfl
      simp only [hok, Bool.not_true, Bool.false_eq_true, if_false]
      exact k1
    · rw [k2, hassoc]
      simp

end tfplus

namespace tfplus

open DataType

/-! ## C5: `GetSliceValue` and `LookupSlice` -/

theorem coversSlice_iff (S : List TensorSlice) (shape : List Nat) (q : TensorSlice) :
    coversSlice S shape q = true ↔
      ∀ p, q.contains shape p = true → ∃ x ∈ S, x.contains shape p = true := by
  unfold coversSlice
  rw [List.all_eq_true]
  constructor
  · intro h p hp
    have := h p ((mem_extentsPoints _ _ _).2 hp)
    rw [List.any_eq_true] at this
    exact this
  · intro h p hp
    rw [List.any_eq_true]
    exact h p ((mem_extentsPoints _ _ _).1 hp)

theorem pairwise_of_disjoint (S : List TensorSlice) (hnd : S.Nodup)
    (hdj : ∀ a ∈ S, ∀ b ∈ S, a ≠ b → a.Overlaps b = false) :
    S.Pairwise (fun a b => a.Overlaps b = false) := by
  unfold List.Nodup at hnd
  exact List.Pairwise.imp_of_mem (fun ha hb hne => hdj _ ha _ hb hne) hnd

/-- A reader whose cache holds the slices of `key`, which cover `q`: `GetSliceValue`
returns OK with the elements of `q`. -/
theorem GetSliceValue_warm (r r0 : BundleReader) (env : Env) (kLittleEndian : Bool)
    (key : String) (entry : BundleEntryProto) (q : TensorSlice) (val : Tensor)
    (rows : List (String × TableValue)) (T : List Nat → Bytes) (tss : TensorSliceSet)
    (hm : mapFind r.tensor_slices_ key = some tss) (hsh : tss.shape_ = entry.tensorShape)
    (hst : r.status_.ok = true) (ht : r.table_ = some rows) (hp : r.prefix_ = r0.prefix_)
    (hn : r.num_shards_ = r0.num_shards_)
    (hs : r.need_to_swap_bytes_ = r0.need_to_swap_bytes_) (hsorted : mapSorted rows)
    (hrank : entry.tensorShape.length ≤ kTensorSliceMaxRank)
    (hdt : sliceCopySupported entry.dtype = true)
    (hvalid : ∀ x ∈ tss.slices_, x.validFor entry.tensorShape = true)
    (hnodup : tss.slices_.Nodup)
    (hdisj : ∀ a ∈ tss.slices_, ∀ b ∈ tss.slices_, a ≠ b → a.Overlaps b = false)
    (hq : q.validFor entry.tensorShape = true)
    (hval : val.WF) (hvd : val.dtype = entry.dtype)
    (hvs : val.shape = q.shapeIn entry.tensorShape)
    (entryOf : TensorSlice → BundleEntryProto) (valueOf : TensorSlice → Tensor)
    (hS : ∀ x ∈ tss.slices_,
      holdsSlice r0 env kLittleEndian rows key entry T x (entryOf x) (valueOf x))
    (hcov : coversSlice tss.slices_ entry.tensorShape q = true) :
    ∃ val2 r2, r.GetSliceValue env kLittleEndian key entry q val =
        some (Status.OK, val2, r2) ∧
      val2.dtype = entry.dtype ∧ val2.shape = q.shapeIn entry.tensorShape ∧ val2.WF ∧
      ∀ p, q.contains entry.tensorShape p = true →
        sliceElem (DataTypeSize entry.dtype) q entry.tensorShape val2.data p = T p := by
  have hok : Status.OK.ok = true := rfl
  have hcov2 := (coversSlice_iff _ _ _).1 hcov
  obtain ⟨Q1, Q2, _⟩ := QueryMeta_spec tss q (by rw [hsh]; exact hq)
    (by rw [hsh]; exact hvalid) (pairwise_of_disjoint _ hnodup hdisj)
  rw [hsh] at Q2
  -- the slices the loop goes over
  obtain ⟨ds, hds, hsub, hcovd⟩ : ∃ ds, tss.QueryMeta q = some (some ds) ∧
      (∀ x ∈ ds, x ∈ tss.slices_ ∧ (q.Intersect x).isSome = true) ∧
      ∀ p, q.contains entry.tensorShape p = true →
        ∃ x ∈ ds, x.contains entry.tensorShape p = true := by
    by_cases hqm : q ∈ tss.slices_
    · refine ⟨[q], Q1 hqm, ?_, ?_⟩
      · intro x hx
        rw [List.mem_singleton] at hx
        subst hx
        refine ⟨hqm, ?_⟩
        unfold TensorSlice.Intersect
        rw [Option.isSome_map']
        exact intersectAux_self _ _ hq
      · intro p hp
        exact ⟨q, List.mem_singleton_self _, hp⟩
    · refine ⟨_, Q2 hqm hcov2, ?_, ?_⟩
      · intro x hx
        rw [List.mem_filter] at hx
        exact hx
      · intro p hp
        obtain ⟨x, hx, hxp⟩ := hcov2 p hp
        refine ⟨x, ?_, hxp⟩
        rw [List.mem_filter]
        refine ⟨hx, ?_⟩
        cases hi : q.Intersect x with
        | some t => rfl
        | none =>
          have ho : q.Overlaps x = false := by
            unfold TensorSlice.Overlaps
            rw [hi]
            rfl
          have := not_overlaps_disjoint q x entry.tensorShape hq (hvalid x hx) ho p
          rw [hp, hxp] at this
          cases this
  have hfullmem : ∀ x ∈ tss.slices_, ∀ y ∈ tss.slices_, y.IsFull = true → x = y := by
    intro x hx y hy hyf
    by_contra hne
    have h1 := hdisj x hx y hy hne
    have h2 := Overlaps_full x y hyf (by
      rw [validExtents_length _ _ (hvalid x hx), validExtents_length _ _ (hvalid y hy)])
    rw [h1] at h2
    cases h2
  obtain ⟨val2, r2, k1, k2, k3, k5, k4⟩ := sliceLoop_spec env kLittleEndian key entry q rows r0 T
    entryOf valueOf hsorted hrank hq hdt ds entry val
    { r with tensor_slices_ := r.tensor_slices_ } (fun _ => False)
    (fun x hx => ⟨hvalid x (hsub x hx).1, (hsub x hx).2, hS x (hsub x hx).1⟩)
    (fun x hx hxf => ((hS x (hsub x hx).1).1 hxf).symm)
    (fun x hx y hy hyf => by rw [hfullmem x (hsub x hx).1 y (hsub y hy).1 hyf])
    hst ht hp hn hs hval hvd hvs (fun p _ hf => absurd hf id)
  refine ⟨val2, r2, ?_, by rw [k2, hvd], by rw [k3, hvs], k5, ?_⟩
  · unfold BundleReader.GetSliceValue
    simp only [hm, hok, Bool.not_true, Bool.false_eq_true, if_false, hds]
    exact k1
  · intro p hp
    exact k4 p hp (Or.inr (hcovd p hp))

/-- A reader whose cache holds the slices of `key`, which do not cover `q`:
`GetSliceValue` returns the error and leaves the destination and the reader as they
are. -/
theorem GetSliceValue_insufficient (r : BundleReader) (env : Env) (kLittleEndian : Bool)
    (key : String) (entry : BundleEntryProto) (q : TensorSlice) (val : Tensor)
    (tss : TensorSliceSet)
    (hm : mapFind r.tensor_slices_ key = some tss) (hsh : tss.shape_ = entry.tensorShape)
    (hvalid : ∀ x ∈ tss.slices_, x.validFor entry.tensorShape = true)
    (hnodup : tss.slices_.Nodup)
    (hdisj : ∀ a ∈ tss.slices_, ∀ b ∈ tss.slices_, a ≠ b → a.Overlaps b = false)
    (hq : q.validFor entry.tensorShape = true)
    (hcov : coversSlice tss.slices_ entry.tensorShape q = false) :
    r.GetSliceValue env kLittleEndian key entry q val =
      some (insufficientSlices key q, val, r) := by
  have hok : Status.OK.ok = true := rfl
  obtain ⟨_, _, Q3⟩ := QueryMeta_spec tss q (by rw [hsh]; exact hq)
    (by rw [hsh]; exact hvalid) (pairwise_of_disjoint _ hnodup hdisj)
  rw [hsh] at Q3
  have hQ := Q3 (by
    intro h
    rw [← coversSlice_iff, hcov] at h
    cases h)
  unfold BundleReader.GetSliceValue
  simp only [hm, hok, Bool.not_true, Bool.false_eq_true, if_false, hQ]
  rfl

/-- A reader whose cache holds nothing for `key` registers the slices of the entry and
goes on as a reader whose cache holds them. -/
theorem GetSliceValue_cold (r : BundleReader) (kLittleEndian : Bool)
    (key : String) (entry : BundleEntryProto) (q : TensorSlice) (val : Tensor)
    (hm : mapFind r.tensor_slices_ key = none)
    (hvalid : ∀ x ∈ storedSlices entry, x.validFor entry.tensorShape = true)
    (hnodup : (storedSlices entry).Nodup)
    (hdisj : ∀ a ∈ storedSlices entry, ∀ b ∈ storedSlices entry, a ≠ b →
      a.Overlaps b = false) :
    ∃ ts1, mapFind ts1 key = some ⟨entry.tensorShape, entry.dtype, storedSlices entry⟩ ∧
      ∀ env, r.GetSliceValue env kLittleEndian key entry q val =
        ({ r with tensor_slices_ := ts1 } : BundleReader).GetSliceValue env kLittleEndian
          key entry q val := by
  have hok : Status.OK.ok = true := rfl
  by_cases hempty : entry.slices.isEmpty = true
  · have hS : storedSlices entry = [TensorSlice.full entry.tensorShape.length] := by
      simp [storedSlices, hempty]
    have hsl : entry.slices = [] := List.isEmpty_iff.1 hempty
    have hreg := RegisterTensorSlice_ok key entry.tensorShape entry.dtype
      (TensorSlice.full entry.tensorShape.length) r.tensor_slices_ [] (Or.inl ⟨hm, rfl⟩)
      (hvalid _ (by rw [hS]; exact List.mem_singleton_self _))
      (fun x hx => absurd hx (List.not_mem_nil x)) (List.not_mem_nil _)
    have hf := mapFind_mapInsert_self r.tensor_slices_ key
      (TensorSliceSet.mk entry.tensorShape entry.dtype
        ([] ++ [TensorSlice.full entry.tensorShape.length]))
    refine ⟨mapInsert r.tensor_slices_ key
      (TensorSliceSet.mk entry.tensorShape entry.dtype
        ([] ++ [TensorSlice.full entry.tensorShape.length])), ?_, ?_⟩
    · rw [hf, hS]
      rfl
    · intro env
      unfold BundleReader.GetSliceValue
      simp only [hm, hempty, if_true, hreg, hok, Bool.not_true, Bool.false_eq_true, if_false,
        hsl, registerSlices, hf, List.isEmpty_nil]
  · have hS : storedSlices entry = entry.slices.map TensorSlice.ofProto := by
      simp [storedSlices, hempty]
    rw [hS] at hvalid hnodup hdisj
    have hne : entry.slices ≠ [] := by
      intro e
      rw [e] at hempty
      exact hempty rfl
    obtain ⟨ts1, k1, k2⟩ := registerSlices_ok key entry.tensorShape entry.dtype entry.slices
      r.tensor_slices_ [] (Or.inl ⟨hm, rfl, hne⟩) hvalid (by simpa using hnodup)
      (by simpa using hdisj)
    simp only [List.nil_append] at k2
    refine ⟨ts1, by rw [k2, hS], ?_⟩
    intro env
    unfold BundleReader.GetSliceValue
    simp only [hm, hempty, Bool.false_eq_true, if_false, hok, Bool.not_true, k1, k2]

end tfplus

namespace tfplus

open DataType

/-- A stored slice whose tensor `V` was written by `Add` at the offset `pre.length` of
the data file can be read back. -/
theorem holdsSlice_stored (r : BundleReader) (env : Env) (kLittleEndian : Bool)
    (rows : List (String × TableValue)) (key : String) (full_entry : BundleEntryProto)
    (T : List Nat → Bytes) (x : TensorSlice) (V : Tensor) (pre pad : Bytes)
    (hr : r.need_to_swap_bytes_ = false)
    (hfile : fsFind env.files (DataFilename r.prefix_ 0 r.num_shards_) =
      some (FileData.bytes (pre ++ tensorPayload kLittleEndian V ++ pad)))
    (hV : V.WF) (hm : DataTypeCanUseMemcpy V.dtype = true)
    (hfull : x.IsFull = true → tensorEntry kLittleEndian V pre.length = full_entry)
    (hrow : x.IsFull = false → mapFind rows (EncodeTensorNameSlice key x) =
      some (TableValue.entry (tensorEntry kLittleEndian V pre.length)))
    (hd : V.dtype = full_entry.dtype) (hs : V.shape = x.shapeIn full_entry.tensorShape)
    (hel : (extentsPoints x.extents full_entry.tensorShape).all (fun p =>
      decide (sliceElem (DataTypeSize full_entry.dtype) x full_entry.tensorShape V.data p =
        T p)) = true) :
    holdsSlice r env kLittleEndian rows key full_entry T x
      (tensorEntry kLittleEndian V pre.length) V := by
  refine ⟨hfull, hrow, hV.1, hs, hd, hd, hs, hV, ?_, ?_⟩
  · intro r2 dest h1 h2 h3 hdest
    refine GetValue_memcpy r2 env kLittleEndian V dest pre pad (by rw [h3, hr]) ?_ hV hm hdest
    rw [h1, h2]
    exact hfile
  · intro p hp
    rw [List.all_eq_true] at hel
    have := hel p ((mem_extentsPoints _ _ _).2 hp)
    exact of_decide_eq_true this

/-- C5 (amended): slice sufficiency.  The reader is open with the table `rows`, which
holds the entry `entry` of the tensor under `key`; the slices registered for the key
are slices of the tensor, pairwise distinct and without overlap; `q` is a slice of the
tensor.  When the union of the registered slices covers `q`, the rank of the tensor is
at most `kTensorSliceMaxRank`, its element type is one of those `GetSliceValue` copies,
every registered slice can be read back and holds the elements `T` of the tensor, and
the destination has the element type of the tensor and the shape of `q`, then
`LookupSlice` returns OK with a tensor of that type and shape that holds, at every
index of `q`, the element of the tensor.  When the union does not cover `q`,
`LookupSlice` returns the insufficient-slices error whatever the file system holds,
with the destination as it was. -/
theorem LookupSlice_sufficiency (r : BundleReader) (kLittleEndian : Bool) (key : String)
    (q : TensorSlice) (val : Tensor) (rows : List (String × TableValue))
    (entry : BundleEntryProto)
    (hst : r.status_.ok = true) (ht : r.table_ = some rows) (hsorted : mapSorted rows)
    (hent : mapFind rows key = some (TableValue.entry entry))
    (hshape : Tensor.shapeIsValid entry.tensorShape = true)
    (hcache : ∀ tss, mapFind r.tensor_slices_ key = some tss →
      tss.shape_ = entry.tensorShape)
    (hvalid : ∀ x ∈ registeredSlices r key entry, x.validFor entry.tensorShape = true)
    (hnodup : (registeredSlices r key entry).Nodup)
    (hdisj : ∀ a ∈ registeredSlices r key entry, ∀ b ∈ registeredSlices r key entry,
      a ≠ b → a.Overlaps b = false)
    (hq : q.validFor entry.tensorShape = true) :
    (coversSlice (registeredSlices r key entry) entry.tensorShape q = true →
      ∀ (env : Env) (T : List Nat → Bytes),
      entry.tensorShape.length ≤ kTensorSliceMaxRank →
      sliceCopySupported entry.dtype = true →
      (∀ x ∈ registeredSlices r key entry,
        ∃ e V, holdsSlice r env kLittleEndian rows key entry T x e V) →
      val.WF → val.dtype = entry.dtype → val.shape = q.shapeIn entry.tensorShape →
      ∃ val2 r2, r.LookupSlice env kLittleEndian key q val = some (Status.OK, val2, r2) ∧
        val2.dtype = entry.dtype ∧ val2.shape = q.shapeIn entry.tensorShape ∧ val2.WF ∧
        ∀ p, q.contains entry.tensorShape p = true →
          sliceElem (DataTypeSize entry.dtype) q entry.tensorShape val2.data p = T p) ∧
    (coversSlice (registeredSlices r key entry) entry.tensorShape q = false →
      ∃ r2, ∀ env, r.LookupSlice env kLittleEndian key q val =
        some (insufficientSlices key q, val, r2)) := by
  have hok : Status.OK.ok = true := rfl
  obtain ⟨g1, _⟩ := GetBundleEntryProto_found r rows key entry hst ht hsorted hent hshape
  have hL : ∀ env, r.LookupSlice env kLittleEndian key q val =
      (r.Seek key).GetSliceValue env kLittleEndian key entry q val := by
    intro env
    unfold BundleReader.LookupSlice
    simp only [g1, hok, Bool.not_true, Bool.false_eq_true, if_false]
  have e1 : (r.Seek key).tensor_slices_ = r.tensor_slices_ := by
    simp only [BundleReader.Seek, ht]
  have e2 : (r.Seek key).status_ = r.status_ := by simp only [BundleReader.Seek, ht]
  have e3 : (r.Seek key).table_ = some rows := by simp only [BundleReader.Seek, ht]
  have e4 : (r.Seek key).prefix_ = r.prefix_ := by simp only [BundleReader.Seek, ht]
  have e5 : (r.Seek key).num_shards_ = r.num_shards_ := by simp only [BundleReader.Seek, ht]
  have e6 : (r.Seek key).need_to_swap_bytes_ = r.need_to_swap_bytes_ := by
    simp only [BundleReader.Seek, ht]
  cases hm : mapFind r.tensor_slices_ key with
  | some tss =>
    have hR : registeredSlices r key entry = tss.slices_ := by
      simp only [registeredSlices, hm]
    rw [hR] at hvalid hnodup hdisj ⊢
    have hm1 : mapFind (r.Seek key).tensor_slices_ key = some tss := by rw [e1, hm]
    constructor
    · intro hcov env T hrank hdt hS hval hvd hvs
      haveI : Nonempty BundleEntryProto := ⟨entry⟩
      haveI : Nonempty Tensor := ⟨val⟩
      choose! entryOf valueOf hE using hS
      rw [hL env]
      exact GetSliceValue_warm (r.Seek key) r env kLittleEndian key entry q val rows T tss
        hm1 (hcache tss hm) (by rw [e2, hst]) e3 e4 e5 e6 hsorted hrank hdt hvalid hnodup
        hdisj hq hval hvd hvs entryOf valueOf hE hcov
    · intro hcov
      refine ⟨r.Seek key, ?_⟩
      intro env
      rw [hL env]
      exact GetSliceValue_insufficient (r.Seek key) env kLittleEndian key entry q val tss
        hm1 (hcache tss hm) hvalid hnodup hdisj hq hcov
  | none =>
    have hR : registeredSlices r key entry = storedSlices entry := by
      simp only [registeredSlices, hm]
    rw [hR] at hvalid hnodup hdisj ⊢
    obtain ⟨ts1, c1, c2⟩ := GetSliceValue_cold (r.Seek key) kLittleEndian key entry q val
      (by rw [e1, hm]) hvalid hnodup hdisj
    constructor
    · intro hcov env T hrank hdt hS hval hvd hvs
      haveI : Nonempty BundleEntryProto := ⟨entry⟩
      haveI : Nonempty Tensor := ⟨val⟩
      choose! entryOf valueOf hE using hS
      rw [hL env, c2 env]
      exact GetSliceValue_warm _ r env kLittleEndian key entry q val rows T
        ⟨entry.tensorShape, entry.dtype, storedSlices entry⟩
        c1 rfl (by rw [← hst, ← e2]) e3 e4 e5 e6 hsorted hrank hdt hvalid hnodup
        hdisj hq hval hvd hvs entryOf valueOf hE hcov
    · intro hcov
      refine ⟨{ r.Seek key with tensor_slices_ := ts1 }, ?_⟩
      intro env
      rw [hL env, c2 env]
      exact GetSliceValue_insufficient _ env kLittleEndian key entry q val
        ⟨entry.tensorShape, entry.dtype, storedSlices entry⟩ c1 rfl hvalid hnodup hdisj hq hcov

end tfplus

namespace tfplus

open DataType

/-- The hypothesis on the cache holds of a reader whose cache has nothing for the
key. -/
theorem cache_cold (r : BundleReader) (key : String) (entry : BundleEntryProto)
    (h : mapFind r.tensor_slices_ key = none) :
    ∀ tss, mapFind r.tensor_slices_ key = some tss → tss.shape_ = entry.tensorShape := by
  intro tss h2
  rw [h] at h2
  cases h2

/-- The two slices of the tensor "t" of `exSliceBundle` can be read back and hold its
elements. -/
theorem exSlice_holds :
    ∀ x ∈ registeredSlices (exSliceReader DT_INT16 true) "t" (exSliceEntry DT_INT16 true),
      ∃ e V, holdsSlice (exSliceReader DT_INT16 true) (exSliceBundle DT_INT16 true) true
        (exSliceRows DT_INT16 true) "t" (exSliceEntry DT_INT16 true) exSliceElems x e V := by
  intro x hx
  have hreg : registeredSlices (exSliceReader DT_INT16 true) "t" (exSliceEntry DT_INT16 true) =
      [TensorSlice.mk [(0, 2)], TensorSlice.mk [(2, 2)]] := by decide!
  rw [hreg] at hx
  simp only [List.mem_cons, List.mem_singleton, List.not_mem_nil, or_false] at hx
  rcases hx with rfl | rfl
  · exact ⟨_, _, holdsSlice_stored (exSliceReader DT_INT16 true) (exSliceBundle DT_INT16 true)
      true (exSliceRows DT_INT16 true) "t" (exSliceEntry DT_INT16 true) exSliceElems
      (TensorSlice.mk [(0, 2)]) (Tensor.mk DT_INT16 [2] [1, 2, 3, 4] []) [] [5, 6, 7, 8]
      (by decide!) (by decide!) (by decide!) (by decide!) (by decide!) (by decide!)
      (by decide!) (by decide!) (by decide!)⟩
  · exact ⟨_, _, holdsSlice_stored (exSliceReader DT_INT16 true) (exSliceBundle DT_INT16 true)
      true (exSliceRows DT_INT16 true) "t" (exSliceEntry DT_INT16 true) exSliceElems
      (TensorSlice.mk [(2, 2)]) (Tensor.mk DT_INT16 [2] [5, 6, 7, 8] []) [1, 2, 3, 4] []
      (by decide!) (by decide!) (by decide!) (by decide!) (by decide!) (by decide!)
      (by decide!) (by decide!) (by decide!)⟩

theorem LookupSlice_sufficiency_witness :
    coversSlice (registeredSlices (exSliceReader DT_INT16 true) "t" (exSliceEntry DT_INT16 true))
      (exSliceEntry DT_INT16 true).tensorShape (TensorSlice.mk [(0, 4)]) = true ∧
    (∃ val2 r2,
      (exSliceReader DT_INT16 true).LookupSlice (exSliceBundle DT_INT16 true) true "t"
        (TensorSlice.mk [(0, 4)]) (exSliceOut DT_INT16) = some (Status.OK, val2, r2) ∧
      val2.dtype = (exSliceEntry DT_INT16 true).dtype ∧
      val2.shape = (TensorSlice.mk [(0, 4)]).shapeIn (exSliceEntry DT_INT16 true).tensorShape ∧
      val2.WF ∧
      ∀ p, (TensorSlice.mk [(0, 4)]).contains (exSliceEntry DT_INT16 true).tensorShape p = true →
        sliceElem (DataTypeSize (exSliceEntry DT_INT16 true).dtype) (TensorSlice.mk [(0, 4)])
          (exSliceEntry DT_INT16 true).tensorShape val2.data p = exSliceElems p) ∧
    coversSlice (registeredSlices (exSliceReader DT_INT16 false) "t" (exSliceEntry DT_INT16 false))
      (exSliceEntry DT_INT16 false).tensorShape (TensorSlice.mk [(0, 4)]) = false ∧
    ∃ r2, ∀ env, (exSliceReader DT_INT16 false).LookupSlice env true "t"
      (TensorSlice.mk [(0, 4)]) (exSliceOut DT_INT16) =
        some (insufficientSlices "t" (TensorSlice.mk [(0, 4)]), exSliceOut DT_INT16, r2) :=
  ⟨by decide!,
    (LookupSlice_sufficiency (exSliceReader DT_INT16 true) true "t" (TensorSlice.mk [(0, 4)])
      (exSliceOut DT_INT16) (exSliceRows DT_INT16 true) (exSliceEntry DT_INT16 true)
      (by decide!) (by decide!) (by decide!) (by decide!) (by decide!)
      (cache_cold _ _ _ (by decide!)) (by decide!) (by decide!) (by decide!) (by decide!)).1
      (by decide!) (exSliceBundle DT_INT16 true) exSliceElems (by decide!) (by decide!)
      exSlice_holds (by decide!) (by decide!) (by decide!),
    by decide!,
    (LookupSlice_sufficiency (exSliceReader DT_INT16 false) true "t" (TensorSlice.mk [(0, 4)])
      (exSliceOut DT_INT16) (exSliceRows DT_INT16 false) (exSliceEntry DT_INT16 false)
      (by decide!) (by decide!) (by decide!) (by decide!) (by decide!)
      (cache_cold _ _ _ (by decide!)) (by decide!) (by decide!) (by decide!) (by decide!)).2
      (by decide!)⟩

/-- C5 (as stated, refuted): the four elements of the tensor "t" of type `DT_UINT16`
are stored as the slices `[0,2)` and `[2,4)`.  Both are registered, their union covers
`[0,4)`, and `LookupSlice` returns each of them; `LookupSlice` of `[0,4)` returns
`InvalidArgument` "Dtype uint16 not supported." and leaves the destination as it
was. -/
theorem LookupSlice_unsupported_dtype :
    registeredSlices (exSliceReader DT_UINT16 true) "t" (exSliceEntry DT_UINT16 true) =
      [TensorSlice.mk [(0, 2)], TensorSlice.mk [(2, 2)]] ∧
    coversSlice [TensorSlice.mk [(0, 2)], TensorSlice.mk [(2, 2)]]
      (exSliceEntry DT_UINT16 true).tensorShape (TensorSlice.mk [(0, 4)]) = true ∧
    ((exSliceReader DT_UINT16 true).LookupSlice (exSliceBundle DT_UINT16 true) true "t"
        (TensorSlice.mk [(0, 2)]) (Tensor.mk DT_UINT16 [2] [0, 0, 0, 0] [])).map
        (fun res => (res.1, res.2.1)) =
      some (Status.OK, Tensor.mk DT_UINT16 [2] [1, 2, 3, 4] []) ∧
    ((exSliceReader DT_UINT16 true).LookupSlice (exSliceBundle DT_UINT16 true) true "t"
        (TensorSlice.mk [(2, 2)]) (Tensor.mk DT_UINT16 [2] [0, 0, 0, 0] [])).map
        (fun res => (res.1, res.2.1)) =
      some (Status.OK, Tensor.mk DT_UINT16 [2] [5, 6, 7, 8] []) ∧
    ((exSliceReader DT_UINT16 true).LookupSlice (exSliceBundle DT_UINT16 true) true "t"
        (TensorSlice.mk [(0, 4)]) (exSliceOut DT_UINT16)).map (fun res => (res.1, res.2.1)) =
      some (errors.InvalidArgument "Dtype uint16 not supported.", exSliceOut DT_UINT16) := by
  decide!

end tfplus

namespace tfplus

open DataType

/-! ## C29: rows by index, without checksum and without range check -/

/-- C29: `GetValueWithIndices` reads neither the stored checksum nor, for a destination
that has elements, the stored shape: its status and output are the same for two
entries that differ only in the checksum field, and the same for two entries that
differ only in the shape field, so no index is compared with the number of stored
rows.  On the bundle of `exFinished` with one byte of row 1 changed, `Lookup` reports
the checksum, and the lookup of row 1 by index returns OK with the changed byte as
data; on the unchanged bundle, which has the rows 0 and 1, the lookup of the rows 0
and 2 returns OK. -/
theorem GetValueWithIndices_unchecked (r : BundleReader) (env : Env)
    (entry : BundleEntryProto) (val : Tensor) (indices : List Int) :
    (∀ c, r.GetValueWithIndices env { entry with crc32c := c } val indices =
      r.GetValueWithIndices env entry val indices) ∧
    (∀ s, val.NumElements ≠ 0 →
      r.GetValueWithIndices env { entry with shape := s } val indices =
        r.GetValueWithIndices env entry val indices) ∧
    exFinished.2.byteAt "dir/ckpt.data-00000-of-00001" 5 = some 6 ∧
    exAltered.byteAt "dir/ckpt.data-00000-of-00001" 5 = some 99 ∧
    ((exReaderLittle.Lookup exAltered true "a" Tensor.empty).map (fun res => res.1.code)) =
      some Code.DATA_LOSS ∧
    (exReaderLittle.LookupWithIndices exAltered "a" exRowOut [1]).map
        (fun res => (res.1, res.2.1)) =
      some (Status.OK, Tensor.mk DT_INT16 [1, 2] [5, 99, 7, 8] []) ∧
    (exReaderLittle.LookupWithIndices exFinished.2 "a" exRowsOut [0, 2]).map
        (fun res => (res.1, res.2.1)) =
      some (Status.OK, Tensor.mk DT_INT16 [2, 2] [1, 2, 3, 4, 1, 2, 3, 4] []) := by
  refine ⟨fun c => rfl, ?_, by decide!, by decide!, by decide!, by decide!, by decide!⟩
  intro s hne
  unfold BundleReader.GetValueWithIndices
  have hf : decide (val.NumElements = 0) = false := by simp [hne]
  simp only [hf, Bool.false_eq_true, if_false]

theorem GetValueWithIndices_unchecked_witness :
    exRowOut.NumElements ≠ 0 ∧
    exReaderLittle.GetValueWithIndices exFinished.2
        { (tensorEntry true exTensorA 0) with shape := some [7, 2] } exRowOut [1] =
      exReaderLittle.GetValueWithIndices exFinished.2 (tensorEntry true exTensorA 0)
        exRowOut [1] :=
  ⟨by decide,
    (GetValueWithIndices_unchecked exReaderLittle exFinished.2 (tensorEntry true exTensorA 0)
      exRowOut [1]).2.1 (some [7, 2]) (by decide)⟩

end tfplus

namespace tfplus

open DataType

/-! ## C28: the bounds of `AppendSegment` and `AppendChunk` -/

theorem AppendSegment_isSome (b : FileOutputBuffer) (env : Env) (data : Bytes) :
    (b.AppendSegment env data).isSome = true ↔
      ((b.FlushBuffer env).1.ok = true → data.length ≤ b.buffer_size_) := by
  obtain ⟨_, k2, _, _⟩ := FlushBuffer_fields b env
  unfold FileOutputBuffer.AppendSegment
  generalize b.FlushBuffer env = fr at k2
  obtain ⟨s0, b0, e0⟩ := fr
  simp only at k2 ⊢
  by_cases hf : s0.ok = true
  · simp only [hf, Bool.not_true, Bool.false_eq_true, if_false, forall_const]
    by_cases hlen : data.length > b0.buffer_size_
    · simp only [hlen, if_true, Option.isSome_none, Bool.false_eq_true, false_iff]
      rw [k2] at hlen
      omega
    · simp only [hlen, if_false]
      rw [k2] at hlen
      constructor
      · intro _
        omega
      · intro _
        generalize FileOutputBuffer.FlushBuffer _ e0 = fr2
        obtain ⟨s2, b2, e2⟩ := fr2
        by_cases h2 : s2.ok = true
        · simp [h2]
        · simp [h2]
  · simp only [Bool.not_eq_true] at hf
    simp [hf]

/-- C28: `AppendChunk` is `AppendSegment`.  The call flushes the buffer, and when that
flush returns OK it copies the whole input to position 0: the copy stays inside the
buffer if and only if the input is no longer than the capacity.  For an input no
longer than the capacity the call returns; when it returns OK the buffer is empty
(position 0) and the file holds what it held, then the bytes that were buffered, then
exactly the input; and it returns OK when the file of the buffer exists and no fault
is pending. -/
theorem flushed_unit_bounds (b : FileOutputBuffer) (env : Env) (data : Bytes) :
    b.AppendChunk env data = b.AppendSegment env data ∧
    ((b.FlushBuffer env).1.ok = true →
      ((b.AppendSegment env data).isSome = true ↔ data.length ≤ b.buffer_size_)) ∧
    (data.length ≤ b.buffer_size_ →
      (b.AppendSegment env data).isSome = true ∧
      (∀ st b1 env1, b.AppendSegment env data = some (st, b1, env1) → st.ok = true →
        b1.buffer_ = [] ∧ b1.position_ = 0 ∧ b1.file_ = b.file_ ∧
        ∀ fb, fsFind env.files b.file_ = some (FileData.bytes fb) →
          fsFind env1.files b.file_ = some (FileData.bytes (fb ++ b.buffer_ ++ data))) ∧
      ∀ fb, env.faults = [] → fsFind env.files b.file_ = some (FileData.bytes fb) →
        ∃ b1 env1, b.AppendSegment env data = some (Status.OK, b1, env1)) := by
  refine ⟨rfl, ?_, ?_⟩
  · intro hf
    rw [AppendSegment_isSome]
    exact ⟨fun h => h hf, fun h _ => h⟩
  · intro hlen
    refine ⟨(AppendSegment_isSome b env data).2 (fun _ => hlen), ?_, ?_⟩
    · intro st b1 env1 h hst
      obtain ⟨_, _, j3, j4, _, j6⟩ := AppendSegment_ok b env data st b1 env1 h hst
      refine ⟨j3, by rw [FileOutputBuffer.position_, j3]; rfl, j4, ?_⟩
      intro fb hfb
      have hc : b.content env = some (fb ++ b.buffer_) := by
        unfold FileOutputBuffer.content
        rw [hfb]
      obtain ⟨fb1, hfile1, hc1⟩ := content_file b1 env1 _ (j6 _ hc)
      rw [j3, List.append_nil] at hc1
      rw [← j4, hfile1, hc1]
    · intro fb hfa hfb
      have hc : b.content env = some (fb ++ b.buffer_) := by
        unfold FileOutputBuffer.content
        rw [hfb]
      obtain ⟨b1, env1, h, _⟩ := AppendSegment_total b env data _ hfa hc hlen
      exact ⟨b1, env1, h⟩

theorem flushed_unit_bounds_witness :
    ((FileOutputBuffer.mk "f" 4 [1, 2] 0).FlushBuffer exBuffer.2).1.ok = true ∧
    ([7, 8, 9] : Bytes).length ≤ (FileOutputBuffer.mk "f" 4 [1, 2] 0).buffer_size_ ∧
    (((FileOutputBuffer.mk "f" 4 [1, 2] 0).AppendSegment exBuffer.2 [7, 8, 9]).isSome = true ↔
      ([7, 8, 9] : Bytes).length ≤ 4) ∧
    ((FileOutputBuffer.mk "f" 4 [1, 2] 0).AppendSegment exBuffer.2 [7, 8, 9]).map
        (fun res => (res.1, res.2.1.buffer_, fsFind res.2.2.files "f")) =
      some (Status.OK, [], some (FileData.bytes [1, 2, 7, 8, 9])) ∧
    ((FileOutputBuffer.mk "f" 4 [1, 2] 0).AppendSegment exBuffer.2 [5, 6, 7, 8, 9]) = none :=
  ⟨by decide!, by decide,
    (flushed_unit_bounds (FileOutputBuffer.mk "f" 4 [1, 2] 0) exBuffer.2 [7, 8, 9]).2.1
      (by decide!),
    by decide!, by decide!⟩

end tfplus

namespace tfplus

open DataType

/-! ## C27: `AddSlice` of a slice that was added before -/

theorem EncodeTensorNameSlice_ne_header (key : String) (s : TensorSlice) :
    EncodeTensorNameSlice key s ≠ kHeaderEntryKey := by
  intro h
  have := congrArg String.length h
  simp only [EncodeTensorNameSlice, kHeaderEntryKey, String.length_append] at this
  have h1 : (String.mk [Char.ofNat 0]).length = 1 := rfl
  have h2 : "".length = 0 := rfl
  omega

theorem mapContains_mapInsert {α : Type} (m : List (String × α)) (k k2 : String) (v : α)
    (h : mapContains m k2 = true) : mapContains (mapInsert m k v) k2 = true := by
  unfold mapContains at h ⊢
  by_cases hk : k = k2
  · subst hk
    rw [mapFind_mapInsert_self]
    rfl
  · rw [mapFind_mapInsert_ne m k k2 v hk]
    exact h

/-- C27: the writer has not failed, the catalog holds the entry of the full tensor
`key` with the dtype of the slice tensor and the full shape, and the entry of the slice
`slice_spec`, which is not the full tensor, from an earlier `AddSlice`.  A further
`AddSlice` of that slice returns the `InvalidArgument` error "Adding duplicate key" of
`Add` for the name of the slice; the environment, the output buffer and the running
size are as before, so no byte was appended; the entry of the full tensor has the slice
once more at the end of its slice list; and the status of the writer holds the
error. -/
theorem AddSlice_repeated (w : BundleWriter) (env : Env) (kLittleEndian : Bool)
    (key : String) (shape : List Nat) (slice_spec : TensorSlice) (slice_tensor : Tensor)
    (e : BundleEntryProto)
    (hok : w.status_.ok = true) (hkey : key ≠ kHeaderEntryKey)
    (hnf : IsFullSlice slice_spec shape = some false)
    (hfull : mapFind w.entries_ key = some e) (hdt : e.dtype = slice_tensor.dtype)
    (hsh : e.shape = some shape)
    (hdup : mapContains w.entries_ (EncodeTensorNameSlice key slice_spec) = true) :
    ∃ w1, w.AddSlice env kLittleEndian key shape slice_spec slice_tensor =
        some (errors.InvalidArgument
          ("Adding duplicate key: " ++ EncodeTensorNameSlice key slice_spec), w1, env) ∧
      w1.out_ = w.out_ ∧ w1.size_ = w.size_ ∧
      (∃ e1, mapFind w1.entries_ key = some e1 ∧
        e1.slices = e.slices ++ [slice_spec.AsProto] ∧
        e1.slices.length = e.slices.length + 1) ∧
      w1.status_.ok = false ∧
      w1.status_ = errors.InvalidArgument
        ("Adding duplicate key: " ++ EncodeTensorNameSlice key slice_spec) := by
  have hd1 : ¬ (e.dtype ≠ DT_INVALID ∧ e.dtype ≠ slice_tensor.dtype) := by
    intro h
    exact h.2 hdt
  have hs1 : ¬ (e.shape.isSome = true ∧ e.tensorShape ≠ shape) := by
    intro h
    apply h.2
    simp [BundleEntryProto.tensorShape, hsh]
  have hc := mapContains_mapInsert w.entries_ key (EncodeTensorNameSlice key slice_spec)
    { e with dtype := slice_tensor.dtype, shape := some shape,
             slices := e.slices ++ [slice_spec.AsProto] } hdup
  have hadd := Add_duplicate_key_rejected
    { w with entries_ := updateEntry w.entries_ key (fun e =>
        { e with dtype := slice_tensor.dtype, shape := some shape,
                 slices := e.slices ++ [slice_spec.AsProto] }) }
    env kLittleEndian (EncodeTensorNameSlice key slice_spec) slice_tensor hok
    (EncodeTensorNameSlice_ne_header key slice_spec)
    (by
      simp only [updateEntry, hfull, Option.getD_some]
      exact hc)
  refine ⟨{ w with
      entries_ := updateEntry w.entries_ key (fun e =>
        { e with dtype := slice_tensor.dtype, shape := some shape,
                 slices := e.slices ++ [slice_spec.AsProto] }),
      status_ := errors.InvalidArgument
        ("Adding duplicate key: " ++ EncodeTensorNameSlice key slice_spec) },
    ?_, rfl, rfl, ?_, rfl, rfl⟩
  · unfold BundleWriter.AddSlice
    simp only [hok, Bool.not_true, Bool.false_eq_true, if_false, hkey, hnf, hfull,
      Option.getD_some, hd1, hs1, hadd]
  · refine ⟨{ e with dtype := slice_tensor.dtype, shape := some shape,
                     slices := e.slices ++ [slice_spec.AsProto] }, ?_, rfl, ?_⟩
    · simp only [updateEntry, hfull, Option.getD_some]
      exact mapFind_mapInsert_self _ _ _
    · simp

theorem AddSlice_repeated_witness :
    (exSlicedB.1.AddSlice exSlicedB.2 true "b" [4] (TensorSlice.mk [(0, 2)])
        (Tensor.mk DT_INT16 [2] [1, 2, 3, 4] [])).map (fun res => (res.1.code, res.2.2)) =
      some (Code.INVALID_ARGUMENT, exSlicedB.2) ∧
    ((mapFind exSlicedB.1.entries_ "b").map (fun e => e.slices.length)) = some 1 ∧
    ∃ w1, exSlicedB.1.AddSlice exSlicedB.2 true "b" [4] (TensorSlice.mk [(0, 2)])
        (Tensor.mk DT_INT16 [2] [1, 2, 3, 4] []) =
        some (errors.InvalidArgument ("Adding duplicate key: " ++
          EncodeTensorNameSlice "b" (TensorSlice.mk [(0, 2)])), w1, exSlicedB.2) ∧
      w1.out_ = exSlicedB.1.out_ ∧ w1.size_ = exSlicedB.1.size_ ∧
      (∃ e1, mapFind w1.entries_ "b" = some e1 ∧
        e1.slices = ((mapFind exSlicedB.1.entries_ "b").getD {}).slices ++
          [(TensorSlice.mk [(0, 2)]).AsProto] ∧
        e1.slices.length = ((mapFind exSlicedB.1.entries_ "b").getD {}).slices.length + 1) ∧
      w1.status_.ok = false ∧
      w1.status_ = errors.InvalidArgument ("Adding duplicate key: " ++
        EncodeTensorNameSlice "b" (TensorSlice.mk [(0, 2)])) :=
  ⟨by decide!, by decide!,
    AddSlice_repeated exSlicedB.1 exSlicedB.2 true "b" [4] (TensorSlice.mk [(0, 2)])
      (Tensor.mk DT_INT16 [2] [1, 2, 3, 4] []) ((mapFind exSlicedB.1.entries_ "b").getD {})
      (by decide!) (by decide!) (by decide!) (by decide!) (by decide!) (by decide!)
      (by decide!)⟩

end tfplus

namespace tfplus

open DataType

/-! ## C30: the number of parts by binary search -/

theorem Contains_table (r : BundleReader) (key : String) :
    (r.Contains key).2.table_ = r.table_ := by
  unfold BundleReader.Contains BundleReader.Seek
  cases h : r.table_ with
  | none => simp only [h]
  | some rows => simp only [h]

theorem Contains_congr (r1 r2 : BundleReader) (key : String) (h : r1.table_ = r2.table_) :
    (r1.Contains key).1 = (r2.Contains key).1 := by
  unfold BundleReader.Contains BundleReader.Seek BundleReader.Valid BundleReader.current
  cases h2 : r2.table_ with
  | none =>
    rw [h2] at h
    simp only [h, h2]
  | some rows =>
    rw [h2] at h
    simp only [h, h2]

theorem calcLoop_spec (r0 : BundleReader) (prefix_name suffix_name : String) :
    ∀ (d fuel left right : Nat) (r : BundleReader) (probes : Nat),
    d ≤ fuel → left ≤ right → right - left < 2 ^ d → r.table_ = r0.table_ →
    ∃ l r1 n, BundleReader.calcLoop prefix_name suffix_name fuel left right r probes =
        some (l, r1, n) ∧
      r1.table_ = r0.table_ ∧ n ≤ probes + d ∧
      ∀ k, (∀ p, p ≤ 1023 → ((r0.PartExists p prefix_name suffix_name).1 = true ↔ p < k)) →
        right ≤ 1023 → (left < k ∨ left = 0) → k ≤ right + 1 →
        (l < k ∨ l = 0) ∧ k ≤ l + 1 := by
  intro d
  induction d with
  | zero =>
    intro fuel left right r probes _ hlr hw ht
    have hnot : ¬ (left < right) := by
      simp only [pow_zero] at hw
      omega
    refine ⟨left, r, probes, ?_, ht, Nat.le_refl _, ?_⟩
    · cases fuel with
      | zero => simp only [BundleReader.calcLoop, hnot, if_false]
      | succ f => simp only [BundleReader.calcLoop, hnot, if_false]
    · intro k _ _ h1 h2
      exact ⟨h1, by omega⟩
  | succ d ih =>
    intro fuel left right r probes hf hlr hw ht
    by_cases hlt : left < right
    · cases fuel with
      | zero => omega
      | succ f =>
        have hp : (2 : Nat) ^ (d + 1) = 2 * 2 ^ d := by rw [pow_succ]; omega
        have hmid1 : left < (left + right + 1) / 2 := by omega
        have hmid2 : (left + right + 1) / 2 ≤ right := by omega
        have hc := Contains_congr r r0
          (prefix_name ++ ("/part_" ++ Nat.repr ((left + right + 1) / 2)) ++ suffix_name) ht
        have htab := Contains_table r
          (prefix_name ++ ("/part_" ++ Nat.repr ((left + right + 1) / 2)) ++ suffix_name)
        unfold BundleReader.calcLoop
        simp only [hlt, if_true, BundleReader.PartExists]
        by_cases hfound : (r.Contains
            (prefix_name ++ ("/part_" ++ Nat.repr ((left + right + 1) / 2)) ++
              suffix_name)).1 = true
        · simp only [hfound, if_true]
          obtain ⟨l, r1, n, k1, k2, k3, k4⟩ := ih f ((left + right + 1) / 2) right
            (r.Contains (prefix_name ++ ("/part_" ++ Nat.repr ((left + right + 1) / 2)) ++
              suffix_name)).2 (probes + 1) (by omega) hmid2 (by omega) (by rw [htab, ht])
          refine ⟨l, r1, n, k1, k2, by omega, ?_⟩
          intro k hk hr _ h2
          refine k4 k hk hr (Or.inl ?_) h2
          have := (hk ((left + right + 1) / 2) (by omega)).1
            (by rw [← hc]; exact hfound)
          exact this
        · simp only [hfound, Bool.false_eq_true, if_false]
          obtain ⟨l, r1, n, k1, k2, k3, k4⟩ := ih f left ((left + right + 1) / 2 - 1)
            (r.Contains (prefix_name ++ ("/part_" ++ Nat.repr ((left + right + 1) / 2)) ++
              suffix_name)).2 (probes + 1) (by omega) (by omega) (by omega) (by rw [htab, ht])
          refine ⟨l, r1, n, k1, k2, by omega, ?_⟩
          intro k hk hr h1 _
          refine k4 k hk (by omega) h1 ?_
          have hnk : ¬ ((left + right + 1) / 2 < k) := by
            intro hlk
            apply hfound
            have := (hk ((left + right + 1) / 2) (by omega)).2 hlk
            rw [← hc] at this
            exact this
          omega
    · refine ⟨left, r, probes, ?_, ht, by omega, ?_⟩
      · cases fuel with
        | zero => simp only [BundleReader.calcLoop, hlt, if_false]
        | succ f => simp only [BundleReader.calcLoop, hlt, if_false]
      · intro k _ _ h1 h2
        exact ⟨h1, by omega⟩

/-- C30: `CalcNumShardsByTensorName` returns, after at most 11 calls of `PartExists`
(so of `Contains`); and when the part ids from 0 to 1023 whose key
`prefix_name + "/part_" + id + suffix_name` the reader contains are exactly the ids
below some `k`, with `k` at most 1024, the result is `k`, so 0 when no part key
exists. -/
theorem CalcNumShardsByTensorName_spec (r : BundleReader) (prefix_name suffix_name : String) :
    ∃ n r1 probes, r.CalcNumShardsByTensorName prefix_name suffix_name = some (n, r1, probes) ∧
      probes ≤ 11 ∧
      ∀ k, k ≤ 1024 →
        (∀ p, p ≤ 1023 → ((r.PartExists p prefix_name suffix_name).1 = true ↔ p < k)) →
        n = k := by
  obtain ⟨l, r1, n, k1, k2, k3, k4⟩ := calcLoop_spec r prefix_name suffix_name 10 1024 0 1023 r 0
    (by omega) (by omega) (by norm_num) rfl
  have hc := Contains_congr r1 r (prefix_name ++ ("/part_" ++ Nat.repr l) ++ suffix_name) k2
  refine ⟨if (r1.PartExists l prefix_name suffix_name).1 = true then l + 1 else 0,
    (r1.PartExists l prefix_name suffix_name).2, n + 1, ?_, ?_, ?_⟩
  · unfold BundleReader.CalcNumShardsByTensorName
    simp only [k1]
  · omega
  · intro k hk hP
    obtain ⟨j1, j2⟩ := k4 k hP (Nat.le_refl _) (Or.inr rfl) (by omega)
    by_cases hfound : (r1.PartExists l prefix_name suffix_name).1 = true
    · simp only [hfound, if_true]
      have hl : l ≤ 1023 := by
        by_contra hgt
        have : k ≤ 1024 := hk
        rcases j1 with j1 | j1
        · omega
        · omega
      have hx : (r.PartExists l prefix_name suffix_name).1 = true := by
        unfold BundleReader.PartExists at hfound ⊢
        rw [← hc]
        exact hfound
      have := (hP l hl).1 hx
      omega
    · simp only [hfound, Bool.false_eq_true, if_false]
      rcases j1 with j1 | j1
      · have hl : l ≤ 1023 := by omega
        have hx := (hP l hl).2 j1
        exfalso
        apply hfound
        unfold BundleReader.PartExists at hx ⊢
        rw [hc]
        exact hx
      · subst j1
        by_contra hne
        have hx := (hP 0 (by omega)).2 (by omega)
        apply hfound
        unfold BundleReader.PartExists at hx ⊢
        rw [hc]
        exact hx

theorem Contains_true_mem (r : BundleReader) (key : String)
    (h : (r.Contains key).1 = true) :
    ∃ rows v, r.table_ = some rows ∧ (key, v) ∈ rows := by
  unfold BundleReader.Contains BundleReader.Seek BundleReader.Valid BundleReader.current at h
  cases ht : r.table_ with
  | none => simp [ht] at h
  | some rows =>
    simp only [ht, Bool.and_eq_true, decide_eq_true_eq] at h
    obtain ⟨_, h2⟩ := h
    cases hg : rows.get? (seekRows rows key) with
    | none =>
      rw [hg] at h2
      cases h2
    | some kv =>
      obtain ⟨k, v⟩ := kv
      rw [hg] at h2
      simp only [decide_eq_true_eq] at h2
      subst h2
      exact ⟨rows, v, rfl, List.get?_mem hg⟩

/-- No key of the form `"v" ++ "/part_" ++ id ++ "/w"` is in the bundle of
`exFinished`, which holds the tensor "a" only. -/
theorem exReaderLittle_no_part (p : Nat) :
    (exReaderLittle.PartExists p "v" "/w").1 = false := by
  cases hc : (exReaderLittle.PartExists p "v" "/w").1 with
  | false => rfl
  | true =>
    exfalso
    unfold BundleReader.PartExists at hc
    obtain ⟨rows, v, ht, hmem⟩ := Contains_true_mem _ _ hc
    have hrows : exReaderLittle.table_ = some [("", TableValue.header
        { num_shards := 1, endianness := Endianness.LITTLE,
          version := { producer := 1, min_consumer := 0, bad_consumers := [] } }),
        ("a", TableValue.entry (tensorEntry true exTensorA 0))] := by decide!
    rw [hrows, Option.some.injEq] at ht
    subst ht
    have hlen : ("v" ++ ("/part_" ++ Nat.repr p) ++ "/w").length ≥ 9 := by
      simp only [String.length_append]
      have h1 : "v".length = 1 := rfl
      have h2 : "/part_".length = 6 := rfl
      have h3 : "/w".length = 2 := rfl
      omega
    simp only [List.mem_cons, Prod.mk.injEq, List.mem_singleton, List.not_mem_nil,
      or_false] at hmem
    rcases hmem with ⟨h1, _⟩ | ⟨h1, _⟩
    · rw [h1] at hlen
      have : "".length = 0 := rfl
      omega
    · rw [h1] at hlen
      have : "a".length = 1 := rfl
      omega

theorem CalcNumShardsByTensorName_spec_witness :
    (exPartsReader.CalcNumShardsByTensorName "v" "/w").map (fun res => (res.1, res.2.2)) =
      some (3, 11) ∧
    (∀ p, p ≤ 1023 → ((exReaderLittle.PartExists p "v" "/w").1 = true ↔ p < 0)) ∧
    ∃ n r1 probes, exReaderLittle.CalcNumShardsByTensorName "v" "/w" = some (n, r1, probes) ∧
      probes ≤ 11 ∧ n = 0 := by
  have hP : ∀ p, p ≤ 1023 → ((exReaderLittle.PartExists p "v" "/w").1 = true ↔ p < 0) := by
    intro p _
    rw [exReaderLittle_no_part p]
    simp
  obtain ⟨n, r1, probes, h1, h2, h3⟩ := CalcNumShardsByTensorName_spec exReaderLittle "v" "/w"
  exact ⟨by decide!, hP, n, r1, probes, h1, h2, h3 0 (by omega) hP⟩

end tfplus

namespace tfplus

open DataType

/-! ## C21: the checksum and the byte swap of `GetValue` -/

theorem byteSwapArray_one : ∀ (n : Nat) (data : Bytes), byteSwapArray 1 n data = data := by
  intro n
  induction n with
  | zero => intro data; rfl
  | succ n ih =>
    intro data
    unfold byteSwapArray
    rw [ih]
    cases data with
    | nil => rfl
    | cons a rest => simp

theorem ByteSwapTensor_memcpy (t : Tensor) (h : DataTypeCanUseMemcpy t.dtype = true) :
    ByteSwapTensor t = (Status.OK, Tensor.mk t.dtype t.shape
      (byteSwapArray (swapUnit t.dtype)
        (t.NumElements * (DataTypeSize t.dtype / swapUnit t.dtype)) t.data) t.strings) := by
  obtain ⟨d, sh, da, ss⟩ := t
  cases d <;>
    first
    | (simp only [DataTypeCanUseMemcpy] at h
       exact absurd h (by decide))
    | (simp only [ByteSwapTensor, swapUnit, DataTypeSize, Nat.div_self, Nat.mul_one,
        byteSwapArray_one, Tensor.NumElements, Nat.lt_irrefl, Nat.zero_lt_succ]
       try rfl)


theorem read_either (file : Bytes) (off n : Nat) (rst : Status) (got : Bytes)
    (h : (if n > kBufferSize then RandomAccessFile.Read file off n
      else ((InputBuffer.ReadNBytes file off n).1, (InputBuffer.ReadNBytes file off n).2.1)) =
      (rst, got)) :
    got = (file.drop off).take n ∧ (rst.ok = true ↔ ((file.drop off).take n).length = n) := by
  unfold RandomAccessFile.Read InputBuffer.ReadNBytes at h
  by_cases hl : ((file.drop off).take n).length = n
  · simp only [hl, if_true, ite_self, Prod.mk.injEq] at h
    obtain ⟨h1, h2⟩ := h
    subst h1
    exact ⟨h2.symm, by simp [hl, Status.OK, Status.ok]⟩
  · by_cases hb : n > kBufferSize
    · simp only [hl, if_false, hb, if_true, Prod.mk.injEq] at h
      obtain ⟨h1, h2⟩ := h
      subst h1
      refine ⟨h2.symm, ?_, fun h => absurd h hl⟩
      intro h
      simp [errors.OutOfRange, Status.ok] at h
    · simp only [hl, if_false, hb, Prod.mk.injEq] at h
      obtain ⟨h1, h2⟩ := h
      subst h1
      refine ⟨h2.symm, ?_, fun h => absurd h hl⟩
      intro h
      simp [errors.OutOfRange, Status.ok] at h

/-- C21 (amended): for an entry of a fixed-width type, `GetValue` with the swap flag
clear and with it set either both abort, or both return, with the same status: the
checksum is computed over the bytes read from the data file, before any swap, and when
the file holds the bytes of the entry and the size fits the destination, the status is
the checksum error exactly when the stored checksum differs from the CRC32C of those
bytes.  When the status is OK, the value returned with the flag set has the dtype,
shape and bytes of the value returned with the flag clear, with the bytes of every unit
reversed: the unit is the element, and for `complex64` and `complex128` the
component, half the element. -/
theorem GetValue_swap_flag (r : BundleReader) (env : Env) (kLittleEndian : Bool)
    (entry : BundleEntryProto) (val : Tensor)
    (hm : DataTypeCanUseMemcpy entry.dtype = true) :
    (({ r with need_to_swap_bytes_ := false } : BundleReader).GetValue env kLittleEndian
        entry val = none ∧
      ({ r with need_to_swap_bytes_ := true } : BundleReader).GetValue env kLittleEndian
        entry val = none) ∨
    ∃ st vP vS,
      ({ r with need_to_swap_bytes_ := false } : BundleReader).GetValue env kLittleEndian
        entry val = some (st, vP) ∧
      ({ r with need_to_swap_bytes_ := true } : BundleReader).GetValue env kLittleEndian
        entry val = some (st, vS) ∧
      (st.ok = true → vS = Tensor.mk vP.dtype vP.shape
        (byteSwapArray (swapUnit vP.dtype)
          (vP.NumElements * (DataTypeSize vP.dtype / swapUnit vP.dtype)) vP.data) vP.strings) ∧
      ∀ file, env.NewRandomAccessFile (DataFilename r.prefix_ entry.shard_id r.num_shards_) =
          (Status.OK, file) →
        entry.size = (if decide (val.NumElements = 0) = true then
          Tensor.alloc entry.dtype entry.tensorShape else val).TotalBytes →
        ((file.drop entry.offset).take entry.size).length = entry.size →
        st = if crc32c.Unmask entry.crc32c ≠
            crc32c.Value ((file.drop entry.offset).take entry.size) then
          checksumMismatch (crc32c.Unmask entry.crc32c)
            (crc32c.Value ((file.drop entry.offset).take entry.size))
          else Status.OK := by
  obtain ⟨hns, hnv⟩ := memcpy_not_string _ hm
  unfold BundleReader.GetValue
  simp only [hm, hns, hnv, ne_eq, not_false_eq_true, true_and, false_and, if_false, if_true,
    Bool.not_true, Bool.false_eq_true]
  simp only [BundleReader.current]
  generalize (if decide (val.NumElements = 0) = true then
    Tensor.alloc entry.dtype entry.tensorShape else val) = ret
  generalize env.NewRandomAccessFile (DataFilename r.prefix_ entry.shard_id r.num_shards_) = nr
  obtain ⟨fst, file⟩ := nr
  simp only []
  generalize hrd : (if entry.size > kBufferSize then
    RandomAccessFile.Read file entry.offset entry.size
    else ((InputBuffer.ReadNBytes file entry.offset entry.size).1,
      (InputBuffer.ReadNBytes file entry.offset entry.size).2.1)) = rd
  obtain ⟨rst, got⟩ := rd
  obtain ⟨hgot, hrst⟩ := read_either file entry.offset entry.size rst got hrd
  simp only []
  have hok : Status.OK.ok = true := rfl
  by_cases c1 : entry.size = ret.TotalBytes
  · have c1n : ¬ ¬ entry.size = ret.TotalBytes := not_not_intro c1
    simp only [if_neg c1n]
    by_cases c2 : fst.ok = true
    · simp only [c2, Bool.not_true, Bool.false_eq_true, if_false]
      by_cases c3 : DataTypeCanUseMemcpy ret.dtype = true
      · simp only [c3, Bool.not_true, Bool.false_eq_true, if_false]
        by_cases c4 : rst.ok = true
        · simp only [c4, Bool.not_true, Bool.false_eq_true, if_false, hok]
          have hsw := ByteSwapTensor_memcpy
            (Tensor.mk ret.dtype ret.shape (got ++ List.drop got.length ret.data) ret.strings) c3
          simp only [hsw, hok, Bool.not_true, Bool.false_eq_true, if_false]
          right
          by_cases c5 : crc32c.Unmask entry.crc32c = crc32c.Value got
          · simp only [c5, not_true_eq_false, if_false]
            refine ⟨_, _, _, rfl, rfl, fun _ => rfl, ?_⟩
            intro file2 hf _ _
            simp only [Prod.mk.injEq] at hf
            rw [← hf.2, ← hgot, if_neg (by simp)]
          · simp only [c5, not_false_eq_true, if_true]
            refine ⟨_, _, _, rfl, rfl,
              fun h => absurd h (by simp [errors.DataLoss, Status.ok]), ?_⟩
            intro file2 hf _ _
            simp only [Prod.mk.injEq] at hf
            rw [← hf.2, ← hgot, if_pos c5]
            rfl
        · simp only [Bool.not_eq_true] at c4
          simp only [c4, Bool.not_false, if_true]
          right
          refine ⟨_, _, _, rfl, rfl, fun h => absurd h (by simp [c4]), ?_⟩
          intro file2 hf _ hl
          simp only [Prod.mk.injEq] at hf
          rw [← hf.2] at hl
          rw [hrst.2 hl] at c4
          cases c4
      · simp only [Bool.not_eq_true] at c3
        simp only [c3, Bool.not_false, if_true]
        left
        exact ⟨trivial, trivial⟩
    · simp only [Bool.not_eq_true] at c2
      simp only [c2, Bool.not_false, if_true]
      right
      refine ⟨_, _, _, rfl, rfl, fun h => absurd h (by simp [c2]), ?_⟩
      intro file2 hf _ _
      simp only [Prod.mk.injEq] at hf
      rw [hf.1] at c2
      cases c2
  · simp only [c1, not_false_eq_true, if_true]
    right
    refine ⟨_, _, _, rfl, rfl, fun h => absurd h (by simp [errors.DataLoss, Status.ok]), ?_⟩
    intro file2 _ h2 _
    exact h2.elim

theorem GetValue_swap_flag_witness :
    DataTypeCanUseMemcpy (tensorEntry true exTensorA 0).dtype = true ∧
    (BundleReader.GetValue { exReaderLittle with need_to_swap_bytes_ := false } exFinished.2
        true (tensorEntry true exTensorA 0) Tensor.empty =
      some (Status.OK, Tensor.mk DT_INT16 [2, 2] [1, 2, 3, 4, 5, 6, 7, 8] [])) ∧
    (BundleReader.GetValue { exReaderLittle with need_to_swap_bytes_ := true } exFinished.2
        true (tensorEntry true exTensorA 0) Tensor.empty =
      some (Status.OK, Tensor.mk DT_INT16 [2, 2] [2, 1, 4, 3, 6, 5, 8, 7] [])) ∧
    ((BundleReader.GetValue { exReaderLittle with need_to_swap_bytes_ := false } exFinished.2
          true (tensorEntry true exTensorA 0) Tensor.empty = none ∧
        BundleReader.GetValue { exReaderLittle with need_to_swap_bytes_ := true } exFinished.2
          true (tensorEntry true exTensorA 0) Tensor.empty = none) ∨
      ∃ st vP vS,
        BundleReader.GetValue { exReaderLittle with need_to_swap_bytes_ := false } exFinished.2
          true (tensorEntry true exTensorA 0) Tensor.empty = some (st, vP) ∧
        BundleReader.GetValue { exReaderLittle with need_to_swap_bytes_ := true } exFinished.2
          true (tensorEntry true exTensorA 0) Tensor.empty = some (st, vS) ∧
        (st.ok = true → vS = Tensor.mk vP.dtype vP.shape
          (byteSwapArray (swapUnit vP.dtype)
            (vP.NumElements * (DataTypeSize vP.dtype / swapUnit vP.dtype)) vP.data)
            vP.strings) ∧
        ∀ file, exFinished.2.NewRandomAccessFile (DataFilename exReaderLittle.prefix_
            (tensorEntry true exTensorA 0).shard_id exReaderLittle.num_shards_) =
            (Status.OK, file) →
          (tensorEntry true exTensorA 0).size = (if decide (Tensor.empty.NumElements = 0) = true
            then Tensor.alloc (tensorEntry true exTensorA 0).dtype
              (tensorEntry true exTensorA 0).tensorShape else Tensor.empty).TotalBytes →
          ((file.drop (tensorEntry true exTensorA 0).offset).take
            (tensorEntry true exTensorA 0).size).length = (tensorEntry true exTensorA 0).size →
          st = if crc32c.Unmask (tensorEntry true exTensorA 0).crc32c ≠
              crc32c.Value ((file.drop (tensorEntry true exTensorA 0).offset).take
                (tensorEntry true exTensorA 0).size) then
            checksumMismatch (crc32c.Unmask (tensorEntry true exTensorA 0).crc32c)
              (crc32c.Value ((file.drop (tensorEntry true exTensorA 0).offset).take
                (tensorEntry true exTensorA 0).size))
            else Status.OK) :=
  ⟨by decide, by decide!, by decide!,
    GetValue_swap_flag exReaderLittle exFinished.2 true (tensorEntry true exTensorA 0)
      Tensor.empty (by decide)⟩

/-- C21 (as stated, refuted): the bundle holds the `complex64` tensor "z" of one
element, with the bytes 1..8.  `GetValue` for its entry returns OK on a reader with the
swap flag clear, with the bytes 1..8, and on a reader with the flag set, with the bytes
4 3 2 1 8 7 6 5: each of the two components is reversed, not the element, whose
reversal is 8 7 6 5 4 3 2 1. -/
theorem GetValue_complex_swap :
    mapFind ((exComplexReader true).table_.getD []) "z" =
      some (TableValue.entry exComplexEntry) ∧
    (exComplexReader true).need_to_swap_bytes_ = false ∧
    (exComplexReader false).need_to_swap_bytes_ = true ∧
    (exComplexReader true).GetValue exComplexBundle true exComplexEntry Tensor.empty =
      some (Status.OK, Tensor.mk DT_COMPLEX64 [1] [1, 2, 3, 4, 5, 6, 7, 8] []) ∧
    (exComplexReader false).GetValue exComplexBundle false exComplexEntry Tensor.empty =
      some (Status.OK, Tensor.mk DT_COMPLEX64 [1] [4, 3, 2, 1, 8, 7, 6, 5] []) ∧
    byteSwapArray (DataTypeSize DT_COMPLEX64) 1 [1, 2, 3, 4, 5, 6, 7, 8] =
      [8, 7, 6, 5, 4, 3, 2, 1] := by
  decide!

end tfplus

namespace tfplus

open DataType

/-! ## C24: reading a value in windows -/

theorem LookupSegment_step (r : BundleReader) (env : Env) (key : String) (n : Nat)
    (entry : BundleEntryProto) (rem consumed : Nat) (file : Bytes)
    (hitem : mapFind r.tmp_lookupseg_items_ key = some ⟨entry, rem, consumed⟩)
    (hfile : fsFind env.files (DataFilename r.prefix_ entry.shard_id r.num_shards_) =
      some (FileData.bytes file))
    (hlen : entry.offset + consumed + rem ≤ file.length) :
    ∃ r1, r.LookupSegment env key n =
        some (Status.OK, (file.drop (entry.offset + consumed)).take (min n rem), r1) ∧
      mapFind r1.tmp_lookupseg_items_ key =
        some ⟨entry, rem - min n rem, consumed + min n rem⟩ ∧
      r1.prefix_ = r.prefix_ ∧ r1.num_shards_ = r.num_shards_ := by
  have hok : Status.OK.ok = true := rfl
  unfold BundleReader.LookupSegment
  simp only [hitem, Option.getD_some]
  by_cases h0 : min n rem = 0
  · simp only [h0, if_true, List.take_zero]
    refine ⟨r, rfl, ?_, rfl, rfl⟩
    rw [hitem]
    simp
  · simp only [h0, if_false, Env.NewRandomAccessFile, hfile, hok, Bool.not_true,
      Bool.false_eq_true]
    have hl : ((file.drop (entry.offset + consumed)).take (min n rem)).length = min n rem := by
      rw [List.length_take, List.length_drop]
      omega
    unfold RandomAccessFile.Read
    simp only [hl, if_true, hok, Bool.not_true, Bool.false_eq_true, if_false, ne_eq,
      not_true_eq_false]
    refine ⟨_, rfl, ?_, rfl, rfl⟩
    simp only [mapFind_mapInsert_self]

theorem lookupSegments_spec (env : Env) (key : String) (entry : BundleEntryProto)
    (file : Bytes) :
    ∀ (sizes : List Nat) (r : BundleReader) (rem consumed : Nat),
    mapFind r.tmp_lookupseg_items_ key = some ⟨entry, rem, consumed⟩ →
    fsFind env.files (DataFilename r.prefix_ entry.shard_id r.num_shards_) =
      some (FileData.bytes file) →
    entry.offset + consumed + rem ≤ file.length →
    ∃ windows r2, lookupSegments env key sizes r = some (Status.OK, windows, r2) ∧
      windows.length = sizes.length ∧
      (∀ i n, sizes.get? i = some n →
        windows.get? i = some ((file.drop
          (entry.offset + consumed + (windows.take i).flatten.length)).take
            (min n (rem - (windows.take i).flatten.length)))) ∧
      windows.flatten = (file.drop (entry.offset + consumed)).take windows.flatten.length ∧
      windows.flatten.length ≤ rem ∧
      mapFind r2.tmp_lookupseg_items_ key =
        some ⟨entry, rem - windows.flatten.length, consumed + windows.flatten.length⟩ ∧
      r2.prefix_ = r.prefix_ ∧ r2.num_shards_ = r.num_shards_ := by
  have hok : Status.OK.ok = true := rfl
  intro sizes
  induction sizes with
  | nil =>
    intro r rem consumed hitem _ _
    refine ⟨[], r, rfl, rfl, ?_, ?_, ?_, ?_, rfl, rfl⟩
    · intro i n h
      cases h
    · simp
    · simp
    · simpa using hitem
  | cons n rest ih =>
    intro r rem consumed hitem hfile hlen
    obtain ⟨r1, s1, s2, s3, s4⟩ := LookupSegment_step r env key n entry rem consumed file
      hitem hfile hlen
    have hwl : ((file.drop (entry.offset + consumed)).take (min n rem)).length = min n rem := by
      rw [List.length_take, List.length_drop]
      omega
    obtain ⟨ws, r2, k1, k2, k3, k4, k5, k6, k7, k8⟩ := ih r1 (rem - min n rem)
      (consumed + min n rem) s2 (by rw [s3, s4]; exact hfile) (by omega)
    refine ⟨(file.drop (entry.offset + consumed)).take (min n rem) :: ws, r2,
      ?_, ?_, ?_, ?_, ?_, ?_, by rw [k7, s3], by rw [k8, s4]⟩
    · unfold lookupSegments
      simp only [s1, hok, Bool.not_true, Bool.false_eq_true, if_false, k1]
    · simp only [List.length_cons, k2]
    · intro i m hi
      cases i with
      | zero =>
        simp only [List.get?_cons_zero, Option.some.injEq] at hi
        subst hi
        simp
      | succ j =>
        simp only [List.get?_cons_succ] at hi
        have := k3 j m hi
        simp only [List.get?_cons_succ, List.take_succ_cons, List.flatten_cons,
          List.length_append, hwl]
        rw [this]
        have e1 : entry.offset + (consumed + min n rem) + (List.take j ws).flatten.length =
            entry.offset + consumed + (min n rem + (List.take j ws).flatten.length) := by omega
        have e2 : rem - min n rem - (List.take j ws).flatten.length =
            rem - (min n rem + (List.take j ws).flatten.length) := by omega
        rw [e1, e2]
    · simp only [List.flatten_cons, List.length_append, hwl]
      have e1 : List.drop (min n rem) (List.drop (entry.offset + consumed) file) =
          List.drop (entry.offset + (consumed + min n rem)) file := by
        rw [List.drop_drop]
        congr 1
        omega
      rw [List.take_add, e1, ← k4]
    · simp only [List.flatten_cons, List.length_append, hwl]
      omega
    · simp only [List.flatten_cons, List.length_append, hwl]
      rw [k6]
      have e1 : rem - min n rem - ws.flatten.length = rem - (min n rem + ws.flatten.length) := by
        omega
      have e2 : consumed + min n rem + ws.flatten.length =
          consumed + (min n rem + ws.flatten.length) := by omega
      rw [e1, e2]

theorem GetBundleEntryProto_fields (r : BundleReader) (key : String) (st : Status)
    (entry : BundleEntryProto) (r1 : BundleReader)
    (h : r.GetBundleEntryProto key = some (st, entry, r1)) :
    r1 = r.Seek key ∧ r1.prefix_ = r.prefix_ ∧ r1.num_shards_ = r.num_shards_ ∧
    r1.tmp_lookupseg_items_ = r.tmp_lookupseg_items_ := by
  have hs : (r.Seek key).prefix_ = r.prefix_ ∧ (r.Seek key).num_shards_ = r.num_shards_ ∧
      (r.Seek key).tmp_lookupseg_items_ = r.tmp_lookupseg_items_ := by
    unfold BundleReader.Seek
    cases r.table_ <;> exact ⟨rfl, rfl, rfl⟩
  have h1 : r1 = r.Seek key := by
    unfold BundleReader.GetBundleEntryProto at h
    by_cases c : r.status_.ok = true
    · simp only [c, Bool.not_true, Bool.false_eq_true, if_false] at h
      cases hc : (r.Seek key).current with
      | none =>
        simp only [hc, Option.some.injEq, Prod.mk.injEq] at h
        exact h.2.2.symm
      | some kv =>
        obtain ⟨k, v⟩ := kv
        simp only [hc] at h
        by_cases c2 : k ≠ key
        · simp only [c2, ne_eq, not_false_eq_true, if_true, Option.some.injEq,
            Prod.mk.injEq] at h
          exact h.2.2.symm
        · simp only [c2, if_false] at h
          generalize ParseEntryProto k v = pr at h
          obtain ⟨pst, pe⟩ := pr
          simp only at h
          by_cases c3 : pst.ok = true
          · simp only [c3, Bool.not_true, Bool.false_eq_true, if_false] at h
            by_cases c4 : Tensor.shapeIsValid pe.tensorShape = true
            · simp only [c4, Bool.not_true, Bool.false_eq_true, if_false, Option.some.injEq,
                Prod.mk.injEq] at h
              exact h.2.2.symm
            · simp only [Bool.not_eq_true] at c4
              simp only [c4, Bool.not_false, if_true, Option.some.injEq, Prod.mk.injEq] at h
              exact h.2.2.symm
          · simp only [Bool.not_eq_true] at c3
            simp only [c3, Bool.not_false, if_true, Option.some.injEq, Prod.mk.injEq] at h
            exact h.2.2.symm
    · simp only [Bool.not_eq_true] at c
      simp [c] at h
  subst h1
  exact ⟨rfl, hs⟩

/-- C24: when `LookupHeader(key, total)` returns OK, the table holds an entry for the
key whose stored size is `total` and whose element type is fixed-width, and the cursor
of the key is the entry with 0 bytes consumed and the size of the entry remaining.
When the data file holds the bytes of the entry, then for every sequence of buffer
sizes every `LookupSegment` call returns OK with the bytes of the file from the offset
of the entry plus the bytes consumed, as many as the smaller of the buffer size and
the bytes remaining; the windows together are a prefix of the stored payload; bytes
consumed plus bytes remaining stay the size of the entry; and once the windows add up
to the size they are the payload, and every further call returns OK with no byte. -/
theorem windowed_read (r : BundleReader) (env : Env) (key : String) (total : Int)
    (st : Status) (r1 : BundleReader)
    (h : r.LookupHeader env key total = some (st, r1)) (hst : st.ok = true) :
    ∃ entry r0, r.GetBundleEntryProto key = some (Status.OK, entry, r0) ∧
      (entry.size : Int) = total ∧ DataTypeCanUseMemcpy entry.dtype = true ∧
      mapFind r1.tmp_lookupseg_items_ key = some ⟨entry, entry.size, 0⟩ ∧
      ∀ file, fsFind env.files (DataFilename r.prefix_ entry.shard_id r.num_shards_) =
          some (FileData.bytes file) →
        entry.offset + entry.size ≤ file.length →
        ∀ sizes, ∃ windows r2,
          lookupSegments env key sizes r1 = some (Status.OK, windows, r2) ∧
          windows.length = sizes.length ∧
          (∀ i n, sizes.get? i = some n →
            windows.get? i = some ((file.drop
              (entry.offset + (windows.take i).flatten.length)).take
                (min n (entry.size - (windows.take i).flatten.length)))) ∧
          windows.flatten =
            ((file.drop entry.offset).take entry.size).take windows.flatten.length ∧
          windows.flatten.length ≤ entry.size ∧
          mapFind r2.tmp_lookupseg_items_ key =
            some ⟨entry, entry.size - windows.flatten.length, windows.flatten.length⟩ ∧
          windows.flatten.length + (entry.size - windows.flatten.length) = entry.size ∧
          (windows.flatten.length = entry.size →
            windows.flatten = (file.drop entry.offset).take entry.size ∧
            ∀ n, ∃ r3, r2.LookupSegment env key n = some (Status.OK, [], r3) ∧
              mapFind r3.tmp_lookupseg_items_ key = some ⟨entry, 0, entry.size⟩) := by
  have hok : Status.OK.ok = true := rfl
  unfold BundleReader.LookupHeader at h
  cases hg : r.GetBundleEntryProto key with
  | none => simp [hg] at h
  | some res =>
    obtain ⟨gst, entry, r0⟩ := res
    obtain ⟨_, f2, f3, f4⟩ := GetBundleEntryProto_fields r key gst entry r0 hg
    simp only [hg] at h
    by_cases c1 : gst.ok = true
    · simp only [c1, Bool.not_true, Bool.false_eq_true, if_false] at h
      by_cases c2 : (entry.size : Int) = total
      · simp only [c2, ne_eq, not_true_eq_false, if_false] at h
        generalize env.NewRandomAccessFile (DataFilename r0.prefix_ entry.shard_id
          r0.num_shards_) = nr at h
        obtain ⟨fst, fl⟩ := nr
        simp only at h
        by_cases c3 : fst.ok = true
        · simp only [c3, Bool.not_true, Bool.false_eq_true, if_false] at h
          by_cases c4 : DataTypeCanUseMemcpy entry.dtype = true
          · simp only [c4, Bool.not_true, Bool.false_eq_true, if_false, Option.some.injEq,
              Prod.mk.injEq] at h
            obtain ⟨h1, h2⟩ := h
            have hgst : gst = Status.OK := by
              obtain ⟨c, m⟩ := gst
              unfold BundleReader.GetBundleEntryProto at hg
              by_cases c0 : r.status_.ok = true
              · simp only [c0, Bool.not_true, Bool.false_eq_true, if_false] at hg
                cases hc : (r.Seek key).current with
                | none =>
                  simp only [hc, Option.some.injEq, Prod.mk.injEq] at hg
                  rw [← hg.1] at c1
                  simp [errors.NotFound, Status.ok] at c1
                | some kv =>
                  obtain ⟨k, v⟩ := kv
                  simp only [hc] at hg
                  by_cases d2 : k ≠ key
                  · simp only [d2, ne_eq, not_false_eq_true, if_true, Option.some.injEq,
                      Prod.mk.injEq] at hg
                    rw [← hg.1] at c1
                    simp [errors.NotFound, Status.ok] at c1
                  · simp only [d2, if_false] at hg
                    generalize ParseEntryProto k v = pr at hg
                    obtain ⟨pst, pe⟩ := pr
                    simp only at hg
                    by_cases d3 : pst.ok = true
                    · simp only [d3, Bool.not_true, Bool.false_eq_true, if_false] at hg
                      by_cases d4 : Tensor.shapeIsValid pe.tensorShape = true
                      · simp only [d4, Bool.not_true, Bool.false_eq_true, if_false,
                          Option.some.injEq, Prod.mk.injEq] at hg
                        exact hg.1.symm
                      · simp only [Bool.not_eq_true] at d4
                        simp only [d4, Bool.not_false, if_true, Option.some.injEq,
                          Prod.mk.injEq] at hg
                        rw [← hg.1] at c1
                        simp [errors.DataLoss, Status.ok] at c1
                    · simp only [Bool.not_eq_true] at d3
                      simp only [d3, Bool.not_false, if_true, Option.some.injEq,
                        Prod.mk.injEq] at hg
                      rw [← hg.1, d3] at c1
                      cases c1
              · simp only [Bool.not_eq_true] at c0
                simp [c0] at hg
            subst hgst
            have hitem : mapFind r1.tmp_lookupseg_items_ key = some ⟨entry, entry.size, 0⟩ := by
              rw [← h2]
              exact mapFind_mapInsert_self _ _ _
            have hp : r1.prefix_ = r.prefix_ := by rw [← h2]; exact f2
            have hn : r1.num_shards_ = r.num_shards_ := by rw [← h2]; exact f3
            refine ⟨entry, r0, rfl, c2, c4, hitem, ?_⟩
            intro file hfile hlen sizes
            obtain ⟨ws, r2, k1, k2, k3, k4, k5, k6, k7, k8⟩ := lookupSegments_spec env key
              entry file sizes r1 entry.size 0 hitem (by rw [hp, hn]; exact hfile)
              (by omega)
            simp only [Nat.add_zero, Nat.zero_add] at k3 k4 k6
            refine ⟨ws, r2, k1, k2, k3, ?_, k5, k6, by omega, ?_⟩
            · rw [List.take_take, Nat.min_eq_left k5]
              exact k4
            · intro hall
              refine ⟨?_, ?_⟩
              · rw [k4, hall]
              · intro n
                rw [hall, Nat.sub_self] at k6
                obtain ⟨r3, t1, t2, _, _⟩ := LookupSegment_step r2 env key n entry 0 entry.size
                  file k6 (by rw [k7, k8, hp, hn]; exact hfile) (by omega)
                simp only [Nat.min_zero, List.take_zero, Nat.sub_zero, Nat.add_zero] at t1 t2
                exact ⟨r3, t1, t2⟩
          · simp only [Bool.not_eq_true] at c4
            simp only [c4, Bool.not_false, if_true, Option.some.injEq, Prod.mk.injEq] at h
            rw [← h.1] at hst
            simp [errors.DataLoss, Status.ok] at hst
        · simp only [Bool.not_eq_true] at c3
          simp only [c3, Bool.not_false, if_true, Option.some.injEq, Prod.mk.injEq] at h
          rw [← h.1, c3] at hst
          cases hst
      · simp only [c2, ne_eq, not_false_eq_true, if_true, Option.some.injEq,
          Prod.mk.injEq] at h
        rw [← h.1] at hst
        simp [errors.DataLoss, Status.ok] at hst
    · simp only [Bool.not_eq_true] at c1
      simp only [c1, Bool.not_false, if_true, Option.some.injEq, Prod.mk.injEq] at h
      rw [← h.1, c1] at hst
      cases hst

theorem windowed_read_witness :
    exReaderLittle.LookupHeader exFinished.2 "a" 8 = some (Status.OK, exHeaderRead) ∧
    (lookupSegments exFinished.2 "a" [3, 0, 4, 5, 2] exHeaderRead).map
        (fun res => (res.1, res.2.1)) =
      some (Status.OK, [[1, 2, 3], [], [4, 5, 6, 7], [8], []]) ∧
    ∃ entry, mapFind exHeaderRead.tmp_lookupseg_items_ "a" = some ⟨entry, entry.size, 0⟩ ∧
      (entry.size : Int) = 8 ∧
      ∃ windows r2, lookupSegments exFinished.2 "a" [3, 0, 4, 5, 2] exHeaderRead =
          some (Status.OK, windows, r2) ∧
        windows.flatten = ([1, 2, 3, 4, 5, 6, 7, 8] : Bytes).take windows.flatten.length := by
  obtain ⟨entry, r0, h1, h2, _, h4, h5⟩ := windowed_read exReaderLittle exFinished.2 "a" 8
    Status.OK exHeaderRead (by decide!) (by decide)
  have he : entry = tensorEntry true exTensorA 0 := by
    have hg : exReaderLittle.GetBundleEntryProto "a" =
        some (Status.OK, tensorEntry true exTensorA 0, exReaderLittle.Seek "a") := by decide!
    rw [hg] at h1
    simp only [Option.some.injEq, Prod.mk.injEq, true_and] at h1
    exact h1.1.symm
  subst he
  obtain ⟨ws, r2, k1, _, _, k4, _⟩ := h5 [1, 2, 3, 4, 5, 6, 7, 8] (by decide!) (by decide!)
    [3, 0, 4, 5, 2]
  exact ⟨by decide!, by decide!, _, h4, h2, ws, r2, k1, k4⟩

end tfplus

namespace tfplus
open DataType

/-! ## The fix-up of hash tables renumbers the slices -/

theorem multimapInsert_perm {α : Type} (m : List (Int × α)) (k : Int) (v : α) :
    (multimapInsert m k v).Perm ((k, v) :: m) := by
  induction m with
  | nil => exact List.Perm.refl _
  | cons p rest ih =>
    obtain ⟨k1, v1⟩ := p
    unfold multimapInsert
    by_cases c : k < k1
    · simp only [if_pos c]; exact List.Perm.refl _
    · simp only [if_neg c]
      exact (List.Perm.cons _ ih).trans (List.Perm.swap _ _ _)

theorem multimapInsert_sorted {α : Type} (m : List (Int × α)) (k : Int) (v : α)
    (h : m.Pairwise (fun a b => a.1 ≤ b.1)) :
    (multimapInsert m k v).Pairwise (fun a b => a.1 ≤ b.1) := by
  induction m with
  | nil => unfold multimapInsert; exact List.pairwise_singleton _ _
  | cons p rest ih =>
    obtain ⟨k1, v1⟩ := p
    unfold multimapInsert
    rw [List.pairwise_cons] at h
    by_cases c : k < k1
    · simp only [if_pos c]
      refine List.pairwise_cons.2 ⟨?_, List.pairwise_cons.2 h⟩
      intro b hb
      rcases List.mem_cons.1 hb with hb | hb
      · subst hb; exact le_of_lt c
      · exact le_trans (le_of_lt c) (h.1 b hb)
    · simp only [if_neg c]
      refine List.pairwise_cons.2 ⟨?_, ih h.2⟩
      intro b hb
      rcases List.mem_cons.1 ((multimapInsert_perm rest k v).mem_iff.1 hb) with hb | hb
      · subst hb; exact not_lt.1 c
      · exact h.1 b hb

/-- The sorter of `fixEntry`: its values are the slices in another order, ascending by
`hash_slice_begin`. -/
theorem sorter_spec (slices : List TensorSliceProto) (m : List (Int × TensorSliceProto))
    (hk : ∀ p ∈ m, p.1 = p.2.hash_slice_begin)
    (hs : m.Pairwise (fun a b => a.1 ≤ b.1)) :
    let sorter := slices.foldl (fun m s => multimapInsert m s.hash_slice_begin s) m
    (sorter.map Prod.snd).Perm (m.map Prod.snd ++ slices) ∧
      (∀ p ∈ sorter, p.1 = p.2.hash_slice_begin) ∧
      sorter.Pairwise (fun a b => a.1 ≤ b.1) := by
  induction slices generalizing m with
  | nil => exact ⟨by simp, hk, hs⟩
  | cons s rest ih =>
    have hp := multimapInsert_perm m s.hash_slice_begin s
    have hk1 : ∀ p ∈ multimapInsert m s.hash_slice_begin s, p.1 = p.2.hash_slice_begin := by
      intro p hp1
      rcases List.mem_cons.1 (hp.mem_iff.1 hp1) with h | h
      · subst h; rfl
      · exact hk p h
    have := ih (multimapInsert m s.hash_slice_begin s) hk1
      (multimapInsert_sorted m _ _ hs)
    simp only [List.foldl_cons]
    refine ⟨this.1.trans ?_, this.2⟩
    have h2 : ((multimapInsert m s.hash_slice_begin s).map Prod.snd).Perm
        (s :: m.map Prod.snd) := by simpa using hp.map Prod.snd
    refine (List.Perm.append_right rest h2).trans ?_
    simpa using (@List.perm_middle _ s (m.map Prod.snd) rest).symm

theorem sorter_sorted (slices : List TensorSliceProto) :
    let sorter := slices.foldl (fun m s => multimapInsert m s.hash_slice_begin s) []
    (sorter.map Prod.snd).Perm slices ∧
      (sorter.map Prod.snd).Pairwise (fun a b => a.hash_slice_begin ≤ b.hash_slice_begin) := by
  have h := sorter_spec slices [] (by simp) List.Pairwise.nil
  simp only [List.map_nil, List.nil_append] at h
  refine ⟨h.1, ?_⟩
  rw [List.pairwise_map]
  refine h.2.2.imp_of_mem ?_
  intro a b ha hb hab
  rw [← h.2.1 a ha, ← h.2.1 b hb]; exact hab

theorem keptSlices_cons_pos (s : TensorSliceProto) (rest : List TensorSliceProto)
    (h : s.firstLength > 0) : keptSlices (s :: rest) = s :: keptSlices rest := by
  simp [keptSlices, h]

theorem keptSlices_cons_neg (s : TensorSliceProto) (rest : List TensorSliceProto)
    (h : ¬ s.firstLength > 0) : keptSlices (s :: rest) = keptSlices rest := by
  simp [keptSlices, h]

theorem keptSlices_sum_nonneg (l : List TensorSliceProto) :
    0 ≤ ((keptSlices l).map TensorSliceProto.firstLength).sum := by
  apply List.sum_nonneg
  intro x hx
  obtain ⟨s, hs, rfl⟩ := List.mem_map.1 hx
  have := (List.mem_filter.1 hs).2
  simp only [decide_eq_true_eq] at this
  exact le_of_lt this

/-- The loop over the sorted slices, when it ends without an error: the slices it has
collected are the kept slices renumbered from `idx`, and `idx` has grown by the sum of
their lengths. -/
theorem fixSlices_spec (key : String) (l : List TensorSliceProto) :
    ∀ (idx : Int) (acc : List TensorSliceProto) (mapping : List (String × String))
      (st : Status) (slices : List TensorSliceProto) (idx1 : Int)
      (mapping1 : List (String × String)),
      fixSlices key l idx acc mapping = some (st, slices, idx1, mapping1) → st.ok = true →
      slices = acc ++ renumberSlices (keptSlices l) idx ∧
        idx1 = idx + ((keptSlices l).map TensorSliceProto.firstLength).sum := by
  induction l with
  | nil =>
    intro idx acc mapping st slices idx1 mapping1 h _
    simp only [fixSlices, Option.some.injEq, Prod.mk.injEq] at h
    obtain ⟨-, h2, h3, -⟩ := h
    subst h2 h3
    simp [keptSlices, renumberSlices]
  | cons s rest ih =>
    intro idx acc mapping st slices idx1 mapping1 h hok
    unfold fixSlices at h
    cases hext : s.extent with
    | nil => rw [hext] at h; simp at h
    | cons e0 es =>
      rw [hext] at h
      simp only [] at h
      have hfl : s.firstLength = e0.getLength := by
        simp [TensorSliceProto.firstLength, hext]
      have hws : s.withStart idx = { s with extent := { e0 with start := idx } :: es } := by
        simp [TensorSliceProto.withStart, hext]
      by_cases c : e0.getLength > 0
      · simp only [if_pos c] at h
        by_cases c2 : idx + e0.getLength ≥ 2 ^ 63
        · simp only [if_pos c2] at h; simp at h
        · simp only [if_neg c2] at h
          split at h
          · simp only [Option.some.injEq, Prod.mk.injEq] at h
            rw [← h.1] at hok
            simp [fixupConflict, errors.FailedPrecondition, Status.ok] at hok
          · have := ih _ _ _ _ _ _ _ h hok
            rw [keptSlices_cons_pos s rest (by rw [hfl]; exact c)]
            simp only [renumberSlices, List.map_cons, List.sum_cons, hfl, hws]
            refine ⟨?_, ?_⟩
            · rw [this.1]; simp
            · rw [this.2]; ring
      · simp only [if_neg c] at h
        split at h
        · simp only [Option.some.injEq, Prod.mk.injEq] at h
          rw [← h.1] at hok
          simp [fixupConflict, errors.FailedPrecondition, Status.ok] at hok
        · have := ih _ _ _ _ _ _ _ h hok
          rw [keptSlices_cons_neg s rest (by rw [hfl]; exact c)]
          exact this

/-- The body of the first loop for one hash table, when it ends without an error. -/
theorem fixEntry_spec (key : String) (e e1 : BundleEntryProto)
    (mapping mapping1 : List (String × String)) (st : Status)
    (h : fixEntry key e mapping = some (st, e1, mapping1)) (hok : st.ok = true) :
    renumberedFrom e e1 := by
  unfold fixEntry at h
  simp only [] at h
  have hs := sorter_sorted e.slices
  simp only [] at hs
  generalize (e.slices.foldl (fun m s => multimapInsert m s.hash_slice_begin s) []).map
    Prod.snd = sorted at h hs
  cases hf : fixSlices key sorted 0 [] mapping with
  | none => rw [hf] at h; simp at h
  | some res =>
    obtain ⟨st0, slices, idx, m1⟩ := res
    rw [hf] at h
    simp only [] at h
    by_cases c : st0.ok = true
    · have hspec := fixSlices_spec key sorted 0 [] mapping st0 slices idx m1 hf c
      simp only [c, Bool.not_true, Bool.false_eq_true, if_false] at h
      cases hsh : e.tensorShape with
      | nil => rw [hsh] at h; simp at h
      | cons d dims =>
        rw [hsh] at h
        simp only [Option.some.injEq, Prod.mk.injEq] at h
        obtain ⟨-, h2, -⟩ := h
        subst h2
        refine ⟨sorted, hs.1, hs.2, ?_, ⟨idx.toNat, ?_, ?_⟩, ?_, rfl, rfl, rfl, rfl, rfl, rfl⟩
        · simpa using hspec.1
        · simp [BundleEntryProto.tensorShape]
        · rw [hspec.2, zero_add]
          exact Int.toNat_of_nonneg (keptSlices_sum_nonneg sorted)
        · rw [hsh]; rfl
    · simp only [c, Bool.not_false, if_true, Option.some.injEq, Prod.mk.injEq] at h
      rw [← h.1] at hok
      exact absurd hok c

theorem EncodeTensorNameSlice_head (k : String) (s : TensorSlice) :
    (EncodeTensorNameSlice k s).data.head? = some (Char.ofNat 0) := by
  simp [EncodeTensorNameSlice, String.data_append]

/-- A key that does not begin with a NUL character is not an encoded slice name. -/
theorem not_encoded_of_head (key : String) (h : key.data.head? ≠ some (Char.ofNat 0)) :
    ∀ k s, key ≠ EncodeTensorNameSlice k s := by
  intro k s hk
  apply h
  rw [hk]
  exact EncodeTensorNameSlice_head k s

theorem encodedMapping_append (mapping : List (String × String)) (a b : String)
    (h : encodedMapping mapping) (ha : ∃ k s, a = EncodeTensorNameSlice k s)
    (hb : b = "" ∨ ∃ k s, b = EncodeTensorNameSlice k s) :
    encodedMapping (mapping ++ [(a, b)]) := by
  intro p hp
  rcases List.mem_append.1 hp with hp | hp
  · exact h p hp
  · simp only [List.mem_singleton] at hp
    subst hp
    exact ⟨ha, hb⟩

theorem fixSlices_mapping (key : String) (l : List TensorSliceProto) :
    ∀ (idx : Int) (acc : List TensorSliceProto) (mapping : List (String × String))
      (st : Status) (slices : List TensorSliceProto) (idx1 : Int)
      (mapping1 : List (String × String)),
      fixSlices key l idx acc mapping = some (st, slices, idx1, mapping1) →
      encodedMapping mapping → encodedMapping mapping1 := by
  induction l with
  | nil =>
    intro idx acc mapping st slices idx1 mapping1 h hm
    simp only [fixSlices, Option.some.injEq, Prod.mk.injEq] at h
    rw [← h.2.2.2]; exact hm
  | cons s rest ih =>
    intro idx acc mapping st slices idx1 mapping1 h hm
    unfold fixSlices at h
    cases hext : s.extent with
    | nil => rw [hext] at h; simp at h
    | cons e0 es =>
      rw [hext] at h
      simp only [] at h
      by_cases c : e0.getLength > 0
      · simp only [if_pos c] at h
        by_cases c2 : idx + e0.getLength ≥ 2 ^ 63
        · simp only [if_pos c2] at h; simp at h
        · simp only [if_neg c2] at h
          split at h
          · simp only [Option.some.injEq, Prod.mk.injEq] at h
            rw [← h.2.2.2]; exact hm
          · exact ih _ _ _ _ _ _ _ h
              (encodedMapping_append _ _ _ hm ⟨_, _, rfl⟩ (Or.inr ⟨_, _, rfl⟩))
      · simp only [if_neg c] at h
        split at h
        · simp only [Option.some.injEq, Prod.mk.injEq] at h
          rw [← h.2.2.2]; exact hm
        · exact ih _ _ _ _ _ _ _ h (encodedMapping_append _ _ _ hm ⟨_, _, rfl⟩ (Or.inl rfl))

theorem fixEntry_mapping (key : String) (e e1 : BundleEntryProto)
    (mapping mapping1 : List (String × String)) (st : Status)
    (h : fixEntry key e mapping = some (st, e1, mapping1)) (hm : encodedMapping mapping) :
    encodedMapping mapping1 := by
  unfold fixEntry at h
  simp only [] at h
  generalize (e.slices.foldl (fun m s => multimapInsert m s.hash_slice_begin s) []).map
    Prod.snd = sorted at h
  cases hf : fixSlices key sorted 0 [] mapping with
  | none => rw [hf] at h; simp at h
  | some res =>
    obtain ⟨st0, slices, idx, m1⟩ := res
    have hm1 := fixSlices_mapping key sorted 0 [] mapping st0 slices idx m1 hf hm
    rw [hf] at h
    simp only [] at h
    by_cases c : st0.ok = true
    · simp only [c, Bool.not_true, Bool.false_eq_true, if_false] at h
      cases hsh : e.tensorShape with
      | nil => rw [hsh] at h; simp at h
      | cons d dims =>
        rw [hsh] at h
        simp only [Option.some.injEq, Prod.mk.injEq] at h
        rw [← h.2.2]; exact hm1
    · simp only [c, Bool.not_false, if_true, Option.some.injEq, Prod.mk.injEq] at h
      rw [← h.2.2]; exact hm1

/-- The first loop, when it ends without an error: it leaves the entries it was given,
in their order and under their keys, each a hash table renumbered or another entry
unchanged; and the names it has put into `bundle_mapping` are encoded slice names. -/
theorem fixEntries_fwd (l : List (String × BundleEntryProto)) :
    ∀ (done : List (String × BundleEntryProto)) (mapping : List (String × String))
      (st : Status) (out : List (String × BundleEntryProto))
      (mapping1 : List (String × String)),
      fixEntries l done mapping = some (st, out, mapping1) → st.ok = true →
      encodedMapping mapping →
      encodedMapping mapping1 ∧
      ∃ l1, out = done ++ l1 ∧
        List.Forall₂ (fun p q => q.1 = p.1 ∧ fixedFrom p.2 q.2) l l1 := by
  induction l with
  | nil =>
    intro done mapping st out mapping1 h _ hm
    simp only [fixEntries, Option.some.injEq, Prod.mk.injEq] at h
    rw [← h.2.1, ← h.2.2]
    exact ⟨hm, [], by simp, List.Forall₂.nil⟩
  | cons p rest ih =>
    obtain ⟨key, e⟩ := p
    intro done mapping st out mapping1 h hok hm
    unfold fixEntries at h
    by_cases c : e.is_hash_table = true
    · simp only [c, Bool.not_true, Bool.false_eq_true, if_false] at h
      cases hf : fixEntry key e mapping with
      | none => rw [hf] at h; simp at h
      | some res =>
        obtain ⟨st0, e0, m0⟩ := res
        have hm0 := fixEntry_mapping key e e0 mapping m0 st0 hf hm
        rw [hf] at h
        simp only [] at h
        by_cases c2 : st0.ok = true
        · simp only [c2, Bool.not_true, Bool.false_eq_true, if_false] at h
          obtain ⟨hm1, l1, hout, hall⟩ := ih _ _ _ _ _ h hok hm0
          have hren := fixEntry_spec _ _ _ _ _ _ hf c2
          refine ⟨hm1, (key, e0) :: l1, by rw [hout]; simp, List.Forall₂.cons ⟨rfl, ?_⟩ hall⟩
          refine ⟨?_, fun _ => hren, fun h2 => ?_⟩
          · obtain ⟨_, _, _, _, _, _, _, _, _, _, _, h4⟩ := hren
            exact h4
          · rw [c] at h2; exact absurd h2 (by decide)
        · simp only [c2, Bool.not_false, if_true, Option.some.injEq, Prod.mk.injEq] at h
          rw [← h.1] at hok
          exact absurd hok c2
    · have c3 : e.is_hash_table = false := by simpa using c
      simp only [c3, Bool.not_false, if_true] at h
      obtain ⟨hm1, l1, hout, hall⟩ := ih _ _ _ _ _ h hok hm
      refine ⟨hm1, (key, e) :: l1, by rw [hout]; simp, List.Forall₂.cons ⟨rfl, ?_⟩ hall⟩
      exact ⟨rfl, fun h2 => by rw [c3] at h2; exact absurd h2 (by decide), fun _ => rfl⟩

theorem mapFind_fixed (l l1 : List (String × BundleEntryProto))
    (h : List.Forall₂ (fun p q => q.1 = p.1 ∧ fixedFrom p.2 q.2) l l1) (K : String)
    (e : BundleEntryProto) (hf : mapFind l K = some e) :
    ∃ e1, mapFind l1 K = some e1 ∧ fixedFrom e e1 := by
  induction l generalizing l1 with
  | nil => simp [mapFind] at hf
  | cons p rest ih =>
    cases l1 with
    | nil => cases h
    | cons q rest1 =>
      obtain ⟨hpq, hrest⟩ := List.forall₂_cons.1 h
      obtain ⟨k, v⟩ := p
      obtain ⟨k1, v1⟩ := q
      obtain ⟨hk, hv⟩ := hpq
      simp only at hk hv
      subst hk
      simp only [mapFind] at hf ⊢
      by_cases c : k1 = K
      · simp only [if_pos c, Option.some.injEq] at hf ⊢
        subst hf
        exact ⟨v1, rfl, hv⟩
      · simp only [if_neg c] at hf ⊢
        exact ih rest1 hrest hf

theorem mem_fixed (l l1 : List (String × BundleEntryProto))
    (h : List.Forall₂ (fun p q => q.1 = p.1 ∧ fixedFrom p.2 q.2) l l1) (K : String)
    (e1 : BundleEntryProto) (hm : (K, e1) ∈ l1) :
    ∃ e, (K, e) ∈ l ∧ fixedFrom e e1 := by
  induction l generalizing l1 with
  | nil => cases h; simp at hm
  | cons p rest ih =>
    cases l1 with
    | nil => cases h
    | cons q rest1 =>
      obtain ⟨hpq, hrest⟩ := List.forall₂_cons.1 h
      obtain ⟨k, v⟩ := p
      obtain ⟨k1, v1⟩ := q
      obtain ⟨hk, hv⟩ := hpq
      simp only at hk hv
      subst hk
      rcases List.mem_cons.1 hm with hm | hm
      · simp only [Prod.mk.injEq] at hm
        obtain ⟨rfl, rfl⟩ := hm
        exact ⟨v, List.mem_cons_self _ _, hv⟩
      · obtain ⟨e, he, hfix⟩ := ih rest1 hrest hm
        exact ⟨e, List.mem_cons_of_mem _ he, hfix⟩

theorem mem_mapInsert {α : Type} (m : List (String × α)) (k : String) (v : α)
    (p : String × α) (h : p ∈ mapInsert m k v) : p ∈ m ∨ p = (k, v) := by
  induction m with
  | nil => simp only [mapInsert, List.mem_singleton] at h; exact Or.inr h
  | cons q rest ih =>
    obtain ⟨k1, v1⟩ := q
    unfold mapInsert at h
    by_cases c : k < k1
    · simp only [if_pos c] at h
      rcases List.mem_cons.1 h with h | h
      · exact Or.inr h
      · exact Or.inl h
    · simp only [if_neg c] at h
      by_cases c2 : k = k1
      · simp only [if_pos c2] at h
        rcases List.mem_cons.1 h with h | h
        · exact Or.inr h
        · exact Or.inl (List.mem_cons_of_mem _ h)
      · simp only [if_neg c2] at h
        rcases List.mem_cons.1 h with h | h
        · exact Or.inl (h ▸ List.mem_cons_self _ _)
        · rcases ih h with h | h
          · exact Or.inl (List.mem_cons_of_mem _ h)
          · exact Or.inr h

theorem mem_mapEmplace {α : Type} (m : List (String × α)) (k : String) (v : α)
    (p : String × α) (h : p ∈ mapEmplace m k v) : p ∈ m ∨ p = (k, v) := by
  unfold mapEmplace at h
  split at h
  · exact Or.inl h
  · exact mem_mapInsert m k v p h

theorem mapFind_mapEmplace_ne {α : Type} (m : List (String × α)) (k k2 : String) (v : α)
    (h : k ≠ k2) : mapFind (mapEmplace m k v) k2 = mapFind m k2 := by
  unfold mapEmplace
  split
  · rfl
  · exact mapFind_mapInsert_ne m k k2 v h

theorem mapFind_mapEmplace_self {α : Type} (m : List (String × α)) (k : String) (v : α) :
    mapFind (mapEmplace m k v) k =
      match mapFind m k with
      | some x => some x
      | none => some v := by
  unfold mapEmplace mapContains
  cases hf : mapFind m k with
  | none => simp only [Option.isSome_none, Bool.false_eq_true, if_false]
            exact mapFind_mapInsert_self m k v
  | some x => simp only [Option.isSome_some, if_true]; exact hf

/-- A name that is not empty and not an encoded slice name is not a new name of
`bundle_mapping`, and has no new name there. -/
theorem plain_name (mapping : List (String × String)) (K : String)
    (hm : encodedMapping mapping) (h0 : K ≠ "") (hK : ∀ k s, K ≠ EncodeTensorNameSlice k s) :
    mapFind mapping K = none ∧ ∀ k v, mapFind mapping k = some v → v ≠ K := by
  constructor
  · cases hf : mapFind mapping K with
    | none => rfl
    | some v =>
      obtain ⟨⟨k, s, h1⟩, _⟩ := hm _ (mapFind_mem _ _ _ hf)
      exact absurd h1 (hK k s)
  · intro k v hf hv
    obtain ⟨_, h2⟩ := hm _ (mapFind_mem _ _ _ hf)
    simp only at h2
    rcases h2 with h2 | ⟨k1, s1, h2⟩
    · exact h0 (hv ▸ h2)
    · exact hK k1 s1 (hv ▸ h2)

/-- The second loop and a name that is not empty and not an encoded slice name: the
entry under the name is the one that was there, or else the first entry of the list
under that name. -/
theorem rekeyEntries_find (mapping : List (String × String)) (K : String)
    (hm : encodedMapping mapping) (h0 : K ≠ "") (hK : ∀ k s, K ≠ EncodeTensorNameSlice k s)
    (l : List (String × BundleEntryProto)) :
    ∀ (acc : List (String × BundleEntryProto)),
      mapFind (rekeyEntries mapping l acc) K =
        match mapFind acc K with
        | some v => some v
        | none => mapFind l K := by
  obtain ⟨hnone, hval⟩ := plain_name mapping K hm h0 hK
  induction l with
  | nil =>
    intro acc
    unfold rekeyEntries
    cases mapFind acc K <;> rfl
  | cons p rest ih =>
    obtain ⟨key, e⟩ := p
    intro acc
    unfold rekeyEntries
    simp only []
    by_cases c : key = K
    · subst c
      simp only [hnone, Option.getD_none, if_neg h0]
      rw [ih, mapFind_mapEmplace_self]
      cases hf : mapFind acc key with
      | none => simp [mapFind]
      | some x => rfl
    · have hreal : (mapFind mapping key).getD key ≠ K := by
        cases hf : mapFind mapping key with
        | none => simpa using c
        | some v => simpa using hval key v hf
      have hl : mapFind ((key, e) :: rest) K = mapFind rest K := by
        simp only [mapFind, if_neg c]
      rw [hl]
      split
      · exact ih acc
      · rw [ih, mapFind_mapEmplace_ne _ _ _ _ hreal]

/-- Every entry the second loop leaves is an entry it had or was given, under the new
name of its key in `bundle_mapping` or, without one, under its key; the name is not
empty. -/
theorem rekeyEntries_mem (mapping : List (String × String))
    (l : List (String × BundleEntryProto)) :
    ∀ (acc : List (String × BundleEntryProto)) (name : String) (e1 : BundleEntryProto),
      (name, e1) ∈ rekeyEntries mapping l acc →
      (name, e1) ∈ acc ∨
        ∃ key, (key, e1) ∈ l ∧ name = (mapFind mapping key).getD key ∧ name ≠ "" := by
  induction l with
  | nil => intro acc name e1 h; exact Or.inl h
  | cons p rest ih =>
    obtain ⟨key, e⟩ := p
    intro acc name e1 h
    unfold rekeyEntries at h
    simp only [] at h
    split at h
    · rcases ih _ _ _ h with h | ⟨k, hk, hn⟩
      · exact Or.inl h
      · exact Or.inr ⟨k, List.mem_cons_of_mem _ hk, hn⟩
    · rename_i hne
      rcases ih _ _ _ h with h | ⟨k, hk, hn⟩
      · rcases mem_mapEmplace _ _ _ _ h with h | h
        · exact Or.inl h
        · simp only [Prod.mk.injEq] at h
          refine Or.inr ⟨key, h.2 ▸ List.mem_cons_self _ _, h.1, ?_⟩
          rw [h.1]; exact hne
      · exact Or.inr ⟨k, List.mem_cons_of_mem _ hk, hn⟩

/-- C22: when `FixMergeHashTableBundles` returns OK, the state it leaves relates to the
state it was given as follows.  An entry under a key that is not empty and not an
encoded slice name is kept under its key: an entry marked as a hash table holds exactly
the slices of the original with a positive first length, in ascending order of
`hash_slice_begin`, the first starting at 0 and each following one where the one before
it ends, every other field of a slice as it was, the first dimension of its shape is
the sum of the kept lengths, and the other dimensions and fields are as they were; an
entry not marked as a hash table is unchanged.  And every entry of the state it leaves
is an entry of the state it was given, changed in this way, under the same key unless
its name is an encoded slice name. -/
theorem FixMergeHashTableBundles_renumbers (state state1 : MergeState)
    (h : FixMergeHashTableBundles state = some (Status.OK, state1)) :
    (∀ key e, mapFind state.entries key = some e → key ≠ "" →
      (∀ k s, key ≠ EncodeTensorNameSlice k s) →
      ∃ e1, mapFind state1.entries key = some e1 ∧
        e1.is_hash_table = e.is_hash_table ∧
        (e.is_hash_table = true → renumberedFrom e e1) ∧
        (e.is_hash_table = false → e1 = e)) ∧
    (∀ name e1, (name, e1) ∈ state1.entries →
      ∃ key e, (key, e) ∈ state.entries ∧
        ((∀ k s, name ≠ EncodeTensorNameSlice k s) → key = name) ∧
        e1.is_hash_table = e.is_hash_table ∧
        (e.is_hash_table = true → renumberedFrom e e1) ∧
        (e.is_hash_table = false → e1 = e)) := by
  unfold FixMergeHashTableBundles at h
  cases hf : fixEntries state.entries [] [] with
  | none => rw [hf] at h; simp at h
  | some res =>
    obtain ⟨st, entries1, mapping⟩ := res
    rw [hf] at h
    simp only [] at h
    by_cases c : st.ok = true
    · simp only [c, Bool.not_true, Bool.false_eq_true, if_false, Option.some.injEq,
        Prod.mk.injEq, true_and] at h
      subst h
      simp only []
      obtain ⟨hm, l1, hout, hall⟩ := fixEntries_fwd _ _ _ _ _ _ hf c
        (fun p hp => absurd hp (List.not_mem_nil p))
      simp only [List.nil_append] at hout
      subst hout
      constructor
      · intro key e hfind h0 hK
        obtain ⟨e1, h1, hfix⟩ := mapFind_fixed _ _ hall key e hfind
        refine ⟨e1, ?_, hfix⟩
        rw [rekeyEntries_find mapping key hm h0 hK]
        simpa [mapFind] using h1
      · intro name e1 hmem
        rcases rekeyEntries_mem mapping entries1 [] name e1 hmem with h1 | ⟨key, hk, hn, hne⟩
        · simp at h1
        · obtain ⟨e, he, hfix⟩ := mem_fixed _ _ hall key e1 hk
          refine ⟨key, e, he, ?_, hfix⟩
          intro hK
          cases hfk : mapFind mapping key with
          | none => rw [hfk] at hn; simpa using hn.symm
          | some v =>
            rw [hfk] at hn
            simp only [Option.getD_some] at hn
            obtain ⟨_, h2⟩ := hm _ (mapFind_mem _ _ _ hfk)
            simp only at h2
            rcases h2 with h2 | ⟨k1, s1, h2⟩
            · exact absurd (hn.trans h2) hne
            · exact absurd (hn.trans h2) (hK k1 s1)
    · simp only [c, Bool.not_false, if_true, Option.some.injEq, Prod.mk.injEq] at h
      rw [h.1] at c
      exact absurd rfl c

/-- The theorem of C22 on a state with a plain tensor "a" and a hash table "t" of three
slices that are out of order, one of them empty: the fix-up returns OK with the state
`exHashFixed`; the keys "a" and "t" are not empty and not encoded slice names; so the
two entries are kept under their keys, the hash table renumbered. -/
theorem FixMergeHashTableBundles_renumbers_witness :
    FixMergeHashTableBundles exHashMerge = some (Status.OK, exHashFixed) ∧
    mapFind exHashMerge.entries "t" = some exHashEntry ∧
    (∀ k s, "t" ≠ EncodeTensorNameSlice k s) ∧
    (∃ e1, mapFind exHashFixed.entries "t" = some e1 ∧
      e1.is_hash_table = exHashEntry.is_hash_table ∧
      (exHashEntry.is_hash_table = true → renumberedFrom exHashEntry e1) ∧
      (exHashEntry.is_hash_table = false → e1 = exHashEntry)) ∧
    (∀ name e1, (name, e1) ∈ exHashFixed.entries →
      ∃ key e, (key, e) ∈ exHashMerge.entries ∧
        ((∀ k s, name ≠ EncodeTensorNameSlice k s) → key = name) ∧
        e1.is_hash_table = e.is_hash_table ∧
        (e.is_hash_table = true → renumberedFrom e e1) ∧
        (e.is_hash_table = false → e1 = e)) :=
  ⟨by decide!, by decide!, not_encoded_of_head "t" (by decide),
    (FixMergeHashTableBundles_renumbers exHashMerge exHashFixed (by decide!)).1 "t"
      exHashEntry (by decide!) (by decide) (not_encoded_of_head "t" (by decide)),
    (FixMergeHashTableBundles_renumbers exHashMerge exHashFixed (by decide!)).2⟩

end tfplus

namespace tfplus
open DataType

/-! ## The fix-up of hash tables and a name that is taken -/

/-- C23 (the code at the failing input): the bundle `dir/h` holds the hash table "h"
with one slice, the rows of the slice under the name of the hash range from 5 on, and
another tensor under the name the fix-up gives the slice (rows 0 and 1 of "h").  The
state of the merge has three entries.  `FixMergeHashTableBundles` returns OK with two
entries: under the name of the rows 0 and 1 it keeps the entry that was not renamed
(offset 4), and the entry of the slice (offset 0) is in no entry of the result.
`MergeBundles` of the bundle returns OK as well. -/
theorem FixMergeHashTableBundles_silent_drop :
    exHashState.entries.map (fun p => (p.1, p.2.offset)) =
      [(EncodeTensorNameSlice "h" (TensorSlice.mk [(0, 2)]), 4),
       (EncodeTensorNameSlice "h" (TensorSlice.mk [(5, 2)]), 0), ("h", 0)] ∧
    (FixMergeHashTableBundles exHashState).map
        (fun r => (r.1, r.2.entries.map (fun p => (p.1, p.2.offset, p.2.slices)))) =
      some (Status.OK,
        [(EncodeTensorNameSlice "h" (TensorSlice.mk [(0, 2)]), 4, []),
         ("h", 0, [exHashSlice])]) ∧
    (MergeBundles exHashBundle ["dir/h"] "dir/m").map Prod.fst = some Status.OK := by
  refine ⟨?_, ?_, ?_⟩ <;> decide!

/-! ## The shard count of a merged bundle -/

/-- C26 (the code at the failing input): `dir/a` holds the tensor "x" and `dir/b` holds
no tensor; each has one data file.  `MergeBundles` of the two into `dir/m` returns OK.
The state of the merge counts 2 shards and has one data file in its renumbering map, so
the header of `dir/m` says 2 shards while the one data file is renamed to
`dir/m.data-00000-of-00001`.  A reader of `dir/m` opens without an error, and its
`Lookup` of "x" is NOT_FOUND for the file `dir/m.data-00000-of-00002`; the reader of
`dir/a` before the merge returns the tensor. -/
theorem MergeBundles_shard_count_mismatch :
    (MergeBundles exWithEmpty ["dir/a", "dir/b"] "dir/m").map Prod.fst = some Status.OK ∧
    (mergeAll exWithEmpty ["dir/a", "dir/b"] {}).map
        (fun r => (r.1, r.2.num_shards, r.2.shard_ids)) =
      some (Status.OK, 2, [("dir/a.data-00000-of-00001", 0)]) ∧
    exMergedWithEmpty.2.files.map Prod.fst =
      ["dir/m.index", "dir/m.data-00000-of-00001", "dir/b.data-00000-of-00001"] ∧
    (BundleReader.create exMergedWithEmpty.2 "dir/m" true).status_ = Status.OK ∧
    (BundleReader.create exMergedWithEmpty.2 "dir/m" true).num_shards_ = 2 ∧
    ((BundleReader.create exMergedWithEmpty.2 "dir/m" true).Lookup exMergedWithEmpty.2 true
        "x" Tensor.empty).map Prod.fst =
      some (errors.NotFound "dir/m.data-00000-of-00002") ∧
    ((BundleReader.create exWithEmpty "dir/a" true).Lookup exWithEmpty true
        "x" Tensor.empty).map (fun r => (r.1, r.2.1)) = some (Status.OK, exTensorA) := by
  refine ⟨?_, ?_, ?_, ?_, ?_, ?_, ?_⟩ <;> decide!

end tfplus

namespace tfplus
open DataType

/-! ## The segment writer and the write buffer of the bundle writer -/

/-- A pass of the loop of `WriteData` that hands a full staging buffer to a write
buffer that is smaller aborts. -/
theorem writeLoop_overflow (fuel : Nat) (sw : SegmentBundleWriter) (env : Env) (data : Bytes)
    (out : FileOutputBuffer) (hout : sw.writer_.out_ = some out) (hempty : out.buffer_ = [])
    (hptr : sw.buffer_ = []) (hcap : out.buffer_size_ < sw.buffer_size_)
    (hlen : sw.buffer_size_ < data.length) :
    SegmentBundleWriter.writeLoop (fuel + 1) sw env data = none := by
  unfold SegmentBundleWriter.writeLoop
  have h1 : data.length > 0 := by omega
  have h2 : ¬ (sw.buffer_ptr_ + data.length ≤ sw.buffer_size_) := by
    simp only [SegmentBundleWriter.buffer_ptr_, hptr, List.length_nil]; omega
  have h3 : ¬ (sw.buffer_size_ < sw.buffer_ptr_) := by
    simp only [SegmentBundleWriter.buffer_ptr_, hptr, List.length_nil]; omega
  simp only [h1, h2, h3, if_true, if_false]
  have h4 : sw.writer_.AppendSegmentData env
      (sw.buffer_ ++ data.take (sw.buffer_size_ - sw.buffer_ptr_)) = none := by
    unfold BundleWriter.AppendSegmentData
    rw [hout]
    have h5 : out.AppendSegment env
        (sw.buffer_ ++ data.take (sw.buffer_size_ - sw.buffer_ptr_)) = none := by
      unfold FileOutputBuffer.AppendSegment FileOutputBuffer.FlushBuffer
        FileOutputBuffer.position_
      have hok : Status.OK.ok = true := rfl
      simp only [hempty, List.length_nil, gt_iff_lt, lt_self_iff_false, if_false, hok,
        Bool.not_true, Bool.false_eq_true, hptr, List.nil_append, List.length_take,
        SegmentBundleWriter.buffer_ptr_, Nat.sub_zero]
      have : out.buffer_size_ < min sw.buffer_size_ data.length := by
        rw [Nat.min_eq_left (le_of_lt hlen)]; exact hcap
      simp only [this, if_true]
    simp only [h5]
  simp only [h4]

theorem WriteData_overflow (sw : SegmentBundleWriter) (env : Env) (data : Bytes)
    (out : FileOutputBuffer) (hout : sw.writer_.out_ = some out) (hempty : out.buffer_ = [])
    (hptr : sw.buffer_ = []) (hcap : out.buffer_size_ < sw.buffer_size_)
    (hlen : sw.buffer_size_ < data.length) :
    sw.WriteData env data = none := by
  unfold SegmentBundleWriter.WriteData
  exact writeLoop_overflow (data.length + 1) sw env data out hout hempty hptr hcap hlen

theorem run_WriteData_none (sw sw1 : SegmentBundleWriter) (env env1 : Env) (data : Bytes)
    (hb : sw.Begin env = some (Status.OK, sw1, env1)) (hw : sw1.WriteData env1 data = none) :
    sw.run env [data] = none := by
  unfold SegmentBundleWriter.run
  rw [hb]
  have hok : Status.OK.ok = true := rfl
  simp only [hok, Bool.not_true, Bool.false_eq_true, if_false, SegmentBundleWriter.writeAll, hw]

theorem exBigPayload_length : exBigPayload.length = 8 * 2 ^ 20 + 2 := by
  unfold exBigPayload
  rw [List.length_replicate]

theorem exBigStaging_Begin :
    exBigStaging.Begin exFresh.2 = some (Status.OK, exBigBegun, exFresh.2) := by
  decide!

theorem exBigBegun_fields :
    exBigBegun.buffer_ = [] ∧ exBigBegun.buffer_size_ = 8 * 2 ^ 20 + 1 ∧
    exBigBegun.writer_.out_ =
      some (FileOutputBuffer.mk exFresh.1.tmp_data_path_ (8 * 2 ^ 20) [] 0) := by
  decide!

theorem exBigBegun_WriteData : exBigBegun.WriteData exFresh.2 exBigPayload = none := by
  obtain ⟨h1, h2, h3⟩ := exBigBegun_fields
  exact WriteData_overflow exBigBegun exFresh.2 exBigPayload _ h3 rfl h1 (by rw [h2]; decide)
    (by rw [h2, exBigPayload_length]; decide)

/-- C25 (the code at the failing input): a segment writer with a staging buffer of
8 MiB + 1 bytes on a fresh bundle writer, whose write buffer has 8 MiB, for a tensor of
8 MiB + 2 bytes.  `Begin` returns OK, and `WriteData` of the bytes of the tensor in one
call does not return: the first pass of its loop hands the full staging buffer to
`AppendSegmentData`, which copies it past the end of the write buffer.  So the sequence
`Begin`, `WriteData`, `End` has no result.  The same sequence with a staging buffer of 3
bytes for a tensor of 8 bytes returns OK, with the 8 bytes in the data file and the
size 8 in the entry. -/
theorem SegmentBundleWriter_staging_overflow :
    exBigPayload.length = exBigStaging.shape_.prod * DataTypeSize exBigStaging.type_ ∧
    exBigStaging.Begin exFresh.2 = some (Status.OK, exBigBegun, exFresh.2) ∧
    exBigBegun.WriteData exFresh.2 exBigPayload = none ∧
    exBigStaging.run exFresh.2 [exBigPayload] = none ∧
    (exSmallStaging.run exFresh.2 [[1, 2, 3, 4, 5], [6], [7, 8]]).map
        (fun r => (r.1, (mapFind r.2.1.writer_.entries_ "d").map (fun e => (e.offset, e.size)),
          r.2.1.writer_.out_.map (fun o => o.content r.2.2))) =
      some (Status.OK, some (0, 8), some (some [1, 2, 3, 4, 5, 6, 7, 8])) := by
  refine ⟨?_, exBigStaging_Begin, exBigBegun_WriteData,
    run_WriteData_none _ _ _ _ _ exBigStaging_Begin exBigBegun_WriteData, ?_⟩
  · rw [exBigPayload_length]; decide!
  · decide!

end tfplus

namespace tfplus
open DataType

/-! ## The segment writer with a staging buffer that fits the write buffer -/

theorem Append_total (b : FileOutputBuffer) (env : Env) (data c : Bytes)
    (hf : env.faults = []) (hc : b.content env = some c)
    (hlen : data.length ≤ b.buffer_size_) :
    ∃ b1 env1, b.Append env data = some (Status.OK, b1, env1) ∧ env1.faults = [] := by
  have h1 := FlushBuffer_total b env c hf hc
  unfold FileOutputBuffer.Append
  by_cases c1 : data.length + b.position_ ≤ b.buffer_size_
  · simp only [c1, if_true]
    exact ⟨_, _, rfl, hf⟩
  · simp only [c1, if_false, hlen, if_true]
    generalize b.FlushBuffer env = r at h1
    obtain ⟨s, b1, e1⟩ := r
    simp only at h1
    obtain ⟨h1a, h1b⟩ := h1
    subst h1a
    have hok : Status.OK.ok = true := rfl
    simp only [hok, Bool.not_true, Bool.false_eq_true, if_false]
    exact ⟨_, _, rfl, h1b⟩

theorem writer_out_eta (w : BundleWriter) (out : FileOutputBuffer) (h : w.out_ = some out) :
    ({ w with out_ := some out } : BundleWriter) = w := by
  cases w
  simp only at h
  subst h
  rfl

/-- The loop of `WriteData` with enough fuel, a staging buffer of at least one byte that
is no larger than the write buffer, and a file system without faults: it returns OK; the
bytes handed to the write buffer followed by the bytes left in the staging buffer are
the bytes that were staged followed by the input; and the bytes handed over are `n`
full staging buffers. -/
theorem writeLoop_ok : ∀ (fuel : Nat) (sw : SegmentBundleWriter) (env : Env) (data : Bytes)
    (out : FileOutputBuffer) (c : Bytes),
    0 < sw.buffer_size_ → sw.buffer_size_ ≤ out.buffer_size_ →
    sw.writer_.out_ = some out → env.faults = [] → out.content env = some c →
    sw.buffer_.length ≤ sw.buffer_size_ →
    (data.length + 2 ≤ fuel ∨ (sw.buffer_.length < sw.buffer_size_ ∧ data.length + 1 ≤ fuel)) →
    ∃ out1 env1 flushed buf n,
      SegmentBundleWriter.writeLoop fuel sw env data =
        some (Status.OK,
          { sw with writer_ := { sw.writer_ with out_ := some out1 }, buffer_ := buf,
                    write_counter_ := sw.write_counter_ + n }, env1) ∧
      out1.content env1 = some (c ++ flushed) ∧ flushed ++ buf = sw.buffer_ ++ data ∧
      flushed.length = n * sw.buffer_size_ ∧
      out1.crc32c_ = crc32c.Extend out.crc32c_ flushed ∧
      out1.buffer_size_ = out.buffer_size_ ∧ env1.faults = [] ∧
      buf.length ≤ sw.buffer_size_ := by
  intro fuel
  induction fuel with
  | zero =>
    intro sw env data out c _ _ _ _ _ _ hfuel
    omega
  | succ fuel ih =>
    intro sw env data out c hB hcap hout hf hc hptr hfuel
    unfold SegmentBundleWriter.writeLoop
    by_cases h0 : data.length > 0
    · simp only [h0, if_true]
      by_cases h1 : sw.buffer_ptr_ + data.length ≤ sw.buffer_size_
      · simp only [h1, if_true]
        refine ⟨out, env, [], sw.buffer_ ++ data, 0, ?_, ?_, rfl, by simp, ?_, rfl, hf, ?_⟩
        · rw [writer_out_eta _ _ hout]; rfl
        · simpa using hc
        · exact (crc32c.Extend_nil _).symm
        · simpa [SegmentBundleWriter.buffer_ptr_] using h1
      · have h2 : ¬ (sw.buffer_size_ < sw.buffer_ptr_) := by
          simp only [SegmentBundleWriter.buffer_ptr_]; omega
        simp only [h1, h2, if_false]
        have hw : sw.buffer_size_ - sw.buffer_ptr_ < data.length := by
          simp only [SegmentBundleWriter.buffer_ptr_] at h1 ⊢; omega
        have hseg : (sw.buffer_ ++ data.take (sw.buffer_size_ - sw.buffer_ptr_)).length =
            sw.buffer_size_ := by
          simp only [List.length_append, List.length_take, SegmentBundleWriter.buffer_ptr_]
            at hw ⊢
          rw [Nat.min_eq_left (le_of_lt hw)]; omega
        obtain ⟨b1, e1, happ, hf1⟩ := AppendSegment_total out env
          (sw.buffer_ ++ data.take (sw.buffer_size_ - sw.buffer_ptr_)) c hf hc
          (by rw [hseg]; exact hcap)
        obtain ⟨k1, _, _, _, k5, k6⟩ := AppendSegment_ok out env _ Status.OK b1 e1 happ rfl
        have hok : Status.OK.ok = true := rfl
        simp only [BundleWriter.AppendSegmentData, hout, happ, hok, Bool.not_true,
          Bool.false_eq_true, if_false]
        have hdrop : (data.drop (sw.buffer_size_ - sw.buffer_ptr_)).length + 1 ≤ fuel := by
          simp only [List.length_drop, SegmentBundleWriter.buffer_ptr_] at hw ⊢
          rcases hfuel with hfuel | ⟨hlt, hfuel⟩ <;> omega
        obtain ⟨out1, env1, fl, buf, n, j1, j2, j3, j4, j5, j6, j7, j8⟩ :=
          ih ({ sw with writer_ := { sw.writer_ with out_ := some b1 }, buffer_ := [],
                        write_counter_ := sw.write_counter_ + 1 })
            e1 (data.drop (sw.buffer_size_ - sw.buffer_ptr_)) b1
            (c ++ (sw.buffer_ ++ data.take (sw.buffer_size_ - sw.buffer_ptr_)))
            hB (by rw [k5]; exact hcap) rfl hf1 (k6 c hc) (Nat.zero_le _)
            (Or.inr ⟨hB, hdrop⟩)
        refine ⟨out1, env1,
          (sw.buffer_ ++ data.take (sw.buffer_size_ - sw.buffer_ptr_)) ++ fl, buf, 1 + n,
          ?_, ?_, ?_, ?_, ?_, ?_, j7, j8⟩
        · rw [j1, ← Nat.add_assoc]
        · rw [j2, List.append_assoc]
        · rw [List.append_assoc, j3]
          simp only [List.nil_append, List.append_assoc, List.take_append_drop]
        · rw [List.length_append, hseg, j4]
          simp only [Nat.add_mul, Nat.one_mul]
        · rw [j5, k1]; simp only [crc32c.Extend_append]
        · rw [j6, k5]
    · simp only [h0, if_false]
      have hd : data = [] := by
        cases data with
        | nil => rfl
        | cons a t => simp at h0
      subst hd
      refine ⟨out, env, [], sw.buffer_, 0, ?_, ?_, by simp, by simp, ?_, rfl, hf, hptr⟩
      · rw [writer_out_eta _ _ hout]; rfl
      · simpa using hc
      · exact (crc32c.Extend_nil _).symm

/-- A sequence of `WriteData` calls, under the conditions of `writeLoop_ok`. -/
theorem writeAll_ok : ∀ (pieces : List Bytes) (sw : SegmentBundleWriter) (env : Env)
    (out : FileOutputBuffer) (c : Bytes),
    0 < sw.buffer_size_ → sw.buffer_size_ ≤ out.buffer_size_ →
    sw.writer_.out_ = some out → env.faults = [] → out.content env = some c →
    sw.buffer_.length ≤ sw.buffer_size_ →
    ∃ out1 env1 flushed buf n,
      sw.writeAll env pieces =
        some (Status.OK,
          { sw with writer_ := { sw.writer_ with out_ := some out1 }, buffer_ := buf,
                    write_counter_ := sw.write_counter_ + n }, env1) ∧
      out1.content env1 = some (c ++ flushed) ∧
      flushed ++ buf = sw.buffer_ ++ pieces.flatten ∧
      flushed.length = n * sw.buffer_size_ ∧
      out1.crc32c_ = crc32c.Extend out.crc32c_ flushed ∧
      out1.buffer_size_ = out.buffer_size_ ∧ env1.faults = [] ∧
      buf.length ≤ sw.buffer_size_ := by
  intro pieces
  induction pieces with
  | nil =>
    intro sw env out c hB hcap hout hf hc hptr
    refine ⟨out, env, [], sw.buffer_, 0, ?_, ?_, by simp, by simp, ?_, rfl, hf, hptr⟩
    · unfold SegmentBundleWriter.writeAll
      rw [writer_out_eta _ _ hout]; rfl
    · simpa using hc
    · exact (crc32c.Extend_nil _).symm
  | cons p rest ih =>
    intro sw env out c hB hcap hout hf hc hptr
    obtain ⟨out1, env1, fl1, buf1, n1, j1, j2, j3, j4, j5, j6, j7, j8⟩ :=
      writeLoop_ok (p.length + 2) sw env p out c hB hcap hout hf hc hptr (Or.inl (le_refl _))
    obtain ⟨out2, env2, fl2, buf2, n2, i1, i2, i3, i4, i5, i6, i7, i8⟩ :=
      ih ({ sw with writer_ := { sw.writer_ with out_ := some out1 }, buffer_ := buf1,
                    write_counter_ := sw.write_counter_ + n1 })
        env1 out1 (c ++ fl1) hB (by rw [j6]; exact hcap) rfl j7 j2 j8
    have hok : Status.OK.ok = true := rfl
    refine ⟨out2, env2, fl1 ++ fl2, buf2, n1 + n2, ?_, ?_, ?_, ?_, ?_, ?_, i7, i8⟩
    · unfold SegmentBundleWriter.writeAll SegmentBundleWriter.WriteData
      simp only [j1, hok, Bool.not_true, Bool.false_eq_true, if_false]
      rw [i1, ← Nat.add_assoc]
    · rw [i2, List.append_assoc]
    · rw [List.append_assoc, i3]
      simp only [List.flatten_cons, ← List.append_assoc, j3]
    · rw [List.length_append, j4, i4]
      simp only [Nat.add_mul]
    · rw [i5, j5]; simp only [crc32c.Extend_append]
    · rw [i6, j6]

theorem AddTensorHeaderShape_total (w : BundleWriter) (env : Env) (key : String)
    (dtype : DataType) (shape : List Nat) (out : FileOutputBuffer)
    (hst : w.status_.ok = true) (hk : key ≠ kHeaderEntryKey)
    (hnew : mapFind w.entries_ key = none) (hout : w.out_ = some out) :
    ∃ w1, w.AddTensorHeaderShape env key dtype shape = some (w.status_, w1, env) ∧
      w1.out_ = some out.clear_crc32c ∧
      w1.entries_ = mapInsert w.entries_ key
        (BundleEntryProto.mk dtype (some shape) 0 w.size_ 0 0 [] false) ∧
      w1.entry_seg_ = some key ∧ w1.size_ = w.size_ := by
  unfold BundleWriter.AddTensorHeaderShape
  have h1 : mapContains w.entries_ key = false := by
    unfold mapContains; rw [hnew]; rfl
  simp only [hst, Bool.not_true, Bool.false_eq_true, if_false, hk, h1, hout, updateEntry,
    hnew, Option.getD_none]
  exact ⟨_, rfl, rfl, rfl, rfl, rfl⟩

/-- The entry of the value after `AddCompeleteData` or `EndSegmentData` has set the size
and the checksum. -/
theorem segment_entry (entries : List (String × BundleEntryProto)) (key : String)
    (dtype : DataType) (shape : List Nat) (offset size crc : Nat) :
    mapFind (updateEntry
        (mapInsert entries key (BundleEntryProto.mk dtype (some shape) 0 offset 0 0 [] false))
        key (fun e => { e with size := size, crc32c := crc })) key =
      some (BundleEntryProto.mk dtype (some shape) 0 offset size crc [] false) := by
  unfold updateEntry
  rw [mapFind_mapInsert_self, mapFind_mapInsert_self]
  rfl

/-- The segment writer within the capacity of the write buffer: a segment writer that
has not been used, with a staging buffer of
at least one byte that is no larger than the write buffer of the bundle writer, on a
bundle writer that has not failed and has no entry for the name, and a file system
without faults.  For every list of pieces, `Begin`, `WriteData` for each piece and `End`
return: when the pieces together have the `num_elements * element_size` bytes of the
value, the result is OK, the data file with the write buffer holds what it held followed
by the bytes of the pieces in order, the entry of the name has the offset where the
value begins, the size of the value and the masked CRC32C of its bytes, and the running
size has grown by the size; when they have another number of bytes, the result is the
Internal error of `End`. -/
theorem SegmentBundleWriter_run_spec (sw : SegmentBundleWriter) (env : Env)
    (pieces : List Bytes) (out : FileOutputBuffer) (c : Bytes)
    (hB : 0 < sw.buffer_size_) (hcap : sw.buffer_size_ ≤ out.buffer_size_)
    (hbuf : sw.buffer_ = []) (hcnt : sw.write_counter_ = 0)
    (hst : sw.writer_.status_.ok = true) (hkey : sw.name_ ≠ kHeaderEntryKey)
    (hnew : mapFind sw.writer_.entries_ sw.name_ = none)
    (hout : sw.writer_.out_ = some out) (hf : env.faults = [])
    (hc : out.content env = some c) :
    (pieces.flatten.length = sw.shape_.prod * DataTypeSize sw.type_ →
      ∃ sw1 env1 out1, sw.run env pieces = some (Status.OK, sw1, env1) ∧
        sw1.writer_.out_ = some out1 ∧ out1.content env1 = some (c ++ pieces.flatten) ∧
        mapFind sw1.writer_.entries_ sw.name_ =
          some (BundleEntryProto.mk sw.type_ (some sw.shape_) 0 sw.writer_.size_
            pieces.flatten.length (crc32c.Mask (crc32c.Value pieces.flatten)) [] false) ∧
        sw1.writer_.size_ = sw.writer_.size_ + pieces.flatten.length) ∧
    (pieces.flatten.length ≠ sw.shape_.prod * DataTypeSize sw.type_ →
      ∃ sw1 env1, sw.run env pieces =
        some (errors.Internal "SegmentBundleWriter write size error", sw1, env1)) := by
  obtain ⟨w1, hbegin, p1, p2, p3, p4⟩ := AddTensorHeaderShape_total sw.writer_ env sw.name_
    sw.type_ sw.shape_ out hst hkey hnew hout
  obtain ⟨out1, env1, fl, buf, n, j1, j2, j3, j4, j5, j6, j7, j8⟩ :=
    writeAll_ok pieces ({ sw with writer_ := w1 }) env out.clear_crc32c c hB hcap p1 hf hc
      (by simp [hbuf])
  simp only [hbuf, hcnt, List.nil_append, Nat.zero_add] at j1 j3 j4 j8
  have hok : Status.OK.ok = true := rfl
  have hcrc0 : out.clear_crc32c.crc32c_ = 0 := rfl
  have hcap0 : out.clear_crc32c.buffer_size_ = out.buffer_size_ := rfl
  rw [hcrc0] at j5
  rw [hcap0] at j6
  have htotal : n * sw.buffer_size_ + buf.length = pieces.flatten.length := by
    rw [← j3, List.length_append, j4]
  have hrun : sw.run env pieces = SegmentBundleWriter.End
      { sw with writer_ := { w1 with out_ := some out1 }, buffer_ := buf, write_counter_ := n }
      env1 := by
    unfold SegmentBundleWriter.run SegmentBundleWriter.Begin
    simp only [hbegin, hst, Bool.not_true, Bool.false_eq_true, if_false, hbuf, hcnt, j1, hok]
  rw [hrun]
  unfold SegmentBundleWriter.End
  simp only [SegmentBundleWriter.buffer_ptr_, htotal]
  refine ⟨fun hT => ?_, fun hT => ?_⟩
  · rw [if_neg (not_not_intro hT)]
    by_cases hn : n = 0
    · rw [if_pos hn]
      have hfl : fl = [] := List.length_eq_zero.mp (by rw [j4, hn, Nat.zero_mul])
      rw [hfl, List.append_nil] at j2
      rw [hfl, List.nil_append] at j3
      rw [hfl, crc32c.Extend_nil] at j5
      obtain ⟨b2, e2, happ, _⟩ := Append_total out1 env1 buf c j7 j2 (by rw [j6]; omega)
      obtain ⟨a1, a2, _, _⟩ := Append_ok out1 env1 buf c Status.OK b2 e2 happ rfl j2
      simp only [BundleWriter.AddCompeleteData, happ, hok, Bool.not_true, Bool.false_eq_true,
        if_false, p3]
      refine ⟨_, e2, b2, rfl, rfl, ?_, ?_, ?_⟩
      · rw [a1, j3]
      · simp only [p2, p4, segment_entry, a2, j5, crc32c.Value, j3]
      · simp only [p4, j3]
    · rw [if_neg hn]
      by_cases hp : buf.length > 0
      · rw [if_pos hp]
        obtain ⟨b2, e2, happ, _⟩ := AppendSegment_total out1 env1 buf (c ++ fl) j7 j2
          (by rw [j6]; omega)
        obtain ⟨a1, _, _, _, _, a6⟩ := AppendSegment_ok out1 env1 buf Status.OK b2 e2 happ rfl
        simp only [BundleWriter.AppendSegmentData, happ, hok, Bool.not_true,
          Bool.false_eq_true, if_false, BundleWriter.EndSegmentData, p3]
        refine ⟨_, e2, b2, rfl, rfl, ?_, ?_, ?_⟩
        · rw [a6 _ j2, List.append_assoc, j3]
        · simp only [p2, p4, segment_entry, a1, j5, crc32c.Value, ← crc32c.Extend_append, j3]
        · simp only [p4]
      · rw [if_neg hp]
        have hb : buf = [] := List.length_eq_zero.mp (by omega)
        rw [hb, List.append_nil] at j3
        simp only [BundleWriter.EndSegmentData, p3]
        refine ⟨_, env1, out1, rfl, rfl, ?_, ?_, ?_⟩
        · rw [j2, j3]
        · simp only [p2, p4, segment_entry, j5, crc32c.Value, j3]
        · simp only [p4]
  · rw [if_pos hT]
    exact ⟨_, _, rfl⟩

/-- The theorem above on a fresh bundle writer, with a staging buffer of 3 bytes and the
8 bytes of the value in pieces of 5, 1 and 2 bytes. -/
theorem SegmentBundleWriter_run_spec_witness :
    ∃ sw1 env1 out1,
      exSmallStaging.run exFresh.2 [[1, 2, 3, 4, 5], [6], [7, 8]] =
        some (Status.OK, sw1, env1) ∧
      sw1.writer_.out_ = some out1 ∧
      out1.content env1 = some ([] ++ [[1, 2, 3, 4, 5], [6], [7, 8]].flatten) ∧
      mapFind sw1.writer_.entries_ exSmallStaging.name_ =
        some (BundleEntryProto.mk exSmallStaging.type_ (some exSmallStaging.shape_) 0
          exSmallStaging.writer_.size_ ([[1, 2, 3, 4, 5], [6], [7, 8]] : List Bytes).flatten.length
          (crc32c.Mask (crc32c.Value [[1, 2, 3, 4, 5], [6], [7, 8]].flatten)) [] false) ∧
      sw1.writer_.size_ =
        exSmallStaging.writer_.size_ +
          ([[1, 2, 3, 4, 5], [6], [7, 8]] : List Bytes).flatten.length :=
  (SegmentBundleWriter_run_spec exSmallStaging exFresh.2 [[1, 2, 3, 4, 5], [6], [7, 8]]
    (FileOutputBuffer.mk exFresh.1.tmp_data_path_ (8 * 2 ^ 20) [] 0) []
    (by decide!) (by decide!) (by decide!) (by decide!) (by decide!) (by decide!) (by decide!)
    (by decide!) (by decide!) (by decide!)).1 (by decide!)

end tfplus
